import Mathlib

/-! The Fortran preprocessor (`flang/lib/Parser/preprocessor.cpp`)

A shallow embedding of the macro-replacement engine, the directive processor
and the `#if` expression evaluator, followed by theorems about them.

Conventions of the embedding:

* a `CharBlock` / `std::string` is a `List Char`; a `TokenSequence` is the list
  of its tokens (provenance is dropped: no algorithm branches on it);
* `std::int64_t` values are `Int`s kept in `[-2^63, 2^63)` by `wrap64`;
* the mutable members of `Preprocessor` (`definitions_`, `ifStack_`,
  `counterVal_`) are the fields of a record threaded through the functions;
  messages given to `prescanner.Say` are appended to a list;
* recursion that the source expresses by re-entrancy carries a `fuel`
  argument; running out of it is the result `Run.outOfFuel`, and a `CHECK`
  failure, `CRASH_NO_CASE`, an uncaught C++ exception or an integer-division
  trap is the result `Run.crash`.
-/

namespace Fortran.parser

/-! ## Results -/

/-- Ways in which the C++ code leaves its normal control flow. -/
inductive Crash where
  | checkFailed
  | crashNoCase
  | invalidArgument
  | outOfRange
  | divideOverflow
  | notModelled
  deriving DecidableEq, Repr

/-- Outcome of a computation of the embedding. -/
inductive Run (α : Type) where
  | done (a : α)
  | crash (why : Crash)
  | outOfFuel
  deriving DecidableEq, Repr

/-! ## Characters (`flang/Parser/characters.h`, not part of the sources at hand) -/

/-- Modelled from the spec: `IsDecimalDigit` of characters.h, a decimal digit. -/
def IsDecimalDigit (ch : Char) : Bool := decide (48 ≤ ch.toNat) && decide (ch.toNat ≤ 57)

/-- Modelled from the spec: `IsLetter` of characters.h, an ASCII letter. -/
def IsLetter (ch : Char) : Bool :=
  (decide (65 ≤ ch.toNat) && decide (ch.toNat ≤ 90)) ||
  (decide (97 ≤ ch.toNat) && decide (ch.toNat ≤ 122))

/-- Modelled from the spec: `IsLegalIdentifierStart` of characters.h; the spec
speaks of identifier-shaped tokens made of alphanumeric characters and
underscores, so an identifier starts with a letter or an underscore. -/
def IsLegalIdentifierStart (ch : Char) : Bool := IsLetter ch || ch == '_'

/-- Modelled from the spec: `IsLegalInIdentifier` of characters.h
(alphanumeric or underscore). -/
def IsLegalInIdentifier (ch : Char) : Bool := IsLegalIdentifierStart ch || IsDecimalDigit ch

/-- Modelled from the spec: `ToLowerCaseLetter` of characters.h. -/
def ToLowerCaseLetter (ch : Char) : Char :=
  if 65 ≤ ch.toNat ∧ ch.toNat ≤ 90 then Char.ofNat (ch.toNat + 32) else ch

/-- Modelled from the spec: `ToLowerCaseLetters` of characters.h. -/
def ToLowerCaseLetters (s : List Char) : List Char := s.map ToLowerCaseLetter

/-! ## Tokens (`CharBlock`) and token sequences (`TokenSequence`) -/

/-- A token: the characters of a `CharBlock`. -/
abbrev Token := List Char

/-- A token sequence: its tokens in document order. -/
abbrev TokenSequence := List Token

/-- The double-quote character. -/
def dquote : Char := Char.ofNat 34

/-- The backslash character. -/
def backslash : Char := Char.ofNat 92

/-- Modelled from the spec: `CharBlock::IsBlank`, every character is a space or a tab
(so the empty block is blank). -/
def IsBlank (t : Token) : Bool := t.all (fun ch => ch == ' ' || ch == '\t')

/-- Modelled from the spec: `CharBlock::OnlyNonBlank`, the single non-blank character
of the block, or a space when there is none or more than one. -/
def OnlyNonBlank (t : Token) : Char :=
  match t.filter (fun ch => !(ch == ' ' || ch == '\t')) with
  | [c] => c
  | _ => ' '

/-- Modelled from the spec: `TokenSequence::TokenAt`; reading past the end yields the
empty block in the embedding (call sites that can do so are guarded). -/
def TokenAt (ts : TokenSequence) (j : Nat) : Token := ts.getD j []

/-- Modelled from the spec: `TokenSequence::SkipBlanks`, the index of the first
non-blank token at or after `at_`, or the number of tokens. -/
def SkipBlanks (ts : TokenSequence) (at_ : Nat) : Nat :=
  match (ts.drop at_).findIdx? (fun t => !IsBlank t) with
  | some k => at_ + k
  | none => ts.length

/-- Modelled from the spec: `TokenSequence::SkipBlanksBackwards`, the index of the
last non-blank token strictly before `at_`, if any. -/
def SkipBlanksBackwards (ts : TokenSequence) : Nat → Option Nat
  | 0 => none
  | n + 1 => if !IsBlank (TokenAt ts n) then some n else SkipBlanksBackwards ts n

/-- Scan of one token by `TokenSequence::IsAnythingLeft`: `some b` decides the
answer, `none` continues with the next character. -/
def IsAnythingLeftInToken : List Char → Option Bool
  | [] => none
  | '/' :: rest => some (match rest with | [] => true | c :: _ => c != '*')
  | '!' :: _ => some false
  | ' ' :: rest => IsAnythingLeftInToken rest
  | _ :: _ => some true

/-- Scan of the tokens by `TokenSequence::IsAnythingLeft`. -/
def IsAnythingLeftFrom : List Token → Bool
  | [] => false
  | t :: rest =>
    match IsAnythingLeftInToken t with
    | some b => b
    | none => IsAnythingLeftFrom rest

/-- Modelled from the spec: `TokenSequence::IsAnythingLeft`, whether something other
than spaces and a trailing comment follows. -/
def IsAnythingLeft (ts : TokenSequence) (at_ : Nat) : Bool := IsAnythingLeftFrom (ts.drop at_)

/-- Modelled from the spec: the constructor `TokenSequence(that, at, count)` and
`AppendRange(that, at, count)` applied to an empty sequence. -/
def SubSequence (ts : TokenSequence) (at_ count : Nat) : TokenSequence := (ts.drop at_).take count

/-- Modelled from the spec: `TokenSequence::pop_back` repeated while the last token
is blank. -/
def PopTrailingBlanks (ts : TokenSequence) : TokenSequence :=
  (ts.reverse.dropWhile IsBlank).reverse

/-- Modelled from the spec: `ReopenLastToken` followed by `AppendRange` of one token,
which merges the last token of the sequence with the appended one. -/
def ReopenLastTokenAndAppend (ts : TokenSequence) (t : Token) : TokenSequence :=
  match ts.getLast? with
  | some l => ts.dropLast ++ [l ++ t]
  | none => [t]

/-- Modelled from the spec: `TokenSequence::RemoveBlanks`. -/
def RemoveBlanks (ts : TokenSequence) : TokenSequence := ts.filter (fun t => !IsBlank t)

/-- Modelled from the spec: `TokenSequence::ToString`, the characters of all tokens. -/
def ToString (ts : TokenSequence) : List Char := ts.flatten

/-! ## Macro definitions (`Definition`) -/

/-- The data members of `Definition`. -/
structure Definition where
  isFunctionLike : Bool := false
  isVariadic : Bool := false
  isPredefined : Bool := false
  isDisabled : Bool := false
  argNames : List (List Char) := []
  replacement : TokenSequence := []
  deriving DecidableEq, Repr

/-- The accessor `Definition::argumentCount` (declared in the header): the number of
formal parameter names. -/
def Definition.argumentCount (d : Definition) : Nat := d.argNames.length

/-- The member `Definition::set_isDisabled`, without the returned old value. -/
def Definition.set_isDisabled (d : Definition) (disable : Bool) : Definition :=
  { d with isDisabled := disable }

/-- The static helper `IsLegalIdentifierStart(const CharBlock &)`. -/
def IsLegalIdentifierStartToken (cpl : Token) : Bool :=
  match cpl with
  | [] => false
  | c :: _ => IsLegalIdentifierStart c

/-- The placeholder text given to the formal parameter number `i` by
`Definition::Tokenize`: a tilde followed by the character `'A' + i` (a `char`,
taken modulo 256). -/
def argPlaceholder (i : Nat) : Token := ['~', Char.ofNat ((65 + i) % 256)]

/-- The first loop of `Definition::Tokenize`: the map from formal names to
placeholders; the `CHECK` fails on a repeated name. -/
def TokenizeArgs : List (List Char) → Nat → List (List Char × Token) →
    Run (List (List Char × Token))
  | [], _, args => .done args
  | arg :: rest, i, args =>
    if (args.lookup arg).isSome then .crash .checkFailed
    else TokenizeArgs rest (i + 1) (args ++ [(arg, argPlaceholder i)])

/-- The second loop of `Definition::Tokenize`: identifiers naming a formal are
replaced by its placeholder, every other token is copied. -/
def TokenizeBody (args : List (List Char × Token)) (body : TokenSequence) : TokenSequence :=
  body.map (fun tok =>
    if IsLegalIdentifierStartToken tok then
      match args.lookup tok with
      | some ph => ph
      | none => tok
    else tok)

/-- The function `Definition::Tokenize` on the tokens `firstToken ..
firstToken + tokens` of `token`. -/
def Tokenize (argNames : List (List Char)) (token : TokenSequence) (firstToken tokens : Nat) :
    Run TokenSequence :=
  match TokenizeArgs argNames 0 [] with
  | .done args => .done (TokenizeBody args (SubSequence token firstToken tokens))
  | .crash c => .crash c
  | .outOfFuel => .outOfFuel

/-- The constructor `Definition(repl, firstToken, tokens)` of an object-like macro
(`Tokenize` with no formal names cannot fail). -/
def Definition.objectLike (repl : TokenSequence) (firstToken tokens : Nat) : Definition :=
  { replacement := TokenizeBody [] (SubSequence repl firstToken tokens) }

/-- The constructor `Definition(argNames, repl, firstToken, tokens, isVariadic)` of a
function-like macro. -/
def Definition.functionLike (argNames : List (List Char)) (repl : TokenSequence)
    (firstToken tokens : Nat) (isVariadic : Bool) : Run Definition :=
  match Tokenize argNames repl firstToken tokens with
  | .done r => .done { isFunctionLike := true, isVariadic := isVariadic,
                       argNames := argNames, replacement := r }
  | .crash c => .crash c
  | .outOfFuel => .outOfFuel

/-- The constructor `Definition(predefined, sources)`: the text is one token. -/
def Definition.predefined (text : List Char) : Definition :=
  { isPredefined := true, replacement := [text] }

/-- The size of `std::size_t`. -/
def sizeMax : Nat := 2 ^ 64

/-- The function `Definition::GetArgumentIndex`: the difference of the character after
the tilde and `'A'`, converted to `std::size_t`. -/
def Definition.GetArgumentIndex (d : Definition) (token : Token) : Nat :=
  match token with
  | '~' :: c :: _ => if 65 ≤ c.toNat then c.toNat - 65 else sizeMax + c.toNat - 65
  | _ => d.argumentCount

/-- The characters that `Stringify` writes for one character. -/
def StringifyChar (ch : Char) : List Char :=
  if ch = dquote ∨ ch = backslash then [ch, ch] else [ch]

/-- The static function `Stringify`: one token, the quoted and escaped text of the
argument. -/
def Stringify (tokens : TokenSequence) : TokenSequence :=
  [[dquote] ++ (tokens.flatten.map StringifyChar).flatten ++ [dquote]]

/-- The predicate `IsTokenPasting`. -/
def IsTokenPasting (opr : Token) : Bool := opr == ['#', '#']

/-- The static function `AnyTokenPasting`. -/
def AnyTokenPasting (text : TokenSequence) : Bool := text.any IsTokenPasting

/-- The sanity check of `TokenPasting` on the last character of the token before
the operator and the first character of the token after it. -/
def PastingIsLegal (before after : Token) : Bool :=
  let last := before.getLast?.getD ' '
  let first := after.head?.getD ' '
  if IsLegalInIdentifier last && IsLegalInIdentifier first then true
  else if IsDecimalDigit first && (last == '.' || last == '+' || last == '-') then true
  else if before.length == 1 && after.length == 1 then
    if first == last &&
        (last == '<' || last == '>' || last == '*' || last == '/' ||
         last == '=' || last == '&' || last == '|' || last == ':') then true
    else if first == '=' && (last == '!' || last == '/') then true
    else false
  else false

/-- The loop of `TokenPasting` over the tokens of the text; `before` is the last
non-blank token before a pasting operator, when one is pending. -/
def TokenPastingLoop : List Token → TokenSequence → Option Token → TokenSequence
  | [], result, _ => result
  | after :: rest, result, none =>
    if IsTokenPasting after then
      let popped := PopTrailingBlanks result
      TokenPastingLoop rest popped popped.getLast?
    else TokenPastingLoop rest (result ++ [after]) none
  | after :: rest, result, some before =>
    if IsBlank after || IsTokenPasting after then TokenPastingLoop rest result (some before)
    else if PastingIsLegal before after then
      TokenPastingLoop rest (ReopenLastTokenAndAppend result after) none
    else TokenPastingLoop rest (result ++ [after]) none

/-- The static function `TokenPasting`. -/
def TokenPasting (text : TokenSequence) : TokenSequence :=
  if !AnyTokenPasting text then text else TokenPastingLoop text [] none

/-- The predicate `IsDefinedKeyword`. -/
def IsDefinedKeyword (token : Token) : Bool :=
  token.length == 7 && (token.head? == some 'd' || token.head? == some 'D') &&
    ToLowerCaseLetters token == "defined".toList

/-! ## The preprocessor and its collaborators -/

/-- The enumeration `CanDeadElseAppear` of the header. -/
inductive CanDeadElseAppear where
  | No
  | Yes
  deriving DecidableEq, Repr

/-- The enumeration `IsElseActive` of the header. -/
inductive IsElseActive where
  | No
  | Yes
  deriving DecidableEq, Repr

/-- Severity of a message handed to the diagnostic sink. -/
inductive Severity where
  | error
  | warning
  | portability
  | note
  deriving DecidableEq, Repr

/-- A message given to `prescanner.Say` (or stored in the `error` out-parameter of
`ExpressionValue`): its severity and its fixed text. -/
structure Message where
  severity : Severity
  text : String
  deriving DecidableEq, Repr

/-- A physical line as the prescanner presents it: whether
`IsNextLinePreprocessorDirective` holds for it, and its tokens (for a directive
line, the result of `TokenizePreprocessorDirective`). -/
structure Line where
  isDirective : Bool
  tokens : TokenSequence
  deriving DecidableEq, Repr

/-- Modelled from the spec: the external `Prescanner` collaborator, which supplies the
physical lines still to come, receives the messages, and knows the current source
path, line number and file modification time of the invocation site; `active`
collects the text lines that were not skipped. -/
structure Prescanner where
  lines : List Line := []
  messages : List Message := []
  path : List Char := []
  lineNumber : Nat := 0
  timestamp : Option (List Char) := none
  shouldWarnPortability : Bool := true
  active : List TokenSequence := []
  deriving DecidableEq, Repr

/-- The call `prescanner.Say`. -/
def Prescanner.Say (ps : Prescanner) (sev : Severity) (text : String) : Prescanner :=
  { ps with messages := ps.messages ++ [⟨sev, text⟩] }

/-- The mutable data members of `Preprocessor`: `definitions_` (a map, held as an
association list with distinct keys), `ifStack_` (top first) and `counterVal_`. -/
structure Preprocessor where
  definitions : List (Token × Definition) := []
  ifStack : List CanDeadElseAppear := []
  /-- Modelled from the spec: the type of the member `counterVal_`, whose declaration
  is in the header: a counter that starts at 0 and has no bound. -/
  counterVal : Nat := 0
  deriving DecidableEq, Repr

/-- The call `definitions_.find(token)`. -/
def Preprocessor.find (pp : Preprocessor) (token : Token) : Option Definition :=
  pp.definitions.lookup token

/-- The call `definitions_.erase(name)`. -/
def Preprocessor.erase (pp : Preprocessor) (name : Token) : Preprocessor :=
  { pp with definitions := pp.definitions.filter (fun p => !(p.1 == name)) }

/-- The call `definitions_.emplace(name, definition)`, which inserts only when the
key is absent. -/
def Preprocessor.emplace (pp : Preprocessor) (name : Token) (d : Definition) : Preprocessor :=
  if (pp.definitions.lookup name).isSome then pp
  else { pp with definitions := pp.definitions ++ [(name, d)] }

/-- The call `def->set_isDisabled(b)` on the entry of the map for `name`. -/
def Preprocessor.setDisabled (pp : Preprocessor) (name : Token) (b : Bool) : Preprocessor :=
  { pp with definitions :=
      pp.definitions.map (fun p => if p.1 == name then (p.1, p.2.set_isDisabled b) else p) }

/-- The member function `Preprocessor::IsNameDefined`. -/
def Preprocessor.IsNameDefined (pp : Preprocessor) (token : Token) : Bool :=
  (pp.find token).isSome

/-- The member function `Preprocessor::Undefine`. -/
def Preprocessor.Undefine (pp : Preprocessor) (name : List Char) : Preprocessor := pp.erase name

/-- The out-parameter `std::optional<std::size_t> *partialFunctionLikeMacro`: `none`
is the null pointer, `some v` a pointer to an optional holding `v`. -/
abbrev PartialFLM := Option (Option Nat)

/-- What `MacroReplacement` leaves behind: the returned optional sequence, the
out-parameter, and the preprocessor. -/
structure Replaced where
  value : Option TokenSequence
  pflm : PartialFLM
  pp : Preprocessor
  deriving DecidableEq, Repr

/-- The type of `MacroReplacement` once its fuel and prescanner are fixed. -/
abbrev ReplaceFn := Preprocessor → TokenSequence → PartialFLM → Bool → Run Replaced

/-- The body of `Preprocessor::ReplaceMacros` over a given `MacroReplacement`. -/
def ReplaceMacrosWith (mr : ReplaceFn) (pp : Preprocessor) (tokens : TokenSequence)
    (pflm : PartialFLM) (inIfExpression : Bool) :
    Run (TokenSequence × PartialFLM × Preprocessor) :=
  match mr pp tokens pflm inIfExpression with
  | .done r => .done (r.value.getD tokens, r.pflm, r.pp)
  | .crash c => .crash c
  | .outOfFuel => .outOfFuel

/-! ## `Definition::Apply` -/

/-- The local variables of the loop of `Definition::Apply`, with the preprocessor
(whose counter the replacement of an argument may advance). -/
structure ApplyState where
  result : TokenSequence
  skipping : Bool
  parenthesesNesting : Nat
  pp : Preprocessor
  deriving DecidableEq, Repr

/-- The tokens that `__VA_ARGS__` stands for: the actual arguments from number
`argumentCount` on, with a comma token between two of them. -/
def VariadicArguments : List TokenSequence → TokenSequence
  | [] => []
  | [a] => a
  | a :: b :: rest => a ++ [[',']] ++ VariadicArguments (b :: rest)

/-- The loop of `Definition::Apply` from token `j` of the replacement text on; the
list is the part of the replacement text that starts at `j`. -/
def Definition.ApplyLoop (d : Definition) (mr : ReplaceFn) (args : List TokenSequence)
    (inIfExpression : Bool) : List Token → Nat → ApplyState → Run ApplyState
  | [], _, st => .done st
  | token :: rest, j, st =>
    let tokens := d.replacement.length
    if st.skipping then
      let ch := OnlyNonBlank token
      if ch == '(' then
        d.ApplyLoop mr args inIfExpression rest (j + 1)
          { st with parenthesesNesting := st.parenthesesNesting + 1 }
      else if ch == ')' then
        let nesting := st.parenthesesNesting - 1
        d.ApplyLoop mr args inIfExpression rest (j + 1)
          { st with parenthesesNesting := nesting, skipping := decide (nesting > 0) }
      else d.ApplyLoop mr args inIfExpression rest (j + 1) st
    else if token.length == 2 && token.head? == some '~' then
      let index := d.GetArgumentIndex token
      if index ≥ args.length then d.ApplyLoop mr args inIfExpression rest (j + 1) st
      else
        let arg := args.getD index []
        let prev := SkipBlanksBackwards d.replacement j
        if (match prev with
            | some p => TokenAt d.replacement p == ['#']
            | none => false) then
          let popped := PopTrailingBlanks st.result
          if popped.getLast? == prev.map (TokenAt d.replacement) then
            d.ApplyLoop mr args inIfExpression rest (j + 1)
              { st with result := popped.dropLast ++ Stringify arg }
          else .crash .checkFailed
        else if !inIfExpression &&
            (match prev with
             | some p => !IsTokenPasting (TokenAt d.replacement p)
             | none => true) &&
            (decide (SkipBlanks d.replacement (j + 1) ≥ tokens) ||
              !IsTokenPasting (TokenAt d.replacement (SkipBlanks d.replacement (j + 1)))) then
          match mr st.pp arg none inIfExpression with
          | .done r =>
            d.ApplyLoop mr args inIfExpression rest (j + 1)
              { st with result := st.result ++ r.value.getD arg, pp := r.pp }
          | .crash c => .crash c
          | .outOfFuel => .outOfFuel
        else
          d.ApplyLoop mr args inIfExpression rest (j + 1) { st with result := st.result ++ arg }
    else if token.length == 11 && d.isVariadic && token == "__VA_ARGS__".toList then
      d.ApplyLoop mr args inIfExpression rest (j + 1)
        { st with result := st.result ++ VariadicArguments (args.drop d.argumentCount) }
    else if token.length == 10 && d.isVariadic && token == "__VA_OPT__".toList &&
        decide (j + 2 < tokens) && OnlyNonBlank (TokenAt d.replacement (j + 1)) == '(' &&
        st.parenthesesNesting == 0 then
      match rest with
      | [] => .done st
      | _ :: rest2 =>
        d.ApplyLoop mr args inIfExpression rest2 (j + 2)
          { st with parenthesesNesting := 1, skipping := args.length == d.argumentCount }
    else if st.parenthesesNesting > 0 && OnlyNonBlank token == '(' then
      d.ApplyLoop mr args inIfExpression rest (j + 1)
        { st with result := st.result ++ [token],
                  parenthesesNesting := st.parenthesesNesting + 1 }
    else if st.parenthesesNesting > 0 && OnlyNonBlank token == ')' then
      if st.parenthesesNesting - 1 == 0 then
        d.ApplyLoop mr args inIfExpression rest (j + 1)
          { st with parenthesesNesting := 0, skipping := false }
      else
        d.ApplyLoop mr args inIfExpression rest (j + 1)
          { st with result := st.result ++ [token],
                    parenthesesNesting := st.parenthesesNesting - 1 }
    else
      d.ApplyLoop mr args inIfExpression rest (j + 1) { st with result := st.result ++ [token] }

/-- The function `Definition::Apply`: the replacement text with the actual arguments
substituted, after token pasting, and the preprocessor. -/
def Definition.Apply (d : Definition) (mr : ReplaceFn) (args : List TokenSequence)
    (pp : Preprocessor) (inIfExpression : Bool) : Run (TokenSequence × Preprocessor) :=
  match d.ApplyLoop mr args inIfExpression d.replacement 0 ⟨[], false, 0, pp⟩ with
  | .done st => .done (TokenPasting st.result, st.pp)
  | .crash c => .crash c
  | .outOfFuel => .outOfFuel

/-! ## `Preprocessor::MacroReplacement` -/

/-- The quick scan at the head of `MacroReplacement`: whether a token may be
replaced. -/
def MayBeReplaced (pp : Preprocessor) (inIfExpression : Bool) (token : Token) : Bool :=
  IsLegalIdentifierStartToken token &&
    (pp.IsNameDefined token || (inIfExpression && IsDefinedKeyword token))

/-- The lambda `CompleteFunctionLikeMacro` of `MacroReplacement`; it captures
`input`, `result` and the out-parameter, and returns its boolean result with the
updated captures. `AppendRange` beyond the end of `replacement` is a crash. -/
def CompleteFunctionLikeMacro (mr : ReplaceFn) (input : TokenSequence) (inIfExpression : Bool)
    (result : TokenSequence) (pflm : PartialFLM) (pp : Preprocessor)
    (after : Nat) (replacement : TokenSequence) (pFLMOffset : Nat) :
    Run (Bool × TokenSequence × PartialFLM × Preprocessor) :=
  if after < input.length then
    if replacement.length < pFLMOffset then .crash .outOfRange
    else
      let result1 := result ++ SubSequence replacement 0 pFLMOffset
      let suffix := SubSequence replacement pFLMOffset (replacement.length - pFLMOffset) ++
        SubSequence input after (input.length - after)
      match ReplaceMacrosWith mr pp suffix pflm inIfExpression with
      | .done (further, pflm1, pp1) =>
        let pflm2 : PartialFLM :=
          match pflm1 with
          | some (some v) => some (some (v + result1.length))
          | other => other
        .done (true, result1 ++ further, pflm2, pp1)
      | .crash c => .crash c
      | .outOfFuel => .outOfFuel
  else
    let pflm1 : PartialFLM :=
      match pflm with
      | some _ => some (some (pFLMOffset + result.length))
      | none => none
    .done (false, result, pflm1, pp)

/-- The replacement text computed at the invocation site for a predefined macro
whose stored text is `name`; empty when `name` is none of the four markers. The
counter is advanced by `__COUNTER__`. -/
def PredefinedReplacement (prescanner : Prescanner) (pp : Preprocessor) (name : List Char) :
    List Char × Preprocessor :=
  if name == "__FILE__".toList then ([dquote] ++ prescanner.path ++ [dquote], pp)
  else if name == "__LINE__".toList then (Nat.toDigits 10 prescanner.lineNumber, pp)
  else if name == "__TIMESTAMP__".toList then
    match prescanner.timestamp with
    | some time => ([dquote] ++ time ++ [dquote], pp)
    | none => ("??? ??? ?? ??:??:?? ????".toList, pp)
  else if name == "__COUNTER__".toList then
    (Nat.toDigits 10 pp.counterVal, { pp with counterVal := pp.counterVal + 1 })
  else ([], pp)

/-- The look-ahead of `MacroReplacement` after the name of a function-like macro:
the index of the first token after `j` that is neither blank nor a newline (the
number of tokens when there is none), and whether it is a left parenthesis. -/
def LookAheadForParen : List Token → Nat → Nat × Bool
  | [], k => (k, false)
  | lookAhead :: rest, k =>
    if !IsBlank lookAhead && lookAhead.head? != some '\n' then
      (k, lookAhead.head? == some '(' && lookAhead.length == 1)
    else LookAheadForParen rest (k + 1)

/-- The loop of `MacroReplacement` that finds the closing parenthesis of a call and
the starts of its arguments; the list is the input from token `k` on. -/
def ScanArguments : List Token → Nat → Nat → List Nat → Nat × List Nat
  | [], k, _, argStart => (k, argStart)
  | token :: rest, k, nesting, argStart =>
    let ch := OnlyNonBlank token
    if ch == '(' then ScanArguments rest (k + 1) (nesting + 1) argStart
    else if ch == ')' then
      if nesting == 0 then (k, argStart)
      else ScanArguments rest (k + 1) (nesting - 1) argStart
    else if ch == ',' && nesting == 0 then ScanArguments rest (k + 1) nesting (argStart ++ [k + 1])
    else ScanArguments rest (k + 1) nesting argStart

/-- The loop of `MacroReplacement` that cuts the actual arguments out of the input;
`k` is the index of the closing parenthesis. -/
def CollectArguments (input : TokenSequence) (k : Nat) : List Nat → List TokenSequence
  | [] => []
  | [at_] => [SubSequence input at_ (k - at_)]
  | at_ :: next :: rest =>
    SubSequence input at_ (next - 1 - at_) :: CollectArguments input k (next :: rest)

/-- How one iteration of the main loop of `MacroReplacement` ends: `next` goes on
with the iteration after token `j` (the loop's own increment is still to come),
`ret` returns from the function. -/
inductive Step where
  | next (j : Nat) (result : TokenSequence) (pflm : PartialFLM) (pp : Preprocessor)
  | ret (r : Replaced)
  deriving DecidableEq, Repr

/-- The test of the main loop of `MacroReplacement` for the operand of `defined` in
an expression: the result without `defined` or `defined (`, and the index of the
closing parenthesis when there is an opening one. -/
def DefinedOperand (input result : TokenSequence) (j : Nat) : Option (TokenSequence × Option Nat) :=
  match SkipBlanksBackwards result result.length with
  | none => none
  | some prev =>
    let paren := OnlyNonBlank (TokenAt result prev) == '('
    let prev1 := if paren then SkipBlanksBackwards result prev else some prev
    let rightParenthesis := if paren then some (SkipBlanks input (j + 1)) else none
    let ok :=
      match rightParenthesis with
      | some rp => decide (rp < input.length) && OnlyNonBlank (TokenAt input rp) == ')'
      | none => true
    match prev1 with
    | some p =>
      if ok && IsDefinedKeyword (TokenAt result p) then
        some (SubSequence result 0 p, rightParenthesis)
      else none
    | none => none

/-- The expansion of an object-like macro in the main loop of `MacroReplacement`
(the part after the predefined markers). -/
def ReplaceObjectLike (mr : ReplaceFn) (input : TokenSequence) (inIfExpression : Bool)
    (token : Token) (d : Definition) (j : Nat) (result : TokenSequence) (pflm : PartialFLM)
    (pp : Preprocessor) : Run Step :=
  match ReplaceMacrosWith mr (pp.setDisabled token true) d.replacement (some none)
      inIfExpression with
  | .done (replaced0, partialFLM, pp1) =>
    let replaced := TokenPasting replaced0
    let pp2 := pp1.setDisabled token false
    let finish (result : TokenSequence) (pflm : PartialFLM) (pp : Preprocessor) : Step :=
      .next j (if replaced.isEmpty then result else result ++ replaced) pflm pp
    match partialFLM with
    | some (some offset) =>
      match CompleteFunctionLikeMacro mr input inIfExpression result pflm pp2 (j + 1)
          replaced offset with
      | .done (true, result1, pflm1, pp3) => .done (.ret ⟨some result1, pflm1, pp3⟩)
      | .done (false, result1, pflm1, pp3) => .done (finish result1 pflm1 pp3)
      | .crash c => .crash c
      | .outOfFuel => .outOfFuel
    | _ => .done (finish result pflm pp2)
  | .crash c => .crash c
  | .outOfFuel => .outOfFuel

/-- The expansion of a call of a function-like macro in the main loop of
`MacroReplacement`. -/
def ReplaceFunctionLike (mr : ReplaceFn) (input : TokenSequence) (inIfExpression : Bool)
    (token : Token) (d : Definition) (j : Nat) (result : TokenSequence) (pflm : PartialFLM)
    (pp : Preprocessor) : Run Step :=
  let tokens := input.length
  let look := LookAheadForParen (input.drop (j + 1)) (j + 1)
  if !look.2 then
    match pflm with
    | some _ =>
      .done (.ret ⟨some (result ++ SubSequence input j (tokens - j)),
                    some (some result.length), pp⟩)
    | none => .done (.next j (result ++ [token]) pflm pp)
  else
    let scan := ScanArguments (input.drop (look.1 + 1)) (look.1 + 1) 0 [look.1 + 1]
    let k := scan.1
    let argStart :=
      if scan.2.length == 1 && scan.2.head? == some k && d.argumentCount == 0 then []
      else scan.2
    if k ≥ tokens && pflm.isSome then
      .done (.ret ⟨some (result ++ SubSequence input j (tokens - j)),
                    some (some result.length), pp⟩)
    else if k ≥ tokens || argStart.length < d.argumentCount ||
        (argStart.length > d.argumentCount && !d.isVariadic) then
      .done (.next j (result ++ [token]) pflm pp)
    else
      let args := CollectArguments input k argStart
      match d.Apply mr args pp inIfExpression with
      | .done (applied, pp0) =>
        match ReplaceMacrosWith mr (pp0.setDisabled token true) applied (some none)
            inIfExpression with
        | .done (replaced, partialFLM, pp1) =>
          let pp2 := pp1.setDisabled token false
          let finish (result : TokenSequence) (pflm : PartialFLM) (pp : Preprocessor) : Step :=
            .next k (if replaced.isEmpty then result else result ++ replaced) pflm pp
          match partialFLM with
          | some (some offset) =>
            match CompleteFunctionLikeMacro mr input inIfExpression result pflm pp2 (k + 1)
                replaced offset with
            | .done (true, result1, pflm1, pp3) => .done (.ret ⟨some result1, pflm1, pp3⟩)
            | .done (false, result1, pflm1, pp3) => .done (finish result1 pflm1 pp3)
            | .crash c => .crash c
            | .outOfFuel => .outOfFuel
          | _ => .done (finish result pflm pp2)
        | .crash c => .crash c
        | .outOfFuel => .outOfFuel
      | .crash c => .crash c
      | .outOfFuel => .outOfFuel

/-- One iteration of the main loop of `MacroReplacement`, at token `j < tokens`. -/
def MacroReplacementStep (mr : ReplaceFn) (prescanner : Prescanner) (input : TokenSequence)
    (inIfExpression : Bool) (j : Nat) (result : TokenSequence) (pflm : PartialFLM)
    (pp : Preprocessor) : Run Step :=
  let token := TokenAt input j
  if IsBlank token || !IsLegalIdentifierStartToken token then
    .done (.next j (result ++ [token]) pflm pp)
  else
    let it := pp.find token
    match (if inIfExpression then DefinedOperand input result j else none) with
    | some (trimmed, rightParenthesis) =>
      let truth : Token := if it.isSome then ['1'] else ['0']
      .done (.next (rightParenthesis.getD j) (trimmed ++ [truth]) pflm pp)
    | none =>
      match it with
      | none => .done (.next j (result ++ [token]) pflm pp)
      | some d =>
        if d.isDisabled then .done (.next j (result ++ [token]) pflm pp)
        else if !d.isFunctionLike then
          let repl : List Char × Preprocessor :=
            if d.isPredefined && !d.replacement.isEmpty then
              PredefinedReplacement prescanner pp (TokenAt d.replacement 0)
            else ([], pp)
          if !repl.1.isEmpty then .done (.next j (result ++ [repl.1]) pflm repl.2)
          else ReplaceObjectLike mr input inIfExpression token d j result pflm pp
        else ReplaceFunctionLike mr input inIfExpression token d j result pflm pp

/-- The main loop of `MacroReplacement`; `n` bounds the number of iterations left
(every iteration advances `j`, so `tokens - j` iterations always suffice). -/
def MacroReplacementLoop (mr : ReplaceFn) (prescanner : Prescanner) (input : TokenSequence)
    (inIfExpression : Bool) : Nat → Nat → TokenSequence → PartialFLM → Preprocessor →
    Run Replaced
  | 0, j, result, pflm, pp =>
    if j < input.length then .outOfFuel else .done ⟨some result, pflm, pp⟩
  | n + 1, j, result, pflm, pp =>
    if j < input.length then
      match MacroReplacementStep mr prescanner input inIfExpression j result pflm pp with
      | .done (.next j1 result1 pflm1 pp1) =>
        MacroReplacementLoop mr prescanner input inIfExpression n (j1 + 1) result1 pflm1 pp1
      | .done (.ret r) => .done r
      | .crash c => .crash c
      | .outOfFuel => .outOfFuel
    else .done ⟨some result, pflm, pp⟩

/-- The function `Preprocessor::MacroReplacement`. Each level of re-entrancy (from
`Definition::Apply`, from the rescanning of a replacement and from
`CompleteFunctionLikeMacro`) uses one unit of `fuel`. -/
def MacroReplacement : Nat → Prescanner → Preprocessor → TokenSequence → PartialFLM → Bool →
    Run Replaced
  | 0, _, _, _, _, _ => .outOfFuel
  | fuel + 1, prescanner, pp, input, pflm, inIfExpression =>
    if pp.definitions.isEmpty then .done ⟨none, pflm, pp⟩
    else
      match input.findIdx? (MayBeReplaced pp inIfExpression) with
      | none => .done ⟨none, pflm, pp⟩
      | some j =>
        MacroReplacementLoop (MacroReplacement fuel prescanner) prescanner input inIfExpression
          (input.length - j) j (SubSequence input 0 j) pflm pp

/-- The function `Preprocessor::ReplaceMacros`. -/
def ReplaceMacros (fuel : Nat) (prescanner : Prescanner) (pp : Preprocessor)
    (tokens : TokenSequence) (pflm : PartialFLM) (inIfExpression : Bool) :
    Run (TokenSequence × PartialFLM × Preprocessor) :=
  ReplaceMacrosWith (MacroReplacement fuel prescanner) pp tokens pflm inIfExpression

/-! ## The constant expression evaluator (`ExpressionValue`) -/

/-- The value of a 64-bit two's-complement word: signed arithmetic that overflows is
taken to wrap around. -/
def wrap64 (x : Int) : Int := (x + 2 ^ 63) % 2 ^ 64 - 2 ^ 63

/-- The least `std::int64_t`. -/
def int64Min : Int := -(2 ^ 63)

/-- The greatest `std::int64_t`. -/
def int64Max : Int := 2 ^ 63 - 1

/-- The C++ division of two `std::int64_t`: truncation toward zero; a zero divisor or
the quotient of the least value by -1 traps. -/
def div64 (a b : Int) : Run Int :=
  if b = 0 ∨ (a = int64Min ∧ b = -1) then .crash .divideOverflow else .done (Int.tdiv a b)

/-- The C++ remainder of two `std::int64_t`, with the same traps as the division. -/
def mod64 (a b : Int) : Run Int :=
  if b = 0 ∨ (a = int64Min ∧ b = -1) then .crash .divideOverflow else .done (Int.tmod a b)

/-- The local enumeration `Operator` of `ExpressionValue`, in declaration order. -/
inductive Operator where
  | PARENS | CONST | NOTZERO | COMPLEMENT | UPLUS | UMINUS
  | POWER | TIMES | DIVIDE | MODULUS | ADD | SUBTRACT | LEFTSHIFT | RIGHTSHIFT
  | BITAND | BITXOR | BITOR
  | LT | LE | EQ | NE | GE | GT
  | NOT | AND | OR | EQV | NEQV
  | SELECT | COMMA
  deriving DecidableEq, Repr

/-- The numeric value of an enumerator of `Operator`. -/
def Operator.code : Operator → Nat
  | .PARENS => 0 | .CONST => 1 | .NOTZERO => 2 | .COMPLEMENT => 3 | .UPLUS => 4 | .UMINUS => 5
  | .POWER => 6 | .TIMES => 7 | .DIVIDE => 8 | .MODULUS => 9 | .ADD => 10 | .SUBTRACT => 11
  | .LEFTSHIFT => 12 | .RIGHTSHIFT => 13 | .BITAND => 14 | .BITXOR => 15 | .BITOR => 16
  | .LT => 17 | .LE => 18 | .EQ => 19 | .NE => 20 | .GE => 21 | .GT => 22
  | .NOT => 23 | .AND => 24 | .OR => 25 | .EQV => 26 | .NEQV => 27
  | .SELECT => 28 | .COMMA => 29

/-- The table `precedence[]`. -/
def precedenceTable : List Int :=
  [15, 15, 15, 15,
   14, 14,
   13, 12, 12, 12, 11, 11, 10, 10,
   9, 8, 7,
   6, 6, 6, 6, 6, 6,
   5, 4, 3, 2, 2,
   1, 0]

/-- The table `operandPrecedence[]`. -/
def operandPrecedenceTable : List Int :=
  [0, -1, 15, 15, 15, 15, 13, 12, 12, 12,
   11, 11, 11, 11, 9, 8, 7, 7, 7, 7, 7, 7, 7, 6, 4, 3, 3, 3, 1, 0]

/-- The lookup `precedence[op]`. -/
def precedence (op : Operator) : Int := precedenceTable.getD op.code 0

/-- The lookup `operandPrecedence[op]`. -/
def operandPrecedence (op : Operator) : Int := operandPrecedenceTable.getD op.code 0

/-- The entries of the static map `opNameMap`. -/
def opNameMapEntries : List (List Char × Operator) :=
  [("(".toList, .PARENS), ("!".toList, .NOTZERO), ("~".toList, .COMPLEMENT),
   ("**".toList, .POWER), ("*".toList, .TIMES), ("/".toList, .DIVIDE),
   ("%".toList, .MODULUS), ("+".toList, .ADD), ("-".toList, .SUBTRACT),
   ("<<".toList, .LEFTSHIFT), (">>".toList, .RIGHTSHIFT),
   ("&".toList, .BITAND), ("^".toList, .BITXOR), ("|".toList, .BITOR),
   (".lt.".toList, .LT), ("<".toList, .LT),
   (".le.".toList, .LE), ("<=".toList, .LE),
   (".eq.".toList, .EQ), ("==".toList, .EQ),
   (".ne.".toList, .NE), ("/=".toList, .NE), ("!=".toList, .NE),
   (".ge.".toList, .GE), (">=".toList, .GE),
   (".gt.".toList, .GT), (">".toList, .GT),
   (".not.".toList, .NOT),
   (".and.".toList, .AND), (".a.".toList, .AND), ("&&".toList, .AND),
   (".or.".toList, .OR), (".o.".toList, .OR), ("||".toList, .OR),
   (".eqv.".toList, .EQV),
   (".neqv.".toList, .NEQV), (".xor.".toList, .NEQV), (".x.".toList, .NEQV),
   ("?".toList, .SELECT), (",".toList, .COMMA)]

/-- The lookup `opNameMap.find(t)`. -/
def opNameMap (t : List Char) : Option Operator := opNameMapEntries.lookup t

/-- The value of a character as a digit of a numeric literal. -/
def digitValue (c : Char) : Nat :=
  if 48 ≤ c.toNat ∧ c.toNat ≤ 57 then c.toNat - 48
  else if 97 ≤ c.toNat ∧ c.toNat ≤ 122 then c.toNat - 97 + 10
  else if 65 ≤ c.toNat ∧ c.toNat ≤ 90 then c.toNat - 65 + 10
  else 36

/-- The longest run of digits of the given base at the head of the text: its value
and its length. -/
def parseDigits (base : Nat) : List Char → Nat → Nat → Nat × Nat
  | [], acc, n => (acc, n)
  | c :: rest, acc, n =>
    if digitValue c < base then parseDigits base rest (acc * base + digitValue c) (n + 1)
    else (acc, n)

/-- The library call `std::stoll(t, &consumed, 0)` on a text that starts with a
decimal digit (the only way the source calls it): the base is detected from the
prefix, the value and the number of characters consumed are returned, and a value
that does not fit 64 bits raises `std::out_of_range`. -/
def stoll (t : List Char) : Run (Int × Nat) :=
  let parsed : Nat × Nat :=
    match t with
    | '0' :: x :: h :: rest =>
      if (x == 'x' || x == 'X') && decide (digitValue h < 16) then
        let r := parseDigits 16 (h :: rest) 0 0
        (r.1, r.2 + 2)
      else parseDigits 8 t 0 0
    | '0' :: _ => parseDigits 8 t 0 0
    | _ => parseDigits 10 t 0 0
  if parsed.2 = 0 then .crash .invalidArgument
  else if (parsed.1 : Int) > int64Max then .crash .outOfRange
  else .done (parsed.1, parsed.2)

/-- What `ExpressionValue` leaves behind: the returned value, `*atToken` and
`*error`. -/
structure Evaluated where
  value : Int
  atToken : Nat
  error : Option Message
  deriving DecidableEq, Repr

/-- The type of `ExpressionValue` once its fuel and token sequence are fixed:
minimum precedence, `*atToken` and `*error` on entry. -/
abbrev EvalFn := Int → Nat → Option Message → Run Evaluated

/-- An error message of the expression evaluator. -/
def exprError (text : String) : Option Message := some ⟨.error, text⟩

/-- The integer that C++ makes of a `bool`. -/
def boolToInt (b : Bool) : Int := if b then 1 else 0

/-- The result of the first part of `ExpressionValue`, which reads a primary or a
unary operator: the operator, the value of a constant, and `*atToken` (advanced by
two for `.NOT.`); or an error. -/
def ParsePrimary (token : TokenSequence) (atToken : Nat) :
    Run (Except Message (Operator × Int × Nat)) :=
  let tokens := token.length
  let t := TokenAt token atToken
  let t0 := t.head?.getD (Char.ofNat 0)
  if t == "(".toList then .done (.ok (.PARENS, 0, atToken))
  else if IsDecimalDigit t0 then
    match stoll t with
    | .done (left, consumed) =>
      if consumed < t.length then
        .done (.error ⟨.error, "Uninterpretable numeric constant"⟩)
      else .done (.ok (.CONST, left, atToken))
    | .crash c => .crash c
    | .outOfFuel => .outOfFuel
  else if IsLegalIdentifierStart t0 then .done (.ok (.CONST, 0, atToken))
  else if t == "+".toList then .done (.ok (.UPLUS, 0, atToken))
  else if t == "-".toList then .done (.ok (.UMINUS, 0, atToken))
  else if t == ".".toList && decide (atToken + 2 < tokens) &&
      ToLowerCaseLetters (TokenAt token (atToken + 1)) == "not".toList &&
      TokenAt token (atToken + 2) == ".".toList then
    .done (.ok (.NOT, 0, atToken + 2))
  else
    match opNameMap t with
    | some op => .done (.ok (op, 0, atToken))
    | none => .done (.error ⟨.error, "operand expected in expression"⟩)

/-- The `switch` of `ExpressionValue` on a unary operator, applied to the value of
its operand; an operator that is not unary reaches `CRASH_NO_CASE`. The
parenthesis is handled by the caller. -/
def ApplyUnary (op : Operator) (left : Int) : Run Int :=
  match op with
  | .NOTZERO => .done (boolToInt (left == 0))
  | .COMPLEMENT => .done (-left - 1)
  | .UPLUS => .done left
  | .UMINUS => .done (wrap64 (-left))
  | .NOT => .done (-boolToInt (left == 0))
  | _ => .crash .crashNoCase

/-- The loop of the `POWER` case: `n` iterations are left. -/
def PowerLoop : Nat → Int → Int → Option Message → Run (Int × Option Message)
  | 0, power, _, error => .done (power, error)
  | n + 1, power, left, error =>
    match div64 (wrap64 (power * left)) left with
    | .done q =>
      if q != power then
        PowerLoop n (wrap64 (power * 1)) 1 (exprError "overflow in exponentation")
      else PowerLoop n (wrap64 (power * left)) left error
    | .crash c => .crash c
    | .outOfFuel => .outOfFuel

/-- The `switch` of `ExpressionValue` on a binary operator other than `SELECT`: the
new value of `left` and of `*error`. -/
def ApplyBinary (op : Operator) (left right : Int) (error : Option Message) :
    Run (Int × Option Message) :=
  match op with
  | .POWER =>
    if left = 0 then
      .done (left, if right < 0 then exprError "0 ** negative power" else error)
    else if left ≠ 1 ∧ right ≠ 1 then
      if right ≤ 0 then .done (boolToInt (right == 0), error)
      else PowerLoop right.toNat 1 left error
    else .done (left, error)
  | .TIMES =>
    if left ≠ 0 ∧ right ≠ 0 then
      match div64 (wrap64 (left * right)) left with
      | .done q =>
        .done (wrap64 (left * right),
          if q ≠ right then exprError "overflow in multiplication" else error)
      | .crash c => .crash c
      | .outOfFuel => .outOfFuel
    else .done (wrap64 (left * right), error)
  | .DIVIDE =>
    if right = 0 then .done (0, exprError "division by zero")
    else
      match div64 left right with
      | .done q => .done (q, error)
      | .crash c => .crash c
      | .outOfFuel => .outOfFuel
  | .MODULUS =>
    if right = 0 then .done (0, exprError "modulus by zero")
    else
      match mod64 left right with
      | .done r => .done (r, error)
      | .crash c => .crash c
      | .outOfFuel => .outOfFuel
  | .ADD =>
    .done (wrap64 (left + right),
      if decide (left < 0) == decide (right < 0) &&
          decide (left < 0) != decide (wrap64 (left + right) < 0) then
        exprError "overflow in addition"
      else error)
  | .SUBTRACT =>
    .done (wrap64 (left - right),
      if decide (left < 0) != decide (right < 0) &&
          decide (left < 0) == decide (wrap64 (left - right) < 0) then
        exprError "overflow in subtraction"
      else error)
  | .LEFTSHIFT =>
    .done (if right ≥ 64 then 0 else wrap64 (left * 2 ^ (right % 64).toNat),
      if right < 0 ∨ right > 64 then exprError "bad left shift count" else error)
  | .RIGHTSHIFT =>
    .done (if right ≥ 64 then 0 else left / 2 ^ (right % 64).toNat,
      if right < 0 ∨ right > 64 then exprError "bad right shift count" else error)
  | .BITAND => .done (Int.land left right, error)
  | .BITXOR => .done (Int.xor left right, error)
  | .BITOR => .done (Int.lor left right, error)
  | .AND => .done (boolToInt (left != 0 && right != 0), error)
  | .OR => .done (boolToInt (left != 0 || right != 0), error)
  | .LT => .done (-boolToInt (decide (left < right)), error)
  | .LE => .done (-boolToInt (decide (left ≤ right)), error)
  | .EQ => .done (-boolToInt (left == right), error)
  | .NE => .done (-boolToInt (left != right), error)
  | .GE => .done (-boolToInt (decide (left ≥ right)), error)
  | .GT => .done (-boolToInt (decide (left > right)), error)
  | .EQV => .done (-boolToInt ((left == 0) == (right == 0)), error)
  | .NEQV => .done (-boolToInt ((left == 0) != (right == 0)), error)
  | .COMMA => .done (right, error)
  | _ => .crash .crashNoCase

/-- The text and the width of the operator that the second part of
`ExpressionValue` reads at `*atToken`: a dotted Fortran spelling takes three
tokens. -/
def BinaryOperatorText (token : TokenSequence) (atToken : Nat) : List Char × Nat :=
  let t := TokenAt token atToken
  if t == ".".toList && decide (atToken + 2 < token.length) &&
      TokenAt token (atToken + 2) == ".".toList then
    (t ++ ToLowerCaseLetters (TokenAt token (atToken + 1)) ++ ['.'], 3)
  else (t, 1)

/-- The second part of `ExpressionValue`: the loop over binary operators and their
right operands. `ev` evaluates an operand; `n` bounds the iterations left (every
iteration consumes at least one token). -/
def BinaryLoop (ev : EvalFn) (token : TokenSequence) (minimumPrecedence : Int) :
    Nat → Int → Nat → Option Message → Run Evaluated
  | 0, left, atToken, error =>
    if atToken < token.length then .outOfFuel else .done ⟨left, atToken, error⟩
  | n + 1, left, atToken, error =>
    if atToken < token.length then
      let opText := BinaryOperatorText token atToken
      match opNameMap opText.1 with
      | none => .done ⟨left, atToken, error⟩
      | some op =>
        if op.code < Operator.POWER.code || decide (precedence op < minimumPrecedence) then
          .done ⟨left, atToken, error⟩
        else
          match ev (operandPrecedence op) (atToken + opText.2) error with
          | .done right =>
            if right.error.isSome then .done ⟨0, right.atToken, right.error⟩
            else if op = .SELECT then
              if right.atToken ≥ token.length ∨
                  TokenAt token right.atToken ≠ ":".toList then
                .done ⟨0, right.atToken, exprError "':' required in selection expression"⟩
              else
                match ev (operandPrecedence op) (right.atToken + 1) right.error with
                | .done third =>
                  BinaryLoop ev token minimumPrecedence n
                    (if left ≠ 0 then right.value else third.value) third.atToken third.error
                | .crash c => .crash c
                | .outOfFuel => .outOfFuel
            else
              match ApplyBinary op left right.value right.error with
              | .done (left1, error1) =>
                BinaryLoop ev token minimumPrecedence n left1 right.atToken error1
              | .crash c => .crash c
              | .outOfFuel => .outOfFuel
          | .crash c => .crash c
          | .outOfFuel => .outOfFuel
    else .done ⟨left, atToken, error⟩

/-- The static function `ExpressionValue(token, minimumPrecedence, atToken, error)`.
Each nested operand uses one unit of `fuel`. -/
def ExpressionValue : Nat → TokenSequence → Int → Nat → Option Message → Run Evaluated
  | 0, _, _, _, _ => .outOfFuel
  | fuel + 1, token, minimumPrecedence, atToken, error =>
    let tokens := token.length
    if tokens = 0 then .crash .checkFailed
    else if atToken ≥ tokens then .done ⟨0, atToken, exprError "incomplete expression"⟩
    else
      match ParsePrimary token atToken with
      | .done (.error msg) => .done ⟨0, atToken, some msg⟩
      | .done (.ok (op, constant, atToken1)) =>
        if precedence op < minimumPrecedence then
          .done ⟨0, atToken1, exprError "operator precedence error"⟩
        else if op = .CONST then
          BinaryLoop (ExpressionValue fuel token) token minimumPrecedence (tokens - atToken)
            constant (atToken1 + 1) error
        else
          match ExpressionValue fuel token (operandPrecedence op) (atToken1 + 1) error with
          | .done operand =>
            if operand.error.isSome then .done ⟨0, operand.atToken, operand.error⟩
            else if op = .PARENS then
              if operand.atToken < tokens ∧
                  OnlyNonBlank (TokenAt token operand.atToken) = ')' then
                BinaryLoop (ExpressionValue fuel token) token minimumPrecedence
                  (tokens - atToken) operand.value (operand.atToken + 1) operand.error
              else if operand.atToken ≥ tokens then
                .done ⟨0, operand.atToken, exprError "')' missing from expression"⟩
              else .done ⟨0, operand.atToken, exprError "expected ')'"⟩
            else
              match ApplyUnary op operand.value with
              | .done left =>
                BinaryLoop (ExpressionValue fuel token) token minimumPrecedence
                  (tokens - atToken) left operand.atToken operand.error
              | .crash c => .crash c
              | .outOfFuel => .outOfFuel
          | .crash c => .crash c
          | .outOfFuel => .outOfFuel
      | .crash c => .crash c
      | .outOfFuel => .outOfFuel

/-! ## `Preprocessor::IsIfPredicateTrue` -/

/-- The function `Preprocessor::IsIfPredicateTrue` on the tokens `first ..
first + exprTokens` of a directive: the truth value, the preprocessor and the
prescanner with the messages said. -/
def IsIfPredicateTrue (fuel : Nat) (directive : TokenSequence) (first exprTokens : Nat)
    (pp : Preprocessor) (prescanner : Prescanner) : Run (Bool × Preprocessor × Prescanner) :=
  let expr := SubSequence directive first exprTokens
  match ReplaceMacros fuel prescanner pp expr none true with
  | .done (replaced0, _, pp1) =>
    let replaced := RemoveBlanks replaced0
    if replaced.isEmpty then .done (false, pp1, prescanner.Say .error "empty expression")
    else
      match ExpressionValue fuel replaced 0 0 none with
      | .done ev =>
        let result := decide (ev.value ≠ 0)
        match ev.error with
        | some msg => .done (result, pp1, { prescanner with messages := prescanner.messages ++ [msg] })
        | none =>
          if ev.atToken < replaced.length ∧ TokenAt replaced ev.atToken ≠ "!".toList then
            .done (result, pp1, prescanner.Say .error
              (if ev.atToken = 0 then "could not parse any expression"
               else "excess characters after expression"))
          else .done (result, pp1, prescanner)
      | .crash c => .crash c
      | .outOfFuel => .outOfFuel
  | .crash c => .crash c
  | .outOfFuel => .outOfFuel

/-! ## `Preprocessor::SkipDisabledConditionalCode` -/

/-- The static function `GetDirectiveName`: the lower-case name of the directive on
the line and the index `*rest` of the first token after it. -/
def GetDirectiveName (line : TokenSequence) : List Char × Nat :=
  let tokens := line.length
  let j := SkipBlanks line 0
  if j == tokens || TokenAt line j != "#".toList then ([], tokens)
  else
    let j1 := SkipBlanks line (j + 1)
    if j1 == tokens then ([], tokens)
    else (ToLowerCaseLetters (TokenAt line j1), SkipBlanks line (j1 + 1))

/-- The loop of `Preprocessor::SkipDisabledConditionalCode` over the physical lines
still to come; on return the prescanner holds the lines that were not consumed. -/
def SkipDisabledLoop (fuel : Nat) (dirName : List Char) (isElseActive : IsElseActive) :
    List Line → Nat → Preprocessor → Prescanner → Run (Preprocessor × Prescanner)
  | [], _, pp, prescanner =>
    .done (pp, { prescanner with lines := [] }.Say .error
      ("#" ++ String.mk dirName ++ ": missing #endif"))
  | line :: rest, nesting, pp, prescanner =>
    if !line.isDirective then
      SkipDisabledLoop fuel dirName isElseActive rest nesting pp prescanner
    else
      let dn := GetDirectiveName line.tokens
      if dn.1 == "ifdef".toList || dn.1 == "ifndef".toList || dn.1 == "if".toList then
        SkipDisabledLoop fuel dirName isElseActive rest (nesting + 1) pp prescanner
      else if dn.1 == "endif".toList then
        if nesting == 0 then .done (pp, { prescanner with lines := rest })
        else SkipDisabledLoop fuel dirName isElseActive rest (nesting - 1) pp prescanner
      else if isElseActive == .Yes && nesting == 0 then
        if dn.1 == "else".toList then
          .done ({ pp with ifStack := .No :: pp.ifStack }, { prescanner with lines := rest })
        else if dn.1 == "elif".toList then
          match IsIfPredicateTrue fuel line.tokens dn.2 (line.tokens.length - dn.2) pp
              { prescanner with lines := rest } with
          | .done (true, pp1, prescanner1) =>
            .done ({ pp1 with ifStack := .Yes :: pp1.ifStack }, prescanner1)
          | .done (false, pp1, prescanner1) =>
            SkipDisabledLoop fuel dirName isElseActive rest nesting pp1 prescanner1
          | .crash c => .crash c
          | .outOfFuel => .outOfFuel
        else SkipDisabledLoop fuel dirName isElseActive rest nesting pp prescanner
      else SkipDisabledLoop fuel dirName isElseActive rest nesting pp prescanner

/-- The function `Preprocessor::SkipDisabledConditionalCode`. -/
def SkipDisabledConditionalCode (fuel : Nat) (dirName : List Char) (isElseActive : IsElseActive)
    (pp : Preprocessor) (prescanner : Prescanner) : Run (Preprocessor × Prescanner) :=
  SkipDisabledLoop fuel dirName isElseActive prescanner.lines 0 pp prescanner

/-! ## `Preprocessor::Directive` -/

/-- The loop of the `#define` case of `Directive` over the formal parameter list,
entered at the first token `j` after the parenthesis: the names, the variadic
flag and the index of the closing parenthesis, or the message of the error. A read
at or beyond the end of the directive is a crash. `n` bounds the iterations. -/
def DefineArgumentList (dir : TokenSequence) (tokens : Nat) :
    Nat → Nat → List (List Char) → Bool → Run (Except String (List (List Char) × Bool × Nat))
  | 0, _, _, _ => .outOfFuel
  | n + 1, j, argName, isVariadic =>
    if dir.length ≤ j then .crash .outOfRange
    else
      let an := TokenAt dir j
      if an != "...".toList && !IsLegalIdentifierStartToken an then
        .done (.error "#define: missing or invalid argument name")
      else
        let isVariadic1 := isVariadic || an == "...".toList
        let argName1 := if an == "...".toList then argName else argName ++ [an]
        let j1 := SkipBlanks dir (j + 1)
        if j1 == tokens then .done (.error "#define: malformed argument list")
        else if dir.length ≤ j1 then .crash .outOfRange
        else
          let punc := OnlyNonBlank (TokenAt dir j1)
          if punc == ')' then .done (.ok (argName1, isVariadic1, j1))
          else if isVariadic1 || punc != ',' then
            .done (.error "#define: malformed argument list")
          else
            let j2 := SkipBlanks dir (j1 + 1)
            if j2 == tokens then .done (.error "#define: malformed argument list")
            else DefineArgumentList dir tokens n j2 argName1 isVariadic1

/-- The `#define` case of `Directive`; `j` is the index of the name token (or of
what stands in its place). -/
def DirectiveDefine (dir : TokenSequence) (tokens j : Nat) (nameToken : Token)
    (pp : Preprocessor) (prescanner : Prescanner) : Run (Preprocessor × Prescanner) :=
  if nameToken.isEmpty then
    .done (pp, prescanner.Say .error "#define: missing or invalid name")
  else
    let pp1 := pp.erase nameToken
    if j + 1 < tokens ∧ OnlyNonBlank (TokenAt dir (j + 1)) = '(' then
      let j1 := SkipBlanks dir (j + 2)
      if dir.length ≤ j1 then .crash .outOfRange
      else
        let parsed : Run (Except String (List (List Char) × Bool × Nat)) :=
          if OnlyNonBlank (TokenAt dir j1) != ')' then
            match DefineArgumentList dir tokens (dir.length + 1) j1 [] false with
            | .done (.ok (argName, isVariadic, j2)) =>
              if !decide argName.Nodup then
                .done (.error "#define: argument names are not distinct")
              else .done (.ok (argName, isVariadic, j2))
            | other => other
          else .done (.ok ([], false, j1))
        match parsed with
        | .done (.ok (argName, isVariadic, j2)) =>
          let j3 := SkipBlanks dir (j2 + 1)
          if tokens < j3 then .crash .outOfRange
          else
            match Definition.functionLike argName dir j3 (tokens - j3) isVariadic with
            | .done d => .done (pp1.emplace nameToken d, prescanner)
            | .crash c => .crash c
            | .outOfFuel => .outOfFuel
        | .done (.error text) => .done (pp1, prescanner.Say .error text)
        | .crash c => .crash c
        | .outOfFuel => .outOfFuel
    else
      let j1 := SkipBlanks dir (j + 2)
      if tokens < j1 then .crash .outOfRange
      else .done (pp1.emplace nameToken (Definition.objectLike dir j1 (tokens - j1)), prescanner)

/-- A portability warning, said only when the feature control asks for it. -/
def Prescanner.SayPortability (ps : Prescanner) (text : String) : Prescanner :=
  if ps.shouldWarnPortability then ps.Say .portability text else ps

/-- The function `Preprocessor::Directive` on the tokens of one directive line. The
`#line` and `#include` directives, which act on the source collaborator, are not
part of the embedding. -/
def Directive (fuel : Nat) (dir : TokenSequence) (pp : Preprocessor) (prescanner : Prescanner) :
    Run (Preprocessor × Prescanner) :=
  let j0 := SkipBlanks dir 0
  if j0 == dir.length then .done (pp, prescanner)
  else if TokenAt dir j0 != "#".toList then .done (pp, prescanner.Say .error "missing '#'")
  else
    let j1 := SkipBlanks dir (j0 + 1)
    let tokens := (PopTrailingBlanks dir).length
    if j1 == tokens then .done (pp, prescanner)
    else if dir.length ≤ j1 then .crash .outOfRange
    else
      let first := (TokenAt dir j1).head?.getD (Char.ofNat 0)
      if IsDecimalDigit first || first == dquote then .crash .notModelled
      else
        let dirOffset := j1
        let dirName := ToLowerCaseLetters (TokenAt dir dirOffset)
        let j := SkipBlanks dir (j1 + 1)
        let nameToken : Token :=
          if j < tokens ∧ IsLegalIdentifierStartToken (TokenAt dir j) then TokenAt dir j else []
        if dirName == "line".toList then .crash .notModelled
        else if dirName == "define".toList then
          DirectiveDefine dir tokens j nameToken pp prescanner
        else if dirName == "undef".toList then
          if nameToken.isEmpty then
            .done (pp, prescanner.Say .error "# missing or invalid name")
          else if IsAnythingLeft dir (j + 1) then
            .done (pp, prescanner.SayPortability "#undef: excess tokens at end of directive")
          else .done (pp.erase nameToken, prescanner)
        else if dirName == "ifdef".toList || dirName == "ifndef".toList then
          let prescanner1 :=
            if nameToken.isEmpty then
              prescanner.Say .error ("#" ++ String.mk dirName ++ ": missing name")
            else if IsAnythingLeft dir (j + 1) then
              prescanner.SayPortability
                ("#" ++ String.mk dirName ++ ": excess tokens at end of directive")
            else prescanner
          let doThen :=
            !nameToken.isEmpty && (pp.IsNameDefined nameToken == (dirName == "ifdef".toList))
          if doThen then .done ({ pp with ifStack := .Yes :: pp.ifStack }, prescanner1)
          else SkipDisabledConditionalCode fuel dirName .Yes pp prescanner1
        else if dirName == "if".toList then
          if tokens < j then .crash .outOfRange
          else
            match IsIfPredicateTrue fuel dir j (tokens - j) pp prescanner with
            | .done (true, pp1, prescanner1) =>
              .done ({ pp1 with ifStack := .Yes :: pp1.ifStack }, prescanner1)
            | .done (false, pp1, prescanner1) =>
              SkipDisabledConditionalCode fuel dirName .Yes pp1 prescanner1
            | .crash c => .crash c
            | .outOfFuel => .outOfFuel
        else if dirName == "else".toList then
          let prescanner1 :=
            if IsAnythingLeft dir j then
              prescanner.SayPortability "#else: excess tokens at end of directive"
            else prescanner
          match pp.ifStack with
          | [] =>
            .done (pp, prescanner1.Say .error
              "#else: not nested within #if, #ifdef, or #ifndef")
          | .Yes :: stack =>
            SkipDisabledConditionalCode fuel "else".toList .No { pp with ifStack := stack }
              prescanner1
          | .No :: _ =>
            .done (pp, prescanner1.Say .error
              "#else: already appeared within this #if, #ifdef, or #ifndef")
        else if dirName == "elif".toList then
          match pp.ifStack with
          | [] =>
            .done (pp, prescanner.Say .error
              "#elif: not nested within #if, #ifdef, or #ifndef")
          | .Yes :: stack =>
            SkipDisabledConditionalCode fuel "elif".toList .No { pp with ifStack := stack }
              prescanner
          | .No :: _ =>
            .done (pp, prescanner.Say .error
              "#elif: #else previously appeared within this #if, #ifdef, or #ifndef")
        else if dirName == "endif".toList then
          if IsAnythingLeft dir j then
            .done (pp, prescanner.SayPortability "#endif: excess tokens at end of directive")
          else
            match pp.ifStack with
            | [] => .done (pp, prescanner.Say .error "#endif: no #if, #ifdef, or #ifndef")
            | _ :: stack => .done ({ pp with ifStack := stack }, prescanner)
        else if dirName == "error".toList then
          .done (pp, prescanner.Say .error (String.mk (ToString dir)))
        else if dirName == "warning".toList then
          .done (pp, prescanner.Say .warning (String.mk (ToString dir)))
        else if dirName == "comment".toList || dirName == "note".toList then
          .done (pp, prescanner.Say .note (String.mk (ToString dir)))
        else if dirName == "include".toList then
          if j == tokens then
            .done (pp, prescanner.Say .error "#include: missing name of file to include")
          else .crash .notModelled
        else
          .done (pp, prescanner.Say .error
            ("#" ++ String.mk dirName ++ ": unknown or unimplemented directive"))

/-! ## The pull loop of the prescanner -/

/-- Modelled from the spec: the pull loop of the external prescanner (section 5), which
requests the physical lines one after the other; a directive line is given to
`Directive` (which may consume further lines while skipping), any other line is
active text. `n` bounds the iterations (every iteration consumes a line). -/
def Prescan (fuel : Nat) : Nat → Preprocessor → Prescanner → Run (Preprocessor × Prescanner)
  | 0, pp, prescanner =>
    if prescanner.lines.isEmpty then .done (pp, prescanner) else .outOfFuel
  | n + 1, pp, prescanner =>
    match prescanner.lines with
    | [] => .done (pp, prescanner)
    | line :: rest =>
      if line.isDirective then
        match Directive fuel line.tokens pp { prescanner with lines := rest } with
        | .done (pp1, prescanner1) => Prescan fuel n pp1 prescanner1
        | .crash c => .crash c
        | .outOfFuel => .outOfFuel
      else
        Prescan fuel n pp
          { prescanner with lines := rest, active := prescanner.active ++ [line.tokens] }

/-! ## Notions used to state the properties -/

/-- A token is a numeric literal of value `v`: it starts with a decimal digit and
`std::stoll` reads all of it as `v`. -/
def IsLiteral (t : Token) (v : Int) : Prop :=
  IsDecimalDigit (t.head?.getD (Char.ofNat 0)) = true ∧ stoll t = .done (v, t.length)

/-- A token that the main loop of `MacroReplacement` copies unchanged in ordinary
(non-expression) mode: a blank, a token that does not start like an identifier, a
name that is not defined, or the name of a disabled definition. -/
def Inert (pp : Preprocessor) (tok : Token) : Prop :=
  IsBlank tok = true ∨ IsLegalIdentifierStartToken tok = false ∨ pp.find tok = none ∨
    ∃ d, pp.find tok = some d ∧ d.isDisabled = true

/-- The identifiers among the tokens name no macro of the store. -/
def NamesNoMacro (pp : Preprocessor) (ts : TokenSequence) : Prop :=
  ∀ tok ∈ ts, IsLegalIdentifierStartToken tok = true → pp.find tok = none

/-- The nesting depth of parentheses after the tokens of an actual argument, from
depth `depth`; `none` when a parenthesis closes below depth 0 or a comma stands at
depth 0. -/
def ArgumentDepth : List Token → Nat → Option Nat
  | [], depth => some depth
  | token :: rest, depth =>
    if OnlyNonBlank token == '(' then ArgumentDepth rest (depth + 1)
    else if OnlyNonBlank token == ')' then
      if depth == 0 then none else ArgumentDepth rest (depth - 1)
    else if OnlyNonBlank token == ',' && depth == 0 then none
    else ArgumentDepth rest depth

/-- The tokens form one actual argument of a call: the parentheses are balanced and
no comma stands outside of them. -/
def IsArgument (arg : TokenSequence) : Prop := ArgumentDepth arg 0 = some 0

/-- The actual arguments written one after the other with a comma token between
two of them. -/
def CommaSeparated : List TokenSequence → TokenSequence
  | [] => []
  | [a] => a
  | a :: b :: rest => a ++ [[',']] ++ CommaSeparated (b :: rest)

/-- The tokens of the call `name(arg, ..., arg)`. -/
def CallTokens (name : Token) (args : List TokenSequence) : TokenSequence :=
  [name, ['(']] ++ CommaSeparated args ++ [[')']]

/-- The index at which each actual argument starts when the first starts at `k` and
a comma separates two of them. -/
def ArgStarts : Nat → List TokenSequence → List Nat
  | _, [] => []
  | k, a :: rest => k :: ArgStarts (k + a.length + 1) rest

/-- The text escaped by stringification: every double quote and backslash doubled. -/
def Escaped (text : List Char) : List Char :=
  (text.map (fun ch => if ch = dquote ∨ ch = backslash then [ch, ch] else [ch])).flatten

/-- The definition that `#define F(x) #x` enters for `F`: the replacement text is the
operator `#` followed by the placeholder of the formal. -/
def StringifyDefinition (x : Token) : Definition :=
  { isFunctionLike := true, argNames := [x], replacement := ["#".toList, argPlaceholder 0] }

/-- The definition that `#define F(a,b) a##b` enters for `F`: the placeholders of the
two formals around the pasting operator. -/
def PasteDefinition (a b : Token) : Definition :=
  { isFunctionLike := true, argNames := [a, b],
    replacement := [argPlaceholder 0, "##".toList, argPlaceholder 1] }

/-- The definition that `#define F(p,...) p: __VA_ARGS__` enters for `F`. -/
def VariadicDefinition (p : Token) : Definition :=
  { isFunctionLike := true, isVariadic := true, argNames := [p],
    replacement := [argPlaceholder 0, ":".toList, " ".toList, "__VA_ARGS__".toList] }

/-- The position of a token among the formal parameter names, if it is one. -/
def FormalIndex (formals : List Token) (tok : Token) : Option Nat :=
  formals.findIdx? (fun p => p == tok)

/-- The replacement text `body` with every occurrence of a formal replaced by the
tokens of the corresponding actual argument. -/
def Substitute (formals : List Token) (args : List TokenSequence) (body : TokenSequence) :
    TokenSequence :=
  (body.map (fun tok =>
    match FormalIndex formals tok with
    | some i => args.getD i []
    | none => [tok])).flatten

/-- The map from formal names to placeholders that `Definition::Tokenize` builds,
from the placeholder number `i` on. -/
def PlaceholderMap : Nat → List Token → List (List Char × Token)
  | _, [] => []
  | i, p :: rest => (p, argPlaceholder i) :: PlaceholderMap (i + 1) rest

/-- A token has the shape of the placeholder of a formal: a tilde and one more
character. -/
def IsPlaceholderShaped (tok : Token) : Bool := tok.length == 2 && tok.head? == some '~'

/-- The definition that `#define F(p1,...,pn) body` enters for `F`, as built by the
constructor of `Definition` when the formal names are distinct. -/
def SubstitutionDefinition (formals : List Token) (body : TokenSequence) : Definition :=
  { isFunctionLike := true, argNames := formals,
    replacement := TokenizeBody (PlaceholderMap 0 formals) body }

/-- The tokens `p1 , p2 , ... , pn` of a formal parameter list. -/
def FormalList (formals : List Token) : TokenSequence :=
  CommaSeparated (formals.map (fun p => [p]))

/-- The tokens of the directive `#define F(p1,...,pn) body`. -/
def DefineTokens (F : Token) (formals : List Token) (body : TokenSequence) : TokenSequence :=
  ["#".toList, "define".toList, " ".toList, F, "(".toList] ++ FormalList formals ++
    [")".toList, " ".toList] ++ body

/-- The tokens can stand as the condition of `#if` or `#elif`: there is a first and
a last token and neither is blank. -/
def IsCondition (c : TokenSequence) : Bool :=
  match c.head?, c.getLast? with
  | some first, some last => !IsBlank first && !IsBlank last
  | _, _ => false

/-- Lines of text (not directives) with the given tokens. -/
def TextLines (ls : List TokenSequence) : List Line := ls.map (fun t => ⟨false, t⟩)

/-- The directive line `#if c`. -/
def IfLine (c : TokenSequence) : Line := ⟨true, ["#".toList, "if".toList, " ".toList] ++ c⟩

/-- The directive line `#elif c`. -/
def ElifLine (c : TokenSequence) : Line := ⟨true, ["#".toList, "elif".toList, " ".toList] ++ c⟩

/-- The directive line `#else`. -/
def ElseLine : Line := ⟨true, ["#".toList, "else".toList]⟩

/-- The directive line `#endif`. -/
def EndifLine : Line := ⟨true, ["#".toList, "endif".toList]⟩

/-- The lines of the `#elif` branches: each condition with the text of its branch. -/
def ElifLines : List (TokenSequence × List TokenSequence) → List Line
  | [] => []
  | (c, body) :: rest => ElifLine c :: (TextLines body ++ ElifLines rest)

/-- The lines of the `#else` branch, when there is one. -/
def ElseLines : Option (List TokenSequence) → List Line
  | none => []
  | some body => ElseLine :: TextLines body

/-- The lines of a conditional group `#if c0` ... `#elif c1` ... [`#else` ...]
`#endif` whose branches are text. -/
def ConditionalGroup (c0 : TokenSequence) (body0 : List TokenSequence)
    (elifs : List (TokenSequence × List TokenSequence))
    (elseBody : Option (List TokenSequence)) : List Line :=
  IfLine c0 :: (TextLines body0 ++ (ElifLines elifs ++ (ElseLines elseBody ++ [EndifLine])))

/-- The branch that the words of the specification select: the text of the first
branch whose condition `IsIfPredicateTrue` finds non-zero, the conditions being
evaluated in order until one is; the `#else` text when none is and there is an
`#else`; nothing otherwise. The preprocessor and the messages are those left by the
conditions evaluated. -/
def SelectBranch (fuel : Nat) : List (TokenSequence × List TokenSequence) →
    Option (List TokenSequence) → Preprocessor → Prescanner →
    Run (List TokenSequence × Preprocessor × Prescanner)
  | [], elseBody, pp, ps => .done (elseBody.getD [], pp, ps)
  | (c, body) :: rest, elseBody, pp, ps =>
    match IsIfPredicateTrue fuel c 0 c.length pp ps with
    | .done (true, pp1, ps1) => .done (body, pp1, ps1)
    | .done (false, pp1, ps1) => SelectBranch fuel rest elseBody pp1 ps1
    | .crash e => .crash e
    | .outOfFuel => .outOfFuel

/-! ## `Preprocessor::Define` and the standard macros -/

/-- The constant `idChars`. -/
def idChars : List Char :=
  "abcdefghijklmnopqrstuvwxyzABCDEFGHIJKLMNOPQRSTUVWXYZ_0123456789".toList

/-- The library call `str.find_first_not_of(set, pos)`; `none` is `npos`. -/
def findFirstNotOf (str set : List Char) (pos : Nat) : Option Nat :=
  match (str.drop pos).findIdx? (fun c => !set.contains c) with
  | some k => some (pos + k)
  | none => none

/-- The library call `str.find_first_of(set, pos)`; `none` is `npos`. -/
def findFirstOf (str set : List Char) (pos : Nat) : Option Nat :=
  match (str.drop pos).findIdx? (fun c => set.contains c) with
  | some k => some (pos + k)
  | none => none

/-- The library call `str.substr(pos, count)`. -/
def substr (str : List Char) (pos count : Nat) : List Char := (str.drop pos).take count

/-- The loop of the static function `TokenizeMacroNameAndArgs`, from the position
`at_` with the names read so far; `n` bounds the iterations (every iteration moves
`at_` forward). -/
def TokenizeMacroNameAndArgsLoop (str : List Char) :
    Nat → Nat → List (List Char) → Run (Option (List (List Char)))
  | 0, _, _ => .outOfFuel
  | n + 1, at_, names =>
    match findFirstNotOf str [' '] at_ with
    | none => .done none
    | some nameStart =>
      match findFirstNotOf str idChars nameStart with
      | none => .done none
      | some nameEnd =>
        match findFirstNotOf str [' '] nameEnd with
        | none => .done none
        | some punc =>
          let p := str.getD punc (Char.ofNat 0)
          if (at_ == 0 && p != '(') || (decide (at_ > 0) && p != ',' && p != ')') then
            .done none
          else
            let names1 := names ++ [substr str nameStart (nameEnd - nameStart)]
            if p == ')' then
              if (findFirstNotOf str [' '] (punc + 1)).isSome then .done none
              else .done (some names1)
            else TokenizeMacroNameAndArgsLoop str n (punc + 1) names1

/-- The static function `TokenizeMacroNameAndArgs`. -/
def TokenizeMacroNameAndArgs (str : List Char) : Run (Option (List (List Char))) :=
  TokenizeMacroNameAndArgsLoop str (str.length + 1) 0 []

/-- The loop of `Preprocessor::TokenizeMacroBody`, from the position `at_`; `n` bounds
the iterations. -/
def TokenizeMacroBodyLoop (str : List Char) : Nat → Nat → TokenSequence → Run TokenSequence
  | 0, at_, tokens => if at_ < str.length then .outOfFuel else .done tokens
  | n + 1, at_, tokens =>
    if at_ < str.length then
      match findFirstOf str idChars at_ with
      | none => .done (tokens ++ [str.drop at_])
      | some start =>
        let tokens1 := if start > at_ then tokens ++ [substr str at_ (start - at_)] else tokens
        match findFirstNotOf str idChars (start + 1) with
        | none => .done (tokens1 ++ [str.drop start])
        | some at1 => TokenizeMacroBodyLoop str n at1 (tokens1 ++ [substr str start (at1 - start)])
    else .done tokens

/-- The member function `Preprocessor::TokenizeMacroBody`. -/
def TokenizeMacroBody (str : List Char) : Run TokenSequence :=
  TokenizeMacroBodyLoop str (str.length + 1) 0 []

/-- The member function `Preprocessor::Define(macro, value)`. -/
def Preprocessor.Define (pp : Preprocessor) (macroText value : List Char) : Run Preprocessor :=
  match TokenizeMacroNameAndArgs macroText with
  | .done (some (macroName :: argNames)) =>
    match TokenizeMacroBody value with
    | .done rhs =>
      match Definition.functionLike argNames rhs 0 rhs.length false with
      | .done d => .done (pp.emplace macroName d)
      | .crash c => .crash c
      | .outOfFuel => .outOfFuel
    | .crash c => .crash c
    | .outOfFuel => .outOfFuel
  | .done (some []) => .crash .outOfRange
  | .done none => .done (pp.emplace macroText (Definition.predefined value))
  | .crash c => .crash c
  | .outOfFuel => .outOfFuel

/-- A sequence of calls of `Define`, in order. -/
def Preprocessor.DefineAll : List (List Char × List Char) → Preprocessor → Run Preprocessor
  | [], pp => .done pp
  | (m, v) :: rest, pp =>
    match pp.Define m v with
    | .done pp1 => Preprocessor.DefineAll rest pp1
    | .crash c => .crash c
    | .outOfFuel => .outOfFuel

/-- The member function `Preprocessor::DefineStandardMacros`; `date` and `time` are
the two texts that `FormatTime` makes of the clock of the host. -/
def Preprocessor.DefineStandardMacros (pp : Preprocessor) (date time : List Char) :
    Run Preprocessor :=
  Preprocessor.DefineAll
    [("__DATE__".toList, date), ("__TIME__".toList, time),
     ("__FILE__".toList, "__FILE__".toList), ("__LINE__".toList, "__LINE__".toList),
     ("__TIMESTAMP__".toList, "__TIMESTAMP__".toList),
     ("__COUNTER__".toList, "__COUNTER__".toList)] pp

/-- The preprocessor after `k` expansions of the token `__COUNTER__` by
`MacroReplacement`, one after the other. -/
def ExpandCounterTimes (fuel : Nat) (ps : Prescanner) : Nat → Preprocessor → Run Preprocessor
  | 0, pp => .done pp
  | k + 1, pp =>
    match MacroReplacement fuel ps pp ["__COUNTER__".toList] none false with
    | .done r => ExpandCounterTimes fuel ps k r.pp
    | .crash c => .crash c
    | .outOfFuel => .outOfFuel

/-- The tokens from `s` up to `p` are read by `ExpressionValue` as one operand of
value `a`, without error: what it reads at the level of a unary operand (minimum
precedence 14), that is a literal, a name, a parenthesised expression, or a unary
operator with its operand. -/
def IsOperand (fuel : Nat) (token : TokenSequence) (s p : Nat) (a : Int) : Prop :=
  ExpressionValue fuel token 14 s none = .done ⟨a, p, none⟩

/-- The value is a `std::int64_t`. -/
def IsInt64 (a : Int) : Prop := int64Min ≤ a ∧ a ≤ int64Max

/-- The relational operators that the specification names by a symbol, with the
relation each stands for. -/
def RelationSymbol (t : List Char) : Option (Int → Int → Bool) :=
  if t = "<".toList then some (fun a b => decide (a < b))
  else if t = "<=".toList then some (fun a b => decide (a ≤ b))
  else if t = "==".toList then some (fun a b => decide (a = b))
  else if t = "!=".toList then some (fun a b => decide (a ≠ b))
  else if t = "/=".toList then some (fun a b => decide (a ≠ b))
  else if t = ">=".toList then some (fun a b => decide (a ≥ b))
  else if t = ">".toList then some (fun a b => decide (a > b))
  else none

/-- The relational operators that the specification names in the Fortran spelling
(`.LT.` and so on), by the name between the dots in lower case. -/
def RelationName (t : List Char) : Option (Int → Int → Bool) :=
  if t = "lt".toList then some (fun a b => decide (a < b))
  else if t = "le".toList then some (fun a b => decide (a ≤ b))
  else if t = "eq".toList then some (fun a b => decide (a = b))
  else if t = "ne".toList then some (fun a b => decide (a ≠ b))
  else if t = "ge".toList then some (fun a b => decide (a ≥ b))
  else if t = "gt".toList then some (fun a b => decide (a > b))
  else none

/-- The relational operator written at the token `p`, if any, and the number of
tokens it takes: a symbol is one token; a Fortran spelling is a dot, the name in any
letter case, and a dot. -/
def RelationAt (token : TokenSequence) (p : Nat) : Option ((Int → Int → Bool) × Nat) :=
  if TokenAt token p = ".".toList ∧ p + 2 < token.length ∧
      TokenAt token (p + 2) = ".".toList then
    (RelationName (ToLowerCaseLetters (TokenAt token (p + 1)))).map (fun r => (r, 3))
  else (RelationSymbol (TokenAt token p)).map (fun r => (r, 1))

/-- The binary logical operators that the specification names by a symbol: the
operation on truth values and the value that the code gives for true. -/
def LogicalSymbol (t : List Char) : Option ((Bool → Bool → Bool) × Int) :=
  if t = "&&".toList then some (fun x y => x && y, 1)
  else if t = "||".toList then some (fun x y => x || y, 1)
  else none

/-- The binary logical operators that the specification names in the Fortran
spelling, by the name between the dots in lower case: the operation on truth values
and the value that the code gives for true. -/
def LogicalName (t : List Char) : Option ((Bool → Bool → Bool) × Int) :=
  if t = "and".toList then some (fun x y => x && y, 1)
  else if t = "or".toList then some (fun x y => x || y, 1)
  else if t = "eqv".toList then some (fun x y => x == y, -1)
  else if t = "neqv".toList then some (fun x y => x != y, -1)
  else if t = "xor".toList then some (fun x y => x != y, -1)
  else none

/-- The binary logical operator written at the token `p`, if any, with the value for
true and the number of tokens it takes. -/
def LogicalAt (token : TokenSequence) (p : Nat) :
    Option (((Bool → Bool → Bool) × Int) × Nat) :=
  if TokenAt token p = ".".toList ∧ p + 2 < token.length ∧
      TokenAt token (p + 2) = ".".toList then
    (LogicalName (ToLowerCaseLetters (TokenAt token (p + 1)))).map (fun r => (r, 3))
  else (LogicalSymbol (TokenAt token p)).map (fun r => (r, 1))

/-! ## Notions for argument substitution, `__VA_OPT__` and re-entrancy -/

/-- Whether the token at `j` of a replacement text stands next to a token-pasting
operator: the nearest non-blank token before it, or the nearest after it, is `##`. -/
def PastingAdjacent (body : TokenSequence) (j : Nat) : Bool :=
  (match SkipBlanksBackwards body j with
   | some p => IsTokenPasting (TokenAt body p)
   | none => false) ||
  (decide (SkipBlanks body (j + 1) < body.length) &&
    IsTokenPasting (TokenAt body (SkipBlanks body (j + 1))))

/-- What token `j` of the replacement text of `d` stands for in an expansion: the
placeholder of a formal stands for its actual argument, as written when `asWritten`
holds or the placeholder stands next to `##`, and in the form `E` gives it
otherwise (for nothing when there is no such argument); `__VA_ARGS__` in a variadic
definition stands for the arguments beyond the formals; any other token stands for
itself. -/
def ExpandToken (d : Definition) (args : List TokenSequence)
    (E : TokenSequence → TokenSequence) (asWritten : Bool) (j : Nat) (token : Token) :
    TokenSequence :=
  if IsPlaceholderShaped token then
    if d.GetArgumentIndex token < args.length then
      if asWritten || PastingAdjacent d.replacement j then
        args.getD (d.GetArgumentIndex token) []
      else E (args.getD (d.GetArgumentIndex token) [])
    else []
  else if d.isVariadic && token == "__VA_ARGS__".toList then
    VariadicArguments (args.drop d.argumentCount)
  else [token]

/-- The tokens of the replacement text of `d` from token `j` on (the list is that
part of it), each replaced by what it stands for. -/
def SubstituteArguments (d : Definition) (args : List TokenSequence)
    (E : TokenSequence → TokenSequence) (asWritten : Bool) : List Token → Nat → TokenSequence
  | [], _ => []
  | token :: rest, j =>
    ExpandToken d args E asWritten j token ++ SubstituteArguments d args E asWritten rest (j + 1)

/-- The nesting depth of parentheses after the tokens, from depth `depth`; `none`
when a parenthesis closes below depth 0. -/
def ParenthesesDepth : List Token → Nat → Option Nat
  | [], depth => some depth
  | token :: rest, depth =>
    if OnlyNonBlank token == '(' then ParenthesesDepth rest (depth + 1)
    else if OnlyNonBlank token == ')' then
      if depth == 0 then none else ParenthesesDepth rest (depth - 1)
    else ParenthesesDepth rest depth

/-- The definition that `#define LOG(fmt,...) f(fmt __VA_OPT__(, (__VA_ARGS__)))`
enters for `LOG`. -/
def LogDefinition : Definition :=
  { isFunctionLike := true, isVariadic := true, argNames := ["fmt".toList],
    replacement := ["f".toList, "(".toList, argPlaceholder 0, "__VA_OPT__".toList, "(".toList,
      ",".toList, " ".toList, "(".toList, "__VA_ARGS__".toList, ")".toList, ")".toList,
      ")".toList] }

/-- The store after `#define F(x) x` and `#define A F A`. -/
def RecursiveStore : Preprocessor :=
  { definitions := [("F".toList, SubstitutionDefinition ["x".toList] ["x".toList]),
      ("A".toList, { replacement := ["F".toList, " ".toList, "A".toList] })] }

/-! ## Notions for the conditional stack -/

/-- What one iteration of the main loop leaves has the conditional stack of `pp`. -/
def Step.KeepsStack (pp : Preprocessor) : Step → Prop
  | .next _ _ _ pp1 => pp1.ifStack = pp.ifStack
  | .ret r => r.pp.ifStack = pp.ifStack

/-- The directive line `#ifdef N`. -/
def IfdefLine (N : Token) : Line := ⟨true, ["#".toList, "ifdef".toList, " ".toList, N]⟩

/-- The directive line `#ifndef N`. -/
def IfndefLine (N : Token) : Line := ⟨true, ["#".toList, "ifndef".toList, " ".toList, N]⟩

/-- The tokens are a condition that `IsIfPredicateTrue` evaluates with the given
fuel, whatever the state of the preprocessor and of the prescanner. -/
def Evaluates (fuel : Nat) (c : TokenSequence) : Prop :=
  IsCondition c = true ∧
    ∀ pp ps, ∃ v pp1 ps1, IsIfPredicateTrue fuel c 0 c.length pp ps = .done (v, pp1, ps1)

/-- The line opens a conditional block: `#if c` with a condition that can be
evaluated, `#ifdef N` or `#ifndef N` with a name, without excess tokens. -/
inductive IsOpener (fuel : Nat) : Line → Prop
  | ifLine (c : TokenSequence) (h : Evaluates fuel c) : IsOpener fuel (IfLine c)
  | ifdefLine (N : Token) (h : IsLegalIdentifierStartToken N = true) : IsOpener fuel (IfdefLine N)
  | ifndefLine (N : Token) (h : IsLegalIdentifierStartToken N = true) :
    IsOpener fuel (IfndefLine N)

/-- Well-nested lines. `Nested fuel false ls`: the lines `ls` are text lines and
well-nested conditional blocks, one after the other. `Nested fuel true ls`: the lines
`ls` are what follows a branch of a block up to its `#endif`, that is any number of
`#elif` branches, at most one `#else` branch, and `#endif`, every branch being made
of text lines and well-nested blocks. -/
inductive Nested (fuel : Nat) : Bool → List Line → Prop
  | nil : Nested fuel false []
  | text (t : TokenSequence) (ls : List Line) (h : Nested fuel false ls) :
    Nested fuel false (⟨false, t⟩ :: ls)
  | block (o : Line) (b tail ls : List Line) (ho : IsOpener fuel o) (hb : Nested fuel false b)
      (ht : Nested fuel true tail) (h : Nested fuel false ls) :
    Nested fuel false (o :: (b ++ (tail ++ ls)))
  | endif : Nested fuel true [EndifLine]
  | elseLine (b : List Line) (hb : Nested fuel false b) :
    Nested fuel true (ElseLine :: (b ++ [EndifLine]))
  | elifLine (c : TokenSequence) (b tail : List Line) (hc : Evaluates fuel c)
      (hb : Nested fuel false b) (ht : Nested fuel true tail) :
    Nested fuel true (ElifLine c :: (b ++ tail))

/-- What the pull loop does with the outcome of a directive: it goes on from the
state that the directive leaves. -/
def PrescanAfter (fuel n : Nat) : Run (Preprocessor × Prescanner) → Run (Preprocessor × Prescanner)
  | .done (pp, prescanner) => Prescan fuel n pp prescanner
  | .crash c => .crash c
  | .outOfFuel => .outOfFuel

/-! ## Printing of definitions (`Definition::Print`, `PrintMacros`) -/

/-- The member function `Definition::Print`: the text written after the name of the
macro. For a function-like macro the formal names are separated by a comma and a
blank, `, ...` follows when the macro is variadic, and every token of the replacement
whose argument index is below the number of formals is written as that formal. -/
def Definition.Print (d : Definition) : List Char :=
  if !d.isFunctionLike then ' ' :: ToString d.replacement
  else
    let argCount := d.argumentCount
    ['('] ++ ", ".toList.intercalate d.argNames ++
      (if d.isVariadic then ", ...".toList else []) ++ ") ".toList ++
      (d.replacement.map (fun tok =>
        let idx := d.GetArgumentIndex tok
        if idx < argCount then d.argNames.getD idx [] else tok)).flatten

/-- The order of `std::string`: lexicographic on the character codes. -/
def stringLess : List Char → List Char → Bool
  | [], [] => false
  | [], _ :: _ => true
  | _ :: _, [] => false
  | a :: as, b :: bs =>
    if a.toNat < b.toNat then true
    else if b.toNat < a.toNat then false
    else stringLess as bs

/-- The call `macroNames.insert(name)` on an ordered `std::set<std::string>`, held as
a sorted list. -/
def setInsert (name : List Char) : List (List Char) → List (List Char)
  | [] => [name]
  | x :: rest =>
    if stringLess name x then name :: x :: rest
    else if stringLess x name then x :: setInsert name rest
    else x :: rest

/-- The second loop of `PrintMacros`: one `#define` line for every name; `at` raises
`std::out_of_range` for a name that is not in the map. -/
def PrintMacroLines (pp : Preprocessor) : List (List Char) → Run (List Char)
  | [] => .done []
  | name :: rest =>
    match pp.find name with
    | none => .crash .outOfRange
    | some d =>
      match PrintMacroLines pp rest with
      | .done out => .done ("#define ".toList ++ name ++ d.Print ++ ['\n'] ++ out)
      | .crash c => .crash c
      | .outOfFuel => .outOfFuel

/-- The member function `Preprocessor::PrintMacros`: the text written to the
stream. -/
def Preprocessor.PrintMacros (pp : Preprocessor) : Run (List Char) :=
  PrintMacroLines pp (pp.definitions.foldl (fun names p => setInsert p.1 names) [])

/-! ## Notions for rescanning, skipping and the disabled flag -/

/-- The store after the directives `#define N 5`, `#define F(x) x` and
`#define G F + N`. -/
def RescanStore : Preprocessor :=
  { definitions :=
      [("N".toList, { replacement := ["5".toList] }),
       ("F".toList, { isFunctionLike := true, argNames := ["x".toList],
                      replacement := [argPlaceholder 0] }),
       ("G".toList, { replacement := ["F".toList, " ".toList, "+".toList, " ".toList,
                        "N".toList] })] }

/-- The name of the directive on a physical line, empty for a line of text. -/
def Line.directiveName (l : Line) : List Char :=
  if l.isDirective then (GetDirectiveName l.tokens).1 else []

/-- The line is `#if`, `#ifdef` or `#ifndef`. -/
def Line.opensGroup (l : Line) : Bool :=
  l.directiveName == "ifdef".toList || l.directiveName == "ifndef".toList ||
    l.directiveName == "if".toList

/-- The nesting depth after the lines `ls`, entered at depth `d`: the number of
`#if`, `#ifdef` and `#ifndef` lines minus the number of `#endif` lines. The result is
`none` when one of the lines, at depth 0, is a directive that can end a skipped
region: an `#endif`, or, when `alternatives` is set (an else may still become
active), an `#else` or an `#elif`. -/
def SkippedDepth (alternatives : Bool) : List Line → Nat → Option Nat
  | [], d => some d
  | l :: rest, d =>
    if l.opensGroup then SkippedDepth alternatives rest (d + 1)
    else if l.directiveName == "endif".toList then
      if d = 0 then none else SkippedDepth alternatives rest (d - 1)
    else if alternatives && d == 0 &&
        (l.directiveName == "else".toList || l.directiveName == "elif".toList) then none
    else SkippedDepth alternatives rest d

/-- The keys of the map `definitions_` are distinct. -/
def Preprocessor.KeysDistinct (pp : Preprocessor) : Prop :=
  (pp.definitions.map Prod.fst).Nodup

/-- The definitions of `pp1` are those of `pp`, disabled flags included, when `pp`
is a map. -/
def SameDefinitions (pp pp1 : Preprocessor) : Prop :=
  pp.KeysDistinct → pp1.definitions = pp.definitions

/-- What one iteration of the main loop leaves has the definitions of `pp`. -/
def Step.KeepsDefinitions (pp : Preprocessor) : Step → Prop
  | .next _ _ _ pp1 => SameDefinitions pp pp1
  | .ret r => SameDefinitions pp r.pp

/-! ## Sequencing of runs, and conditional groups with their branches -/

/-- The outcome of a run followed by what is done with its result; a crash and the
lack of fuel are passed on. -/
def Run.andThen {α β : Type} (r : Run α) (f : α → Run β) : Run β :=
  match r with
  | .done a => f a
  | .crash c => .crash c
  | .outOfFuel => .outOfFuel

/-- The opening line of a conditional group: `#if c`, `#ifdef N` or `#ifndef N`. -/
inductive Opening where
  | ifLine (c : TokenSequence)
  | ifdefLine (N : Token)
  | ifndefLine (N : Token)
  deriving DecidableEq, Repr

/-- The directive line of an opening. -/
def Opening.line : Opening → Line
  | .ifLine c => IfLine c
  | .ifdefLine N => IfdefLine N
  | .ifndefLine N => IfndefLine N

/-- The name of the directive of an opening. -/
def Opening.name : Opening → List Char
  | .ifLine _ => "if".toList
  | .ifdefLine _ => "ifdef".toList
  | .ifndefLine _ => "ifndef".toList

/-- The opening line has a condition, or a name, and nothing after it. -/
def Opening.IsWellFormed : Opening → Bool
  | .ifLine c => IsCondition c
  | .ifdefLine N => IsLegalIdentifierStartToken N
  | .ifndefLine N => IsLegalIdentifierStartToken N

/-- Whether the condition of the opening line holds, with the preprocessor and the
prescanner that its evaluation leaves: `#if c` holds when `IsIfPredicateTrue` finds
`c` non-zero, `#ifdef N` when `N` is defined, `#ifndef N` when it is not. -/
def Opening.holds (fuel : Nat) (o : Opening) (pp : Preprocessor) (ps : Prescanner) :
    Run (Bool × Preprocessor × Prescanner) :=
  match o with
  | .ifLine c => IsIfPredicateTrue fuel c 0 c.length pp ps
  | .ifdefLine N => .done (pp.IsNameDefined N, pp, ps)
  | .ifndefLine N => .done (!pp.IsNameDefined N, pp, ps)

/-- The lines of `#elif` branches: each condition with the lines of its branch. -/
def ElifBlocks : List (TokenSequence × List Line) → List Line
  | [] => []
  | (c, body) :: rest => ElifLine c :: (body ++ ElifBlocks rest)

/-- The first `#elif` branch whose condition holds, the conditions being evaluated in
order until one does: the lines of that branch and the branches after it, or none
when no condition holds; with the preprocessor and the prescanner that the
evaluations leave. -/
def FirstElif (fuel : Nat) : List (TokenSequence × List Line) → Preprocessor → Prescanner →
    Run (Option (List Line × List (TokenSequence × List Line)) × Preprocessor × Prescanner)
  | [], pp, ps => .done (none, pp, ps)
  | (c, body) :: rest, pp, ps =>
    match IsIfPredicateTrue fuel c 0 c.length pp ps with
    | .done (true, pp1, ps1) => .done (some (body, rest), pp1, ps1)
    | .done (false, pp1, ps1) => FirstElif fuel rest pp1 ps1
    | .crash e => .crash e
    | .outOfFuel => .outOfFuel

/-- The line that starts a later branch of a group: `#else`, or `#elif c`. -/
def BranchLine : Option TokenSequence → Line
  | none => ElseLine
  | some c => ElifLine c

/-- The lines of branches that each start with `#else` or with `#elif c`, one after
the other. -/
def Branches : List (Option TokenSequence × List Line) → List Line
  | [] => []
  | (h, body) :: rest => BranchLine h :: (body ++ Branches rest)

/-- The lines of a group in which `#else` occurs twice, up to the second `#else`: the
opening line and the lines of the first branch, the `#elif` branches, `#else` and
the lines of its branch, and the second `#else`; `tail` is what follows it. -/
def GroupWithTwoElse (o : Opening) (b0 : List Line) (elifs : List (TokenSequence × List Line))
    (b1 tail : List Line) : List Line :=
  o.line :: (b0 ++ (ElifBlocks elifs ++ ElseLine :: (b1 ++ ElseLine :: tail)))

/-! ## Lemmas about the expression evaluator -/

theorem IsLiteral.range {t : Token} {v : Int} (h : IsLiteral t v) : 0 ≤ v ∧ v ≤ int64Max := by
  obtain ⟨_, h2⟩ := h
  unfold stoll at h2
  simp only at h2
  split_ifs at h2 with h3 h4
  simp only [Run.done.injEq, Prod.mk.injEq] at h2
  obtain ⟨rfl, _⟩ := h2
  exact ⟨Int.ofNat_nonneg _, not_lt.mp h4⟩

theorem ParsePrimary_literal (token : TokenSequence) (atToken : Nat) (v : Int)
    (h : IsLiteral (TokenAt token atToken) v) :
    ParsePrimary token atToken = .done (.ok (.CONST, v, atToken)) := by
  obtain ⟨h1, h2⟩ := h
  have hne : (TokenAt token atToken == "(".toList) = false := by
    cases ht : TokenAt token atToken with
    | nil => rfl
    | cons c rest =>
      rw [ht] at h1
      simp only [List.head?_cons, Option.getD_some] at h1
      have : c ≠ '(' := by
        rintro rfl
        revert h1
        decide
      simp [this]
  unfold ParsePrimary
  simp only [hne, h1, h2, lt_self_iff_false, if_false, if_true, Bool.false_eq_true]

/-- `ExpressionValue` at a literal: the constant is read and the loop over the binary
operators starts after it. -/
theorem ExpressionValue_literal (fuel : Nat) (token : TokenSequence) (minimumPrecedence : Int)
    (atToken : Nat) (error : Option Message) (v : Int)
    (hat : atToken < token.length) (hprec : minimumPrecedence ≤ 15)
    (h : IsLiteral (TokenAt token atToken) v) :
    ExpressionValue (fuel + 1) token minimumPrecedence atToken error =
      BinaryLoop (ExpressionValue fuel token) token minimumPrecedence (token.length - atToken)
        v (atToken + 1) error := by
  have hlen : token.length ≠ 0 := by omega
  have hp : ¬ precedence Operator.CONST < minimumPrecedence := by
    have : precedence Operator.CONST = 15 := rfl
    omega
  simp only [ExpressionValue, hlen, if_false, ge_iff_le, not_le.mpr hat,
    ParsePrimary_literal token atToken v h, hp, if_true]

theorem BinaryLoop_end (ev : EvalFn) (token : TokenSequence) (minimumPrecedence : Int) (n : Nat)
    (left : Int) (atToken : Nat) (error : Option Message) (hat : token.length ≤ atToken) :
    BinaryLoop ev token minimumPrecedence n left atToken error = .done ⟨left, atToken, error⟩ := by
  cases n <;> simp [BinaryLoop, not_lt.mpr hat]

theorem BinaryLoop_stop (ev : EvalFn) (token : TokenSequence) (minimumPrecedence : Int) (n : Nat)
    (left : Int) (atToken : Nat) (error : Option Message) (op : Operator)
    (hn : 0 < n)
    (hop : opNameMap (BinaryOperatorText token atToken).1 = some op)
    (hprec : precedence op < minimumPrecedence) :
    BinaryLoop ev token minimumPrecedence n left atToken error =
      .done ⟨left, atToken, error⟩ := by
  obtain ⟨m, rfl⟩ := Nat.exists_eq_succ_of_ne_zero (Nat.pos_iff_ne_zero.mp hn)
  simp [BinaryLoop, hop, hprec]

theorem BinaryLoop_noOperator (ev : EvalFn) (token : TokenSequence) (minimumPrecedence : Int)
    (n : Nat) (left : Int) (atToken : Nat) (error : Option Message)
    (hn : 0 < n)
    (hop : opNameMap (BinaryOperatorText token atToken).1 = none) :
    BinaryLoop ev token minimumPrecedence n left atToken error =
      .done ⟨left, atToken, error⟩ := by
  obtain ⟨m, rfl⟩ := Nat.exists_eq_succ_of_ne_zero (Nat.pos_iff_ne_zero.mp hn)
  simp [BinaryLoop, hop]

theorem BinaryLoop_binary (ev : EvalFn) (token : TokenSequence) (minimumPrecedence : Int)
    (n : Nat) (left : Int) (atToken : Nat) (error : Option Message) (op : Operator)
    (right : Int) (rightAt : Nat) (left1 : Int) (error1 : Option Message)
    (hn : 0 < n) (hat : atToken < token.length)
    (hop : opNameMap (BinaryOperatorText token atToken).1 = some op)
    (hbin : Operator.POWER.code ≤ op.code) (hprec : minimumPrecedence ≤ precedence op)
    (hsel : op ≠ .SELECT)
    (hev : ev (operandPrecedence op) (atToken + (BinaryOperatorText token atToken).2) error =
      .done ⟨right, rightAt, none⟩)
    (happ : ApplyBinary op left right none = .done (left1, error1)) :
    BinaryLoop ev token minimumPrecedence n left atToken error =
      BinaryLoop ev token minimumPrecedence (n - 1) left1 rightAt error1 := by
  obtain ⟨m, rfl⟩ := Nat.exists_eq_succ_of_ne_zero (Nat.pos_iff_ne_zero.mp hn)
  simp [BinaryLoop, hat, hop, not_lt.mpr hbin, not_lt.mpr hprec, hev, hsel, happ]

theorem BinaryLoop_select (ev : EvalFn) (token : TokenSequence) (minimumPrecedence : Int)
    (n : Nat) (left : Int) (atToken : Nat) (error : Option Message)
    (right : Int) (rightAt : Nat) (third : Evaluated)
    (hn : 0 < n) (hat : atToken < token.length)
    (hop : opNameMap (BinaryOperatorText token atToken).1 = some .SELECT)
    (hprec : minimumPrecedence ≤ 1)
    (hev : ev 1 (atToken + (BinaryOperatorText token atToken).2) error =
      .done ⟨right, rightAt, none⟩)
    (hcolon : rightAt < token.length ∧ TokenAt token rightAt = ":".toList)
    (hthird : ev 1 (rightAt + 1) none = .done third) :
    BinaryLoop ev token minimumPrecedence n left atToken error =
      BinaryLoop ev token minimumPrecedence (n - 1) (if left ≠ 0 then right else third.value)
        third.atToken third.error := by
  obtain ⟨m, rfl⟩ := Nat.exists_eq_succ_of_ne_zero (Nat.pos_iff_ne_zero.mp hn)
  have h1 : operandPrecedence Operator.SELECT = 1 := rfl
  have h2 : precedence Operator.SELECT = 1 := rfl
  have h3 : ¬ (Operator.SELECT.code < Operator.POWER.code) := by decide
  simp [BinaryLoop, hat, hop, h1, h2, h3, not_lt.mpr hprec, hev, hcolon.1, hcolon.2, hthird]

theorem wrap64_of_range {x : Int} (h1 : int64Min ≤ x) (h2 : x ≤ int64Max) : wrap64 x = x := by
  unfold wrap64
  unfold int64Min at h1
  unfold int64Max at h2
  norm_num at h1 h2 ⊢
  omega

theorem ApplyBinary_add {left right : Int} (error : Option Message)
    (hl : int64Min ≤ left ∧ left ≤ int64Max) (hr : int64Min ≤ right ∧ right ≤ int64Max)
    (hs : int64Min ≤ left + right ∧ left + right ≤ int64Max) :
    ApplyBinary .ADD left right error = .done (left + right, error) := by
  have hw := wrap64_of_range hs.1 hs.2
  simp only [ApplyBinary, hw]
  congr 2
  rw [if_neg]
  unfold int64Min int64Max at *
  simp only [Bool.and_eq_true, beq_iff_eq, bne_iff_ne, ne_eq, decide_eq_decide, not_and,
    not_not]
  omega

theorem ApplyBinary_times {left right : Int} (error : Option Message)
    (hl : int64Min ≤ left ∧ left ≤ int64Max) (hr : int64Min ≤ right ∧ right ≤ int64Max)
    (hp : int64Min ≤ left * right ∧ left * right ≤ int64Max) :
    ApplyBinary .TIMES left right error = .done (left * right, error) := by
  have hw := wrap64_of_range hp.1 hp.2
  simp only [ApplyBinary, hw]
  by_cases h0 : left ≠ 0 ∧ right ≠ 0
  · have hd : div64 (left * right) left = .done right := by
      unfold div64
      rw [if_neg]
      · rw [Int.mul_comm, Int.mul_tdiv_cancel _ h0.1]
      · rintro (h | ⟨h1, h2⟩)
        · exact h0.1 h
        · subst h2
          unfold int64Min int64Max at *
          omega
    simp [h0, hd]
  · simp [h0]


/-- A literal in front of the tokens `rest`, read at the top of an operand. -/
theorem ExpressionValue_lastLiteral (fuel : Nat) (token : TokenSequence) (minimumPrecedence : Int)
    (atToken : Nat) (error : Option Message) (v : Int)
    (hat : atToken + 1 = token.length) (hprec : minimumPrecedence ≤ 15)
    (h : IsLiteral (TokenAt token atToken) v) :
    ExpressionValue (fuel + 1) token minimumPrecedence atToken error =
      .done ⟨v, atToken + 1, error⟩ := by
  rw [ExpressionValue_literal fuel token minimumPrecedence atToken error v (by omega) hprec h]
  exact BinaryLoop_end _ _ _ _ _ _ _ (by omega)

/-- `ExpressionValue` at a unary operator other than a parenthesis whose operand is
evaluated without error. -/
theorem ExpressionValue_unary (fuel : Nat) (token : TokenSequence) (minimumPrecedence : Int)
    (atToken : Nat) (error : Option Message) (op : Operator) (constant : Int) (atToken1 : Nat)
    (value : Int) (atToken2 : Nat) (left : Int)
    (hat : atToken < token.length)
    (hparse : ParsePrimary token atToken = .done (.ok (op, constant, atToken1)))
    (hprec : minimumPrecedence ≤ precedence op) (hconst : op ≠ .CONST) (hparen : op ≠ .PARENS)
    (hev : ExpressionValue fuel token (operandPrecedence op) (atToken1 + 1) error =
      .done ⟨value, atToken2, none⟩)
    (hun : ApplyUnary op value = .done left) :
    ExpressionValue (fuel + 1) token minimumPrecedence atToken error =
      BinaryLoop (ExpressionValue fuel token) token minimumPrecedence (token.length - atToken)
        left atToken2 none := by
  have hlen : token.length ≠ 0 := by omega
  simp [ExpressionValue, hlen, not_le.mpr hat, hparse, not_lt.mpr hprec, hconst, hparen, hev,
    hun]

theorem IsLiteral_zero : IsLiteral "0".toList 0 := by
  constructor <;> decide

/-! ## Theorems -/

/-- C8. Operator precedence: for integer literals `a`, `b`, `c` (tokens read
entirely by `stoll`) whose intermediate results do not overflow, `ExpressionValue`
with minimum precedence 0 evaluates `a + b * c` to `a + (b * c)` and `a * b + c` to
`(a * b) + c`, consuming the five tokens and reporting no error. -/
theorem ExpressionValue_precedence (ta tb tc : Token) (a b c : Int) (fuel : Nat)
    (ha : IsLiteral ta a) (hb : IsLiteral tb b) (hc : IsLiteral tc c) :
    (b * c ≤ int64Max → a + b * c ≤ int64Max →
      ExpressionValue (fuel + 3) [ta, "+".toList, tb, "*".toList, tc] 0 0 none =
        .done ⟨a + b * c, 5, none⟩) ∧
    (a * b ≤ int64Max → a * b + c ≤ int64Max →
      ExpressionValue (fuel + 3) [ta, "*".toList, tb, "+".toList, tc] 0 0 none =
        .done ⟨a * b + c, 5, none⟩) := by
  have ra := ha.range
  have rb := hb.range
  have rc := hc.range
  have hmin : int64Min ≤ 0 := by decide
  constructor
  · intro h1 h2
    have hbc : 0 ≤ b * c := Int.mul_nonneg rb.1 rc.1
    generalize htk : [ta, "+".toList, tb, "*".toList, tc] = tk
    have hlen : tk.length = 5 := by rw [← htk]; rfl
    have t0 : TokenAt tk 0 = ta := by rw [← htk]; rfl
    have t2 : TokenAt tk 2 = tb := by rw [← htk]; rfl
    have t4 : TokenAt tk 4 = tc := by rw [← htk]; rfl
    have o1 : BinaryOperatorText tk 1 = ("+".toList, 1) := by rw [← htk]; rfl
    have o3 : BinaryOperatorText tk 3 = ("*".toList, 1) := by rw [← htk]; rfl
    have e3 : ExpressionValue (fuel + 1) tk 12 4 none = .done ⟨c, 5, none⟩ :=
      ExpressionValue_lastLiteral fuel tk 12 4 none c (by omega) (by decide) (t4 ▸ hc)
    have e2 : ExpressionValue (fuel + 2) tk 11 2 none = .done ⟨b * c, 5, none⟩ := by
      rw [ExpressionValue_literal (fuel + 1) tk 11 2 none b (by omega) (by decide) (t2 ▸ hb)]
      rw [BinaryLoop_binary _ tk 11 _ b 3 none .TIMES c 5 (b * c) none (by omega) (by omega)
        (by rw [o3]; rfl) (by decide) (by decide) (by decide) (by rw [o3]; exact e3)
        (ApplyBinary_times none ⟨by omega, rb.2⟩ ⟨by omega, rc.2⟩ ⟨by omega, h1⟩)]
      exact BinaryLoop_end _ _ _ _ _ _ _ (by simp [hlen])
    rw [ExpressionValue_literal (fuel + 2) tk 0 0 none a (by omega) (by decide) (t0 ▸ ha)]
    rw [BinaryLoop_binary _ tk 0 _ a 1 none .ADD (b * c) 5 (a + b * c) none (by omega) (by omega)
      (by rw [o1]; rfl) (by decide) (by decide) (by decide) (by rw [o1]; exact e2)
      (ApplyBinary_add none ⟨by omega, ra.2⟩ ⟨by omega, h1⟩ ⟨by omega, h2⟩)]
    exact BinaryLoop_end _ _ _ _ _ _ _ (by simp [hlen])
  · intro h1 h2
    have hab : 0 ≤ a * b := Int.mul_nonneg ra.1 rb.1
    generalize htk : [ta, "*".toList, tb, "+".toList, tc] = tk
    have hlen : tk.length = 5 := by rw [← htk]; rfl
    have t0 : TokenAt tk 0 = ta := by rw [← htk]; rfl
    have t2 : TokenAt tk 2 = tb := by rw [← htk]; rfl
    have t4 : TokenAt tk 4 = tc := by rw [← htk]; rfl
    have o1 : BinaryOperatorText tk 1 = ("*".toList, 1) := by rw [← htk]; rfl
    have o3 : BinaryOperatorText tk 3 = ("+".toList, 1) := by rw [← htk]; rfl
    have e3 : ExpressionValue (fuel + 2) tk 11 4 none = .done ⟨c, 5, none⟩ :=
      ExpressionValue_lastLiteral (fuel + 1) tk 11 4 none c (by omega) (by decide) (t4 ▸ hc)
    have e2 : ExpressionValue (fuel + 2) tk 12 2 none = .done ⟨b, 3, none⟩ := by
      rw [ExpressionValue_literal (fuel + 1) tk 12 2 none b (by omega) (by decide) (t2 ▸ hb)]
      exact BinaryLoop_stop _ tk 12 _ b 3 none .ADD (by omega) (by rw [o3]; rfl) (by decide)
    rw [ExpressionValue_literal (fuel + 2) tk 0 0 none a (by omega) (by decide) (t0 ▸ ha)]
    rw [BinaryLoop_binary _ tk 0 _ a 1 none .TIMES b 3 (a * b) none (by omega) (by omega)
      (by rw [o1]; rfl) (by decide) (by decide) (by decide) (by rw [o1]; exact e2)
      (ApplyBinary_times none ⟨by omega, ra.2⟩ ⟨by omega, rb.2⟩ ⟨by omega, h1⟩)]
    rw [BinaryLoop_binary _ tk 0 _ (a * b) 3 none .ADD c 5 (a * b + c) none (by omega) (by omega)
      (by rw [o3]; rfl) (by decide) (by decide) (by decide) (by rw [o3]; exact e3)
      (ApplyBinary_add none ⟨by omega, h1⟩ ⟨by omega, rc.2⟩ ⟨by omega, h2⟩)]
    exact BinaryLoop_end _ _ _ _ _ _ _ (by simp [hlen])

/-- Witness of C8: `1+2*3` evaluates to 7 and `1*2+3` to 5. -/
theorem ExpressionValue_precedence_witness :
    ExpressionValue 3 ["1".toList, "+".toList, "2".toList, "*".toList, "3".toList] 0 0 none =
        .done ⟨7, 5, none⟩ ∧
    ExpressionValue 3 ["1".toList, "*".toList, "2".toList, "+".toList, "3".toList] 0 0 none =
        .done ⟨5, 5, none⟩ := by
  have h := ExpressionValue_precedence "1".toList "2".toList "3".toList 1 2 3 0
    (by constructor <;> decide) (by constructor <;> decide) (by constructor <;> decide)
  exact ⟨h.1 (by decide) (by decide), h.2 (by decide) (by decide)⟩

/-- C9. Ternary selection: for integer literals `c`, `x`, `y`, `ExpressionValue`
evaluates `c ? x : y` to `x` when `c` is non-zero and to `y` when `c` is zero,
consuming the five tokens and reporting no error. -/
theorem ExpressionValue_select (tc tx ty : Token) (c x y : Int) (fuel : Nat)
    (hc : IsLiteral tc c) (hx : IsLiteral tx x) (hy : IsLiteral ty y) :
    ExpressionValue (fuel + 2) [tc, "?".toList, tx, ":".toList, ty] 0 0 none =
      .done ⟨if c ≠ 0 then x else y, 5, none⟩ := by
  generalize htk : [tc, "?".toList, tx, ":".toList, ty] = tk
  have hlen : tk.length = 5 := by rw [← htk]; rfl
  have t0 : TokenAt tk 0 = tc := by rw [← htk]; rfl
  have t2 : TokenAt tk 2 = tx := by rw [← htk]; rfl
  have t3 : TokenAt tk 3 = ":".toList := by rw [← htk]; rfl
  have t4 : TokenAt tk 4 = ty := by rw [← htk]; rfl
  have o1 : BinaryOperatorText tk 1 = ("?".toList, 1) := by rw [← htk]; rfl
  have o3 : BinaryOperatorText tk 3 = (":".toList, 1) := by rw [← htk]; rfl
  have e2 : ExpressionValue (fuel + 1) tk 1 2 none = .done ⟨x, 3, none⟩ := by
    rw [ExpressionValue_literal fuel tk 1 2 none x (by omega) (by decide) (t2 ▸ hx)]
    exact BinaryLoop_noOperator _ tk 1 _ x 3 none (by omega) (by rw [o3]; rfl)
  have e4 : ExpressionValue (fuel + 1) tk 1 4 none = .done ⟨y, 5, none⟩ :=
    ExpressionValue_lastLiteral fuel tk 1 4 none y (by omega) (by decide) (t4 ▸ hy)
  rw [ExpressionValue_literal (fuel + 1) tk 0 0 none c (by omega) (by decide) (t0 ▸ hc)]
  rw [BinaryLoop_select _ tk 0 _ c 1 none x 3 ⟨y, 5, none⟩ (by omega) (by omega)
    (by rw [o1]; rfl) (by decide) (by rw [o1]; exact e2) ⟨by omega, t3⟩ e4]
  exact BinaryLoop_end _ _ _ _ _ _ _ (by simp [hlen])

/-- Witness of C9: `1 ? 2 : 3` evaluates to 2 (and `0 ? 2 : 3` to 3). -/
theorem ExpressionValue_select_witness :
    ExpressionValue 2 ["1".toList, "?".toList, "2".toList, ":".toList, "3".toList] 0 0 none =
        .done ⟨2, 5, none⟩ ∧
    ExpressionValue 2 ["0".toList, "?".toList, "2".toList, ":".toList, "3".toList] 0 0 none =
        .done ⟨3, 5, none⟩ :=
  ⟨ExpressionValue_select "1".toList "2".toList "3".toList 1 2 3 0
      (by constructor <;> decide) (by constructor <;> decide) (by constructor <;> decide),
   ExpressionValue_select "0".toList "2".toList "3".toList 0 2 3 0
      (by constructor <;> decide) (by constructor <;> decide) (by constructor <;> decide)⟩

/-- C10. Division and modulus by zero: for every literal `n`, evaluating `n / 0`
reports the error `division by zero` and evaluating `n % 0` reports
`modulus by zero`; in both cases `ExpressionValue` returns normally with the value 0.
The same holds for the negated literal `- n`. -/
theorem ExpressionValue_zero_divisor (tn : Token) (n : Int) (fuel : Nat) (hn : IsLiteral tn n) :
    ExpressionValue (fuel + 2) [tn, "/".toList, "0".toList] 0 0 none =
      .done ⟨0, 3, some ⟨.error, "division by zero"⟩⟩ ∧
    ExpressionValue (fuel + 2) [tn, "%".toList, "0".toList] 0 0 none =
      .done ⟨0, 3, some ⟨.error, "modulus by zero"⟩⟩ ∧
    ExpressionValue (fuel + 2) ["-".toList, tn, "/".toList, "0".toList] 0 0 none =
      .done ⟨0, 4, some ⟨.error, "division by zero"⟩⟩ ∧
    ExpressionValue (fuel + 2) ["-".toList, tn, "%".toList, "0".toList] 0 0 none =
      .done ⟨0, 4, some ⟨.error, "modulus by zero"⟩⟩ := by
  have key : ∀ (opTok : Token) (op : Operator) (text : String),
      opNameMap opTok = some op → (opTok == ".".toList) = false →
      Operator.POWER.code ≤ op.code → precedence op = 12 → operandPrecedence op = 12 →
      op ≠ .SELECT →
      (∀ l : Int, ApplyBinary op l 0 none = .done (0, some ⟨.error, text⟩)) →
      ExpressionValue (fuel + 2) [tn, opTok, "0".toList] 0 0 none =
        .done ⟨0, 3, some ⟨.error, text⟩⟩ ∧
      ExpressionValue (fuel + 2) ["-".toList, tn, opTok, "0".toList] 0 0 none =
        .done ⟨0, 4, some ⟨.error, text⟩⟩ := by
    intro opTok op text hop hdot hbin hprec hoprec hsel happ
    constructor
    · generalize htk : [tn, opTok, "0".toList] = tk
      have hlen : tk.length = 3 := by rw [← htk]; rfl
      have t0 : TokenAt tk 0 = tn := by rw [← htk]; rfl
      have t2 : TokenAt tk 2 = "0".toList := by rw [← htk]; rfl
      have o1 : BinaryOperatorText tk 1 = (opTok, 1) := by
        rw [← htk]; simp [BinaryOperatorText, TokenAt, hdot]
      have e2 : ExpressionValue (fuel + 1) tk 12 2 none = .done ⟨0, 3, none⟩ :=
        ExpressionValue_lastLiteral fuel tk 12 2 none 0 (by omega) (by decide)
          (t2 ▸ IsLiteral_zero)
      rw [ExpressionValue_literal (fuel + 1) tk 0 0 none n (by omega) (by decide) (t0 ▸ hn)]
      rw [BinaryLoop_binary _ tk 0 _ n 1 none op 0 3 0 (some ⟨.error, text⟩) (by omega)
        (by omega) (by rw [o1]; exact hop) hbin (by rw [hprec]; decide) hsel
        (by rw [o1, hoprec]; exact e2) (happ n)]
      exact BinaryLoop_end _ _ _ _ _ _ _ (by simp [hlen])
    · generalize htk : ["-".toList, tn, opTok, "0".toList] = tk
      have hlen : tk.length = 4 := by rw [← htk]; rfl
      have t1 : TokenAt tk 1 = tn := by rw [← htk]; rfl
      have t3 : TokenAt tk 3 = "0".toList := by rw [← htk]; rfl
      have o2 : BinaryOperatorText tk 2 = (opTok, 1) := by
        rw [← htk]; simp [BinaryOperatorText, TokenAt, hdot]
      have p0 : ParsePrimary tk 0 = .done (.ok (.UMINUS, 0, 0)) := by rw [← htk]; rfl
      have e1 : ExpressionValue (fuel + 1) tk 15 1 none = .done ⟨n, 2, none⟩ := by
        rw [ExpressionValue_literal fuel tk 15 1 none n (by omega) (by decide) (t1 ▸ hn)]
        exact BinaryLoop_stop _ tk 15 _ n 2 none op (by omega) (by rw [o2]; exact hop)
          (by rw [hprec]; decide)
      have e3 : ExpressionValue (fuel + 1) tk 12 3 none = .done ⟨0, 4, none⟩ :=
        ExpressionValue_lastLiteral fuel tk 12 3 none 0 (by omega) (by decide)
          (t3 ▸ IsLiteral_zero)
      rw [ExpressionValue_unary (fuel + 1) tk 0 0 none .UMINUS 0 0 n 2 (wrap64 (-n)) (by omega)
        p0 (by decide) (by decide) (by decide) e1 rfl]
      rw [BinaryLoop_binary _ tk 0 _ (wrap64 (-n)) 2 none op 0 4 0 (some ⟨.error, text⟩)
        (by omega) (by omega) (by rw [o2]; exact hop) hbin (by rw [hprec]; decide) hsel
        (by rw [o2, hoprec]; exact e3) (happ _)]
      exact BinaryLoop_end _ _ _ _ _ _ _ (by simp [hlen])
  have hd := key "/".toList .DIVIDE "division by zero" (by decide) (by decide) (by decide)
    (by decide) (by decide) (by decide) (fun l => by simp [ApplyBinary, exprError])
  have hm := key "%".toList .MODULUS "modulus by zero" (by decide) (by decide) (by decide)
    (by decide) (by decide) (by decide) (fun l => by simp [ApplyBinary, exprError])
  exact ⟨hd.1, hm.1, hd.2, hm.2⟩

/-- Witness of C10: `5/0` reports `division by zero` and yields 0. -/
theorem ExpressionValue_zero_divisor_witness :
    ExpressionValue 2 ["5".toList, "/".toList, "0".toList] 0 0 none =
      .done ⟨0, 3, some ⟨.error, "division by zero"⟩⟩ :=
  (ExpressionValue_zero_divisor "5".toList 5 0 (by constructor <;> decide)).1

/-! ## Lemmas about the definition store and about token sequences -/

theorem lookup_cons_self (l : List (Token × Definition)) (k : Token) (d : Definition) :
    ((k, d) :: l).lookup k = some d := by
  simp [List.lookup]

theorem lookup_cons_ne (l : List (Token × Definition)) (k m : Token) (d : Definition)
    (h : m ≠ k) : ((k, d) :: l).lookup m = l.lookup m := by
  have h4 : (m == k) = false := by simpa using h
  simp [List.lookup, h4]

theorem filter_cons_self (l : List (Token × Definition)) (n : Token) (d : Definition) :
    ((n, d) :: l).filter (fun p => !(p.1 == n)) = l.filter (fun p => !(p.1 == n)) := by
  rw [List.filter_cons_of_neg]
  simp

theorem filter_cons_ne (l : List (Token × Definition)) (n k : Token) (d : Definition)
    (h : k ≠ n) :
    ((k, d) :: l).filter (fun p => !(p.1 == n)) = (k, d) :: l.filter (fun p => !(p.1 == n)) := by
  rw [List.filter_cons_of_pos]
  simpa using h

theorem lookup_filter_ne_self (l : List (Token × Definition)) (n : Token) :
    (l.filter (fun p => !(p.1 == n))).lookup n = none := by
  induction l with
  | nil => rfl
  | cons p rest ih =>
    obtain ⟨k, d⟩ := p
    by_cases h : k = n
    · subst h
      rw [filter_cons_self, ih]
    · rw [filter_cons_ne _ _ _ _ h, lookup_cons_ne _ _ _ _ (Ne.symm h), ih]

theorem lookup_filter_ne_other (l : List (Token × Definition)) (n m : Token) (h : m ≠ n) :
    (l.filter (fun p => !(p.1 == n))).lookup m = l.lookup m := by
  induction l with
  | nil => rfl
  | cons p rest ih =>
    obtain ⟨k, d⟩ := p
    by_cases h1 : k = n
    · subst h1
      rw [filter_cons_self, lookup_cons_ne _ _ _ _ h, ih]
    · rw [filter_cons_ne _ _ _ _ h1]
      by_cases h3 : m = k
      · subst h3
        rw [lookup_cons_self, lookup_cons_self]
      · rw [lookup_cons_ne _ _ _ _ h3, lookup_cons_ne _ _ _ _ h3, ih]

theorem lookup_append_single (l : List (Token × Definition)) (n : Token) (d : Definition)
    (m : Token) :
    (l ++ [(n, d)]).lookup m =
      match l.lookup m with
      | some e => some e
      | none => if m = n then some d else none := by
  induction l with
  | nil =>
    by_cases h : m = n
    · subst h
      simp [List.lookup]
    · have h4 : (m == n) = false := by simpa using h
      simp [List.lookup, h4, h]
  | cons p rest ih =>
    obtain ⟨k, e⟩ := p
    by_cases h1 : m = k
    · subst h1
      rw [List.cons_append, lookup_cons_self, lookup_cons_self]
    · rw [List.cons_append, lookup_cons_ne _ _ _ _ h1, lookup_cons_ne _ _ _ _ h1, ih]

theorem find_erase_self (pp : Preprocessor) (n : Token) : (pp.erase n).find n = none :=
  lookup_filter_ne_self pp.definitions n

theorem find_erase_other (pp : Preprocessor) (n m : Token) (h : m ≠ n) :
    (pp.erase n).find m = pp.find m :=
  lookup_filter_ne_other pp.definitions n m h

theorem find_emplace_self (pp : Preprocessor) (n : Token) (d : Definition)
    (h : pp.find n = none) : (pp.emplace n d).find n = some d := by
  unfold Preprocessor.find at h
  unfold Preprocessor.emplace Preprocessor.find
  rw [h]
  simp only [Option.isSome_none, Bool.false_eq_true, if_false]
  rw [lookup_append_single, h]
  simp

theorem find_emplace_other (pp : Preprocessor) (n m : Token) (d : Definition) (h : m ≠ n) :
    (pp.emplace n d).find m = pp.find m := by
  unfold Preprocessor.emplace Preprocessor.find
  split
  · rfl
  · simp only
    rw [lookup_append_single]
    cases pp.definitions.lookup m with
    | none => simp [h]
    | some e => rfl

theorem find_setDisabled (pp : Preprocessor) (n m : Token) (b : Bool) :
    (pp.setDisabled n b).find m =
      if m = n then (pp.find m).map (fun d => d.set_isDisabled b) else pp.find m := by
  unfold Preprocessor.setDisabled Preprocessor.find
  simp only
  induction pp.definitions with
  | nil => simp [List.lookup]
  | cons p rest ih =>
    obtain ⟨k, e⟩ := p
    rw [List.map_cons]
    by_cases h2 : k = n
    · subst h2
      have hk : (if ((k, e).1 == k) = true then ((k, e).1, (k, e).2.set_isDisabled b) else (k, e))
          = (k, e.set_isDisabled b) := by simp
      rw [hk]
      by_cases h1 : m = k
      · subst h1
        rw [lookup_cons_self, lookup_cons_self]
        simp
      · rw [lookup_cons_ne _ _ _ _ h1, lookup_cons_ne _ _ _ _ h1, ih]
    · have hk : (if ((k, e).1 == n) = true then ((k, e).1, (k, e).2.set_isDisabled b) else (k, e))
          = (k, e) := by simp [h2]
      rw [hk]
      by_cases h1 : m = k
      · subst h1
        rw [lookup_cons_self, lookup_cons_self]
        simp [h2]
      · rw [lookup_cons_ne _ _ _ _ h1, lookup_cons_ne _ _ _ _ h1, ih]

theorem TokenAt_eq_getElem (ts : TokenSequence) (j : Nat) (h : j < ts.length) :
    TokenAt ts j = ts[j] := by
  simp [TokenAt, List.getD, List.getElem?_eq_getElem h]

theorem SkipBlanks_of_nonblank (ts : TokenSequence) (j : Nat) (h : j < ts.length)
    (hnb : IsBlank (TokenAt ts j) = false) : SkipBlanks ts j = j := by
  rw [TokenAt_eq_getElem ts j h] at hnb
  unfold SkipBlanks
  rw [List.drop_eq_getElem_cons h, List.findIdx?_cons]
  simp [hnb]

theorem SkipBlanks_of_blank (ts : TokenSequence) (j : Nat) (h : j < ts.length)
    (hb : IsBlank (TokenAt ts j) = true) : SkipBlanks ts j = SkipBlanks ts (j + 1) := by
  rw [TokenAt_eq_getElem ts j h] at hb
  unfold SkipBlanks
  rw [List.drop_eq_getElem_cons h, List.findIdx?_cons]
  simp only [hb, Bool.not_true, Bool.false_eq_true, if_false]
  cases hf : List.findIdx? (fun t => !IsBlank t) (List.drop (j + 1) ts) with
  | none => simp [List.findIdx?_succ, hf]
  | some k => simp [List.findIdx?_succ, hf]; omega

theorem SkipBlanks_of_length_le (ts : TokenSequence) (j : Nat) (h : ts.length ≤ j) :
    SkipBlanks ts j = ts.length := by
  unfold SkipBlanks
  rw [List.drop_eq_nil_of_le h]
  rfl

theorem PopTrailingBlanks_append_nonblank (ts : TokenSequence) (t : Token)
    (h : IsBlank t = false) : PopTrailingBlanks (ts ++ [t]) = ts ++ [t] := by
  unfold PopTrailingBlanks
  simp [List.dropWhile, h]

/-! ## Lemmas about macro replacement -/

theorem MacroReplacementStep_inert (mr : ReplaceFn) (prescanner : Prescanner)
    (input : TokenSequence) (j : Nat) (result : TokenSequence) (pflm : PartialFLM)
    (pp : Preprocessor) (h : Inert pp (TokenAt input j)) :
    MacroReplacementStep mr prescanner input false j result pflm pp =
      .done (.next j (result ++ [TokenAt input j]) pflm pp) := by
  unfold MacroReplacementStep
  rcases h with h | h | h | ⟨d, h1, h2⟩
  · simp [h]
  · simp [h]
  · by_cases hb : IsBlank (TokenAt input j) || !IsLegalIdentifierStartToken (TokenAt input j)
    · simp only [hb, if_true]
    · simp [hb, h]
  · by_cases hb : IsBlank (TokenAt input j) || !IsLegalIdentifierStartToken (TokenAt input j)
    · simp only [hb, if_true]
    · simp [hb, h1, h2]

theorem MacroReplacementLoop_inert (mr : ReplaceFn) (prescanner : Prescanner)
    (input : TokenSequence) (pflm : PartialFLM) (pp : Preprocessor)
    (h : ∀ tok ∈ input, Inert pp tok) (n j : Nat) (result : TokenSequence)
    (hn : input.length - j ≤ n) :
    MacroReplacementLoop mr prescanner input false n j result pflm pp =
      .done ⟨some (result ++ input.drop j), pflm, pp⟩ := by
  induction n generalizing j result with
  | zero =>
    have hj : ¬ j < input.length := by omega
    simp [MacroReplacementLoop, hj, List.drop_eq_nil_of_le (not_lt.mp hj)]
  | succ n ih =>
    by_cases hj : j < input.length
    · have hin : Inert pp (TokenAt input j) := by
        rw [TokenAt_eq_getElem input j hj]
        exact h _ (List.getElem_mem _)
      rw [MacroReplacementLoop]
      simp only [hj, if_true, MacroReplacementStep_inert mr prescanner input j result pflm pp hin]
      rw [ih (j + 1) _ (by omega), TokenAt_eq_getElem input j hj, List.append_assoc,
        List.singleton_append, ← List.drop_eq_getElem_cons hj]
    · simp [MacroReplacementLoop, hj, List.drop_eq_nil_of_le (not_lt.mp hj)]

/-- Macro replacement of a sequence of inert tokens changes nothing. -/
theorem ReplaceMacros_inert (fuel : Nat) (prescanner : Prescanner) (pp : Preprocessor)
    (input : TokenSequence) (pflm : PartialFLM) (h : ∀ tok ∈ input, Inert pp tok) :
    ReplaceMacros (fuel + 1) prescanner pp input pflm false = .done (input, pflm, pp) := by
  unfold ReplaceMacros ReplaceMacrosWith
  rw [MacroReplacement]
  by_cases he : pp.definitions.isEmpty
  · simp [he]
  · simp only [he, Bool.false_eq_true, if_false]
    cases hf : List.findIdx? (MayBeReplaced pp false) input with
    | none => simp
    | some j =>
      simp only
      rw [MacroReplacementLoop_inert _ _ _ _ _ h _ _ _ (le_refl _)]
      simp [SubSequence]

theorem IsNameDefined_eq_false {pp : Preprocessor} {tok : Token} :
    pp.IsNameDefined tok = false ↔ pp.find tok = none := by
  unfold Preprocessor.IsNameDefined
  cases pp.find tok <;> simp

theorem definitions_ne_nil_of_find {pp : Preprocessor} {tok : Token} {d : Definition}
    (h : pp.find tok = some d) : pp.definitions.isEmpty = false := by
  unfold Preprocessor.find at h
  cases hd : pp.definitions with
  | nil => rw [hd] at h; simp [List.lookup] at h
  | cons p r => rfl

/-- The rescanning of the replacement text of an object-like macro none of whose
tokens can be replaced: the text is appended after token pasting. -/
theorem ReplaceObjectLike_inert (fuel : Nat) (prescanner : Prescanner) (input : TokenSequence)
    (token : Token) (d : Definition) (j : Nat) (result : TokenSequence) (pflm : PartialFLM)
    (pp : Preprocessor)
    (h : ∀ tok ∈ d.replacement, Inert (pp.setDisabled token true) tok) :
    ReplaceObjectLike (MacroReplacement (fuel + 1) prescanner) input false token d j result pflm
        pp =
      .done (.next j (result ++ TokenPasting d.replacement) pflm
        ((pp.setDisabled token true).setDisabled token false)) := by
  have hr := ReplaceMacros_inert fuel prescanner (pp.setDisabled token true) d.replacement
    (some none) h
  unfold ReplaceMacros at hr
  unfold ReplaceObjectLike
  rw [hr]
  simp only
  by_cases he : (TokenPasting d.replacement).isEmpty
  · have : TokenPasting d.replacement = [] := List.isEmpty_iff.mp he
    simp [this]
  · simp [he]

/-- Expanding the one-token input that names an object-like macro whose replacement
text contains nothing replaceable yields that text after token pasting. -/
theorem MacroReplacement_objectLike_inert (fuel : Nat) (prescanner : Prescanner)
    (pp : Preprocessor) (name : Token) (d : Definition) (pflm : PartialFLM)
    (hname : IsLegalIdentifierStartToken name = true)
    (hfind : pp.find name = some d)
    (hdis : d.isDisabled = false) (hfun : d.isFunctionLike = false)
    (hpre : d.isPredefined = false)
    (h : ∀ tok ∈ d.replacement, Inert (pp.setDisabled name true) tok) :
    MacroReplacement (fuel + 2) prescanner pp [name] pflm false =
      .done ⟨some (TokenPasting d.replacement), pflm,
        (pp.setDisabled name true).setDisabled name false⟩ := by
  have hblank : IsBlank name = false := by
    cases name with
    | nil => simp [IsLegalIdentifierStartToken] at hname
    | cons c r =>
      simp only [IsLegalIdentifierStartToken] at hname
      have hc : c ≠ ' ' ∧ c ≠ '\t' := by
        constructor <;> (rintro rfl; revert hname; decide)
      simp [IsBlank, hc.1, hc.2]
  have hne := definitions_ne_nil_of_find hfind
  have hmay : MayBeReplaced pp false name = true := by
    simp [MayBeReplaced, hname, Preprocessor.IsNameDefined, hfind]
  rw [MacroReplacement]
  simp only [hne, Bool.false_eq_true, if_false, List.findIdx?_cons, hmay, if_true,
    List.length_singleton, Nat.sub_zero]
  rw [MacroReplacementLoop]
  have hstep : MacroReplacementStep (MacroReplacement (fuel + 1) prescanner) prescanner [name]
      false 0 (SubSequence [name] 0 0) pflm pp =
      .done (.next 0 (TokenPasting d.replacement) pflm
        ((pp.setDisabled name true).setDisabled name false)) := by
    unfold MacroReplacementStep
    have ht : TokenAt [name] 0 = name := rfl
    simp only [ht, hblank, hname, hfind, hdis, hfun, hpre]
    simp only [Bool.not_true, Bool.or_self, Bool.false_eq_true, if_false, Bool.false_and,
      List.isEmpty_nil, Bool.not_false, if_true]
    rw [ReplaceObjectLike_inert fuel prescanner [name] name d 0 _ pflm pp h]
    simp [SubSequence]
  simp only [List.length_singleton, Nat.lt_one_iff, if_true, hstep]
  simp [MacroReplacementLoop]

theorem IsBlank_false_of_identifier {name : Token} (hname : IsLegalIdentifierStartToken name = true) :
    IsBlank name = false := by
  cases name with
  | nil => simp [IsLegalIdentifierStartToken] at hname
  | cons c r =>
    simp only [IsLegalIdentifierStartToken] at hname
    have hc : c ≠ ' ' ∧ c ≠ '\t' := by
      constructor <;> (rintro rfl; revert hname; decide)
    simp [IsBlank, hc.1, hc.2]

theorem isEmpty_false_of_identifier {name : Token} (hname : IsLegalIdentifierStartToken name = true) :
    name.isEmpty = false := by
  cases name with
  | nil => simp [IsLegalIdentifierStartToken] at hname
  | cons c r => rfl

theorem PopTrailingBlanks_of_getLast (ts : TokenSequence) (t : Token)
    (hl : ts.getLast? = some t) (h : IsBlank t = false) : PopTrailingBlanks ts = ts := by
  obtain ⟨init, rfl⟩ : ∃ init, ts = init ++ [t] := by
    rcases List.eq_nil_or_concat ts with rfl | ⟨init, last, rfl⟩
    · simp at hl
    · simp at hl
      exact ⟨init, by rw [hl, List.concat_eq_append]⟩
  exact PopTrailingBlanks_append_nonblank init t h

theorem TokenizeBody_nil (body : TokenSequence) : TokenizeBody [] body = body := by
  unfold TokenizeBody
  induction body with
  | nil => rfl
  | cons t r ih =>
    rw [List.map_cons, ih]
    simp [List.lookup]

/-- The directive `#define N body` (one blank after `define` and after the name, a
body that starts and ends with a non-blank token) enters the object-like definition
whose replacement text is the body, replacing any earlier definition of `N`. -/
theorem Directive_define_objectLike (fuel : Nat) (N : Token) (body : TokenSequence)
    (first last : Token) (pp : Preprocessor) (ps : Prescanner)
    (hN : IsLegalIdentifierStartToken N = true)
    (hfirst : body.head? = some first) (hfb : IsBlank first = false)
    (hlast : body.getLast? = some last) (hlb : IsBlank last = false) :
    Directive fuel (["#".toList, "define".toList, " ".toList, N, " ".toList] ++ body) pp ps =
      .done ((pp.erase N).emplace N { replacement := body }, ps) := by
  have hNb := IsBlank_false_of_identifier hN
  have hNe := isEmpty_false_of_identifier hN
  obtain ⟨rest, rfl⟩ : ∃ rest, body = first :: rest := by
    cases body with
    | nil => simp at hfirst
    | cons a r => simp at hfirst; exact ⟨r, by rw [hfirst]⟩
  generalize hd : ["#".toList, "define".toList, " ".toList, N, " ".toList] ++ first :: rest = dir
  have hlen : dir.length = 6 + rest.length := by rw [← hd]; simp; omega
  have t0 : TokenAt dir 0 = "#".toList := by rw [← hd]; rfl
  have t1 : TokenAt dir 1 = "define".toList := by rw [← hd]; rfl
  have t2 : TokenAt dir 2 = " ".toList := by rw [← hd]; rfl
  have t3 : TokenAt dir 3 = N := by rw [← hd]; rfl
  have t4 : TokenAt dir 4 = " ".toList := by rw [← hd]; rfl
  have t5 : TokenAt dir 5 = first := by rw [← hd]; rfl
  have s0 : SkipBlanks dir 0 = 0 := SkipBlanks_of_nonblank dir 0 (by omega) (by rw [t0]; decide)
  have s1 : SkipBlanks dir 1 = 1 := SkipBlanks_of_nonblank dir 1 (by omega) (by rw [t1]; decide)
  have s3 : SkipBlanks dir 3 = 3 := SkipBlanks_of_nonblank dir 3 (by omega) (by rw [t3]; exact hNb)
  have s2 : SkipBlanks dir 2 = 3 := by
    rw [SkipBlanks_of_blank dir 2 (by omega) (by rw [t2]; decide), s3]
  have s5 : SkipBlanks dir 5 = 5 := SkipBlanks_of_nonblank dir 5 (by omega) (by rw [t5]; exact hfb)
  have hpop : (PopTrailingBlanks dir).length = 6 + rest.length := by
    rw [PopTrailingBlanks_of_getLast dir last _ hlb, hlen]
    rw [← hd, List.getLast?_append, hlast]
    rfl
  have hsub : SubSequence dir 5 (6 + rest.length - 5) = first :: rest := by
    rw [← hd]
    simp only [SubSequence, List.cons_append, List.nil_append, List.drop_succ_cons, List.drop_zero]
    rw [List.take_of_length_le]
    simp only [List.length_cons]
    omega
  unfold Directive
  simp only [s0, s1, s2, hlen, hpop, t0, t1, t3, hN]
  simp [IsDecimalDigit, dquote, ToLowerCaseLetters, ToLowerCaseLetter]
  unfold DirectiveDefine
  have a1 : ¬ (0 = 6 + rest.length) := by omega
  have a2 : ¬ (1 = 6 + rest.length) := by omega
  have a3 : ¬ (6 + rest.length ≤ 1) := by omega
  have a4 : 3 < 6 + rest.length := by omega
  have a5 : ¬ (6 + rest.length < 5) := by omega
  have hNn : N ≠ [] := by
    intro h
    rw [h] at hNe
    simp at hNe
  simp [hNe, t4, s5, OnlyNonBlank, Definition.objectLike, hsub, TokenizeBody_nil, a1, a2, a3,
    a4, a5, hNn]

/-- The directive `#undef N` removes the definition of `N`. -/
theorem Directive_undef (fuel : Nat) (N : Token) (pp : Preprocessor) (ps : Prescanner)
    (hN : IsLegalIdentifierStartToken N = true) :
    Directive fuel ["#".toList, "undef".toList, " ".toList, N] pp ps = .done (pp.erase N, ps) := by
  have hNb := IsBlank_false_of_identifier hN
  have hNe := isEmpty_false_of_identifier hN
  generalize hd : ["#".toList, "undef".toList, " ".toList, N] = dir
  have hlen : dir.length = 4 := by rw [← hd]; rfl
  have t0 : TokenAt dir 0 = "#".toList := by rw [← hd]; rfl
  have t1 : TokenAt dir 1 = "undef".toList := by rw [← hd]; rfl
  have t2 : TokenAt dir 2 = " ".toList := by rw [← hd]; rfl
  have t3 : TokenAt dir 3 = N := by rw [← hd]; rfl
  have s0 : SkipBlanks dir 0 = 0 := SkipBlanks_of_nonblank dir 0 (by omega) (by rw [t0]; decide)
  have s1 : SkipBlanks dir 1 = 1 := SkipBlanks_of_nonblank dir 1 (by omega) (by rw [t1]; decide)
  have s3 : SkipBlanks dir 3 = 3 := SkipBlanks_of_nonblank dir 3 (by omega) (by rw [t3]; exact hNb)
  have s2 : SkipBlanks dir 2 = 3 := by
    rw [SkipBlanks_of_blank dir 2 (by omega) (by rw [t2]; decide), s3]
  have hpop : (PopTrailingBlanks dir).length = 4 := by
    rw [PopTrailingBlanks_of_getLast dir N _ hNb, hlen]
    rw [← hd]
    rfl
  have hleft : IsAnythingLeft dir 4 = false := by
    rw [← hd]; rfl
  unfold Directive
  simp only [s0, s1, s2, hlen, hpop, t0, t1, t3, hN]
  simp [IsDecimalDigit, dquote, ToLowerCaseLetters, ToLowerCaseLetter, hNe, hleft]

/-! ## Object-like macros: round trip and self-reference -/

/-- Macro replacement of a sequence that contains no defined name is `no change`. -/
theorem MacroReplacement_undefined (fuel : Nat) (prescanner : Prescanner) (pp : Preprocessor)
    (input : TokenSequence) (pflm : PartialFLM)
    (h : ∀ tok ∈ input, pp.find tok = none) :
    MacroReplacement (fuel + 1) prescanner pp input pflm false = .done ⟨none, pflm, pp⟩ := by
  rw [MacroReplacement]
  by_cases he : pp.definitions.isEmpty
  · simp [he]
  · have hf : List.findIdx? (MayBeReplaced pp false) input = none := by
      rw [List.findIdx?_eq_none_iff]
      intro tok htok
      simp [MayBeReplaced, Preprocessor.IsNameDefined, h tok htok]
    simp [he, hf]

/-- C2 (as amended). Round trip of an object-like macro: for every name `N` and
every replacement consisting of a single non-blank token `t` that names no macro
and is not the pasting operator `##`, after the directive `#define N t` expanding
the one-token input `N` yields exactly the single token `t`; after a subsequent
`#undef N`, `MacroReplacement` reports no change for `N` and `ReplaceMacros` returns
`N` itself. -/
theorem object_like_round_trip (N t : Token) (pp : Preprocessor) (ps : Prescanner)
    (fuel : Nat) (pflm : PartialFLM)
    (hN : IsLegalIdentifierStartToken N = true) (ht : IsBlank t = false)
    (hpaste : IsTokenPasting t = false)
    (hname : IsLegalIdentifierStartToken t = true → t ≠ N ∧ pp.find t = none) :
    ∃ pp1 pp2 pp3,
      Directive fuel ["#".toList, "define".toList, " ".toList, N, " ".toList, t] pp ps =
        .done (pp1, ps) ∧
      MacroReplacement (fuel + 2) ps pp1 [N] pflm false = .done ⟨some [t], pflm, pp2⟩ ∧
      Directive fuel ["#".toList, "undef".toList, " ".toList, N] pp2 ps = .done (pp3, ps) ∧
      MacroReplacement (fuel + 1) ps pp3 [N] pflm false = .done ⟨none, pflm, pp3⟩ ∧
      ReplaceMacros (fuel + 1) ps pp3 [N] pflm false = .done ([N], pflm, pp3) := by
  have hdef := Directive_define_objectLike fuel N [t] t t pp ps hN rfl ht rfl ht
  have hfind : ((pp.erase N).emplace N { replacement := [t] }).find N =
      some { replacement := [t] } :=
    find_emplace_self _ _ _ (find_erase_self pp N)
  have hinert : ∀ tok ∈ ({ replacement := [t] } : Definition).replacement,
      Inert (((pp.erase N).emplace N { replacement := [t] }).setDisabled N true) tok := by
    intro tok htok
    simp only [List.mem_singleton] at htok
    subst htok
    by_cases hid : IsLegalIdentifierStartToken tok = true
    · obtain ⟨hne, hnone⟩ := hname hid
      right; right; left
      rw [find_setDisabled, if_neg hne, find_emplace_other _ _ _ _ hne,
        find_erase_other _ _ _ hne, hnone]
    · right; left
      simpa using hid
  have hexp := MacroReplacement_objectLike_inert fuel ps _ N { replacement := [t] } pflm hN hfind
    rfl rfl rfl hinert
  have hpast : TokenPasting [t] = [t] := by
    simp [TokenPasting, AnyTokenPasting, hpaste]
  refine ⟨(pp.erase N).emplace N { replacement := [t] },
    (((pp.erase N).emplace N { replacement := [t] }).setDisabled N true).setDisabled N false,
    ((((pp.erase N).emplace N { replacement := [t] }).setDisabled N true).setDisabled N
      false).erase N, hdef, ?_, Directive_undef fuel N _ ps hN, ?_, ?_⟩
  · rw [hexp]
    simp only [hpast]
  · apply MacroReplacement_undefined
    intro tok htok
    simp only [List.mem_singleton] at htok
    subst htok
    exact find_erase_self _ _
  · unfold ReplaceMacros ReplaceMacrosWith
    rw [MacroReplacement_undefined]
    · rfl
    · intro tok htok
      simp only [List.mem_singleton] at htok
      subst htok
      exact find_erase_self _ _

/-- Witness of the amended C2: `#define N 5`, then `N` yields `5`; after `#undef N`
it yields `N`. -/
theorem object_like_round_trip_witness :
    ∃ pp1 pp2 pp3,
      Directive 0 ["#".toList, "define".toList, " ".toList, "N".toList, " ".toList, "5".toList]
        {} {} = .done (pp1, {}) ∧
      MacroReplacement 2 {} pp1 ["N".toList] none false =
        .done ⟨some ["5".toList], none, pp2⟩ ∧
      Directive 0 ["#".toList, "undef".toList, " ".toList, "N".toList] pp2 {} =
        .done (pp3, {}) ∧
      MacroReplacement 1 {} pp3 ["N".toList] none false = .done ⟨none, none, pp3⟩ ∧
      ReplaceMacros 1 {} pp3 ["N".toList] none false = .done (["N".toList], none, pp3) :=
  object_like_round_trip "N".toList "5".toList {} {} 0 none (by decide) (by decide) (by decide)
    (by decide)

/-- Counterexample to C2 as stated: the single replacement token `##` names no
macro, yet after `#define N ##` the expansion of `N` is the empty sequence, not the
token `##` (token pasting is applied to the replacement text of an object-like
macro). -/
theorem object_like_round_trip_counterexample :
    Directive 0 ["#".toList, "define".toList, " ".toList, "N".toList, " ".toList, "##".toList]
        {} {} =
      .done ({ definitions := [("N".toList, { replacement := ["##".toList] })] }, {}) ∧
    Preprocessor.IsNameDefined
      { definitions := [("N".toList, { replacement := ["##".toList] })] } "##".toList = false ∧
    MacroReplacement 2 {} { definitions := [("N".toList, { replacement := ["##".toList] })] }
        ["N".toList] none false =
      .done ⟨some [], none,
        { definitions := [("N".toList, { replacement := ["##".toList] })] }⟩ := by
  refine ⟨by decide, by decide, by decide⟩

theorem ScanArguments_argument (arg rest : List Token) (k depth depth1 : Nat) (argStart : List Nat)
    (h : ArgumentDepth arg depth = some depth1) :
    ScanArguments (arg ++ rest) k depth argStart =
      ScanArguments rest (k + arg.length) depth1 argStart := by
  induction arg generalizing k depth with
  | nil =>
    simp only [ArgumentDepth, Option.some.injEq] at h
    subst h
    rfl
  | cons tok more ih =>
    rw [ArgumentDepth] at h
    rw [List.cons_append, ScanArguments]
    have hk : k + (tok :: more).length = k + 1 + more.length := by
      simp only [List.length_cons]; omega
    rw [hk]
    by_cases h1 : OnlyNonBlank tok == '('
    · simp only [h1, if_true] at h ⊢
      exact ih _ _ h
    · simp only [h1, Bool.false_eq_true, if_false] at h ⊢
      by_cases h2 : OnlyNonBlank tok == ')'
      · simp only [h2, if_true] at h ⊢
        by_cases h3 : depth == 0
        · simp [h3] at h
        · simp only [h3, Bool.false_eq_true, if_false] at h ⊢
          exact ih _ _ h
      · simp only [h2, Bool.false_eq_true, if_false] at h ⊢
        by_cases h3 : (OnlyNonBlank tok == ',' && depth == 0)
        · simp [h3] at h
        · simp only [h3, Bool.false_eq_true, if_false] at h ⊢
          exact ih _ _ h

theorem ScanArguments_arguments (args : List TokenSequence) (tail : List Token) (k : Nat)
    (argStart : List Nat) (hne : args ≠ []) (h : ∀ a ∈ args, IsArgument a) :
    ScanArguments (CommaSeparated args ++ [')'] :: tail) k 0 argStart =
      (k + (CommaSeparated args).length, argStart ++ (ArgStarts k args).tail) := by
  induction args generalizing k argStart with
  | nil => exact absurd rfl hne
  | cons a rest ih =>
    have ha : ArgumentDepth a 0 = some 0 := h a (List.mem_cons_self _ _)
    cases rest with
    | nil =>
      simp only [CommaSeparated, ArgStarts, List.tail_cons, List.append_nil]
      rw [ScanArguments_argument a _ k 0 0 argStart ha]
      rfl
    | cons b more =>
      have hrest : ∀ x ∈ b :: more, IsArgument x := fun x hx => h x (List.mem_cons_of_mem _ hx)
      simp only [CommaSeparated, ArgStarts, List.tail_cons, List.append_assoc]
      rw [ScanArguments_argument a _ k 0 0 argStart ha]
      rw [List.singleton_append, ScanArguments]
      have c1 : (OnlyNonBlank [','] == '(') = false := by decide
      have c2 : (OnlyNonBlank [','] == ')') = false := by decide
      have c3 : (OnlyNonBlank [','] == ',' && (0 : Nat) == 0) = true := by decide
      simp only [c1, c2, c3, Bool.false_eq_true, if_false, if_true]
      rw [ih (k + a.length + 1) _ (by simp) hrest]
      simp only [ArgStarts, List.tail_cons, List.length_append, List.length_cons,
        List.length_nil, List.append_assoc, List.singleton_append, Prod.mk.injEq, and_true]
      omega

theorem CollectArguments_arguments (pre : List Token) (args : List TokenSequence)
    (tail : List Token) (hne : args ≠ []) :
    CollectArguments (pre ++ CommaSeparated args ++ [')'] :: tail)
      (pre.length + (CommaSeparated args).length) (ArgStarts pre.length args) = args := by
  induction args generalizing pre with
  | nil => exact absurd rfl hne
  | cons a rest ih =>
    cases rest with
    | nil =>
      simp only [CommaSeparated, ArgStarts, CollectArguments, SubSequence]
      simp [List.drop_append, List.take_append]
    | cons b more =>
      simp only [CommaSeparated, ArgStarts, CollectArguments]
      have h1 : SubSequence (pre ++ (a ++ [[',']] ++ CommaSeparated (b :: more)) ++ [')'] :: tail)
          pre.length (pre.length + a.length + 1 - 1 - pre.length) = a := by
        simp only [SubSequence]
        have : pre.length + a.length + 1 - 1 - pre.length = a.length := by omega
        rw [this]
        simp [List.drop_append, List.take_append]
      rw [h1]
      congr 1
      have h2 := ih (pre ++ a ++ [[',']]) (by simp)
      simp only [List.length_append, List.length_cons, List.length_nil, List.append_assoc,
        List.singleton_append] at h2 ⊢
      rw [show pre.length + (a.length + ((CommaSeparated (b :: more)).length + 1)) =
        pre.length + a.length + 1 + (CommaSeparated (b :: more)).length by omega]
      exact h2

theorem ArgStarts_ne_nil (k : Nat) (args : List TokenSequence) (hne : args ≠ []) :
    ArgStarts k args = k :: (ArgStarts k args).tail := by
  cases args with
  | nil => exact absurd rfl hne
  | cons a rest => rfl

theorem ArgStarts_length (k : Nat) (args : List TokenSequence) :
    (ArgStarts k args).length = args.length := by
  induction args generalizing k with
  | nil => rfl
  | cons a rest ih => simp [ArgStarts, ih]

theorem CommaSeparated_eq_nil (args : List TokenSequence) (h : CommaSeparated args = [])
    (hne : args ≠ []) : args = [[]] := by
  cases args with
  | nil => exact absurd rfl hne
  | cons a rest =>
    cases rest with
    | nil => simp only [CommaSeparated] at h; rw [h]
    | cons b more => simp [CommaSeparated] at h

/-- The expansion of a call of a function-like macro that makes up the whole input,
when the substituted replacement text contains nothing replaceable. -/
theorem MacroReplacement_call (fuel : Nat) (ps : Prescanner) (pp pp0 : Preprocessor)
    (F : Token) (d : Definition) (args : List TokenSequence) (applied : TokenSequence)
    (pflm : PartialFLM)
    (hF : IsLegalIdentifierStartToken F = true)
    (hfind : pp.find F = some d) (hdis : d.isDisabled = false)
    (hfun : d.isFunctionLike = true)
    (hne : args ≠ []) (hargs : ∀ a ∈ args, IsArgument a)
    (actual : List TokenSequence)
    (hactual : actual = if args = [[]] ∧ d.argumentCount = 0 then [] else args)
    (hcount : d.argumentCount ≤ actual.length)
    (hmax : actual.length ≤ d.argumentCount ∨ d.isVariadic = true)
    (happly : d.Apply (MacroReplacement (fuel + 1) ps) actual pp false = .done (applied, pp0))
    (hinert : ∀ tok ∈ applied, Inert (pp0.setDisabled F true) tok) :
    MacroReplacement (fuel + 2) ps pp (CallTokens F args) pflm false =
      .done ⟨some applied, pflm, (pp0.setDisabled F true).setDisabled F false⟩ := by
  have hblank := IsBlank_false_of_identifier hF
  have hnedef := definitions_ne_nil_of_find hfind
  have hmay : MayBeReplaced pp false F = true := by
    simp [MayBeReplaced, hF, Preprocessor.IsNameDefined, hfind]
  generalize hL : (CommaSeparated args).length = L
  generalize hin : CallTokens F args = input
  have hinput : input = [F, ['(']] ++ CommaSeparated args ++ [')'] :: [] := by
    rw [← hin]; rfl
  have hlen : input.length = L + 3 := by
    rw [hinput]; simp [hL]
  have hidx : List.findIdx? (MayBeReplaced pp false) input = some 0 := by
    rw [hinput]
    simp [List.findIdx?_cons, hmay]
  have ht0 : TokenAt input 0 = F := by rw [hinput]; rfl
  have hlook : LookAheadForParen (input.drop 1) 1 = (1, true) := by
    rw [hinput]; rfl
  have hscan : ScanArguments (input.drop 2) 2 0 [2] = (2 + L, ArgStarts 2 args) := by
    rw [hinput]
    have : List.drop 2 ([F, ['(']] ++ CommaSeparated args ++ [[')']]) =
        CommaSeparated args ++ [')'] :: [] := rfl
    rw [this, ScanArguments_arguments args [] 2 [2] hne hargs, hL, List.singleton_append,
      ← ArgStarts_ne_nil 2 args hne]
  have hcollect : CollectArguments input (2 + L) (ArgStarts 2 args) = args := by
    rw [hinput, ← hL]
    exact CollectArguments_arguments [F, ['(']] args [] hne
  have hadjust : (if ((ArgStarts 2 args).length == 1 && (ArgStarts 2 args).head? == some (2 + L) &&
      d.argumentCount == 0) = true then [] else ArgStarts 2 args) = ArgStarts 2 actual := by
    by_cases hc : args = [[]] ∧ d.argumentCount = 0
    · rw [hactual, if_pos hc]
      obtain ⟨h1, h2⟩ := hc
      subst h1
      have : L = 0 := by rw [← hL]; rfl
      subst this
      simp [ArgStarts, h2]
    · rw [hactual, if_neg hc, if_neg]
      intro hcond
      simp only [Bool.and_eq_true, beq_iff_eq] at hcond
      obtain ⟨⟨_, h2⟩, h3⟩ := hcond
      rw [ArgStarts_ne_nil 2 args hne] at h2
      simp only [List.head?_cons, Option.some.injEq] at h2
      have hL0 : L = 0 := by omega
      rw [hL0] at hL
      exact hc ⟨CommaSeparated_eq_nil args (List.length_eq_zero.mp hL) hne, h3⟩
  have hcollect2 : CollectArguments input (2 + L) (ArgStarts 2 actual) = actual := by
    by_cases hc : args = [[]] ∧ d.argumentCount = 0
    · rw [hactual, if_pos hc]
      rfl
    · rw [hactual, if_neg hc]
      exact hcollect
  have hrescan := ReplaceMacros_inert fuel ps (pp0.setDisabled F true) applied (some none) hinert
  unfold ReplaceMacros at hrescan
  have hfl : ReplaceFunctionLike (MacroReplacement (fuel + 1) ps) input false F d 0 [] pflm pp =
      .done (.next (2 + L) applied pflm ((pp0.setDisabled F true).setDisabled F false)) := by
    unfold ReplaceFunctionLike
    simp only [Nat.zero_add, hlook, Bool.not_true, Bool.false_eq_true, if_false, hscan]
    simp only [hadjust]
    simp only [ArgStarts_length, hcollect2, happly, hrescan, hlen]
    have c1 : ¬ (2 + L ≥ L + 3) := by omega
    have c2 : ¬ (actual.length < d.argumentCount) := by omega
    have c3 : (decide (actual.length > d.argumentCount) && !d.isVariadic) = false := by
      rcases hmax with h | h
      · have : ¬ (actual.length > d.argumentCount) := by omega
        simp [this]
      · simp [h]
    simp only [c1, c2, c3, decide_False, Bool.false_and, Bool.or_self, Bool.false_eq_true,
      if_false, List.nil_append]
    by_cases he : applied = []
    · simp [he]
    · simp [he]
  have hstep : MacroReplacementStep (MacroReplacement (fuel + 1) ps) ps input false 0 [] pflm pp =
      .done (.next (2 + L) applied pflm ((pp0.setDisabled F true).setDisabled F false)) := by
    unfold MacroReplacementStep
    simp only [ht0, hblank, hF, hfind, hdis, hfun]
    simp only [Bool.not_true, Bool.or_self, Bool.false_eq_true, if_false]
    exact hfl
  rw [MacroReplacement]
  simp only [hnedef, Bool.false_eq_true, if_false, hidx, Nat.sub_zero, hlen]
  rw [MacroReplacementLoop]
  have hsub : SubSequence input 0 0 = [] := rfl
  simp only [hlen, Nat.zero_lt_succ, if_true, hsub, hstep]
  have hend : ¬ (2 + L + 1 < input.length) := by omega
  cases hm : L + 2 with
  | zero => omega
  | succ m => simp [MacroReplacementLoop, hend]

/-- Macro replacement of a sequence whose identifiers name no macro is `no change`. -/
theorem MacroReplacement_namesNoMacro (fuel : Nat) (prescanner : Prescanner) (pp : Preprocessor)
    (input : TokenSequence) (pflm : PartialFLM) (h : NamesNoMacro pp input) :
    MacroReplacement (fuel + 1) prescanner pp input pflm false = .done ⟨none, pflm, pp⟩ := by
  rw [MacroReplacement]
  by_cases he : pp.definitions.isEmpty
  · simp [he]
  · have hf : List.findIdx? (MayBeReplaced pp false) input = none := by
      rw [List.findIdx?_eq_none_iff]
      intro tok htok
      by_cases hid : IsLegalIdentifierStartToken tok = true
      · simp [MayBeReplaced, Preprocessor.IsNameDefined, h tok htok hid]
      · simp [MayBeReplaced, hid]
    simp [he, hf]

theorem Inert_of_namesNoMacro (pp : Preprocessor) (F : Token) (b : Bool) (ts : TokenSequence)
    (h : NamesNoMacro pp ts) : ∀ tok ∈ ts, Inert (pp.setDisabled F b) tok := by
  intro tok htok
  by_cases hid : IsLegalIdentifierStartToken tok = true
  · right; right; left
    rw [find_setDisabled, h tok htok hid]
    simp
  · right; left
    simpa using hid

theorem TokenPasting_of_not_any (ts : TokenSequence) (h : AnyTokenPasting ts = false) :
    TokenPasting ts = ts := by
  simp [TokenPasting, h]

/-- The `#define` directive with a name passes to the `#define` case. -/
theorem Directive_define_dispatch (fuel : Nat) (N : Token) (rest : List Token) (last : Token)
    (pp : Preprocessor) (ps : Prescanner)
    (hN : IsLegalIdentifierStartToken N = true)
    (hlast : (N :: rest).getLast? = some last) (hlb : IsBlank last = false) :
    Directive fuel ("#".toList :: "define".toList :: " ".toList :: N :: rest) pp ps =
      DirectiveDefine ("#".toList :: "define".toList :: " ".toList :: N :: rest)
        (rest.length + 4) 3 N pp ps := by
  have hNb := IsBlank_false_of_identifier hN
  generalize hd : "#".toList :: "define".toList :: " ".toList :: N :: rest = dir
  have hlen : dir.length = rest.length + 4 := by rw [← hd]; simp
  have t0 : TokenAt dir 0 = "#".toList := by rw [← hd]; rfl
  have t1 : TokenAt dir 1 = "define".toList := by rw [← hd]; rfl
  have t2 : TokenAt dir 2 = " ".toList := by rw [← hd]; rfl
  have t3 : TokenAt dir 3 = N := by rw [← hd]; rfl
  have s0 : SkipBlanks dir 0 = 0 := SkipBlanks_of_nonblank dir 0 (by omega) (by rw [t0]; decide)
  have s1 : SkipBlanks dir 1 = 1 := SkipBlanks_of_nonblank dir 1 (by omega) (by rw [t1]; decide)
  have s3 : SkipBlanks dir 3 = 3 := SkipBlanks_of_nonblank dir 3 (by omega) (by rw [t3]; exact hNb)
  have s2 : SkipBlanks dir 2 = 3 := by
    rw [SkipBlanks_of_blank dir 2 (by omega) (by rw [t2]; decide), s3]
  have hpop : (PopTrailingBlanks dir).length = rest.length + 4 := by
    rw [PopTrailingBlanks_of_getLast dir last _ hlb, hlen]
    rw [← hd]
    simpa using hlast
  have a1 : ¬ (0 = rest.length + 4) := by omega
  have a2 : ¬ (1 = rest.length + 4) := by omega
  have a3 : ¬ (rest.length + 4 ≤ 1) := by omega
  have a4 : 3 < rest.length + 4 := by omega
  unfold Directive
  simp only [s0, s1, s2, hlen, hpop, t0, t1, t3, hN]
  simp [IsDecimalDigit, dquote, ToLowerCaseLetters, ToLowerCaseLetter, a1, a2, a3, a4]

theorem ne_dots_of_identifier {x : Token} (hx : IsLegalIdentifierStartToken x = true) :
    x ≠ "...".toList := by
  cases x with
  | nil => simp [IsLegalIdentifierStartToken] at hx
  | cons c r =>
    simp only [IsLegalIdentifierStartToken] at hx
    have hc : c ≠ '.' := by rintro rfl; revert hx; decide
    intro h
    exact hc (List.head_eq_of_cons_eq h)

/-- The only non-blank character of a token that contains the non-blank character
`c` is `c`, unless the token has several non-blank characters. -/
theorem OnlyNonBlank_of_mem (t : Token) (c : Char) (hc : c ∈ t)
    (hnb : (c == ' ' || c == '\t') = false) : OnlyNonBlank t = c ∨ OnlyNonBlank t = ' ' := by
  unfold OnlyNonBlank
  have hmem : c ∈ t.filter (fun ch => !(ch == ' ' || ch == '\t')) := by
    rw [List.mem_filter]
    exact ⟨hc, by simp [hnb]⟩
  cases hf : t.filter (fun ch => !(ch == ' ' || ch == '\t')) with
  | nil => right; rfl
  | cons a rest =>
    cases rest with
    | nil =>
      left
      rw [hf] at hmem
      simp only [List.mem_singleton] at hmem
      rw [hmem]
    | cons b more => right; rfl

theorem OnlyNonBlank_identifier {x : Token} (hx : IsLegalIdentifierStartToken x = true) :
    OnlyNonBlank x ≠ '(' ∧ OnlyNonBlank x ≠ ')' ∧ OnlyNonBlank x ≠ ',' := by
  cases x with
  | nil => simp [IsLegalIdentifierStartToken] at hx
  | cons c r =>
    simp only [IsLegalIdentifierStartToken] at hx
    have hc : (c == ' ' || c == '\t') = false ∧ c ≠ '(' ∧ c ≠ ')' ∧ c ≠ ',' := by
      refine ⟨?_, ?_, ?_, ?_⟩
      · by_contra h
        simp only [Bool.not_eq_false, Bool.or_eq_true, beq_iff_eq] at h
        rcases h with rfl | rfl <;> (revert hx; decide)
      all_goals (rintro rfl; revert hx; decide)
    rcases OnlyNonBlank_of_mem (c :: r) c (List.mem_cons_self _ _) hc.1 with h | h
    · rw [h]; exact hc.2
    · rw [h]; decide

theorem DirectiveDefine_stringify (F x : Token) (pp : Preprocessor) (ps : Prescanner)
    (hF : IsLegalIdentifierStartToken F = true) (hx : IsLegalIdentifierStartToken x = true) :
    DirectiveDefine ["#".toList, "define".toList, " ".toList, F, "(".toList, x, ")".toList,
        " ".toList, "#".toList, x] 10 3 F pp ps =
      .done ((pp.erase F).emplace F (StringifyDefinition x), ps) := by
  have hFe := isEmpty_false_of_identifier hF
  have hFn : F ≠ [] := by intro h; rw [h] at hFe; simp at hFe
  have hxb := IsBlank_false_of_identifier hx
  have hxd : x ≠ ['.', '.', '.'] := ne_dots_of_identifier hx
  have hxo := OnlyNonBlank_identifier hx
  generalize hd : ["#".toList, "define".toList, " ".toList, F, "(".toList, x, ")".toList,
        " ".toList, "#".toList, x] = dir
  have hlen : dir.length = 10 := by rw [← hd]; rfl
  have t4 : TokenAt dir 4 = "(".toList := by rw [← hd]; rfl
  have t5 : TokenAt dir 5 = x := by rw [← hd]; rfl
  have t6 : TokenAt dir 6 = ")".toList := by rw [← hd]; rfl
  have t7 : TokenAt dir 7 = " ".toList := by rw [← hd]; rfl
  have t8 : TokenAt dir 8 = "#".toList := by rw [← hd]; rfl
  have s5 : SkipBlanks dir 5 = 5 := SkipBlanks_of_nonblank dir 5 (by omega) (by rw [t5]; exact hxb)
  have s6 : SkipBlanks dir 6 = 6 := SkipBlanks_of_nonblank dir 6 (by omega) (by rw [t6]; decide)
  have s8 : SkipBlanks dir 8 = 8 := SkipBlanks_of_nonblank dir 8 (by omega) (by rw [t8]; decide)
  have s7 : SkipBlanks dir 7 = 8 := by
    rw [SkipBlanks_of_blank dir 7 (by omega) (by rw [t7]; decide), s8]
  have hsub : SubSequence dir 8 2 = ["#".toList, x] := by rw [← hd]; rfl
  have o4 : OnlyNonBlank ['('] = '(' := by decide
  have o6 : OnlyNonBlank [')'] = ')' := by decide
  have hargs : DefineArgumentList dir 10 11 5 [] false = .done (.ok ([x], false, 6)) := by
    rw [DefineArgumentList]
    simp [hlen, t5, hxd, hx, s6, t6, o6]
  unfold DirectiveDefine
  have i1 : IsLegalIdentifierStartToken ['#'] = false := by decide
  simp [hFn, t4, o4, s5, hlen, t5, hargs, s7, Definition.functionLike, Tokenize,
    TokenizeArgs, hsub, TokenizeBody, i1, hx, List.lookup, hxo.2.1, StringifyDefinition]

theorem Apply_stringify (x : Token) (mr : ReplaceFn) (arg : TokenSequence) (pp : Preprocessor) :
    (StringifyDefinition x).Apply mr [arg] pp false =
      .done ([[dquote] ++ Escaped (ToString arg) ++ [dquote]], pp) := by
  have h1 : TokenPasting (Stringify arg) = Stringify arg := by
    apply TokenPasting_of_not_any
    simp [AnyTokenPasting, Stringify, IsTokenPasting, dquote]
  have h2 : (StringifyDefinition x).ApplyLoop mr [arg] false
        ["#".toList, argPlaceholder 0] 0 ⟨[], false, 0, pp⟩ =
      .done ⟨Stringify arg, false, 0, pp⟩ := by
    rfl
  unfold Definition.Apply
  rw [show (StringifyDefinition x).replacement = ["#".toList, argPlaceholder 0] from rfl, h2]
  simp only [h1]
  rfl

/-- C5. Stringification: after `#define F(x) #x` (any names `F` and `x`), the
expansion of the call `F(arg)`, for every actual argument `arg`, is a single token
made of a double quote, the text of the argument as written (not macro-replaced)
with every double quote and backslash doubled, and a closing double quote; no `#`
remains. -/
theorem stringification (F x : Token) (arg : TokenSequence) (pp : Preprocessor)
    (ps : Prescanner) (fuel : Nat) (pflm : PartialFLM)
    (hF : IsLegalIdentifierStartToken F = true) (hx : IsLegalIdentifierStartToken x = true)
    (harg : IsArgument arg) :
    ∃ pp1 pp2,
      Directive fuel ["#".toList, "define".toList, " ".toList, F, "(".toList, x, ")".toList,
        " ".toList, "#".toList, x] pp ps = .done (pp1, ps) ∧
      MacroReplacement (fuel + 2) ps pp1 (CallTokens F [arg]) pflm false =
        .done ⟨some [[dquote] ++ Escaped (ToString arg) ++ [dquote]], pflm, pp2⟩ := by
  have hxb := IsBlank_false_of_identifier hx
  have hdir := Directive_define_dispatch fuel F
    ["(".toList, x, ")".toList, " ".toList, "#".toList, x] x pp ps hF rfl hxb
  rw [show (["(".toList, x, ")".toList, " ".toList, "#".toList, x] : List Token).length + 4 = 10
    from rfl, DirectiveDefine_stringify F x pp ps hF hx] at hdir
  have hfind : ((pp.erase F).emplace F (StringifyDefinition x)).find F =
      some (StringifyDefinition x) :=
    find_emplace_self _ _ _ (find_erase_self pp F)
  refine ⟨(pp.erase F).emplace F (StringifyDefinition x),
    (((pp.erase F).emplace F (StringifyDefinition x)).setDisabled F true).setDisabled F false,
    hdir, ?_⟩
  apply MacroReplacement_call fuel ps _ _ F (StringifyDefinition x) [arg] _ pflm hF hfind rfl rfl
    (by simp) (by simpa using harg) [arg] (by simp [Definition.argumentCount, StringifyDefinition])
    (by simp [Definition.argumentCount, StringifyDefinition])
    (by left; simp [Definition.argumentCount, StringifyDefinition])
    (Apply_stringify x _ arg _)
  intro tok htok
  simp only [List.mem_singleton] at htok
  subst htok
  right; left
  simp [IsLegalIdentifierStartToken, IsLegalIdentifierStart, IsLetter, dquote]

/-- Witness of C5: `#define STR(x) #x`, then `STR(hi)` yields the single token
`"hi"`. -/
theorem stringification_witness :
    ∃ pp1 pp2,
      Directive 0 ["#".toList, "define".toList, " ".toList, "STR".toList, "(".toList,
        "x".toList, ")".toList, " ".toList, "#".toList, "x".toList] {} {} = .done (pp1, {}) ∧
      MacroReplacement 2 {} pp1 (CallTokens "STR".toList [["hi".toList]]) none false =
        .done ⟨some [[dquote, 'h', 'i', dquote]], none, pp2⟩ :=
  stringification "STR".toList "x".toList ["hi".toList] {} {} 0 none (by decide) (by decide)
    rfl

theorem DirectiveDefine_paste (F a b : Token) (pp : Preprocessor) (ps : Prescanner)
    (hF : IsLegalIdentifierStartToken F = true) (ha : IsLegalIdentifierStartToken a = true)
    (hb : IsLegalIdentifierStartToken b = true) (hab : a ≠ b) :
    DirectiveDefine ["#".toList, "define".toList, " ".toList, F, "(".toList, a, ",".toList, b,
        ")".toList, " ".toList, a, "##".toList, b] 13 3 F pp ps =
      .done ((pp.erase F).emplace F (PasteDefinition a b), ps) := by
  have hFe := isEmpty_false_of_identifier hF
  have hFn : F ≠ [] := by intro h; rw [h] at hFe; simp at hFe
  have hab' : (b == a) = false := by simpa using Ne.symm hab
  have hxb := IsBlank_false_of_identifier ha
  have hbb := IsBlank_false_of_identifier hb
  have had : a ≠ ['.', '.', '.'] := ne_dots_of_identifier ha
  have hbd : b ≠ ['.', '.', '.'] := ne_dots_of_identifier hb
  have hao := OnlyNonBlank_identifier ha
  generalize hd : ["#".toList, "define".toList, " ".toList, F, "(".toList, a, ",".toList, b,
        ")".toList, " ".toList, a, "##".toList, b] = dir
  have hlen : dir.length = 13 := by rw [← hd]; rfl
  have t4 : TokenAt dir 4 = "(".toList := by rw [← hd]; rfl
  have t5 : TokenAt dir 5 = a := by rw [← hd]; rfl
  have t6 : TokenAt dir 6 = ",".toList := by rw [← hd]; rfl
  have t7 : TokenAt dir 7 = b := by rw [← hd]; rfl
  have t8 : TokenAt dir 8 = ")".toList := by rw [← hd]; rfl
  have t9 : TokenAt dir 9 = " ".toList := by rw [← hd]; rfl
  have t10 : TokenAt dir 10 = a := by rw [← hd]; rfl
  have s5 : SkipBlanks dir 5 = 5 := SkipBlanks_of_nonblank dir 5 (by omega) (by rw [t5]; exact hxb)
  have s6 : SkipBlanks dir 6 = 6 := SkipBlanks_of_nonblank dir 6 (by omega) (by rw [t6]; decide)
  have s7 : SkipBlanks dir 7 = 7 := SkipBlanks_of_nonblank dir 7 (by omega) (by rw [t7]; exact hbb)
  have s8 : SkipBlanks dir 8 = 8 := SkipBlanks_of_nonblank dir 8 (by omega) (by rw [t8]; decide)
  have s10 : SkipBlanks dir 10 = 10 :=
    SkipBlanks_of_nonblank dir 10 (by omega) (by rw [t10]; exact hxb)
  have s9 : SkipBlanks dir 9 = 10 := by
    rw [SkipBlanks_of_blank dir 9 (by omega) (by rw [t9]; decide), s10]
  have hsub : SubSequence dir 10 3 = [a, "##".toList, b] := by rw [← hd]; rfl
  have o4 : OnlyNonBlank ['('] = '(' := by decide
  have o6 : OnlyNonBlank [','] = ',' := by decide
  have o8 : OnlyNonBlank [')'] = ')' := by decide
  have hargs : DefineArgumentList dir 13 14 5 [] false = .done (.ok ([a, b], false, 8)) := by
    rw [DefineArgumentList]
    simp only [hlen, t5]
    simp [had, ha, s6, t6, o6]
    rw [DefineArgumentList]
    simp [hlen, s7, t7, hbd, hb, s8, t8, o8]
    exact had
  have i1 : IsLegalIdentifierStartToken ['#', '#'] = false := by decide
  unfold DirectiveDefine
  simp [hFn, t4, o4, s5, hlen, t5, hargs, s9, Definition.functionLike, Tokenize,
    TokenizeArgs, hsub, TokenizeBody, i1, ha, hb, List.lookup, hao.2.1, PasteDefinition, hab,
    hab']

theorem getLast?_mem {t : Token} {c : Char} (h : t.getLast? = some c) : c ∈ t :=
  List.mem_of_getLast?_eq_some h

theorem head?_mem {t : Token} {c : Char} (h : t.head? = some c) : c ∈ t :=
  List.mem_of_mem_head? h

/-- Facts about a token that contains an identifier character. -/
theorem token_with_identifier_char (t : Token) (c : Char) (hc : c ∈ t)
    (hid : IsLegalInIdentifier c = true) :
    IsBlank t = false ∧ OnlyNonBlank t ≠ '(' ∧ OnlyNonBlank t ≠ ')' ∧ OnlyNonBlank t ≠ ',' := by
  have hcc : (c == ' ' || c == '\t') = false ∧ c ≠ '(' ∧ c ≠ ')' ∧ c ≠ ',' := by
    refine ⟨?_, ?_, ?_, ?_⟩
    · by_contra h
      simp only [Bool.not_eq_false, Bool.or_eq_true, beq_iff_eq] at h
      rcases h with rfl | rfl <;> (revert hid; decide)
    all_goals (rintro rfl; revert hid; decide)
  refine ⟨?_, ?_⟩
  · unfold IsBlank
    rw [Bool.eq_false_iff]
    intro hall
    rw [List.all_eq_true] at hall
    have := hall c hc
    rw [hcc.1] at this
    exact absurd this (by decide)
  · rcases OnlyNonBlank_of_mem t c hc hcc.1 with h | h
    · rw [h]; exact hcc.2
    · rw [h]; decide

theorem Apply_paste (a b : Token) (mr : ReplaceFn) (x y : Token) (cx cy : Char)
    (pp : Preprocessor)
    (hx : x.getLast? = some cx) (hcx : IsLegalInIdentifier cx = true)
    (hy : y.head? = some cy) (hcy : IsLegalInIdentifier cy = true) :
    (PasteDefinition a b).Apply mr [[x], [y]] pp false = .done ([x ++ y], pp) := by
  have fx := token_with_identifier_char x cx (getLast?_mem hx) hcx
  have fy := token_with_identifier_char y cy (head?_mem hy) hcy
  have px : IsTokenPasting x = false := by
    unfold IsTokenPasting
    rw [Bool.eq_false_iff]
    intro h
    have hxe : x = ['#', '#'] := by simpa using h
    rw [hxe] at hx
    simp at hx
    rw [← hx] at hcx
    exact absurd hcx (by decide)
  have py : IsTokenPasting y = false := by
    unfold IsTokenPasting
    rw [Bool.eq_false_iff]
    intro h
    have hye : y = ['#', '#'] := by simpa using h
    rw [hye] at hy
    simp at hy
    rw [← hy] at hcy
    exact absurd hcy (by decide)
  have hlegal : PastingIsLegal x y = true := by
    simp [PastingIsLegal, hx, hy, hcx, hcy]
  have h2 : (PasteDefinition a b).ApplyLoop mr [[x], [y]] false
        [argPlaceholder 0, "##".toList, argPlaceholder 1] 0 ⟨[], false, 0, pp⟩ =
      .done ⟨[x, "##".toList, y], false, 0, pp⟩ := by
    rfl
  have h3 : TokenPasting [x, "##".toList, y] = [x ++ y] := by
    have hany : AnyTokenPasting [x, ['#', '#'], y] = true := by
      simp [AnyTokenPasting, IsTokenPasting]
    have p2 : IsTokenPasting ['#', '#'] = true := by decide
    simp [TokenPasting, hany, TokenPastingLoop, px, p2, py, PopTrailingBlanks, fx.1, fy.1,
      hlegal, ReopenLastTokenAndAppend]
  unfold Definition.Apply
  rw [show (PasteDefinition a b).replacement =
    [argPlaceholder 0, "##".toList, argPlaceholder 1] from rfl, h2]
  simp only [h3]

/-- C6. Token pasting: after `#define F(a,b) a##b` (any names, `a` and `b` distinct),
for single-token actual arguments `x` and `y` such that the last character of `x`
and the first character of `y` are identifier characters and the concatenation
`xy` names no macro, the expansion of `F(x,y)` is the single token `xy`; no `##`
is left. -/
theorem token_pasting (F a b x y : Token) (cx cy : Char) (pp : Preprocessor) (ps : Prescanner)
    (fuel : Nat) (pflm : PartialFLM)
    (hF : IsLegalIdentifierStartToken F = true) (ha : IsLegalIdentifierStartToken a = true)
    (hb : IsLegalIdentifierStartToken b = true) (hab : a ≠ b)
    (hx : x.getLast? = some cx) (hcx : IsLegalInIdentifier cx = true)
    (hy : y.head? = some cy) (hcy : IsLegalInIdentifier cy = true)
    (hxy : IsLegalIdentifierStartToken (x ++ y) = true → x ++ y ≠ F → pp.find (x ++ y) = none) :
    ∃ pp1 pp2,
      Directive fuel ["#".toList, "define".toList, " ".toList, F, "(".toList, a, ",".toList, b,
        ")".toList, " ".toList, a, "##".toList, b] pp ps = .done (pp1, ps) ∧
      MacroReplacement (fuel + 2) ps pp1 (CallTokens F [[x], [y]]) pflm false =
        .done ⟨some [x ++ y], pflm, pp2⟩ := by
  have hbb := IsBlank_false_of_identifier hb
  have fx := token_with_identifier_char x cx (getLast?_mem hx) hcx
  have fy := token_with_identifier_char y cy (head?_mem hy) hcy
  have hdir := Directive_define_dispatch fuel F
    ["(".toList, a, ",".toList, b, ")".toList, " ".toList, a, "##".toList, b] b pp ps hF rfl hbb
  rw [show (["(".toList, a, ",".toList, b, ")".toList, " ".toList, a, "##".toList, b] :
    List Token).length + 4 = 13 from rfl, DirectiveDefine_paste F a b pp ps hF ha hb hab] at hdir
  have hfind : ((pp.erase F).emplace F (PasteDefinition a b)).find F =
      some (PasteDefinition a b) :=
    find_emplace_self _ _ _ (find_erase_self pp F)
  have hargx : IsArgument [x] := by
    simp [IsArgument, ArgumentDepth, fx.2.1, fx.2.2.1, fx.2.2.2]
  have hargy : IsArgument [y] := by
    simp [IsArgument, ArgumentDepth, fy.2.1, fy.2.2.1, fy.2.2.2]
  refine ⟨(pp.erase F).emplace F (PasteDefinition a b),
    (((pp.erase F).emplace F (PasteDefinition a b)).setDisabled F true).setDisabled F false,
    hdir, ?_⟩
  apply MacroReplacement_call fuel ps _ _ F (PasteDefinition a b) [[x], [y]] _ pflm hF hfind rfl
    rfl (by simp) (by
      intro arg harg
      simp only [List.mem_cons, List.mem_singleton, List.not_mem_nil, or_false] at harg
      rcases harg with rfl | rfl
      · exact hargx
      · exact hargy) [[x], [y]]
    (by simp [Definition.argumentCount, PasteDefinition])
    (by simp [Definition.argumentCount, PasteDefinition])
    (by left; simp [Definition.argumentCount, PasteDefinition])
    (Apply_paste a b _ x y cx cy _ hx hcx hy hcy)
  intro tok htok
  simp only [List.mem_singleton] at htok
  subst htok
  by_cases hid : IsLegalIdentifierStartToken (x ++ y) = true
  · by_cases hxF : x ++ y = F
    · right; right; right
      refine ⟨(PasteDefinition a b).set_isDisabled true, ?_, rfl⟩
      rw [find_setDisabled, if_pos hxF, hxF, hfind]
      rfl
    · right; right; left
      rw [find_setDisabled, if_neg hxF, find_emplace_other _ _ _ _ hxF,
        find_erase_other _ _ _ hxF]
      exact hxy hid hxF
  · right; left
    simpa using hid

/-- Witness of C6: `#define CAT(a,b) a##b`, then `CAT(fo,o)` yields the single token
`foo`. -/
theorem token_pasting_witness :
    ∃ pp1 pp2,
      Directive 0 ["#".toList, "define".toList, " ".toList, "CAT".toList, "(".toList,
        "a".toList, ",".toList, "b".toList, ")".toList, " ".toList, "a".toList, "##".toList,
        "b".toList] {} {} = .done (pp1, {}) ∧
      MacroReplacement 2 {} pp1 (CallTokens "CAT".toList [["fo".toList], ["o".toList]]) none
          false =
        .done ⟨some ["foo".toList], none, pp2⟩ :=
  token_pasting "CAT".toList "a".toList "b".toList "fo".toList "o".toList 'o' 'o' {} {} 0 none
    (by decide) (by decide) (by decide) (by decide) rfl (by decide) rfl (by decide)
    (fun _ _ => rfl)

theorem VariadicArguments_eq (args : List TokenSequence) :
    VariadicArguments args = CommaSeparated args := by
  induction args with
  | nil => rfl
  | cons a rest ih =>
    cases rest with
    | nil => rfl
    | cons b more => simp only [VariadicArguments, CommaSeparated, ih]

theorem CommaSeparated_forall (P : Token → Prop) (args : List TokenSequence)
    (hcomma : P [','])
    (h : ∀ a ∈ args, ∀ tok ∈ a, P tok) : ∀ tok ∈ CommaSeparated args, P tok := by
  induction args with
  | nil => intro tok htok; simp [CommaSeparated] at htok
  | cons a rest ih =>
    cases rest with
    | nil =>
      intro tok htok
      exact h a (List.mem_cons_self _ _) tok htok
    | cons b more =>
      intro tok htok
      simp only [CommaSeparated, List.append_assoc, List.mem_append, List.mem_singleton] at htok
      rcases htok with h1 | h1 | h1
      · exact h a (List.mem_cons_self _ _) tok h1
      · rw [h1]; exact hcomma
      · exact ih (fun x hx => h x (List.mem_cons_of_mem _ hx)) tok h1

theorem DirectiveDefine_variadic (F p : Token) (pp : Preprocessor) (ps : Prescanner)
    (hF : IsLegalIdentifierStartToken F = true) (hp : IsLegalIdentifierStartToken p = true)
    (hpva : p ≠ "__VA_ARGS__".toList) :
    DirectiveDefine ["#".toList, "define".toList, " ".toList, F, "(".toList, p, ",".toList,
        "...".toList, ")".toList, " ".toList, p, ":".toList, " ".toList,
        "__VA_ARGS__".toList] 14 3 F pp ps =
      .done ((pp.erase F).emplace F (VariadicDefinition p), ps) := by
  have hFe := isEmpty_false_of_identifier hF
  have hFn : F ≠ [] := by intro h; rw [h] at hFe; simp at hFe
  have hpb := IsBlank_false_of_identifier hp
  have hpd : p ≠ ['.', '.', '.'] := ne_dots_of_identifier hp
  have hpo := OnlyNonBlank_identifier hp
  have hpva' : (['_', '_', 'V', 'A', '_', 'A', 'R', 'G', 'S', '_', '_'] == p) = false := by
    have : ¬ (['_', '_', 'V', 'A', '_', 'A', 'R', 'G', 'S', '_', '_'] = p) := fun h => hpva h.symm
    simpa using this
  generalize hd : ["#".toList, "define".toList, " ".toList, F, "(".toList, p, ",".toList,
        "...".toList, ")".toList, " ".toList, p, ":".toList, " ".toList,
        "__VA_ARGS__".toList] = dir
  have hlen : dir.length = 14 := by rw [← hd]; rfl
  have t4 : TokenAt dir 4 = "(".toList := by rw [← hd]; rfl
  have t5 : TokenAt dir 5 = p := by rw [← hd]; rfl
  have t6 : TokenAt dir 6 = ",".toList := by rw [← hd]; rfl
  have t7 : TokenAt dir 7 = "...".toList := by rw [← hd]; rfl
  have t8 : TokenAt dir 8 = ")".toList := by rw [← hd]; rfl
  have t9 : TokenAt dir 9 = " ".toList := by rw [← hd]; rfl
  have t10 : TokenAt dir 10 = p := by rw [← hd]; rfl
  have s5 : SkipBlanks dir 5 = 5 := SkipBlanks_of_nonblank dir 5 (by omega) (by rw [t5]; exact hpb)
  have s6 : SkipBlanks dir 6 = 6 := SkipBlanks_of_nonblank dir 6 (by omega) (by rw [t6]; decide)
  have s7 : SkipBlanks dir 7 = 7 := SkipBlanks_of_nonblank dir 7 (by omega) (by rw [t7]; decide)
  have s8 : SkipBlanks dir 8 = 8 := SkipBlanks_of_nonblank dir 8 (by omega) (by rw [t8]; decide)
  have s10 : SkipBlanks dir 10 = 10 :=
    SkipBlanks_of_nonblank dir 10 (by omega) (by rw [t10]; exact hpb)
  have s9 : SkipBlanks dir 9 = 10 := by
    rw [SkipBlanks_of_blank dir 9 (by omega) (by rw [t9]; decide), s10]
  have hsub : SubSequence dir 10 4 = [p, ":".toList, " ".toList, "__VA_ARGS__".toList] := by
    rw [← hd]; rfl
  have o4 : OnlyNonBlank ['('] = '(' := by decide
  have o6 : OnlyNonBlank [','] = ',' := by decide
  have o8 : OnlyNonBlank [')'] = ')' := by decide
  have hargs : DefineArgumentList dir 14 15 5 [] false = .done (.ok ([p], true, 8)) := by
    rw [DefineArgumentList]
    simp only [hlen, t5]
    simp [hpd, hp, s6, t6, o6]
    rw [DefineArgumentList]
    simp [hlen, s7, t7, s8, t8, o8]
  have i1 : IsLegalIdentifierStartToken [':'] = false := by decide
  have i2 : IsLegalIdentifierStartToken [' '] = false := by decide
  have i3 : IsLegalIdentifierStartToken "__VA_ARGS__".toList = true := by decide
  unfold DirectiveDefine
  simp [hFn, t4, o4, s5, hlen, t5, hargs, s9, Definition.functionLike, Tokenize,
    TokenizeArgs, hsub, TokenizeBody, i1, i2, hp, List.lookup, hpo.2.1, VariadicDefinition,
    hpva']


theorem Apply_variadic (p : Token) (fuel : Nat) (ps : Prescanner) (a0 : TokenSequence)
    (rest : List TokenSequence) (pp : Preprocessor)
    (hnames : NamesNoMacro pp a0)
    (hpaste : ∀ a ∈ a0 :: rest, AnyTokenPasting a = false) :
    (VariadicDefinition p).Apply (MacroReplacement (fuel + 1) ps) (a0 :: rest) pp false =
      .done (a0 ++ [[':'], [' ']] ++ CommaSeparated rest, pp) := by
  have hmr := MacroReplacement_namesNoMacro fuel ps pp a0 none hnames
  have h2 : (VariadicDefinition p).ApplyLoop (MacroReplacement (fuel + 1) ps) (a0 :: rest) false
        [argPlaceholder 0, ":".toList, " ".toList, "__VA_ARGS__".toList] 0 ⟨[], false, 0, pp⟩ =
      .done ⟨a0 ++ [[':'], [' ']] ++ VariadicArguments rest, false, 0, pp⟩ := by
    rw [Definition.ApplyLoop]
    have e1 : Definition.GetArgumentIndex (VariadicDefinition p) (argPlaceholder 0) = 0 := rfl
    have e2 : SkipBlanksBackwards (VariadicDefinition p).replacement 0 = none := rfl
    have e3 : SkipBlanks (VariadicDefinition p).replacement (0 + 1) = 1 := rfl
    have e4 : IsTokenPasting (TokenAt (VariadicDefinition p).replacement 1) = false := rfl
    have e5 : (argPlaceholder 0).length = 2 := rfl
    have e6 : (argPlaceholder 0).head? = some '~' := rfl
    simp only [e1, e2, e3, e4, e5, e6]
    simp
    rw [hmr]
    have h3 : (VariadicDefinition p).ApplyLoop (MacroReplacement (fuel + 1) ps) (a0 :: rest) false
        [[':'], [' '], ['_', '_', 'V', 'A', '_', 'A', 'R', 'G', 'S', '_', '_']] 1
        ⟨a0, false, 0, pp⟩ =
        .done ⟨a0 ++ [[':']] ++ [[' ']] ++ VariadicArguments rest, false, 0, pp⟩ := rfl
    simp [h3]
  have h1 : TokenPasting (a0 ++ [[':'], [' ']] ++ VariadicArguments rest) =
      a0 ++ [[':'], [' ']] ++ VariadicArguments rest := by
    apply TokenPasting_of_not_any
    rw [VariadicArguments_eq]
    have hall : ∀ tok ∈ CommaSeparated rest, IsTokenPasting tok = false := by
      apply CommaSeparated_forall (fun tok => IsTokenPasting tok = false) rest (by decide)
      intro a ha tok htok
      have := hpaste a (List.mem_cons_of_mem _ ha)
      simp only [AnyTokenPasting, List.any_eq_false] at this
      simpa using this tok htok
    have h0 : a0.any IsTokenPasting = false := hpaste a0 (List.mem_cons_self _ _)
    have h3 : ([[':'], [' ']] : TokenSequence).any IsTokenPasting = false := by decide
    have h4 : (CommaSeparated rest).any IsTokenPasting = false := by
      rw [List.any_eq_false]
      intro tok htok
      simpa using hall tok htok
    simp only [AnyTokenPasting, List.any_append, h0, h3, h4, Bool.or_self]
  unfold Definition.Apply
  rw [show (VariadicDefinition p).replacement =
    [argPlaceholder 0, ":".toList, " ".toList, "__VA_ARGS__".toList] from rfl, h2]
  simp only [VariadicArguments_eq] at h1 ⊢
  rw [h1]

/-- The directive `#define F(p,...) p: __VA_ARGS__` (any names `F` and `p`) and a call
of `F`: for actual arguments that name no macro and contain no `##`, the expansion
of `F(a0, a1, ..., an)` is `a0`, the colon and the blank of the body, and then the
arguments beyond the declared formal, in order, each with the tokens (blanks
included) it was written with, a comma token between two of them; when there are
none, nothing follows the blank of the body. -/
theorem variadic_call (F p : Token) (a0 : TokenSequence) (rest : List TokenSequence)
    (pp : Preprocessor) (ps : Prescanner) (fuel : Nat) (pflm : PartialFLM)
    (hF : IsLegalIdentifierStartToken F = true) (hp : IsLegalIdentifierStartToken p = true)
    (hpva : p ≠ "__VA_ARGS__".toList)
    (hargs : ∀ a ∈ a0 :: rest, IsArgument a ∧
      NamesNoMacro ((pp.erase F).emplace F (VariadicDefinition p)) a ∧
      AnyTokenPasting a = false) :
    Directive fuel ["#".toList, "define".toList, " ".toList, F, "(".toList, p, ",".toList,
        "...".toList, ")".toList, " ".toList, p, ":".toList, " ".toList,
        "__VA_ARGS__".toList] pp ps =
      .done ((pp.erase F).emplace F (VariadicDefinition p), ps) ∧
    ∃ pp2, MacroReplacement (fuel + 2) ps ((pp.erase F).emplace F (VariadicDefinition p))
        (CallTokens F (a0 :: rest)) pflm false =
      .done ⟨some (a0 ++ [[':'], [' ']] ++ CommaSeparated rest), pflm, pp2⟩ := by
  have hdir := Directive_define_dispatch fuel F
    ["(".toList, p, ",".toList, "...".toList, ")".toList, " ".toList, p, ":".toList,
      " ".toList, "__VA_ARGS__".toList] "__VA_ARGS__".toList pp ps hF rfl (by decide)
  rw [show (["(".toList, p, ",".toList, "...".toList, ")".toList, " ".toList, p, ":".toList,
      " ".toList, "__VA_ARGS__".toList] : List Token).length + 4 = 14 from rfl,
    DirectiveDefine_variadic F p pp ps hF hp hpva] at hdir
  have hfind : ((pp.erase F).emplace F (VariadicDefinition p)).find F =
      some (VariadicDefinition p) :=
    find_emplace_self _ _ _ (find_erase_self pp F)
  refine ⟨hdir,
    (((pp.erase F).emplace F (VariadicDefinition p)).setDisabled F true).setDisabled F false,
    ?_⟩
  apply MacroReplacement_call fuel ps _ _ F (VariadicDefinition p) (a0 :: rest) _ pflm hF hfind
    rfl rfl (by simp) (fun a ha => (hargs a ha).1) (a0 :: rest)
    (by simp [Definition.argumentCount, VariadicDefinition])
    (by simp [Definition.argumentCount, VariadicDefinition])
    (by right; rfl)
    (Apply_variadic p fuel ps a0 rest _ (hargs a0 (List.mem_cons_self _ _)).2.1
      (fun a ha => (hargs a ha).2.2))
  apply Inert_of_namesNoMacro
  intro tok htok
  simp only [List.append_assoc, List.mem_append] at htok
  rcases htok with h | h | h
  · exact (hargs a0 (List.mem_cons_self _ _)).2.1 tok h
  · intro hid
    simp only [List.mem_cons, List.mem_singleton, List.not_mem_nil, or_false] at h
    rcases h with rfl | rfl <;> exact absurd hid (by decide)
  · exact CommaSeparated_forall
      (fun tok => IsLegalIdentifierStartToken tok = true →
        ((pp.erase F).emplace F (VariadicDefinition p)).find tok = none) rest
      (fun hid => absurd hid (by decide))
      (fun a ha => (hargs a (List.mem_cons_of_mem _ ha)).2.1) tok h

/-! ## `__VA_ARGS__` in general -/

/-- One iteration of the loop of `Definition::Apply` at `__VA_ARGS__` in a variadic
definition, outside of skipped text. -/
theorem ApplyLoop_va_args (d : Definition) (mr : ReplaceFn) (args : List TokenSequence)
    (inIf : Bool) (rest : List Token) (j : Nat) (st : ApplyState)
    (hvar : d.isVariadic = true) (hst : st.skipping = false) :
    d.ApplyLoop mr args inIf ("__VA_ARGS__".toList :: rest) j st =
      d.ApplyLoop mr args inIf rest (j + 1)
        { st with result := st.result ++ CommaSeparated (args.drop d.argumentCount) } := by
  rw [Definition.ApplyLoop.eq_def]
  simp [hst, hvar, VariadicArguments_eq]

/-- One iteration of the loop of `Definition::Apply` at `__VA_ARGS__` inside skipped
text. -/
theorem ApplyLoop_va_args_skipped (d : Definition) (mr : ReplaceFn) (args : List TokenSequence)
    (inIf : Bool) (rest : List Token) (j : Nat) (st : ApplyState)
    (hst : st.skipping = true) :
    d.ApplyLoop mr args inIf ("__VA_ARGS__".toList :: rest) j st =
      d.ApplyLoop mr args inIf rest (j + 1) st := by
  have c1 : (OnlyNonBlank "__VA_ARGS__".toList == '(') = false := by decide
  have c2 : (OnlyNonBlank "__VA_ARGS__".toList == ')') = false := by decide
  rw [Definition.ApplyLoop.eq_def]
  simp only [hst, if_true, c1, c2, Bool.false_eq_true, if_false]

/-- Text is skipped by the loop of `Definition::Apply` only when there is no argument
beyond the formals. -/
theorem ApplyLoop_skipping (d : Definition) (mr : ReplaceFn) (args : List TokenSequence)
    (b : Bool) :
    ∀ (n : Nat) (rest : List Token), rest.length ≤ n → ∀ (j : Nat) (st st1 : ApplyState),
      (st.skipping = true → args.length = d.argumentCount) →
      d.ApplyLoop mr args b rest j st = .done st1 →
      (st1.skipping = true → args.length = d.argumentCount) := by
  intro n
  induction n with
  | zero =>
    intro rest hn j st st1 hinv h
    have : rest = [] := List.length_eq_zero.mp (by omega)
    subst this
    simp only [Definition.ApplyLoop, Run.done.injEq] at h
    rw [← h]
    exact hinv
  | succ n ih =>
    intro rest hn j st st1 hinv h
    cases rest with
    | nil =>
      simp only [Definition.ApplyLoop, Run.done.injEq] at h
      rw [← h]
      exact hinv
    | cons token more =>
      have hm : more.length ≤ n := by simp at hn; omega
      rw [Definition.ApplyLoop.eq_def] at h
      simp only [] at h
      repeat' split at h
      all_goals first
        | (cases h; done)
        | (cases h; exact hinv)
        | exact ih more hm _ _ _ hinv h
        | (refine ih more hm _ _ _ ?_ h
           first
             | exact hinv
             | (intro hs; exact hinv (by assumption))
             | (intro hs; cases hs))
        | (rename_i t2 rest2
           refine ih rest2 (by simp only [List.length_cons] at hm; omega) _ _ _ ?_ h
           intro hs
           exact beq_iff_eq.mp hs)

/-- The loop of `Definition::Apply` over the replacement text up to a token that is
not a left parenthesis, and then over the rest. -/
theorem ApplyLoop_prefix (d : Definition) (mr : ReplaceFn) (args : List TokenSequence)
    (b : Bool) (tok : Token) (post : List Token) (J : Nat)
    (htok : OnlyNonBlank tok ≠ '(') (hJ : TokenAt d.replacement J = tok) :
    ∀ (n : Nat) (pre : List Token), pre.length ≤ n → ∀ (j : Nat) (st : ApplyState),
      j + pre.length = J →
      d.ApplyLoop mr args b (pre ++ tok :: post) j st =
        (d.ApplyLoop mr args b pre j st).andThen
          (fun st1 => d.ApplyLoop mr args b (tok :: post) J st1) := by
  intro n
  induction n with
  | zero =>
    intro pre hn j st hj
    have : pre = [] := List.length_eq_zero.mp (by omega)
    subst this
    simp only [List.length_nil, Nat.add_zero] at hj
    subst hj
    simp [Definition.ApplyLoop, Run.andThen]
  | succ n ih =>
    intro pre hn j st hj
    cases pre with
    | nil =>
      simp only [List.length_nil, Nat.add_zero] at hj
      subst hj
      simp [Definition.ApplyLoop, Run.andThen]
    | cons t more =>
      have hm : more.length ≤ n := by simp at hn; omega
      have hj1 : j + 1 + more.length = J := by simp only [List.length_cons] at hj; omega
      have hrec : ∀ st1, d.ApplyLoop mr args b (more ++ tok :: post) (j + 1) st1 =
          (d.ApplyLoop mr args b more (j + 1) st1).andThen
            (fun st1 => d.ApplyLoop mr args b (tok :: post) J st1) :=
        fun st1 => ih more hm (j + 1) st1 hj1
      have hR : d.ApplyLoop mr args b (t :: more) j st = _ := Definition.ApplyLoop.eq_def ..
      rw [List.cons_append, Definition.ApplyLoop.eq_def, hR]
      simp only [hrec]
      split_ifs <;> try rfl
      · generalize mr st.pp (args.getD (d.GetArgumentIndex t) []) none b = r
        cases r <;> rfl
      · rename_i hopt
        cases more with
        | nil =>
          exfalso
          simp only [List.length_nil, Nat.add_zero] at hj1
          simp only [Bool.and_eq_true, beq_iff_eq] at hopt
          rw [hj1, hJ] at hopt
          exact htok hopt.1.2
        | cons x more2 =>
          simp only [List.cons_append]
          exact ih more2 (by simp only [List.length_cons] at hm; omega) (j + 2) _
            (by simp only [List.length_cons] at hj1; omega)

/-- `Definition::Apply` on a replacement text with `__VA_ARGS__` in it: the loop over
the tokens before it, the arguments beyond the formals appended, and the loop over
the tokens after it. -/
theorem Apply_va_args (d : Definition) (mr : ReplaceFn) (args : List TokenSequence)
    (inIf : Bool) (hvar : d.isVariadic = true) (pre post : List Token) (pp : Preprocessor)
    (hrepl : d.replacement = pre ++ "__VA_ARGS__".toList :: post) :
    d.Apply mr args pp inIf =
      ((d.ApplyLoop mr args inIf pre 0 ⟨[], false, 0, pp⟩).andThen
        (fun st => d.ApplyLoop mr args inIf post (pre.length + 1)
          { st with result := st.result ++ CommaSeparated (args.drop d.argumentCount) })).andThen
        (fun st => .done (TokenPasting st.result, st.pp)) := by
  have hJ : TokenAt d.replacement pre.length = "__VA_ARGS__".toList := by
    rw [hrepl]
    unfold TokenAt
    rw [List.getD_eq_getElem?_getD, List.getElem?_append_right (le_refl _)]
    simp
  have key : ∀ l, l = d.replacement →
      d.ApplyLoop mr args inIf l 0 ⟨[], false, 0, pp⟩ =
        (d.ApplyLoop mr args inIf pre 0 ⟨[], false, 0, pp⟩).andThen
          (fun st1 => d.ApplyLoop mr args inIf ("__VA_ARGS__".toList :: post) pre.length st1) := by
    intro l hl
    rw [hl, hrepl]
    exact ApplyLoop_prefix d mr args inIf _ post pre.length (by decide) hJ pre.length pre
      (le_refl _) 0 _ (Nat.zero_add _)
  unfold Definition.Apply
  rw [key d.replacement rfl]
  cases hpre : d.ApplyLoop mr args inIf pre 0 ⟨[], false, 0, pp⟩ with
  | outOfFuel => rfl
  | crash c => rfl
  | done st =>
    have hinv := ApplyLoop_skipping d mr args inIf pre.length pre (le_refl _) 0 _ st
      (fun h => by cases h) hpre
    obtain ⟨r, sk, m, q⟩ := st
    simp only [Run.andThen]
    cases sk with
    | false =>
      rw [ApplyLoop_va_args d mr args inIf post pre.length _ hvar rfl]
      cases d.ApplyLoop mr args inIf post (pre.length + 1)
        ⟨r ++ CommaSeparated (args.drop d.argumentCount), false, m, q⟩ <;> rfl
    | true =>
      have hnone : CommaSeparated (args.drop d.argumentCount) = [] := by
        rw [List.drop_of_length_le (by rw [hinv rfl])]
        rfl
      rw [ApplyLoop_va_args_skipped d mr args inIf post pre.length _ rfl, hnone,
        List.append_nil]
      cases d.ApplyLoop mr args inIf post (pre.length + 1) ⟨r, true, m, q⟩ <;> rfl

/-- C7 (as amended). Variadic arguments. In the body of every variadic macro, for every
list of actual arguments, every replacement function and both modes: the iteration
of the loop of `Definition::Apply` at a token `__VA_ARGS__` appends to the result the
actual arguments beyond the declared formals, in order, each with the tokens (blanks
included) it was written with, a comma token between two of them, and changes
nothing else; so for a replacement text `pre __VA_ARGS__ post`, `Definition::Apply`
is the loop over `pre`, these tokens appended, and the loop over `post` (followed by
the token pasting that ends `Apply`); when there is no argument beyond the formals,
nothing is appended, not even a comma. The arguments handed to `Apply` are those of
the call as written: the call `F(a1, ..., an)` of a variadic macro `F` with at least
as many arguments as formals yields what `Apply` gives for `a1`, ..., `an`, when
that holds nothing to replace again. With `#define F(p,...) p: __VA_ARGS__` the
directive enters that definition, and the call `F(a0, a1, ..., an)` with arguments
that name no macro yields `a0`, the colon and the blank of the body, and the
arguments `a1` to `an` as written with commas between them. -/
theorem variadic_arguments (d : Definition) (mr : ReplaceFn) (args : List TokenSequence)
    (inIf : Bool) (hvar : d.isVariadic = true) :
    (∀ (rest : List Token) (j : Nat) (st : ApplyState), st.skipping = false →
      d.ApplyLoop mr args inIf ("__VA_ARGS__".toList :: rest) j st =
        d.ApplyLoop mr args inIf rest (j + 1)
          { st with result := st.result ++ CommaSeparated (args.drop d.argumentCount) }) ∧
    (∀ (pre post : List Token) (pp : Preprocessor),
      d.replacement = pre ++ "__VA_ARGS__".toList :: post →
      d.Apply mr args pp inIf =
        ((d.ApplyLoop mr args inIf pre 0 ⟨[], false, 0, pp⟩).andThen
          (fun st => d.ApplyLoop mr args inIf post (pre.length + 1)
            { st with
              result := st.result ++ CommaSeparated (args.drop d.argumentCount) })).andThen
          (fun st => .done (TokenPasting st.result, st.pp))) ∧
    (args.length ≤ d.argumentCount → CommaSeparated (args.drop d.argumentCount) = []) ∧
    (∀ (fuel : Nat) (ps : Prescanner) (pp pp0 : Preprocessor) (F : Token)
        (written : List TokenSequence) (applied : TokenSequence) (pflm : PartialFLM),
      IsLegalIdentifierStartToken F = true → pp.find F = some d → d.isDisabled = false →
      d.isFunctionLike = true → written ≠ [] → (∀ a ∈ written, IsArgument a) →
      args = (if written = [[]] ∧ d.argumentCount = 0 then [] else written) →
      d.argumentCount ≤ args.length →
      d.Apply (MacroReplacement (fuel + 1) ps) args pp false = .done (applied, pp0) →
      (∀ tok ∈ applied, Inert (pp0.setDisabled F true) tok) →
      MacroReplacement (fuel + 2) ps pp (CallTokens F written) pflm false =
        .done ⟨some applied, pflm, (pp0.setDisabled F true).setDisabled F false⟩) ∧
    (∀ (F p : Token) (a0 : TokenSequence) (rest : List TokenSequence) (pp : Preprocessor)
        (ps : Prescanner) (fuel : Nat) (pflm : PartialFLM),
      IsLegalIdentifierStartToken F = true → IsLegalIdentifierStartToken p = true →
      p ≠ "__VA_ARGS__".toList →
      (∀ a ∈ a0 :: rest, IsArgument a ∧
        NamesNoMacro ((pp.erase F).emplace F (VariadicDefinition p)) a ∧
        AnyTokenPasting a = false) →
      Directive fuel ["#".toList, "define".toList, " ".toList, F, "(".toList, p, ",".toList,
          "...".toList, ")".toList, " ".toList, p, ":".toList, " ".toList,
          "__VA_ARGS__".toList] pp ps =
        .done ((pp.erase F).emplace F (VariadicDefinition p), ps) ∧
      ∃ pp2, MacroReplacement (fuel + 2) ps ((pp.erase F).emplace F (VariadicDefinition p))
          (CallTokens F (a0 :: rest)) pflm false =
        .done ⟨some (a0 ++ [[':'], [' ']] ++ CommaSeparated rest), pflm, pp2⟩) := by
  refine ⟨fun rest j st hst => ApplyLoop_va_args d mr args inIf rest j st hvar hst,
    fun pre post pp hrepl => Apply_va_args d mr args inIf hvar pre post pp hrepl, ?_,
    fun fuel ps pp pp0 F written applied pflm hF hfind hdis hfun hne hargs hactual hcount
        happly hinert =>
      MacroReplacement_call fuel ps pp pp0 F d written applied pflm hF hfind hdis hfun hne hargs
        args hactual hcount (Or.inr hvar) happly hinert,
    fun F p a0 rest pp ps fuel pflm hF hp hpva hargs =>
      variadic_call F p a0 rest pp ps fuel pflm hF hp hpva hargs⟩
  intro hle
  rw [List.drop_of_length_le hle]
  rfl

/-- Witness of the amended C7: with `#define LOG(fmt,...) fmt: __VA_ARGS__`, the
arguments `msg`, ` 1`, ` 2` give the tokens `msg`, `:`, blank, blank, `1`, `,`, blank,
`2`, and the single argument `msg` gives `msg`, `:`, blank; the directive enters the
definition and the call `LOG(msg, 1, 2)` yields these tokens. -/
theorem variadic_arguments_witness :
    (VariadicDefinition "fmt".toList).Apply (MacroReplacement 1 {})
        [["msg".toList], [" ".toList, "1".toList], [" ".toList, "2".toList]] {} false =
      .done (["msg".toList, ":".toList, " ".toList, " ".toList, "1".toList, ",".toList,
        " ".toList, "2".toList], {}) ∧
    (VariadicDefinition "fmt".toList).Apply (MacroReplacement 1 {}) [["msg".toList]] {} false =
      .done (["msg".toList, ":".toList, " ".toList], {}) ∧
    (Directive 0 ["#".toList, "define".toList, " ".toList, "LOG".toList, "(".toList,
        "fmt".toList, ",".toList, "...".toList, ")".toList, " ".toList, "fmt".toList,
        ":".toList, " ".toList, "__VA_ARGS__".toList] {} {} =
      .done ((({} : Preprocessor).erase "LOG".toList).emplace "LOG".toList
        (VariadicDefinition "fmt".toList), {}) ∧
    ∃ pp2, MacroReplacement 2 {}
        ((({} : Preprocessor).erase "LOG".toList).emplace "LOG".toList
          (VariadicDefinition "fmt".toList))
        (CallTokens "LOG".toList
          [["msg".toList], [" ".toList, "1".toList], [" ".toList, "2".toList]]) none false =
      .done ⟨some (["msg".toList] ++ [[':'], [' ']] ++
        CommaSeparated [[" ".toList, "1".toList], [" ".toList, "2".toList]]), none, pp2⟩) :=
  ⟨((variadic_arguments (VariadicDefinition "fmt".toList) (MacroReplacement 1 {})
      [["msg".toList], [" ".toList, "1".toList], [" ".toList, "2".toList]] false rfl).2.1
      [argPlaceholder 0, ":".toList, " ".toList] [] {} rfl).trans (by decide),
    ((variadic_arguments (VariadicDefinition "fmt".toList) (MacroReplacement 1 {})
      [["msg".toList]] false rfl).2.1
      [argPlaceholder 0, ":".toList, " ".toList] [] {} rfl).trans (by decide),
    (variadic_arguments (VariadicDefinition "fmt".toList) (MacroReplacement 1 {})
      [["msg".toList]] false rfl).2.2.2.2 "LOG".toList "fmt".toList ["msg".toList]
      [[" ".toList, "1".toList], [" ".toList, "2".toList]] {} {} 0 none (by decide) (by decide)
      (by decide) (by
        intro a ha
        simp only [List.mem_cons, List.mem_singleton, List.not_mem_nil, or_false] at ha
        rcases ha with rfl | rfl | rfl <;>
          exact ⟨rfl, by unfold NamesNoMacro; decide, by decide⟩)⟩

/-- Counterexample to C7 as stated: with `#define LOG(fmt,...) fmt: __VA_ARGS__`, the
expansion of `LOG(msg, 1, 2)` has two blanks after the colon (the blank of the body
and the leading blank of the argument ` 1`); it is not the token sequence of
`msg: 1, 2`. The expansion of `LOG(msg)` is `msg: `. -/
theorem variadic_arguments_counterexample :
    MacroReplacement 2 {}
        { definitions := [("LOG".toList, VariadicDefinition "fmt".toList)] }
        ["LOG".toList, "(".toList, "msg".toList, ",".toList, " ".toList, "1".toList,
          ",".toList, " ".toList, "2".toList, ")".toList] none false =
      .done ⟨some ["msg".toList, ":".toList, " ".toList, " ".toList, "1".toList, ",".toList,
          " ".toList, "2".toList], none,
        { definitions := [("LOG".toList, VariadicDefinition "fmt".toList)] }⟩ ∧
    (["msg".toList, ":".toList, " ".toList, " ".toList, "1".toList, ",".toList,
        " ".toList, "2".toList] : TokenSequence) ≠
      ["msg".toList, ":".toList, " ".toList, "1".toList, ",".toList, " ".toList,
        "2".toList] ∧
    MacroReplacement 2 {}
        { definitions := [("LOG".toList, VariadicDefinition "fmt".toList)] }
        ["LOG".toList, "(".toList, "msg".toList, ")".toList] none false =
      .done ⟨some ["msg".toList, ":".toList, " ".toList], none,
        { definitions := [("LOG".toList, VariadicDefinition "fmt".toList)] }⟩ := by
  refine ⟨by decide, by decide, by decide⟩

/-! ## Function-like substitution in general -/

theorem Char_toNat_ofNat (n : Nat) (h : n < 256) : (Char.ofNat n).toNat = n := by
  have hv : n.isValidChar := by
    left
    omega
  simp only [Char.ofNat, hv, dite_true, Char.ofNatAux, Char.toNat]
  rfl

theorem GetArgumentIndex_argPlaceholder (d : Definition) (i : Nat) (h : i ≤ 190) :
    d.GetArgumentIndex (argPlaceholder i) = i := by
  have h1 : (65 + i) % 256 = 65 + i := Nat.mod_eq_of_lt (by omega)
  simp only [Definition.GetArgumentIndex, argPlaceholder, h1]
  rw [Char_toNat_ofNat _ (by omega)]
  simp

theorem lookup_append_left {l1 l2 : List (List Char × Token)} {k : List Char}
    (h : l2.lookup k = none) : (l1 ++ l2).lookup k = l1.lookup k := by
  induction l1 with
  | nil => simpa using h
  | cons p r ih =>
    obtain ⟨a, b⟩ := p
    simp only [List.cons_append, List.lookup]
    cases k == a <;> simp [ih]

theorem PlaceholderMap_lookup (formals : List Token) (i : Nat) (tok : Token) :
    (PlaceholderMap i formals).lookup tok =
      (FormalIndex formals tok).map (fun k => argPlaceholder (i + k)) := by
  induction formals generalizing i with
  | nil => rfl
  | cons p rest ih =>
    simp only [PlaceholderMap, FormalIndex, List.lookup, List.findIdx?_cons]
    by_cases h : p = tok
    · subst h
      simp
    · have h1 : (tok == p) = false := by simpa using fun e => h e.symm
      have h2 : (p == tok) = false := by simpa using h
      simp only [h1, h2, Bool.false_eq_true, if_false]
      rw [ih (i + 1), List.findIdx?_succ]
      unfold FormalIndex
      cases List.findIdx? (fun p => p == tok) rest with
      | none => rfl
      | some k =>
        simp only [Option.map_some', Option.some.injEq]
        rw [show i + 1 + k = i + (k + 1) by omega]

theorem TokenizeArgs_eq (formals : List Token) (i : Nat) (acc : List (List Char × Token))
    (hnd : formals.Nodup) (hacc : ∀ p ∈ formals, acc.lookup p = none) :
    TokenizeArgs formals i acc = .done (acc ++ PlaceholderMap i formals) := by
  induction formals generalizing i acc with
  | nil => simp [TokenizeArgs, PlaceholderMap]
  | cons p rest ih =>
    have hp := hacc p (List.mem_cons_self _ _)
    rw [TokenizeArgs]
    simp only [hp, Option.isSome_none, Bool.false_eq_true, if_false]
    rw [ih (i + 1) (acc ++ [(p, argPlaceholder i)]) (List.nodup_cons.mp hnd).2]
    · simp [PlaceholderMap]
    · intro q hq
      have hqp : q ≠ p := by
        rintro rfl
        exact (List.nodup_cons.mp hnd).1 hq
      have hq1 : (q == p) = false := by simpa using hqp
      have : List.lookup q [(p, argPlaceholder i)] = none := by
        simp [List.lookup, hq1]
      rw [lookup_append_left this]
      exact hacc q (List.mem_cons_of_mem _ hq)

theorem FormalIndex_some {formals : List Token} {tok : Token} {k : Nat}
    (h : FormalIndex formals tok = some k) : k < formals.length ∧ tok ∈ formals := by
  unfold FormalIndex at h
  rw [List.findIdx?_eq_some_iff_getElem] at h
  obtain ⟨hk, h1, _⟩ := h
  refine ⟨hk, ?_⟩
  have : formals[k] = tok := by simpa using h1
  rw [← this]
  exact List.getElem_mem _

theorem FormalIndex_none {formals : List Token} {tok : Token}
    (h : FormalIndex formals tok = none) : tok ∉ formals := by
  unfold FormalIndex at h
  rw [List.findIdx?_eq_none_iff] at h
  intro hmem
  have := h tok hmem
  simp at this

/-- The token that `Definition::Tokenize` puts in the replacement text for a token of
the body. -/
theorem TokenizeBody_map (formals : List Token) (body : TokenSequence)
    (hid : ∀ p ∈ formals, IsLegalIdentifierStartToken p = true) :
    TokenizeBody (PlaceholderMap 0 formals) body =
      body.map (fun tok =>
        match FormalIndex formals tok with
        | some k => argPlaceholder k
        | none => tok) := by
  unfold TokenizeBody
  apply List.map_congr_left
  intro tok _
  rw [PlaceholderMap_lookup]
  cases h : FormalIndex formals tok with
  | none => simp
  | some k =>
    have := hid tok (FormalIndex_some h).2
    simp [this]

theorem Substitute_cons (formals : List Token) (args : List TokenSequence) (tok : Token)
    (rest : TokenSequence) :
    Substitute formals args (tok :: rest) =
      (match FormalIndex formals tok with
        | some i => args.getD i []
        | none => [tok]) ++ Substitute formals args rest := by
  rfl

/-- The loop of `Definition::Apply` over a replacement text without `#`, `##` or
variadic markers substitutes the actual arguments for the placeholders and copies
every other token. -/
theorem ApplyLoop_substitute (d : Definition) (mr : ReplaceFn) (formals : List Token)
    (args : List TokenSequence) (pp : Preprocessor)
    (hvar : d.isVariadic = false)
    (hno : ∀ p, TokenAt d.replacement p ≠ ['#'] ∧
      IsTokenPasting (TokenAt d.replacement p) = false)
    (hformals : formals.length ≤ 191) (hlen : args.length = formals.length)
    (hmr : ∀ a ∈ args, mr pp a none false = .done ⟨none, none, pp⟩)
    (rest : List Token)
    (hrest : ∀ tok ∈ rest, FormalIndex formals tok = none → IsPlaceholderShaped tok = false)
    (j : Nat) (result : TokenSequence) :
    d.ApplyLoop mr args false
        (rest.map (fun tok =>
          match FormalIndex formals tok with
          | some k => argPlaceholder k
          | none => tok)) j ⟨result, false, 0, pp⟩ =
      .done ⟨result ++ Substitute formals args rest, false, 0, pp⟩ := by
  induction rest generalizing j result with
  | nil => simp [Definition.ApplyLoop, Substitute]
  | cons tok more ih =>
    have ihm := ih (fun t ht => hrest t (List.mem_cons_of_mem _ ht))
    rw [List.map_cons, Substitute_cons]
    cases hk : FormalIndex formals tok with
    | some k =>
      simp only []
      rw [Definition.ApplyLoop.eq_def]
      simp only []
      have hkl := (FormalIndex_some hk).1
      have e1 : d.GetArgumentIndex (argPlaceholder k) = k :=
        GetArgumentIndex_argPlaceholder d k (by omega)
      have e2 : (argPlaceholder k).length = 2 := rfl
      have e3 : (argPlaceholder k).head? = some '~' := rfl
      have e4 : ¬ (k ≥ args.length) := by omega
      have hmem : args.getD k [] ∈ args := by
        rw [List.getD_eq_getElem _ _ (by omega)]
        exact List.getElem_mem _
      have hm := hmr _ hmem
      cases hsb : SkipBlanksBackwards d.replacement j with
      | none =>
        simp only [e1, e2, e3, e4, (hno _).2, hm, beq_self_eq_true,
          Bool.and_self, if_true, if_false, Bool.false_eq_true, Bool.not_false, Bool.true_and,
          Bool.or_true, Bool.and_true, Option.getD_none]
        rw [ihm (j + 1) (result ++ args.getD k []), List.append_assoc]
      | some p =>
        have h1 : (TokenAt d.replacement p == ['#']) = false := by simpa using (hno p).1
        simp only [e1, e2, e3, e4, (hno _).2, hm, h1, beq_self_eq_true,
          Bool.and_self, if_true, if_false, Bool.false_eq_true, Bool.not_false, Bool.true_and,
          Bool.or_true, Bool.and_true, Option.getD_none]
        rw [ihm (j + 1) (result ++ args.getD k []), List.append_assoc]
    | none =>
      simp only []
      rw [Definition.ApplyLoop.eq_def]
      simp only []
      have hshape := hrest tok (List.mem_cons_self _ _) hk
      unfold IsPlaceholderShaped at hshape
      simp only [hshape, hvar, Bool.false_eq_true, if_false, Bool.and_false, Bool.false_and,
        gt_iff_lt, lt_self_iff_false, decide_False]
      rw [ihm (j + 1) (result ++ [tok]), List.append_assoc]

theorem drop_cons_info {dir : TokenSequence} {j : Nat} {x : Token} {r : TokenSequence}
    (h : dir.drop j = x :: r) :
    j < dir.length ∧ TokenAt dir j = x ∧ dir.drop (j + 1) = r := by
  have hj : j < dir.length := by
    by_contra hc
    rw [List.drop_eq_nil_of_le (not_lt.mp hc)] at h
    cases h
  rw [List.drop_eq_getElem_cons hj] at h
  injection h with h1 h2
  exact ⟨hj, by rw [TokenAt_eq_getElem dir j hj, h1], h2⟩

theorem drop_append_info {dir : TokenSequence} {j : Nat} {l r : TokenSequence}
    (h : dir.drop j = l ++ r) : dir.drop (j + l.length) = r := by
  rw [← List.drop_drop, h, List.drop_left]

theorem FormalList_cons_cons (p q : Token) (rest : List Token) :
    FormalList (p :: q :: rest) = p :: [','] :: FormalList (q :: rest) := rfl

theorem FormalList_length (p : Token) (rest : List Token) :
    (FormalList (p :: rest)).length = 2 * rest.length + 1 := by
  induction rest generalizing p with
  | nil => rfl
  | cons q rest ih =>
    rw [FormalList_cons_cons, List.length_cons, List.length_cons, ih q, List.length_cons]
    omega

/-- The argument-list loop of `#define` on a well-formed list of formal names. -/
theorem DefineArgumentList_formals (dir post : TokenSequence) (rest : List Token) :
    ∀ (p : Token) (n j : Nat) (argName : List Token),
      (∀ q ∈ p :: rest, IsLegalIdentifierStartToken q = true) →
      dir.drop j = FormalList (p :: rest) ++ [')'] :: post →
      rest.length + 1 ≤ n →
      DefineArgumentList dir dir.length n j argName false =
        .done (.ok (argName ++ p :: rest, false, j + 2 * rest.length + 1)) := by
  induction rest with
  | nil =>
    intro p n j argName hid hdrop hn
    obtain ⟨m, rfl⟩ : ∃ m, n = m + 1 := ⟨n - 1, by omega⟩
    have hp := hid p (List.mem_cons_self _ _)
    have hpd : p ≠ ['.', '.', '.'] := ne_dots_of_identifier hp
    have h0 : dir.drop j = p :: [')'] :: post := hdrop
    obtain ⟨hj, tj, h1⟩ := drop_cons_info h0
    obtain ⟨hj1, tj1, _⟩ := drop_cons_info h1
    have s1 : SkipBlanks dir (j + 1) = j + 1 :=
      SkipBlanks_of_nonblank dir (j + 1) hj1 (by rw [tj1]; decide)
    have o : OnlyNonBlank [')'] = ')' := by decide
    have a1 : ¬ (dir.length ≤ j) := by omega
    have a2 : ¬ (j + 1 = dir.length) := by omega
    have a3 : ¬ (dir.length ≤ j + 1) := by omega
    rw [DefineArgumentList]
    simp [a1, a2, a3, tj, hpd, hp, s1, tj1, o]
  | cons q rest ih =>
    intro p n j argName hid hdrop hn
    obtain ⟨m, rfl⟩ : ∃ m, n = m + 1 := ⟨n - 1, by omega⟩
    have hp := hid p (List.mem_cons_self _ _)
    have hq := hid q (List.mem_cons_of_mem _ (List.mem_cons_self _ _))
    have hpd : p ≠ ['.', '.', '.'] := ne_dots_of_identifier hp
    have h0 : dir.drop j = p :: [','] :: (FormalList (q :: rest) ++ [')'] :: post) := by
      rw [hdrop, FormalList_cons_cons]; rfl
    obtain ⟨hj, tj, h1⟩ := drop_cons_info h0
    obtain ⟨hj1, tj1, h2⟩ := drop_cons_info h1
    have h3 : dir.drop (j + 1 + 1) = q :: (FormalList rest ++ [')'] :: post) ∨
        ∃ r, dir.drop (j + 1 + 1) = q :: r := by
      right
      cases rest with
      | nil => exact ⟨_, h2⟩
      | cons q2 rest2 => rw [h2, FormalList_cons_cons]; exact ⟨_, rfl⟩
    obtain ⟨r, h4⟩ : ∃ r, dir.drop (j + 1 + 1) = q :: r := by
      rcases h3 with h | h
      · exact ⟨_, h⟩
      · exact h
    obtain ⟨hj2, tj2, _⟩ := drop_cons_info h4
    have s1 : SkipBlanks dir (j + 1) = j + 1 :=
      SkipBlanks_of_nonblank dir (j + 1) hj1 (by rw [tj1]; decide)
    have s2 : SkipBlanks dir (j + 1 + 1) = j + 1 + 1 :=
      SkipBlanks_of_nonblank dir (j + 1 + 1) hj2 (by rw [tj2]; exact IsBlank_false_of_identifier hq)
    have o : OnlyNonBlank [','] = ',' := by decide
    have a1 : ¬ (dir.length ≤ j) := by omega
    have a2 : ¬ (j + 1 = dir.length) := by omega
    have a3 : ¬ (dir.length ≤ j + 1) := by omega
    have a4 : ¬ (j + 1 + 1 = dir.length) := by omega
    have hrec := ih q m (j + 1 + 1) (argName ++ [p])
      (fun x hx => hid x (List.mem_cons_of_mem _ hx)) h2 (by simp at hn; omega)
    rw [DefineArgumentList]
    simp only [a1, a2, a3, a4, tj, hpd, hp, s1, s2, tj1, o]
    have hpb : (p == ['.', '.', '.']) = false := by simpa using hpd
    simp [a2, a4, hpd]
    rw [hpb, hrec]
    simp
    omega

theorem SubSequence_of_drop (dir body : TokenSequence) (j : Nat) (h : dir.drop j = body) :
    SubSequence dir j (dir.length - j) = body := by
  unfold SubSequence
  rw [h, List.take_of_length_le]
  rw [← h, List.length_drop]

theorem Tokenize_formals (formals : List Token) (dir body : TokenSequence) (j : Nat)
    (hnd : formals.Nodup) (h : dir.drop j = body) :
    Definition.functionLike formals dir j (dir.length - j) false =
      .done (SubstitutionDefinition formals body) := by
  have h1 := TokenizeArgs_eq formals 0 [] hnd (by intro p _; rfl)
  unfold Definition.functionLike Tokenize
  rw [h1, SubSequence_of_drop dir body j h]
  rfl

/-- The directive `#define F(p1,...,pn) body` enters the definition of `F`. -/
theorem Directive_define_functionLike (fuel : Nat) (F : Token) (formals : List Token)
    (body : TokenSequence) (b : Token) (bs : TokenSequence) (last : Token)
    (pp : Preprocessor) (ps : Prescanner)
    (hF : IsLegalIdentifierStartToken F = true)
    (hid : ∀ p ∈ formals, IsLegalIdentifierStartToken p = true) (hnd : formals.Nodup)
    (hbody : body = b :: bs) (hb : IsBlank b = false)
    (hlast : body.getLast? = some last) (hlb : IsBlank last = false) :
    Directive fuel (DefineTokens F formals body) pp ps =
      .done ((pp.erase F).emplace F (SubstitutionDefinition formals body), ps) := by
  have hdt : DefineTokens F formals body = "#".toList :: "define".toList :: " ".toList :: F ::
      (['('] :: (FormalList formals ++ [')'] :: [' '] :: body)) := by
    simp [DefineTokens]
  have hl : (F :: ['('] :: (FormalList formals ++ [')'] :: [' '] :: body)).getLast? = some last := by
    rw [hbody] at hlast ⊢
    rw [show F :: ['('] :: (FormalList formals ++ [')'] :: [' '] :: b :: bs) =
      (F :: ['('] :: (FormalList formals ++ [[')'], [' ']])) ++ (b :: bs) by simp]
    rw [List.getLast?_append_of_ne_nil _ (by simp)]
    exact hlast
  rw [hdt, Directive_define_dispatch fuel F _ last pp ps hF hl hlb]
  generalize hd : "#".toList :: "define".toList :: " ".toList :: F ::
      (['('] :: (FormalList formals ++ [')'] :: [' '] :: body)) = dir
  have hlen : (['('] :: (FormalList formals ++ [')'] :: [' '] :: body)).length + 4 = dir.length := by
    rw [← hd]; simp
  rw [hlen]
  have hFe := isEmpty_false_of_identifier hF
  have hFn : F ≠ [] := by intro h; rw [h] at hFe; simp at hFe
  have hdrop4 : dir.drop 4 = ['('] :: (FormalList formals ++ [')'] :: [' '] :: body) := by
    rw [← hd]; rfl
  obtain ⟨hj4, t4, hdrop5⟩ := drop_cons_info hdrop4
  have hdropc := drop_append_info hdrop5
  obtain ⟨hjc, tc, hdropc1⟩ := drop_cons_info hdropc
  obtain ⟨hjc1, tc1, hdropc2⟩ := drop_cons_info hdropc1
  have hdropb := hdropc2
  rw [hbody] at hdropb
  obtain ⟨hjc2, tc2, _⟩ := drop_cons_info hdropb
  have sc2 : SkipBlanks dir (4 + 1 + (FormalList formals).length + 1 + 1) =
      4 + 1 + (FormalList formals).length + 1 + 1 :=
    SkipBlanks_of_nonblank dir _ hjc2 (by rw [tc2]; exact hb)
  have sc1 : SkipBlanks dir (4 + 1 + (FormalList formals).length + 1) =
      4 + 1 + (FormalList formals).length + 1 + 1 := by
    rw [SkipBlanks_of_blank dir _ hjc1 (by rw [tc1]; decide), sc2]
  have hfun := Tokenize_formals formals dir body _ hnd hdropc2
  have o4 : OnlyNonBlank ['('] = '(' := by decide
  have oc : OnlyNonBlank [')'] = ')' := by decide
  cases formals with
  | nil =>
    have hz : (FormalList ([] : List Token)).length = 0 := rfl
    rw [hz] at hjc tc sc1 hfun hjc2
    have s5 : SkipBlanks dir 5 = 5 := SkipBlanks_of_nonblank dir 5 hjc (by rw [tc]; decide)
    have a1 : 3 + 1 < dir.length := by omega
    have a2 : ¬ (dir.length ≤ 5) := by omega
    have a3 : ¬ (dir.length < 7) := by omega
    unfold DirectiveDefine
    simp [hFn, t4, o4, s5, tc, oc, sc1, hfun, a1, a2, a3]
  | cons p rest =>
    have hp := hid p (List.mem_cons_self _ _)
    have hfl := FormalList_length p rest
    rw [hfl] at hjc tc sc1 hfun hjc2
    obtain ⟨r, hr⟩ : ∃ r, dir.drop 5 = p :: r := by
      cases rest with
      | nil => exact ⟨_, hdrop5⟩
      | cons q rest2 => rw [hdrop5, FormalList_cons_cons]; exact ⟨_, rfl⟩
    obtain ⟨hj5, t5, _⟩ := drop_cons_info hr
    have s5 : SkipBlanks dir 5 = 5 :=
      SkipBlanks_of_nonblank dir 5 hj5 (by rw [t5]; exact IsBlank_false_of_identifier hp)
    have hargs := DefineArgumentList_formals dir ([' '] :: body) rest p (dir.length + 1) 5 []
      hid hdrop5 (by omega)
    have hpo := OnlyNonBlank_identifier hp
    have a1 : 3 + 1 < dir.length := by omega
    have a2 : ¬ (dir.length ≤ 5) := by omega
    have a3 : ¬ (dir.length < 5 + 2 * rest.length + 1 + 1 + 1) := by omega
    have e1 : 4 + 1 + (2 * rest.length + 1) + 1 = 5 + 2 * rest.length + 1 + 1 := by omega
    have e2 : 4 + 1 + (2 * rest.length + 1) + 1 + 1 = 5 + 2 * rest.length + 1 + 1 + 1 := by omega
    rw [e2, e1] at sc1
    rw [e2] at hfun
    unfold DirectiveDefine
    simp [hFn, t4, o4, s5, t5, hpo.2.1, hargs, hnd, sc1, hfun, a1, a2, a3]

theorem Substitute_forall (P : Token → Prop) (formals : List Token) (args : List TokenSequence)
    (body : TokenSequence)
    (hargs : ∀ a ∈ args, ∀ t ∈ a, P t)
    (hbody : ∀ tok ∈ body, FormalIndex formals tok = none → P tok) :
    ∀ t ∈ Substitute formals args body, P t := by
  induction body with
  | nil => intro t ht; simp [Substitute] at ht
  | cons tok more ih =>
    intro t ht
    rw [Substitute_cons, List.mem_append] at ht
    rcases ht with h | h
    · cases hk : FormalIndex formals tok with
      | none =>
        rw [hk] at h
        simp only [List.mem_singleton] at h
        rw [h]
        exact hbody tok (List.mem_cons_self _ _) hk
      | some k =>
        rw [hk] at h
        simp only at h
        by_cases hkl : k < args.length
        · rw [List.getD_eq_getElem _ _ hkl] at h
          exact hargs _ (List.getElem_mem _) t h
        · rw [List.getD_eq_default _ _ (by omega)] at h
          simp at h
    · exact ih (fun x hx => hbody x (List.mem_cons_of_mem _ hx)) t h

theorem TokenAt_mem_or_nil (ts : TokenSequence) (p : Nat) : TokenAt ts p ∈ ts ∨ TokenAt ts p = [] := by
  by_cases h : p < ts.length
  · left
    rw [TokenAt_eq_getElem ts p h]
    exact List.getElem_mem _
  · right
    have h2 : ts[p]? = none := List.getElem?_eq_none (not_lt.mp h)
    simp [TokenAt, List.getD, h2]

/-- The expansion of the call `F(a1,...,an)` for the definition that
`#define F(p1,...,pn) body` enters. -/
theorem MacroReplacement_substitution (fuel : Nat) (ps : Prescanner) (pp : Preprocessor)
    (F : Token) (formals : List Token) (body : TokenSequence) (args : List TokenSequence)
    (pflm : PartialFLM)
    (hF : IsLegalIdentifierStartToken F = true)
    (hid : ∀ p ∈ formals, IsLegalIdentifierStartToken p = true)
    (hcount : formals.length ≤ 191)
    (hfind : pp.find F = some (SubstitutionDefinition formals body))
    (hbody : ∀ tok ∈ body, tok ≠ ['#'] ∧ IsTokenPasting tok = false ∧
      (tok ∉ formals → IsPlaceholderShaped tok = false ∧
        (IsLegalIdentifierStartToken tok = true → pp.find tok = none)))
    (hlen : args.length = formals.length)
    (hargs : ∀ a ∈ args, IsArgument a ∧ NamesNoMacro pp a ∧ AnyTokenPasting a = false) :
    MacroReplacement (fuel + 2) ps pp (CallTokens F args) pflm false =
      .done ⟨some (Substitute formals args body), pflm,
        (pp.setDisabled F true).setDisabled F false⟩ := by
  have hrepl : (SubstitutionDefinition formals body).replacement =
      body.map (fun tok =>
        match FormalIndex formals tok with
        | some k => argPlaceholder k
        | none => tok) := TokenizeBody_map formals body hid
  have hno : ∀ p, TokenAt (SubstitutionDefinition formals body).replacement p ≠ ['#'] ∧
      IsTokenPasting (TokenAt (SubstitutionDefinition formals body).replacement p) = false := by
    intro p
    rcases TokenAt_mem_or_nil (SubstitutionDefinition formals body).replacement p with h | h
    · generalize TokenAt (SubstitutionDefinition formals body).replacement p = t at h
      rw [hrepl, List.mem_map] at h
      obtain ⟨tok, htok, heq⟩ := h
      rw [← heq]
      cases hk : FormalIndex formals tok with
      | none => exact ⟨(hbody tok htok).1, (hbody tok htok).2.1⟩
      | some k => exact ⟨by simp [argPlaceholder], by simp [IsTokenPasting, argPlaceholder]⟩
    · rw [h]
      exact ⟨by simp, by decide⟩
  have hmr : ∀ a ∈ args, MacroReplacement (fuel + 1) ps pp a none false =
      .done ⟨none, none, pp⟩ :=
    fun a ha => MacroReplacement_namesNoMacro fuel ps pp a none (hargs a ha).2.1
  have hloop := ApplyLoop_substitute (SubstitutionDefinition formals body)
    (MacroReplacement (fuel + 1) ps) formals args pp rfl hno hcount hlen hmr body
    (fun tok htok hk => ((hbody tok htok).2.2 (FormalIndex_none hk)).1) 0 []
  have hpaste : AnyTokenPasting (Substitute formals args body) = false := by
    unfold AnyTokenPasting
    rw [List.any_eq_false]
    intro t ht
    have := Substitute_forall (fun t => IsTokenPasting t = false) formals args body
      (fun a ha t ht => by
        have := (hargs a ha).2.2
        simp only [AnyTokenPasting, List.any_eq_false] at this
        simpa using this t ht)
      (fun tok htok _ => (hbody tok htok).2.1) t ht
    simpa using this
  have happly : (SubstitutionDefinition formals body).Apply (MacroReplacement (fuel + 1) ps)
      args pp false = .done (Substitute formals args body, pp) := by
    unfold Definition.Apply
    rw [hrepl]
    erw [hloop]
    simp only [List.nil_append, TokenPasting_of_not_any _ hpaste]
  have hnames : NamesNoMacro pp (Substitute formals args body) :=
    Substitute_forall (fun t => IsLegalIdentifierStartToken t = true → pp.find t = none)
      formals args body (fun a ha => (hargs a ha).2.1)
      (fun tok htok hk => ((hbody tok htok).2.2 (FormalIndex_none hk)).2)
  have hinert := Inert_of_namesNoMacro pp F true _ hnames
  by_cases hnil : args = []
  · subst hnil
    have hf0 : (SubstitutionDefinition formals body).argumentCount = 0 := by
      simp only [Definition.argumentCount, SubstitutionDefinition]
      simpa using hlen.symm
    exact MacroReplacement_call fuel ps pp pp F _ [[]] _ pflm hF hfind rfl rfl (by simp)
      (by intro a ha; simp only [List.mem_singleton] at ha; rw [ha]; rfl) []
      (by simp [hf0]) (by simp [hf0]) (by left; simp) happly hinert
  · have hfn : (SubstitutionDefinition formals body).argumentCount = args.length := by
      simp only [Definition.argumentCount, SubstitutionDefinition]
      exact hlen.symm
    have hpos : args.length ≠ 0 := fun h => hnil (List.length_eq_zero.mp h)
    exact MacroReplacement_call fuel ps pp pp F _ args _ pflm hF hfind rfl rfl hnil
      (fun a ha => (hargs a ha).1) args (by rw [if_neg]; rintro ⟨_, h⟩; omega)
      (by omega) (by left; omega) happly hinert

/-- C3 (as amended). Function-like substitution: after `#define F(p1,...,pn) body`
with at most 63 distinct formal names, where the body starts and ends with a
non-blank token and holds no `#`, no `##`, no macro name and no token made of a
tilde and one more character, the call `F(a1,...,an)` whose arguments name no macro,
are balanced in parentheses with no comma outside of them, and hold no `##` token,
expands to the body with every occurrence of a formal replaced by the tokens of its
argument. -/
theorem function_like_substitution (fuel : Nat) (ps : Prescanner) (pp : Preprocessor)
    (F : Token) (formals : List Token) (body : TokenSequence) (b : Token) (bs : TokenSequence)
    (last : Token) (args : List TokenSequence) (pflm : PartialFLM)
    (hF : IsLegalIdentifierStartToken F = true)
    (hid : ∀ p ∈ formals, IsLegalIdentifierStartToken p = true) (hnd : formals.Nodup)
    (hcount : formals.length ≤ 63)
    (hfirst : body = b :: bs) (hb : IsBlank b = false)
    (hlast : body.getLast? = some last) (hlb : IsBlank last = false)
    (hbody : ∀ tok ∈ body, tok ≠ ['#'] ∧ IsTokenPasting tok = false ∧
      (tok ∉ formals → IsPlaceholderShaped tok = false ∧
        (IsLegalIdentifierStartToken tok = true →
          ((pp.erase F).emplace F (SubstitutionDefinition formals body)).find tok = none)))
    (hlen : args.length = formals.length)
    (hargs : ∀ a ∈ args, IsArgument a ∧
      NamesNoMacro ((pp.erase F).emplace F (SubstitutionDefinition formals body)) a ∧
      AnyTokenPasting a = false) :
    Directive fuel (DefineTokens F formals body) pp ps =
      .done ((pp.erase F).emplace F (SubstitutionDefinition formals body), ps) ∧
    ∃ pp2, MacroReplacement (fuel + 2) ps
        ((pp.erase F).emplace F (SubstitutionDefinition formals body))
        (CallTokens F args) pflm false =
      .done ⟨some (Substitute formals args body), pflm, pp2⟩ :=
  ⟨Directive_define_functionLike fuel F formals body b bs last pp ps hF hid hnd hfirst hb
      hlast hlb,
    (((pp.erase F).emplace F (SubstitutionDefinition formals body)).setDisabled F true).setDisabled
      F false,
    MacroReplacement_substitution fuel ps _ F formals body args pflm hF hid (by omega)
      (find_emplace_self _ _ _ (find_erase_self pp F)) hbody hlen hargs⟩

/-- Witness of the amended C3: with `#define ADD(a,b) a+b`, the call `ADD(1,2)`
yields the tokens `1`, `+`, `2`. -/
theorem function_like_substitution_witness :
    Directive 0 (DefineTokens "ADD".toList ["a".toList, "b".toList]
        ["a".toList, "+".toList, "b".toList]) {} {} =
      .done ((({} : Preprocessor).erase "ADD".toList).emplace "ADD".toList
        (SubstitutionDefinition ["a".toList, "b".toList]
          ["a".toList, "+".toList, "b".toList]), {}) ∧
    ∃ pp2, MacroReplacement 2 {}
        ((({} : Preprocessor).erase "ADD".toList).emplace "ADD".toList
          (SubstitutionDefinition ["a".toList, "b".toList]
            ["a".toList, "+".toList, "b".toList]))
        (CallTokens "ADD".toList [["1".toList], ["2".toList]]) none false =
      .done ⟨some (Substitute ["a".toList, "b".toList] [["1".toList], ["2".toList]]
        ["a".toList, "+".toList, "b".toList]), none, pp2⟩ :=
  function_like_substitution 0 {} {} "ADD".toList ["a".toList, "b".toList]
    ["a".toList, "+".toList, "b".toList] "a".toList ["+".toList, "b".toList] "b".toList
    [["1".toList], ["2".toList]] none (by decide) (by decide) (by decide) (by decide)
    rfl (by decide) rfl (by decide) (by decide) rfl (by
      intro a ha
      simp only [List.mem_cons, List.mem_singleton, List.not_mem_nil, or_false] at ha
      rcases ha with rfl | rfl <;>
        exact ⟨rfl, by unfold NamesNoMacro; decide, by decide⟩)

/-- Counterexample to C3 as stated: with `#define ID(x) x`, whose body holds no `#`,
no `##` and no macro name, the call `ID(a##b)`, whose argument names no macro and
has no comma and no parenthesis, expands to the one token `ab`; the body with `x`
replaced by the tokens of the argument is `a`, `##`, `b`. The expansion of
`ADD(1,2)` after `#define ADD(a,b) a+b` is `1`, `+`, `2`. -/
theorem function_like_substitution_counterexample :
    Directive 0 ["#".toList, "define".toList, " ".toList, "ID".toList, "(".toList,
        "x".toList, ")".toList, " ".toList, "x".toList] {} {} =
      .done ({ definitions := [("ID".toList, SubstitutionDefinition ["x".toList] ["x".toList])] },
        {}) ∧
    IsArgument ["a".toList, "##".toList, "b".toList] ∧
    NamesNoMacro { definitions := [("ID".toList, SubstitutionDefinition ["x".toList] ["x".toList])] }
      ["a".toList, "##".toList, "b".toList] ∧
    MacroReplacement 2 {}
        { definitions := [("ID".toList, SubstitutionDefinition ["x".toList] ["x".toList])] }
        ["ID".toList, "(".toList, "a".toList, "##".toList, "b".toList, ")".toList] none false =
      .done ⟨some ["ab".toList], none,
        { definitions := [("ID".toList, SubstitutionDefinition ["x".toList] ["x".toList])] }⟩ ∧
    Substitute ["x".toList] [["a".toList, "##".toList, "b".toList]] ["x".toList] =
      ["a".toList, "##".toList, "b".toList] ∧
    (["ab".toList] : TokenSequence) ≠ ["a".toList, "##".toList, "b".toList] ∧
    MacroReplacement 2 {}
        { definitions := [("ADD".toList, SubstitutionDefinition ["a".toList, "b".toList]
            ["a".toList, "+".toList, "b".toList])] }
        ["ADD".toList, "(".toList, "1".toList, ",".toList, "2".toList, ")".toList] none false =
      .done ⟨some ["1".toList, "+".toList, "2".toList], none,
        { definitions := [("ADD".toList, SubstitutionDefinition ["a".toList, "b".toList]
            ["a".toList, "+".toList, "b".toList])] }⟩ := by
  refine ⟨by decide, rfl, by unfold NamesNoMacro; decide, by decide, by decide, by decide,
    by decide⟩

/-! ## Conditional groups -/

theorem MacroReplacementLoop_site (mr : ReplaceFn) (ps : Prescanner) (ls : List Line)
    (act : List TokenSequence) (input : TokenSequence) (inIf : Bool) :
    ∀ (n j : Nat) (result : TokenSequence) (pflm : PartialFLM) (pp : Preprocessor),
      MacroReplacementLoop mr { ps with lines := ls, active := act } input inIf n j result pflm pp =
        MacroReplacementLoop mr ps input inIf n j result pflm pp := by
  intro n
  induction n with
  | zero => intro j result pflm pp; rfl
  | succ n ih =>
    intro j result pflm pp
    rw [MacroReplacementLoop, MacroReplacementLoop]
    have hstep : MacroReplacementStep mr { ps with lines := ls, active := act } input inIf j
        result pflm pp = MacroReplacementStep mr ps input inIf j result pflm pp := rfl
    rw [hstep]
    split
    · split <;> first | rfl | exact ih _ _ _ _
    · rfl

theorem MacroReplacement_site (ps : Prescanner) (ls : List Line) (act : List TokenSequence) :
    ∀ fuel, MacroReplacement fuel { ps with lines := ls, active := act } =
      MacroReplacement fuel ps := by
  intro fuel
  induction fuel with
  | zero => rfl
  | succ fuel ih =>
    funext pp input pflm inIf
    rw [MacroReplacement, MacroReplacement, ih]
    split
    · rfl
    · split
      · rfl
      · exact MacroReplacementLoop_site _ ps ls act input inIf _ _ _ _ _

/-- The lines still to come and the active text do not bear on `IsIfPredicateTrue`,
which leaves them as they are. -/
theorem IsIfPredicateTrue_site (fuel : Nat) (dir : TokenSequence) (first n : Nat)
    (pp pp1 : Preprocessor) (ps ps1 : Prescanner) (v : Bool) (ls : List Line)
    (act : List TokenSequence)
    (h : IsIfPredicateTrue fuel dir first n pp ps = .done (v, pp1, ps1)) :
    IsIfPredicateTrue fuel dir first n pp { ps with lines := ls, active := act } =
      .done (v, pp1, { ps1 with lines := ls, active := act }) := by
  unfold IsIfPredicateTrue at h ⊢
  unfold ReplaceMacros at h ⊢
  rw [MacroReplacement_site ps ls act fuel]
  dsimp only at h ⊢
  generalize ReplaceMacrosWith (MacroReplacement fuel ps) pp (SubSequence dir first n) none
    true = r at h ⊢
  cases r with
  | outOfFuel => cases h
  | crash c => cases h
  | done r =>
    obtain ⟨replaced0, q, pp2⟩ := r
    simp only [] at h ⊢
    by_cases he : (RemoveBlanks replaced0).isEmpty = true
    · rw [if_pos he] at h ⊢
      cases h
      rfl
    · rw [if_neg he] at h ⊢
      generalize ExpressionValue fuel (RemoveBlanks replaced0) 0 0 none = e at h ⊢
      cases e with
      | outOfFuel => cases h
      | crash c => cases h
      | done ev =>
        simp only [] at h ⊢
        cases hev : ev.error with
        | some msg =>
          rw [hev] at h
          simp only [] at h ⊢
          cases h
          rfl
        | none =>
          rw [hev] at h
          simp only [] at h ⊢
          split at h <;>
          · cases h
            first | rfl | (rw [if_pos (by assumption)] <;> rfl) | rw [if_neg (by assumption)]

theorem IsCondition_info {c : TokenSequence} (h : IsCondition c = true) :
    ∃ first rest last, c = first :: rest ∧ IsBlank first = false ∧
      c.getLast? = some last ∧ IsBlank last = false := by
  unfold IsCondition at h
  cases c with
  | nil => simp at h
  | cons first rest =>
    cases hl : (first :: rest).getLast? with
    | none => simp at hl
    | some last =>
      rw [hl] at h
      simp only [List.head?_cons, Bool.and_eq_true, Bool.not_eq_true'] at h
      exact ⟨first, rest, last, rfl, h.1, rfl, h.2⟩

theorem IsIfPredicateTrue_drop (fuel : Nat) (dir c : TokenSequence) (j : Nat)
    (pp : Preprocessor) (ps : Prescanner) (h : dir.drop j = c) :
    IsIfPredicateTrue fuel dir j (dir.length - j) pp ps =
      IsIfPredicateTrue fuel c 0 c.length pp ps := by
  unfold IsIfPredicateTrue
  rw [SubSequence_of_drop dir c j h]
  have h2 := SubSequence_of_drop c c 0 rfl
  rw [Nat.sub_zero] at h2
  rw [h2]

/-- The positions and the name in a directive line `# name c` with a condition. -/
theorem conditional_line_facts (name : Token) (c : TokenSequence)
    (hname : IsBlank name = false) (hc : IsCondition c = true) :
    SkipBlanks (['#'] :: name :: [' '] :: c) 0 = 0 ∧
    SkipBlanks (['#'] :: name :: [' '] :: c) 1 = 1 ∧
    SkipBlanks (['#'] :: name :: [' '] :: c) 2 = 3 ∧
    (PopTrailingBlanks (['#'] :: name :: [' '] :: c)).length = c.length + 3 ∧
    0 < c.length := by
  obtain ⟨first, rest, last, hfirst, hfb, hlast, hlb⟩ := IsCondition_info hc
  generalize hd : ['#'] :: name :: [' '] :: c = dir
  have hlen : dir.length = c.length + 3 := by rw [← hd]; simp
  have hpos : 0 < c.length := by rw [hfirst]; simp
  have t0 : TokenAt dir 0 = ['#'] := by rw [← hd]; rfl
  have t1 : TokenAt dir 1 = name := by rw [← hd]; rfl
  have t2 : TokenAt dir 2 = [' '] := by rw [← hd]; rfl
  have t3 : TokenAt dir 3 = first := by rw [← hd, hfirst]; rfl
  have s3 : SkipBlanks dir 3 = 3 := SkipBlanks_of_nonblank dir 3 (by omega) (by rw [t3]; exact hfb)
  refine ⟨SkipBlanks_of_nonblank dir 0 (by omega) (by rw [t0]; decide),
    SkipBlanks_of_nonblank dir 1 (by omega) (by rw [t1]; exact hname), ?_, ?_, hpos⟩
  · rw [SkipBlanks_of_blank dir 2 (by omega) (by rw [t2]; decide), s3]
  · rw [PopTrailingBlanks_of_getLast dir last _ hlb, hlen]
    rw [← hd, hfirst]
    rw [hfirst] at hlast
    simpa using hlast

theorem Directive_if (fuel : Nat) (c : TokenSequence) (pp : Preprocessor) (ps : Prescanner)
    (hc : IsCondition c = true) :
    Directive fuel (IfLine c).tokens pp ps =
      match IsIfPredicateTrue fuel c 0 c.length pp ps with
      | .done (true, pp1, ps1) => .done ({ pp1 with ifStack := .Yes :: pp1.ifStack }, ps1)
      | .done (false, pp1, ps1) => SkipDisabledConditionalCode fuel "if".toList .Yes pp1 ps1
      | .crash e => .crash e
      | .outOfFuel => .outOfFuel := by
  obtain ⟨s0, s1, s2, hpop, hpos⟩ := conditional_line_facts "if".toList c (by decide) hc
  have hdir : (IfLine c).tokens = ['#'] :: "if".toList :: [' '] :: c := by simp [IfLine]
  rw [hdir]
  have hpred := IsIfPredicateTrue_drop fuel (['#'] :: "if".toList :: [' '] :: c) c 3 pp ps rfl
  generalize hd : ['#'] :: "if".toList :: [' '] :: c = dir at *
  have hlen : dir.length = c.length + 3 := by rw [← hd]; simp
  have t0 : TokenAt dir 0 = ['#'] := by rw [← hd]; rfl
  have t1 : TokenAt dir 1 = "if".toList := by rw [← hd]; rfl
  rw [hlen] at hpred
  have a1 : ¬ (0 = c.length + 3) := by omega
  have a2 : ¬ (1 = c.length + 3) := by omega
  have a3 : ¬ (c.length + 3 ≤ 1) := by omega
  have a4 : ¬ (c.length + 3 < 3) := by omega
  unfold Directive
  simp only [s0, s1, s2, hlen, hpop, t0, t1, hpred]
  simp [IsDecimalDigit, dquote, ToLowerCaseLetters, ToLowerCaseLetter, a1, a2, a3, a4]

theorem Directive_elif_active (fuel : Nat) (c : TokenSequence) (pp : Preprocessor)
    (ps : Prescanner) (stack : List CanDeadElseAppear)
    (hc : IsCondition c = true) (hstack : pp.ifStack = .Yes :: stack) :
    Directive fuel (ElifLine c).tokens pp ps =
      SkipDisabledConditionalCode fuel "elif".toList .No { pp with ifStack := stack } ps := by
  obtain ⟨s0, s1, s2, hpop, hpos⟩ := conditional_line_facts "elif".toList c (by decide) hc
  have hdir : (ElifLine c).tokens = ['#'] :: "elif".toList :: [' '] :: c := by simp [ElifLine]
  rw [hdir]
  generalize hd : ['#'] :: "elif".toList :: [' '] :: c = dir at *
  have hlen : dir.length = c.length + 3 := by rw [← hd]; simp
  have t0 : TokenAt dir 0 = ['#'] := by rw [← hd]; rfl
  have t1 : TokenAt dir 1 = "elif".toList := by rw [← hd]; rfl
  have a1 : ¬ (0 = c.length + 3) := by omega
  have a2 : ¬ (1 = c.length + 3) := by omega
  have a3 : ¬ (c.length + 3 ≤ 1) := by omega
  unfold Directive
  simp only [s0, s1, s2, hlen, hpop, t0, t1, hstack]
  simp [IsDecimalDigit, dquote, ToLowerCaseLetters, ToLowerCaseLetter, a1, a2, a3]

theorem Directive_else_active (fuel : Nat) (pp : Preprocessor) (ps : Prescanner)
    (stack : List CanDeadElseAppear) (hstack : pp.ifStack = .Yes :: stack) :
    Directive fuel ElseLine.tokens pp ps =
      SkipDisabledConditionalCode fuel "else".toList .No { pp with ifStack := stack } ps := by
  have hdir : ElseLine.tokens = [['#'], "else".toList] := rfl
  rw [hdir]
  generalize hd : [['#'], "else".toList] = dir at *
  have hlen : dir.length = 2 := by rw [← hd]; rfl
  have t0 : TokenAt dir 0 = ['#'] := by rw [← hd]; rfl
  have t1 : TokenAt dir 1 = "else".toList := by rw [← hd]; rfl
  have s0 : SkipBlanks dir 0 = 0 := by rw [← hd]; rfl
  have s1 : SkipBlanks dir 1 = 1 := by rw [← hd]; rfl
  have s2 : SkipBlanks dir 2 = 2 := by rw [← hd]; rfl
  have hpop : (PopTrailingBlanks dir).length = 2 := by rw [← hd]; rfl
  have hleft : IsAnythingLeft dir 2 = false := by rw [← hd]; rfl
  unfold Directive
  simp only [s0, s1, s2, hlen, hpop, t0, t1, hstack, hleft]
  simp [IsDecimalDigit, dquote, ToLowerCaseLetters, ToLowerCaseLetter]

theorem Directive_endif (fuel : Nat) (pp : Preprocessor) (ps : Prescanner)
    (top : CanDeadElseAppear) (stack : List CanDeadElseAppear)
    (hstack : pp.ifStack = top :: stack) :
    Directive fuel EndifLine.tokens pp ps = .done ({ pp with ifStack := stack }, ps) := by
  have hdir : EndifLine.tokens = [['#'], "endif".toList] := rfl
  rw [hdir]
  generalize hd : [['#'], "endif".toList] = dir at *
  have hlen : dir.length = 2 := by rw [← hd]; rfl
  have t0 : TokenAt dir 0 = ['#'] := by rw [← hd]; rfl
  have t1 : TokenAt dir 1 = "endif".toList := by rw [← hd]; rfl
  have s0 : SkipBlanks dir 0 = 0 := by rw [← hd]; rfl
  have s1 : SkipBlanks dir 1 = 1 := by rw [← hd]; rfl
  have s2 : SkipBlanks dir 2 = 2 := by rw [← hd]; rfl
  have hpop : (PopTrailingBlanks dir).length = 2 := by rw [← hd]; rfl
  have hleft : IsAnythingLeft dir 2 = false := by rw [← hd]; rfl
  unfold Directive
  simp only [s0, s1, s2, hlen, hpop, t0, t1, hstack, hleft]
  simp [IsDecimalDigit, dquote, ToLowerCaseLetters, ToLowerCaseLetter]

theorem GetDirectiveName_elif (c : TokenSequence) (hc : IsCondition c = true) :
    GetDirectiveName (ElifLine c).tokens = ("elif".toList, 3) := by
  obtain ⟨s0, s1, s2, _, hpos⟩ := conditional_line_facts "elif".toList c (by decide) hc
  have hdir : (ElifLine c).tokens = ['#'] :: "elif".toList :: [' '] :: c := by simp [ElifLine]
  rw [hdir]
  generalize hd : ['#'] :: "elif".toList :: [' '] :: c = dir at *
  have hlen : dir.length = c.length + 3 := by rw [← hd]; simp
  have t0 : TokenAt dir 0 = ['#'] := by rw [← hd]; rfl
  have t1 : TokenAt dir 1 = "elif".toList := by rw [← hd]; rfl
  have a1 : ¬ (0 = c.length + 3) := by omega
  have a2 : ¬ (1 = c.length + 3) := by omega
  unfold GetDirectiveName
  simp only [s0, s1, s2, hlen, t0, t1]
  simp [ToLowerCaseLetters, ToLowerCaseLetter, a1, a2]

theorem GetDirectiveName_else : GetDirectiveName ElseLine.tokens = ("else".toList, 2) := by
  decide

theorem GetDirectiveName_endif : GetDirectiveName EndifLine.tokens = ("endif".toList, 2) := by
  decide

theorem SkipDisabledLoop_text (fuel : Nat) (dn : List Char) (e : IsElseActive)
    (ls : List TokenSequence) (rest : List Line) (k : Nat) (pp : Preprocessor)
    (ps : Prescanner) :
    SkipDisabledLoop fuel dn e (TextLines ls ++ rest) k pp ps =
      SkipDisabledLoop fuel dn e rest k pp ps := by
  induction ls with
  | nil => rfl
  | cons t ls ih =>
    rw [show TextLines (t :: ls) ++ rest = ⟨false, t⟩ :: (TextLines ls ++ rest) from rfl,
      SkipDisabledLoop]
    simpa using ih

theorem SkipDisabledLoop_endif (fuel : Nat) (dn : List Char) (e : IsElseActive)
    (rest : List Line) (pp : Preprocessor) (ps : Prescanner) :
    SkipDisabledLoop fuel dn e (EndifLine :: rest) 0 pp ps =
      .done (pp, { ps with lines := rest }) := by
  rw [SkipDisabledLoop]
  simp [GetDirectiveName_endif, show EndifLine.isDirective = true from rfl]

theorem SkipDisabledLoop_no_elif (fuel : Nat) (dn : List Char) (c : TokenSequence)
    (rest : List Line) (pp : Preprocessor) (ps : Prescanner) (hc : IsCondition c = true) :
    SkipDisabledLoop fuel dn .No (ElifLine c :: rest) 0 pp ps =
      SkipDisabledLoop fuel dn .No rest 0 pp ps := by
  rw [SkipDisabledLoop]
  have h := GetDirectiveName_elif c hc
  simp [h, show (ElifLine c).isDirective = true from rfl]

theorem SkipDisabledLoop_no_else (fuel : Nat) (dn : List Char)
    (rest : List Line) (pp : Preprocessor) (ps : Prescanner) :
    SkipDisabledLoop fuel dn .No (ElseLine :: rest) 0 pp ps =
      SkipDisabledLoop fuel dn .No rest 0 pp ps := by
  rw [SkipDisabledLoop]
  simp [GetDirectiveName_else, show ElseLine.isDirective = true from rfl]

/-- With no `#else` or `#elif` to honour, the skipping runs to the `#endif` of the
group. -/
theorem SkipDisabledLoop_no (fuel : Nat) (dn : List Char)
    (elifs : List (TokenSequence × List TokenSequence)) (elseBody : Option (List TokenSequence))
    (rest : List Line) (pp : Preprocessor) (ps : Prescanner)
    (hc : ∀ b ∈ elifs, IsCondition b.1 = true) :
    SkipDisabledLoop fuel dn .No (ElifLines elifs ++ (ElseLines elseBody ++ EndifLine :: rest)) 0
        pp ps = .done (pp, { ps with lines := rest }) := by
  induction elifs with
  | nil =>
    cases elseBody with
    | none => exact SkipDisabledLoop_endif fuel dn .No rest pp ps
    | some body =>
      rw [show ElifLines [] ++ (ElseLines (some body) ++ EndifLine :: rest) =
        ElseLine :: (TextLines body ++ EndifLine :: rest) from rfl,
        SkipDisabledLoop_no_else, SkipDisabledLoop_text, SkipDisabledLoop_endif]
  | cons b elifs ih =>
    obtain ⟨c, body⟩ := b
    rw [show ElifLines ((c, body) :: elifs) ++ (ElseLines elseBody ++ EndifLine :: rest) =
        ElifLine c :: (TextLines body ++
          (ElifLines elifs ++ (ElseLines elseBody ++ EndifLine :: rest))) by
        simp [ElifLines],
      SkipDisabledLoop_no_elif fuel dn c _ pp ps (hc (c, body) (List.mem_cons_self _ _)),
      SkipDisabledLoop_text]
    exact ih (fun b hb => hc b (List.mem_cons_of_mem _ hb))

theorem SkipDisabledLoop_yes_else (fuel : Nat) (dn : List Char)
    (rest : List Line) (pp : Preprocessor) (ps : Prescanner) :
    SkipDisabledLoop fuel dn .Yes (ElseLine :: rest) 0 pp ps =
      .done ({ pp with ifStack := .No :: pp.ifStack }, { ps with lines := rest }) := by
  rw [SkipDisabledLoop]
  simp [GetDirectiveName_else, show ElseLine.isDirective = true from rfl]

theorem SkipDisabledLoop_yes_elif (fuel : Nat) (dn : List Char) (c : TokenSequence)
    (rest : List Line) (pp : Preprocessor) (ps : Prescanner) (hc : IsCondition c = true) :
    SkipDisabledLoop fuel dn .Yes (ElifLine c :: rest) 0 pp ps =
      match IsIfPredicateTrue fuel c 0 c.length pp { ps with lines := rest } with
      | .done (true, pp1, ps1) => .done ({ pp1 with ifStack := .Yes :: pp1.ifStack }, ps1)
      | .done (false, pp1, ps1) => SkipDisabledLoop fuel dn .Yes rest 0 pp1 ps1
      | .crash e => .crash e
      | .outOfFuel => .outOfFuel := by
  rw [SkipDisabledLoop]
  have h := GetDirectiveName_elif c hc
  have hp := IsIfPredicateTrue_drop fuel (ElifLine c).tokens c 3 pp { ps with lines := rest }
    (by simp [ElifLine])
  simp only [h, hp, show (ElifLine c).isDirective = true from rfl]
  simp

theorem Prescan_nil (fuel n : Nat) (pp : Preprocessor) (ps : Prescanner)
    (act : List TokenSequence) :
    Prescan fuel n pp { ps with lines := [], active := act } =
      .done (pp, { ps with lines := [], active := act }) := by
  cases n <;> rfl

theorem Prescan_text (fuel : Nat) (pp : Preprocessor) (ps : Prescanner)
    (ls : List TokenSequence) (rest : List Line) :
    ∀ (n : Nat) (act : List TokenSequence), ls.length ≤ n →
      Prescan fuel n pp { ps with lines := TextLines ls ++ rest, active := act } =
        Prescan fuel (n - ls.length) pp { ps with lines := rest, active := act ++ ls } := by
  induction ls with
  | nil => intro n act _; simp [TextLines]
  | cons t ls ih =>
    intro n act hn
    obtain ⟨m, rfl⟩ : ∃ m, n = m + 1 := ⟨n - 1, by simp at hn; omega⟩
    have h1 : Prescan fuel (m + 1) pp
        { ps with lines := TextLines (t :: ls) ++ rest, active := act } =
        Prescan fuel m pp { ps with lines := TextLines ls ++ rest, active := act ++ [t] } := rfl
    rw [h1, ih m (act ++ [t]) (by simp at hn; omega)]
    simp

theorem Prescan_directive (fuel n : Nat) (pp : Preprocessor) (ps : Prescanner)
    (line : Line) (rest : List Line) (act : List TokenSequence)
    (h : line.isDirective = true) :
    Prescan fuel (n + 1) pp { ps with lines := line :: rest, active := act } =
      match Directive fuel line.tokens pp { ps with lines := rest, active := act } with
      | .done (pp1, ps1) => Prescan fuel n pp1 ps1
      | .crash c => .crash c
      | .outOfFuel => .outOfFuel := by
  rw [Prescan]
  simp only [h, if_true]

/-- From inside the active branch of a group (`Yes` on top of the stack), the next
directive of the group closes it: everything up to the `#endif` is skipped. -/
theorem Prescan_close (fuel n : Nat) (pp : Preprocessor) (ps : Prescanner)
    (stack : List CanDeadElseAppear) (more : List (TokenSequence × List TokenSequence))
    (elseBody : Option (List TokenSequence)) (rest : List Line) (act : List TokenSequence)
    (hc : ∀ b ∈ more, IsCondition b.1 = true) (hstack : pp.ifStack = .Yes :: stack) :
    Prescan fuel (n + 1) pp
        { ps with lines := ElifLines more ++ (ElseLines elseBody ++ EndifLine :: rest),
                  active := act } =
      Prescan fuel n { pp with ifStack := stack } { ps with lines := rest, active := act } := by
  cases more with
  | nil =>
    cases elseBody with
    | none =>
      rw [show ElifLines [] ++ (ElseLines none ++ EndifLine :: rest) = EndifLine :: rest from rfl,
        Prescan_directive fuel n pp ps EndifLine rest act rfl,
        Directive_endif fuel pp _ .Yes stack hstack]
    | some body =>
      rw [show ElifLines [] ++ (ElseLines (some body) ++ EndifLine :: rest) =
          ElseLine :: (TextLines body ++ EndifLine :: rest) from rfl,
        Prescan_directive fuel n pp ps ElseLine _ act rfl,
        Directive_else_active fuel pp _ stack hstack]
      unfold SkipDisabledConditionalCode
      simp only []
      rw [SkipDisabledLoop_text, SkipDisabledLoop_endif]
  | cons b more =>
    obtain ⟨c, body⟩ := b
    rw [show ElifLines ((c, body) :: more) ++ (ElseLines elseBody ++ EndifLine :: rest) =
          ElifLine c :: (TextLines body ++
            (ElifLines more ++ (ElseLines elseBody ++ EndifLine :: rest))) by
          simp [ElifLines],
      Prescan_directive fuel n pp ps (ElifLine c) _ act rfl,
      Directive_elif_active fuel c pp _ stack (hc (c, body) (List.mem_cons_self _ _)) hstack]
    unfold SkipDisabledConditionalCode
    simp only []
    rw [SkipDisabledLoop_text,
      SkipDisabledLoop_no fuel "elif".toList more elseBody rest _ _
        (fun b hb => hc b (List.mem_cons_of_mem _ hb))]

theorem Prescan_text_end (fuel n : Nat) (pp : Preprocessor) (ps : Prescanner)
    (ls : List TokenSequence) (act : List TokenSequence) (hn : ls.length ≤ n) :
    Prescan fuel n pp { ps with lines := TextLines ls, active := act } =
      .done (pp, { ps with lines := [], active := act ++ ls }) := by
  have h := Prescan_text fuel pp ps ls [] n act hn
  rw [List.append_nil] at h
  rw [h, Prescan_nil]

theorem SelectBranch_length (fuel : Nat) (elseBody : Option (List TokenSequence)) :
    ∀ (elifs : List (TokenSequence × List TokenSequence)) (pp pp1 : Preprocessor)
      (ps ps1 : Prescanner) (selected : List TokenSequence),
      SelectBranch fuel elifs elseBody pp ps = .done (selected, pp1, ps1) →
      selected.length ≤ (ElifLines elifs).length + (ElseLines elseBody).length := by
  intro elifs
  induction elifs with
  | nil =>
    intro pp pp1 ps ps1 selected h
    simp only [SelectBranch] at h
    cases h
    cases elseBody <;> simp [ElseLines, TextLines, ElifLines]
  | cons b elifs ih =>
    obtain ⟨c, body⟩ := b
    intro pp pp1 ps ps1 selected h
    rw [SelectBranch] at h
    generalize IsIfPredicateTrue fuel c 0 c.length pp ps = r at h
    cases r with
    | outOfFuel => cases h
    | crash e => cases h
    | done r =>
      obtain ⟨v, pp2, ps2⟩ := r
      cases v with
      | true =>
        simp only [] at h
        cases h
        simp [ElifLines, TextLines]
        omega
      | false =>
        simp only [] at h
        have := ih pp2 pp1 ps2 ps1 selected h
        simp [ElifLines]
        omega

/-- The skipping that follows a false condition, and the lines read after it: the
branch that the later conditions select is the active text. -/
theorem SkipDisabledLoop_then_Prescan (fuel : Nat) (dn : List Char)
    (elseBody : Option (List TokenSequence)) (after : List TokenSequence) :
    ∀ (elifs : List (TokenSequence × List TokenSequence)) (body : List TokenSequence)
      (pp pp1 : Preprocessor) (ps ps1 : Prescanner) (act selected : List TokenSequence)
      (n : Nat) (l0 : List Line),
      (∀ b ∈ elifs, IsCondition b.1 = true) →
      SelectBranch fuel elifs elseBody pp ps = .done (selected, pp1, ps1) →
      selected.length + after.length + 1 ≤ n →
      (match SkipDisabledLoop fuel dn .Yes
          (TextLines body ++ (ElifLines elifs ++ (ElseLines elseBody ++
            EndifLine :: TextLines after))) 0 pp { ps with lines := l0, active := act } with
        | .done (pp2, ps2) => Prescan fuel n pp2 ps2
        | .crash e => .crash e
        | .outOfFuel => .outOfFuel) =
        .done (pp1, { ps1 with lines := [], active := act ++ selected ++ after }) := by
  intro elifs
  induction elifs with
  | nil =>
    intro body pp pp1 ps ps1 act selected n l0 _ hsel hn
    simp only [SelectBranch] at hsel
    cases hsel
    rw [SkipDisabledLoop_text]
    cases elseBody with
    | none =>
      rw [show ElifLines [] ++ (ElseLines none ++ EndifLine :: TextLines after) =
        EndifLine :: TextLines after from rfl, SkipDisabledLoop_endif]
      simp only []
      have h := Prescan_text_end fuel n pp ps after act (by simp at hn; omega)
      simpa using h
    | some b =>
      rw [show ElifLines [] ++ (ElseLines (some b) ++ EndifLine :: TextLines after) =
        ElseLine :: (TextLines b ++ EndifLine :: TextLines after) from rfl,
        SkipDisabledLoop_yes_else]
      simp only [Option.getD_some] at hn ⊢
      have h1 := Prescan_text fuel { pp with ifStack := .No :: pp.ifStack } ps b
        (EndifLine :: TextLines after) n act (by omega)
      obtain ⟨m, hm⟩ : ∃ m, n - b.length = m + 1 := ⟨n - b.length - 1, by omega⟩
      rw [hm, Prescan_directive fuel m _ ps EndifLine _ _ rfl,
        Directive_endif fuel _ _ .No pp.ifStack rfl] at h1
      simp only [] at h1
      have h2 := Prescan_text_end fuel m pp ps after (act ++ b) (by omega)
      exact h1.trans h2
  | cons b elifs ih =>
    obtain ⟨c, branch⟩ := b
    intro body pp pp1 ps ps1 act selected n l0 hc hsel hn
    have hcc := hc (c, branch) (List.mem_cons_self _ _)
    rw [SkipDisabledLoop_text,
      show ElifLines ((c, branch) :: elifs) ++ (ElseLines elseBody ++
          EndifLine :: TextLines after) =
        ElifLine c :: (TextLines branch ++ (ElifLines elifs ++ (ElseLines elseBody ++
          EndifLine :: TextLines after))) by simp [ElifLines],
      SkipDisabledLoop_yes_elif fuel dn c _ pp _ hcc]
    rw [SelectBranch] at hsel
    cases hr : IsIfPredicateTrue fuel c 0 c.length pp ps with
    | outOfFuel => rw [hr] at hsel; cases hsel
    | crash e => rw [hr] at hsel; cases hsel
    | done r =>
      obtain ⟨v, pp2, ps2⟩ := r
      rw [hr] at hsel
      have hsite := IsIfPredicateTrue_site fuel c 0 c.length pp pp2 ps ps2 v
        (TextLines branch ++ (ElifLines elifs ++ (ElseLines elseBody ++
          EndifLine :: TextLines after))) act hr
      cases v with
      | true =>
        simp only [] at hsel
        cases hsel
        erw [hsite]
        simp only []
        have h1 := Prescan_text fuel { pp1 with ifStack := .Yes :: pp1.ifStack } ps1 branch
          (ElifLines elifs ++ (ElseLines elseBody ++ EndifLine :: TextLines after)) n act
          (by omega)
        obtain ⟨m, hm⟩ : ∃ m, n - branch.length = m + 1 :=
          ⟨n - branch.length - 1, by omega⟩
        rw [hm, Prescan_close fuel m _ ps1 pp1.ifStack elifs elseBody _ _
          (fun b hb => hc b (List.mem_cons_of_mem _ hb)) rfl] at h1
        have h2 := Prescan_text_end fuel m pp1 ps1 after (act ++ branch) (by omega)
        exact h1.trans h2
      | false =>
        simp only [] at hsel
        erw [hsite]
        simp only []
        exact ih branch pp2 pp1 ps2 ps1 act selected n _
          (fun b hb => hc b (List.mem_cons_of_mem _ hb)) hsel hn

/-- C1. A conditional group `#if c0` ... `#elif c1` ... `#elif cn` ... [`#else` ...]
`#endif` with branches of text, read in the active state by the pull loop (`Directive`
on the directive lines it meets, `SkipDisabledConditionalCode` inside it): the lines
that become active are exactly the text of the first branch whose condition
`IsIfPredicateTrue` finds non-zero, or the `#else` text when no condition is non-zero
and there is an `#else`, or none; the text after `#endif` is active again, and the
preprocessor and the messages are those left by the conditions evaluated. -/
theorem conditional_group_selects_branch (fuel n : Nat) (pp pp1 : Preprocessor)
    (ps ps1 : Prescanner) (c0 : TokenSequence) (body0 : List TokenSequence)
    (elifs : List (TokenSequence × List TokenSequence))
    (elseBody : Option (List TokenSequence)) (after selected : List TokenSequence)
    (hc0 : IsCondition c0 = true) (hc : ∀ b ∈ elifs, IsCondition b.1 = true)
    (hsel : SelectBranch fuel ((c0, body0) :: elifs) elseBody pp ps =
      .done (selected, pp1, ps1))
    (hn : (ConditionalGroup c0 body0 elifs elseBody ++ TextLines after).length ≤ n) :
    Prescan fuel n pp
        { ps with lines := ConditionalGroup c0 body0 elifs elseBody ++ TextLines after } =
      .done (pp1, { ps1 with lines := [], active := ps.active ++ selected ++ after }) := by
  have hlen : (ConditionalGroup c0 body0 elifs elseBody ++ TextLines after).length =
      1 + body0.length + (ElifLines elifs).length + (ElseLines elseBody).length + 1 +
        after.length := by
    simp [ConditionalGroup, TextLines]
    omega
  rw [hlen] at hn
  obtain ⟨m, rfl⟩ : ∃ m, n = m + 1 := ⟨n - 1, by omega⟩
  have hstart : Prescan fuel (m + 1) pp
      { ps with lines := ConditionalGroup c0 body0 elifs elseBody ++ TextLines after } =
      match Directive fuel (IfLine c0).tokens pp
          { ps with lines := TextLines body0 ++ (ElifLines elifs ++ (ElseLines elseBody ++
            EndifLine :: TextLines after)), active := ps.active } with
      | .done (pp2, ps2) => Prescan fuel m pp2 ps2
      | .crash e => .crash e
      | .outOfFuel => .outOfFuel := by
    have h := Prescan_directive fuel m pp ps (IfLine c0)
      (TextLines body0 ++ (ElifLines elifs ++ (ElseLines elseBody ++
        EndifLine :: TextLines after))) ps.active rfl
    have hlines : ConditionalGroup c0 body0 elifs elseBody ++ TextLines after =
        IfLine c0 :: (TextLines body0 ++ (ElifLines elifs ++ (ElseLines elseBody ++
          EndifLine :: TextLines after))) := by
      simp [ConditionalGroup]
    rw [hlines]
    exact h
  rw [hstart, Directive_if fuel c0 pp _ hc0]
  rw [SelectBranch] at hsel
  cases hr : IsIfPredicateTrue fuel c0 0 c0.length pp ps with
  | outOfFuel => rw [hr] at hsel; cases hsel
  | crash e => rw [hr] at hsel; cases hsel
  | done r =>
    obtain ⟨v, pp2, ps2⟩ := r
    rw [hr] at hsel
    have hsite := IsIfPredicateTrue_site fuel c0 0 c0.length pp pp2 ps ps2 v
      (TextLines body0 ++ (ElifLines elifs ++ (ElseLines elseBody ++
        EndifLine :: TextLines after))) ps.active hr
    rw [hsite]
    cases v with
    | true =>
      simp only [] at hsel
      cases hsel
      simp only []
      have h1 := Prescan_text fuel { pp1 with ifStack := .Yes :: pp1.ifStack } ps1 body0
        (ElifLines elifs ++ (ElseLines elseBody ++ EndifLine :: TextLines after)) m ps.active
        (by omega)
      obtain ⟨k, hk⟩ : ∃ k, m - body0.length = k + 1 := ⟨m - body0.length - 1, by omega⟩
      rw [hk, Prescan_close fuel k _ ps1 pp1.ifStack elifs elseBody _ _ hc rfl] at h1
      have h2 := Prescan_text_end fuel k pp1 ps1 after (ps.active ++ body0) (by omega)
      exact h1.trans h2
    | false =>
      simp only [] at hsel
      simp only []
      have hl := SelectBranch_length fuel elseBody elifs pp2 pp1 ps2 ps1 selected hsel
      unfold SkipDisabledConditionalCode
      exact SkipDisabledLoop_then_Prescan fuel "if".toList elseBody after elifs body0 pp2 pp1
        ps2 ps1 ps.active selected m _ hc hsel (by omega)

/-- Witness of C1: `#if 0` / `#elif 1` / `#else` / `#endif` with the text lines `a`,
`b`, `c` in its branches and `d` after it activates exactly `b` (and `d`). -/
theorem conditional_group_selects_branch_witness :
    IsCondition ["0".toList] = true ∧
    SelectBranch 2 [(["0".toList], [["a".toList]]), (["1".toList], [["b".toList]])]
      (some [["c".toList]]) {} {} = .done ([["b".toList]], {}, {}) ∧
    Prescan 2 8 {}
        { lines := ConditionalGroup ["0".toList] [["a".toList]]
            [(["1".toList], [["b".toList]])] (some [["c".toList]]) ++
            TextLines [["d".toList]] } =
      .done ({}, { lines := [], active := [] ++ [["b".toList]] ++ [["d".toList]] }) :=
  ⟨by decide, by decide,
    conditional_group_selects_branch 2 8 {} {} {} {} ["0".toList] [["a".toList]]
      [(["1".toList], [["b".toList]])] (some [["c".toList]]) [["d".toList]] [["b".toList]]
      (by decide) (by decide) (by decide) (by decide)⟩

/-! ## The `defined` operator in expression mode -/

theorem IsLegalIdentifierStartToken_of_defined {D : Token} (h : IsDefinedKeyword D = true) :
    IsLegalIdentifierStartToken D = true := by
  unfold IsDefinedKeyword at h
  simp only [Bool.and_eq_true, Bool.or_eq_true, beq_iff_eq] at h
  cases D with
  | nil => simp at h
  | cons c r =>
    simp only [List.head?_cons, Option.some.injEq] at h
    rcases h.1.2 with rfl | rfl <;> rfl

/-- The step of the main loop at the name after `defined(`. -/
theorem MacroReplacementStep_defined_paren (mr : ReplaceFn) (ps : Prescanner)
    (D NAME : Token) (pflm : PartialFLM) (pp : Preprocessor)
    (hD : IsDefinedKeyword D = true) (hN : IsLegalIdentifierStartToken NAME = true) :
    MacroReplacementStep mr ps [D, ['('], NAME, [')']] true 2 [D, ['(']] pflm pp =
      .done (.next 3 [if (pp.find NAME).isSome then ['1'] else ['0']] pflm pp) := by
  have hDi := IsLegalIdentifierStartToken_of_defined hD
  have hDb := IsBlank_false_of_identifier hDi
  have hNb := IsBlank_false_of_identifier hN
  have hop : DefinedOperand [D, ['('], NAME, [')']] [D, ['(']] 2 = some ([], some 3) := by
    have h1 : SkipBlanksBackwards [D, ['(']] 2 = some 1 := rfl
    have h2 : SkipBlanksBackwards [D, ['(']] 1 = some 0 := by
      simp [SkipBlanksBackwards, TokenAt, hDb]
    have h3 : SkipBlanks [D, ['('], NAME, [')']] 3 = 3 :=
      SkipBlanks_of_nonblank _ 3 (by simp) (by rfl)
    have o4 : OnlyNonBlank ['('] = '(' := by decide
    have o6 : OnlyNonBlank [')'] = ')' := by decide
    unfold DefinedOperand
    simp [h1, h2, h3, TokenAt, hD, SubSequence, o4, o6]
  unfold MacroReplacementStep
  simp [TokenAt, hNb, hN, hop]

/-- The step of the main loop at the name after `defined` and a blank. -/
theorem MacroReplacementStep_defined_blank (mr : ReplaceFn) (ps : Prescanner)
    (D B NAME : Token) (pflm : PartialFLM) (pp : Preprocessor)
    (hD : IsDefinedKeyword D = true) (hB : IsBlank B = true)
    (hN : IsLegalIdentifierStartToken NAME = true) :
    MacroReplacementStep mr ps [D, B, NAME] true 2 [D, B] pflm pp =
      .done (.next 2 [if (pp.find NAME).isSome then ['1'] else ['0']] pflm pp) := by
  have hDi := IsLegalIdentifierStartToken_of_defined hD
  have hDb := IsBlank_false_of_identifier hDi
  have hNb := IsBlank_false_of_identifier hN
  have hDo := (OnlyNonBlank_identifier hDi).1
  have hop : DefinedOperand [D, B, NAME] [D, B] 2 = some ([], none) := by
    have h1 : SkipBlanksBackwards [D, B] 2 = some 0 := by
      simp [SkipBlanksBackwards, TokenAt, hDb, hB]
    unfold DefinedOperand
    simp [h1, TokenAt, hD, SubSequence, hDo]
  unfold MacroReplacementStep
  simp [TokenAt, hNb, hN, hop]

/-- The step of the main loop at `defined` itself, at the head of the input. -/
theorem MacroReplacementStep_defined_keyword (mr : ReplaceFn) (ps : Prescanner)
    (D : Token) (rest : TokenSequence) (pflm : PartialFLM) (pp : Preprocessor)
    (hD : IsDefinedKeyword D = true) (hfind : pp.find D = none) :
    MacroReplacementStep mr ps (D :: rest) true 0 [] pflm pp =
      .done (.next 0 [D] pflm pp) := by
  have hDi := IsLegalIdentifierStartToken_of_defined hD
  have hDb := IsBlank_false_of_identifier hDi
  unfold MacroReplacementStep
  simp [TokenAt, hDb, hDi, hfind, DefinedOperand, SkipBlanksBackwards]

/-- The step of the main loop at a blank or at a token that is not an identifier. -/
theorem MacroReplacementStep_copy (mr : ReplaceFn) (ps : Prescanner) (input : TokenSequence)
    (inIf : Bool) (j : Nat) (result : TokenSequence) (pflm : PartialFLM) (pp : Preprocessor)
    (h : IsBlank (TokenAt input j) = true ∨ IsLegalIdentifierStartToken (TokenAt input j) = false) :
    MacroReplacementStep mr ps input inIf j result pflm pp =
      .done (.next j (result ++ [TokenAt input j]) pflm pp) := by
  unfold MacroReplacementStep
  rcases h with h | h <;> simp [h]

theorem MacroReplacement_defined_paren (fuel : Nat) (ps : Prescanner) (pp : Preprocessor)
    (D NAME : Token) (pflm : PartialFLM)
    (hne : pp.definitions ≠ []) (hD : IsDefinedKeyword D = true) (hfind : pp.find D = none)
    (hN : IsLegalIdentifierStartToken NAME = true) :
    MacroReplacement (fuel + 1) ps pp [D, ['('], NAME, [')']] pflm true =
      .done ⟨some [if (pp.find NAME).isSome then ['1'] else ['0']], pflm, pp⟩ := by
  have hDi := IsLegalIdentifierStartToken_of_defined hD
  have he : pp.definitions.isEmpty = false := by
    cases hd : pp.definitions with
    | nil => exact absurd hd hne
    | cons x xs => rfl
  have hscan : List.findIdx? (MayBeReplaced pp true) [D, ['('], NAME, [')']] = some 0 := by
    simp [List.findIdx?_cons, MayBeReplaced, hDi, hD]
  have s0 := MacroReplacementStep_defined_keyword (MacroReplacement fuel ps) ps D
    [['('], NAME, [')']] pflm pp hD hfind
  have s1 := MacroReplacementStep_copy (MacroReplacement fuel ps) ps [D, ['('], NAME, [')']]
    true 1 [D] pflm pp (Or.inr rfl)
  have s2 := MacroReplacementStep_defined_paren (MacroReplacement fuel ps) ps D NAME pflm pp hD hN
  rw [MacroReplacement]
  simp only [he, hscan]
  simp [MacroReplacementLoop, SubSequence, s0, s1, s2, TokenAt]

theorem MacroReplacement_defined_blank (fuel : Nat) (ps : Prescanner) (pp : Preprocessor)
    (D B NAME : Token) (pflm : PartialFLM)
    (hne : pp.definitions ≠ []) (hD : IsDefinedKeyword D = true) (hfind : pp.find D = none)
    (hB : IsBlank B = true) (hN : IsLegalIdentifierStartToken NAME = true) :
    MacroReplacement (fuel + 1) ps pp [D, B, NAME] pflm true =
      .done ⟨some [if (pp.find NAME).isSome then ['1'] else ['0']], pflm, pp⟩ := by
  have hDi := IsLegalIdentifierStartToken_of_defined hD
  have he : pp.definitions.isEmpty = false := by
    cases hd : pp.definitions with
    | nil => exact absurd hd hne
    | cons x xs => rfl
  have hscan : List.findIdx? (MayBeReplaced pp true) [D, B, NAME] = some 0 := by
    simp [List.findIdx?_cons, MayBeReplaced, hDi, hD]
  have s0 := MacroReplacementStep_defined_keyword (MacroReplacement fuel ps) ps D
    [B, NAME] pflm pp hD hfind
  have s1 := MacroReplacementStep_copy (MacroReplacement fuel ps) ps [D, B, NAME]
    true 1 [D] pflm pp (Or.inl hB)
  have s2 := MacroReplacementStep_defined_blank (MacroReplacement fuel ps) ps D B NAME pflm pp
    hD hB hN
  rw [MacroReplacement]
  simp only [he, hscan]
  simp [MacroReplacementLoop, SubSequence, s0, s1, s2, TokenAt]

/-- C11 (as amended). In expression mode, for every store that is not empty and in
which `defined` (in the letter case written) is not itself the name of a macro, and
every identifier `NAME`: `MacroReplacement` replaces `defined(NAME)` and
`defined NAME` as a whole by the single token `1` when `NAME` is in the store and
`0` when it is not; the store and the counter are left as they were (`NAME` is not
macro-replaced). -/
theorem defined_operator (fuel : Nat) (ps : Prescanner) (pp : Preprocessor)
    (D B NAME : Token) (pflm : PartialFLM)
    (hne : pp.definitions ≠ []) (hD : IsDefinedKeyword D = true) (hfind : pp.find D = none)
    (hB : IsBlank B = true) (hN : IsLegalIdentifierStartToken NAME = true) :
    MacroReplacement (fuel + 1) ps pp [D, ['('], NAME, [')']] pflm true =
      .done ⟨some [if (pp.find NAME).isSome then ['1'] else ['0']], pflm, pp⟩ ∧
    MacroReplacement (fuel + 1) ps pp [D, B, NAME] pflm true =
      .done ⟨some [if (pp.find NAME).isSome then ['1'] else ['0']], pflm, pp⟩ :=
  ⟨MacroReplacement_defined_paren fuel ps pp D NAME pflm hne hD hfind hN,
    MacroReplacement_defined_blank fuel ps pp D B NAME pflm hne hD hfind hB hN⟩

/-- Witness of the amended C11: with `#define N 0` in the store, `defined(N)` and
`Defined N` become `1`. -/
theorem defined_operator_witness :
    MacroReplacement 1 {}
        { definitions := [("N".toList, Definition.objectLike ["0".toList] 0 1)] }
        ["defined".toList, ['('], "N".toList, [')']] none true =
      .done ⟨some [['1']], none,
        { definitions := [("N".toList, Definition.objectLike ["0".toList] 0 1)] }⟩ ∧
    MacroReplacement 1 {}
        { definitions := [("N".toList, Definition.objectLike ["0".toList] 0 1)] }
        ["defined".toList, " ".toList, "N".toList] none true =
      .done ⟨some [['1']], none,
        { definitions := [("N".toList, Definition.objectLike ["0".toList] 0 1)] }⟩ :=
  defined_operator 0 {}
    { definitions := [("N".toList, Definition.objectLike ["0".toList] 0 1)] }
    "defined".toList " ".toList "N".toList none (by decide) (by decide) (by decide) (by decide)
    (by decide)

/-- Counterexample to C11 as stated: with the empty store, `MacroReplacement` in
expression mode leaves `defined(N)` as it is (it reports no change, and
`ReplaceMacros` returns the four tokens); and in a store where `defined` names a macro
with the replacement `x`, `defined(N)` becomes `x(N)`. -/
theorem defined_operator_counterexample :
    MacroReplacement 3 {} {} ["defined".toList, "(".toList, "N".toList, ")".toList] none true =
      .done ⟨none, none, {}⟩ ∧
    ReplaceMacros 3 {} {} ["defined".toList, "(".toList, "N".toList, ")".toList] none true =
      .done (["defined".toList, "(".toList, "N".toList, ")".toList], none, {}) ∧
    MacroReplacement 3 {}
        { definitions := [("defined".toList, Definition.objectLike ["x".toList] 0 1)] }
        ["defined".toList, "(".toList, "N".toList, ")".toList] none true =
      .done ⟨some ["x".toList, "(".toList, "N".toList, ")".toList], none,
        { definitions := [("defined".toList, Definition.objectLike ["x".toList] 0 1)] }⟩ := by
  refine ⟨by decide, by decide, by decide⟩

/-! ## The counter -/

theorem toDigitsCore_ne_nil (b : Nat) : ∀ (f n : Nat) (ds : List Char),
    (0 < f ∨ ds ≠ []) → Nat.toDigitsCore b f n ds ≠ [] := by
  intro f
  induction f with
  | zero =>
    intro n ds h
    rcases h with h | h
    · omega
    · simpa [Nat.toDigitsCore] using h
  | succ f ih =>
    intro n ds _
    rw [Nat.toDigitsCore]
    split
    · exact List.cons_ne_nil _ _
    · exact ih _ _ (Or.inr (by simp))

theorem toDigits_ne_nil (b n : Nat) : Nat.toDigits b n ≠ [] :=
  toDigitsCore_ne_nil b (n + 1) n [] (Or.inl (by omega))

theorem MacroReplacement_marker (fuel : Nat) (ps : Prescanner) (pp pp1 : Preprocessor)
    (pflm : PartialFLM) (inIf : Bool) (C text : Token)
    (hi : IsLegalIdentifierStartToken C = true)
    (hfind : pp.find C = some (Definition.predefined C))
    (hpre : PredefinedReplacement ps pp C = (text, pp1)) (htext : text ≠ []) :
    MacroReplacement (fuel + 1) ps pp [C] pflm inIf = .done ⟨some [text], pflm, pp1⟩ := by
  have he := definitions_ne_nil_of_find hfind
  have hb := IsBlank_false_of_identifier hi
  have hscan : List.findIdx? (MayBeReplaced pp inIf) [C] = some 0 := by
    simp [List.findIdx?_cons, MayBeReplaced, Preprocessor.IsNameDefined, hfind, hi]
  have hstep : MacroReplacementStep (MacroReplacement fuel ps) ps [C] inIf 0
      [] pflm pp = .done (.next 0 [text] pflm pp1) := by
    unfold MacroReplacementStep
    simp [TokenAt, hb, hi, hfind, DefinedOperand, SkipBlanksBackwards, Definition.predefined,
      hpre, htext]
  rw [MacroReplacement]
  simp only [he, hscan]
  simp [MacroReplacementLoop, SubSequence, hstep]

/-- The expansion of the token `__COUNTER__` when the store holds the marker that
`DefineStandardMacros` enters for it. -/
theorem MacroReplacement_counter (fuel : Nat) (ps : Prescanner) (pp : Preprocessor)
    (pflm : PartialFLM) (inIf : Bool)
    (hfind : pp.find "__COUNTER__".toList = some (Definition.predefined "__COUNTER__".toList)) :
    MacroReplacement (fuel + 1) ps pp ["__COUNTER__".toList] pflm inIf =
      .done ⟨some [Nat.toDigits 10 pp.counterVal], pflm,
        { pp with counterVal := pp.counterVal + 1 }⟩ :=
  MacroReplacement_marker fuel ps pp _ pflm inIf "__COUNTER__".toList _ (by decide) hfind rfl
    (toDigits_ne_nil 10 pp.counterVal)

theorem ExpandCounterTimes_eq (fuel : Nat) (ps : Prescanner) :
    ∀ (k : Nat) (pp : Preprocessor),
      pp.find "__COUNTER__".toList = some (Definition.predefined "__COUNTER__".toList) →
      ExpandCounterTimes (fuel + 1) ps k pp =
        .done { pp with counterVal := pp.counterVal + k } := by
  intro k
  induction k with
  | zero => intro pp _; rfl
  | succ k ih =>
    intro pp hfind
    rw [ExpandCounterTimes, MacroReplacement_counter fuel ps pp none false hfind]
    simp only []
    rw [ih { pp with counterVal := pp.counterVal + 1 } hfind]
    simp only [Nat.add_assoc, Nat.add_comm 1 k]

/-- C12. From a freshly constructed preprocessor with the standard macros defined,
after `k` expansions of the token `__COUNTER__` (`k` = 0, 1, 2, ...) the next
expansion by `MacroReplacement` yields the single token that is the decimal
representation of `k`. -/
theorem counter_expansions (fuel : Nat) (ps : Prescanner) (date time : List Char) (k : Nat) :
    ∃ pp0 ppk ppk1,
      ({} : Preprocessor).DefineStandardMacros date time = .done pp0 ∧
      ExpandCounterTimes (fuel + 1) ps k pp0 = .done ppk ∧
      MacroReplacement (fuel + 1) ps ppk ["__COUNTER__".toList] none false =
        .done ⟨some [Nat.toDigits 10 k], none, ppk1⟩ := by
  have h0 : ∃ pp0, ({} : Preprocessor).DefineStandardMacros date time = .done pp0 ∧
      pp0.find "__COUNTER__".toList = some (Definition.predefined "__COUNTER__".toList) ∧
      pp0.counterVal = 0 := ⟨_, rfl, rfl, rfl⟩
  obtain ⟨pp0, hdef, hfind, hzero⟩ := h0
  refine ⟨pp0, { pp0 with counterVal := pp0.counterVal + k },
    { pp0 with counterVal := pp0.counterVal + k + 1 }, hdef,
    ExpandCounterTimes_eq fuel ps k pp0 hfind, ?_⟩
  have h := MacroReplacement_counter fuel ps { pp0 with counterVal := pp0.counterVal + k } none
    false hfind
  rw [hzero] at h ⊢
  simpa using h

/-- C13. Idempotence of non-macro text: for every store and every token sequence none
of whose identifiers names a defined macro, `MacroReplacement` in ordinary mode
reports no change (no value) and `ReplaceMacros` returns the input; the store and the
out-parameter are left as they were. -/
theorem non_macro_text_unchanged (fuel : Nat) (ps : Prescanner) (pp : Preprocessor)
    (input : TokenSequence) (pflm : PartialFLM) (h : NamesNoMacro pp input) :
    MacroReplacement (fuel + 1) ps pp input pflm false = .done ⟨none, pflm, pp⟩ ∧
    ReplaceMacros (fuel + 1) ps pp input pflm false = .done (input, pflm, pp) := by
  have h1 := MacroReplacement_namesNoMacro fuel ps pp input pflm h
  refine ⟨h1, ?_⟩
  unfold ReplaceMacros ReplaceMacrosWith
  rw [h1]
  rfl

/-- Witness of C13: with `#define N 5` in the store, the text `x = y + 1` is returned
as it is. -/
theorem non_macro_text_unchanged_witness :
    NamesNoMacro { definitions := [("N".toList, Definition.objectLike ["5".toList] 0 1)] }
      ["x".toList, " ".toList, "=".toList, " ".toList, "y".toList, "+".toList, "1".toList] ∧
    (MacroReplacement 1 {}
        { definitions := [("N".toList, Definition.objectLike ["5".toList] 0 1)] }
        ["x".toList, " ".toList, "=".toList, " ".toList, "y".toList, "+".toList, "1".toList]
        none false =
      .done ⟨none, none,
        { definitions := [("N".toList, Definition.objectLike ["5".toList] 0 1)] }⟩ ∧
    ReplaceMacros 1 {}
        { definitions := [("N".toList, Definition.objectLike ["5".toList] 0 1)] }
        ["x".toList, " ".toList, "=".toList, " ".toList, "y".toList, "+".toList, "1".toList]
        none false =
      .done (["x".toList, " ".toList, "=".toList, " ".toList, "y".toList, "+".toList,
          "1".toList], none,
        { definitions := [("N".toList, Definition.objectLike ["5".toList] 0 1)] })) :=
  ⟨by unfold NamesNoMacro; decide,
    non_macro_text_unchanged 0 {}
      { definitions := [("N".toList, Definition.objectLike ["5".toList] 0 1)] }
      ["x".toList, " ".toList, "=".toList, " ".toList, "y".toList, "+".toList, "1".toList]
      none (by unfold NamesNoMacro; decide)⟩

/-- A name that is in the store keeps its entry through `Preprocessor::Define`: the
call `emplace` inserts nothing when the key is present. -/
theorem find_emplace_present (pp : Preprocessor) (name : Token) (d d0 : Definition)
    (tok : Token) (h : pp.find name = some d0) :
    (pp.emplace name d).find tok = pp.find tok := by
  unfold Preprocessor.find at h
  simp [Preprocessor.emplace, h]

/-- For a keyword macro whose name is in the store, `Preprocessor::Define` changes
nothing. -/
theorem Define_present (pp : Preprocessor) (name value : List Char) (d0 : Definition)
    (hname : TokenizeMacroNameAndArgs name = .done none) (h : pp.find name = some d0) :
    pp.Define name value = .done pp := by
  unfold Preprocessor.find at h
  simp [Preprocessor.Define, hname, Preprocessor.emplace, h]

/-- C14, the behaviour of the code at the failing input: after `Define("N", "1")`, the
calls `Define("N", "2")` and `Define("N(x)", "x")` leave the store as it was, so the
entry of `N` is still the first definition; the directive `#define N 2` on the same
store does enter the new definition. -/
theorem Define_keeps_first_definition :
    ({} : Preprocessor).Define "N".toList "1".toList =
      .done { definitions := [("N".toList, Definition.predefined "1".toList)] } ∧
    ({ definitions := [("N".toList, Definition.predefined "1".toList)] } : Preprocessor).Define
        "N".toList "2".toList =
      .done { definitions := [("N".toList, Definition.predefined "1".toList)] } ∧
    ({ definitions := [("N".toList, Definition.predefined "1".toList)] } : Preprocessor).Define
        "N(x)".toList "x".toList =
      .done { definitions := [("N".toList, Definition.predefined "1".toList)] } ∧
    Directive 0 ["#".toList, "define".toList, " ".toList, "N".toList, " ".toList, "2".toList]
        { definitions := [("N".toList, Definition.predefined "1".toList)] } {} =
      .done ({ definitions := [("N".toList, Definition.objectLike ["2".toList] 0 1)] }, {}) := by
  refine ⟨by decide, by decide, by decide, by decide⟩

/-! ## Operands and binary operators in general -/

theorem precedence_binary_lt (op : Operator) (h : Operator.POWER.code ≤ op.code) :
    precedence op < 14 := by
  cases op <;> first | (simp [Operator.code] at h; done) | decide

/-- At the level of a unary operand (minimum precedence 14) the loop over binary
operators stops at once. -/
theorem BinaryLoop_unaryLevel (ev : EvalFn) (token : TokenSequence) (n : Nat) (left : Int)
    (atToken : Nat) (error : Option Message) (hn : 0 < n ∨ token.length ≤ atToken) :
    BinaryLoop ev token 14 n left atToken error = .done ⟨left, atToken, error⟩ := by
  by_cases hat : atToken < token.length
  · obtain ⟨m, rfl⟩ : ∃ m, n = m + 1 := ⟨n - 1, by omega⟩
    rw [BinaryLoop]
    simp only [hat, if_true]
    cases hop : opNameMap (BinaryOperatorText token atToken).1 with
    | none => rfl
    | some op =>
      simp only []
      by_cases hc : op.code < Operator.POWER.code
      · simp [hc]
      · have := precedence_binary_lt op (by omega)
        simp [this]
  · exact BinaryLoop_end _ _ _ _ _ _ _ (by omega)

/-- An operand: when `ExpressionValue` at the level of a unary operand (minimum
precedence 14) reads the tokens from `s` up to `p` as the value `a` without error,
then at any lower level it reads the same operand and goes on with the loop over
binary operators from `p`. -/
theorem ExpressionValue_operand (fuel : Nat) (token : TokenSequence) (m : Int) (s p : Nat)
    (a : Int) (hm : m ≤ 14)
    (hL : ExpressionValue (fuel + 1) token 14 s none = .done ⟨a, p, none⟩) :
    ExpressionValue (fuel + 1) token m s none =
      BinaryLoop (ExpressionValue fuel token) token m (token.length - s) a p none := by
  rw [ExpressionValue] at hL ⊢
  by_cases h0 : token.length = 0
  · simp [h0] at hL
  by_cases h1 : s ≥ token.length
  · simp [h0, h1, exprError] at hL
  simp only [h0, h1, if_false] at hL ⊢
  have hn : 0 < token.length - s := by omega
  have hB : ∀ left at_ err, BinaryLoop (ExpressionValue fuel token) token 14
      (token.length - s) left at_ err = .done ⟨left, at_, err⟩ :=
    fun left at_ err => BinaryLoop_unaryLevel _ _ _ _ _ _ (Or.inl hn)
  simp only [hB] at hL
  cases hp : ParsePrimary token s with
  | outOfFuel => rw [hp] at hL; cases hL
  | crash c => rw [hp] at hL; cases hL
  | done r =>
    rw [hp] at hL
    cases r with
    | error msg => simp at hL
    | ok r =>
      obtain ⟨op, constant, at1⟩ := r
      simp only [] at hL ⊢
      by_cases hprec : precedence op < 14
      · simp [hprec, exprError] at hL
      have hprec2 : ¬ precedence op < m := by omega
      simp only [hprec, hprec2, if_false] at hL ⊢
      by_cases hc : op = .CONST
      · simp only [hc, if_true] at hL ⊢
        cases hL
        rfl
      simp only [hc, if_false] at hL ⊢
      cases hv : ExpressionValue fuel token (operandPrecedence op) (at1 + 1) none with
      | outOfFuel => rw [hv] at hL; cases hL
      | crash c => rw [hv] at hL; cases hL
      | done operand =>
        rw [hv] at hL
        obtain ⟨val, at2, err⟩ := operand
        cases err with
        | some msg => simp at hL
        | none =>
          simp only [Option.isSome_none, Bool.false_eq_true, if_false] at hL ⊢
          by_cases hpar : op = .PARENS
          · simp only [hpar, if_true] at hL ⊢
            by_cases hclose : at2 < token.length ∧ OnlyNonBlank (TokenAt token at2) = ')'
            · simp only [hclose, and_self, if_true] at hL ⊢
              cases hL
              rfl
            · simp only [hclose, if_false] at hL
              split at hL <;> simp [exprError] at hL
          simp only [hpar, if_false] at hL ⊢
          cases hu : ApplyUnary op val with
          | outOfFuel => rw [hu] at hL; cases hL
          | crash c => rw [hu] at hL; cases hL
          | done left =>
            rw [hu] at hL
            simp only [] at hL ⊢
            cases hL
            rfl

theorem ExpressionValue_done_lt (fuel : Nat) (token : TokenSequence) (m : Int) (s p : Nat)
    (a : Int) (h : ExpressionValue fuel token m s none = .done ⟨a, p, none⟩) :
    s < token.length := by
  cases fuel with
  | zero => simp [ExpressionValue] at h
  | succ fuel =>
    by_contra hs
    rw [ExpressionValue] at h
    by_cases h0 : token.length = 0
    · simp [h0] at h
    · simp [h0, not_lt.mp hs, exprError] at h

/-- An operand that ends the token sequence is read as the same value at every lower
level. -/
theorem ExpressionValue_lastOperand (fuel : Nat) (token : TokenSequence) (m : Int) (s q : Nat)
    (b : Int) (hm : m ≤ 14) (hR : IsOperand (fuel + 1) token s q b) (hq : token.length ≤ q) :
    ExpressionValue (fuel + 1) token m s none = .done ⟨b, q, none⟩ := by
  rw [ExpressionValue_operand fuel token m s q b hm hR]
  exact BinaryLoop_end _ _ _ _ _ _ _ hq

/-- Two operands with a binary operator between them, the second ending the token
sequence: the value and the error are those of the `switch` on the operator. -/
theorem ExpressionValue_operands (fuel : Nat) (token : TokenSequence) (m : Int)
    (s p q : Nat) (a b v : Int) (e : Option Message) (op : Operator)
    (hm : m ≤ precedence op)
    (hL : IsOperand (fuel + 2) token s p a) (hp : p < token.length)
    (hop : opNameMap (BinaryOperatorText token p).1 = some op)
    (hbin : Operator.POWER.code ≤ op.code) (hsel : op ≠ .SELECT)
    (hR : IsOperand (fuel + 1) token (p + (BinaryOperatorText token p).2) q b)
    (hq : token.length ≤ q)
    (happ : ApplyBinary op a b none = .done (v, e)) :
    ExpressionValue (fuel + 2) token m s none = .done ⟨v, q, e⟩ := by
  have hs := ExpressionValue_done_lt _ _ _ _ _ _ hL
  have h14 := precedence_binary_lt op hbin
  have hop14 : operandPrecedence op ≤ 14 := by
    cases op <;> first | (simp [Operator.code] at hbin; done) | decide
  have hright := ExpressionValue_lastOperand fuel token (operandPrecedence op) _ q b hop14 hR hq
  rw [ExpressionValue_operand (fuel + 1) token m s p a (by omega) hL,
    BinaryLoop_binary _ token m _ a p none op b q v e (by omega) hp hop hbin hm hsel hright happ]
  exact BinaryLoop_end _ _ _ _ _ _ _ hq

/-- The operator text at a token that is not a dot is the token. -/
theorem BinaryOperatorText_symbol (token : TokenSequence) (p : Nat)
    (h : TokenAt token p ≠ ['.']) :
    BinaryOperatorText token p = (TokenAt token p, 1) := by
  unfold BinaryOperatorText
  simp [h]

/-- The operator text at a dotted name: the dots around the name in lower case. -/
theorem BinaryOperatorText_dotted (token : TokenSequence) (p : Nat)
    (h0 : TokenAt token p = ['.']) (hp : p + 2 < token.length)
    (h2 : TokenAt token (p + 2) = ['.']) :
    BinaryOperatorText token p =
      (['.'] ++ ToLowerCaseLetters (TokenAt token (p + 1)) ++ ['.'], 3) := by
  unfold BinaryOperatorText
  simp [h0, h2, hp]

/-! ## Overflow of addition -/

/-- The test of the `ADD` case is true exactly when the sum leaves the 64-bit range. -/
theorem add_overflow_test (a b : Int) (ha : IsInt64 a) (hb : IsInt64 b) :
    (decide (a < 0) == decide (b < 0) &&
        decide (a < 0) != decide (wrap64 (a + b) < 0)) = true ↔
      (a + b < int64Min ∨ int64Max < a + b) := by
  unfold IsInt64 int64Min int64Max at *
  unfold wrap64
  by_cases h1 : a < 0 <;> by_cases h2 : b < 0 <;> simp [h1, h2] <;> omega

theorem ApplyBinary_add_int64 (a b : Int) (ha : IsInt64 a) (hb : IsInt64 b) :
    ApplyBinary .ADD a b none =
      .done (wrap64 (a + b),
        if a + b < int64Min ∨ int64Max < a + b then exprError "overflow in addition"
        else none) := by
  have h := add_overflow_test a b ha hb
  unfold ApplyBinary
  by_cases hc : a + b < int64Min ∨ int64Max < a + b
  · simp only [h.mpr hc, hc, if_true]
  · have : ¬ ((decide (a < 0) == decide (b < 0) &&
        decide (a < 0) != decide (wrap64 (a + b) < 0)) = true) := fun hx => hc (h.mp hx)
    simp [this, hc]

theorem lt_of_TokenAt_ne_nil (token : TokenSequence) (p : Nat) (h : TokenAt token p ≠ []) :
    p < token.length := by
  by_contra hp
  apply h
  have h2 : token[p]? = none := List.getElem?_eq_none (not_lt.mp hp)
  simp [TokenAt, List.getD, h2]

/-- C16. Addition overflow detection: for operands of the 64-bit values `a` and `b`
with the token `+` between them, `ExpressionValue` completes with the value of the
sum in 64 bits and reports the error "overflow in addition" if and only if the
mathematical sum `a + b` lies outside [-2^63, 2^63 - 1]; when it lies inside, the
value is `a + b` and no error is reported. -/
theorem addition_overflow_detection (fuel : Nat) (token : TokenSequence) (m : Int)
    (s p q : Nat) (a b : Int) (hm : m ≤ 11) (ha : IsInt64 a) (hb : IsInt64 b)
    (hL : IsOperand (fuel + 2) token s p a) (hplus : TokenAt token p = ['+'])
    (hR : IsOperand (fuel + 1) token (p + 1) q b) (hq : token.length ≤ q) :
    ExpressionValue (fuel + 2) token m s none =
      .done ⟨wrap64 (a + b), q,
        if a + b < int64Min ∨ int64Max < a + b then exprError "overflow in addition"
        else none⟩ ∧
    (int64Min ≤ a + b → a + b ≤ int64Max → wrap64 (a + b) = a + b) := by
  have hp := lt_of_TokenAt_ne_nil token p (by rw [hplus]; simp)
  have htext := BinaryOperatorText_symbol token p (by rw [hplus]; decide)
  rw [hplus] at htext
  refine ⟨?_, fun h1 h2 => wrap64_of_range h1 h2⟩
  exact ExpressionValue_operands fuel token m s p q a b _ _ .ADD hm hL hp
    (by rw [htext]; rfl) (by decide) (by decide) (by rw [htext]; exact hR) hq
    (ApplyBinary_add_int64 a b ha hb)

/-- Witness of C16: `-5 + 3` is -2 without error, and `9223372036854775807 + 1`
reports the overflow. -/
theorem addition_overflow_detection_witness :
    ExpressionValue 2 ["-".toList, "5".toList, "+".toList, "3".toList] 0 0 none =
      .done ⟨-2, 4, none⟩ ∧
    ExpressionValue 2 ["9223372036854775807".toList, "+".toList, "1".toList] 0 0 none =
      .done ⟨-9223372036854775808, 3, exprError "overflow in addition"⟩ :=
  ⟨(addition_overflow_detection 0 ["-".toList, "5".toList, "+".toList, "3".toList] 0 0 2 4
      (-5) 3 (by decide) (by unfold IsInt64; decide) (by unfold IsInt64; decide)
      (by unfold IsOperand; decide) rfl (by unfold IsOperand; decide) (by decide)).1.trans
      (by decide),
    (addition_overflow_detection 0 ["9223372036854775807".toList, "+".toList, "1".toList] 0 0 1
      3 9223372036854775807 1 (by decide) (by unfold IsInt64; decide)
      (by unfold IsInt64; decide) (by unfold IsOperand; decide) rfl
      (by unfold IsOperand; decide) (by decide)).1.trans (by decide)⟩

/-! ## Subtraction, multiplication and shifts -/

/-- The test of the `SUBTRACT` case is true exactly when the signs of the operands
differ and the difference stays inside the 64-bit range. -/
theorem subtract_overflow_test (a b : Int) (ha : IsInt64 a) (hb : IsInt64 b) :
    (decide (a < 0) != decide (b < 0) &&
        decide (a < 0) == decide (wrap64 (a - b) < 0)) = true ↔
      (¬ (a < 0 ↔ b < 0) ∧ int64Min ≤ a - b ∧ a - b ≤ int64Max) := by
  unfold IsInt64 int64Min int64Max at *
  unfold wrap64
  by_cases h1 : a < 0 <;> by_cases h2 : b < 0 <;> simp [h1, h2] <;> omega

/-- C15, the behaviour of the code at the failing input: `1 - -1` is evaluated to 2
with the error "overflow in subtraction", and `9223372036854775807 - -1`, whose
difference does not fit 64 bits, is evaluated to -2^63 without any error. -/
theorem subtraction_overflow_inverted :
    ExpressionValue 3 ["1".toList, "-".toList, "-".toList, "1".toList] 0 0 none =
      .done ⟨2, 4, exprError "overflow in subtraction"⟩ ∧
    ExpressionValue 3 ["9223372036854775807".toList, "-".toList, "-".toList, "1".toList] 0 0
        none =
      .done ⟨-9223372036854775808, 4, none⟩ := by
  refine ⟨by decide, by decide⟩

/-- The division of the `TIMES` case traps exactly for -1 times the least value. -/
theorem ApplyBinary_times_trap :
    ApplyBinary .TIMES (-1) int64Min none = .crash .divideOverflow := by
  decide

theorem tmod_bounds (w a : Int) (ha : a ≠ 0) :
    -|a| < Int.tmod w a ∧ Int.tmod w a < |a| := by
  have key : ∀ (w c : Int), 0 < c → -c < Int.tmod w c ∧ Int.tmod w c < c := by
    intro w c hc
    refine ⟨?_, Int.tmod_lt_of_pos w hc⟩
    by_cases hw : 0 ≤ w
    · have := Int.tmod_nonneg c hw
      omega
    · have h1 := Int.tmod_lt_of_pos (-w) hc
      have h2 : Int.tmod (-w) c = -Int.tmod w c := by
        rw [Int.tmod_def, Int.tmod_def, Int.neg_tdiv]
        ring
      omega
  rcases lt_or_gt_of_ne ha with h | h
  · have := key w (-a) (by omega)
    rw [Int.tmod_neg] at this
    rw [abs_of_neg h]
    exact this
  · rw [abs_of_pos h]
    exact key w a h

/-- Outside the trap, the test of the `TIMES` case is true exactly when the product
leaves the 64-bit range. -/
theorem times_overflow_test (a b : Int) (ha : IsInt64 a) (ha0 : a ≠ 0) :
    Int.tdiv (wrap64 (a * b)) a ≠ b ↔ (a * b < int64Min ∨ int64Max < a * b) := by
  constructor
  · intro h
    by_contra hc
    have hr : wrap64 (a * b) = a * b :=
      wrap64_of_range (by omega) (by omega)
    rw [hr, Int.mul_tdiv_cancel_left _ ha0] at h
    exact h rfl
  · intro h heq
    have h1 := Int.tmod_add_tdiv (wrap64 (a * b)) a
    rw [heq] at h1
    have h2 := tmod_bounds (wrap64 (a * b)) a ha0
    unfold IsInt64 int64Min int64Max at *
    generalize Int.tmod (wrap64 (a * b)) a = r at h1 h2
    generalize hP : a * b = P at *
    unfold wrap64 at h1
    rcases abs_cases a with ⟨h3, _⟩ | ⟨h3, _⟩ <;> rw [h3] at h2 <;> omega

theorem ApplyBinary_times_int64 (a b : Int) (ha : IsInt64 a) (hb : IsInt64 b)
    (hne : ¬ (a = -1 ∧ b = int64Min)) :
    ApplyBinary .TIMES a b none =
      .done (wrap64 (a * b),
        if a * b < int64Min ∨ int64Max < a * b then exprError "overflow in multiplication"
        else none) := by
  unfold ApplyBinary
  by_cases h0 : a ≠ 0 ∧ b ≠ 0
  · have htrap : ¬ (wrap64 (a * b) = int64Min ∧ a = -1) := by
      rintro ⟨h1, h2⟩
      apply hne
      refine ⟨h2, ?_⟩
      subst h2
      unfold IsInt64 int64Min int64Max at *
      unfold wrap64 at h1
      omega
    have ha0 : ¬ a = 0 := h0.1
    have ht := times_overflow_test a b ha h0.1
    simp only [h0, and_self, if_true, div64, htrap, h0.1, or_self, false_or, if_false, ne_eq,
      not_false_eq_true]
    by_cases hc : a * b < int64Min ∨ int64Max < a * b
    · simp [hc, ht.mpr hc]
    · have : Int.tdiv (wrap64 (a * b)) a = b := by
        by_contra hx
        exact hc (ht.mp hx)
      simp [hc, this]
  · have hz : a * b = 0 := by
      rcases not_and_or.mp h0 with h | h
      · simp [not_not.mp h]
      · simp [not_not.mp h]
    have hr : ¬ (a * b < int64Min ∨ int64Max < a * b) := by
      rw [hz]; unfold int64Min int64Max; omega
    simp only [h0, if_false, hr]

/-- C17, the behaviour of the code at the failing input: the evaluation of
`-1 * ~9223372036854775807` (-1 times -2^63) does not complete: the division of the
overflow test traps. -/
theorem multiplication_overflow_trap :
    ExpressionValue 3 ["-".toList, "1".toList, "*".toList, "~".toList,
        "9223372036854775807".toList] 0 0 none = .crash .divideOverflow := by
  decide

/-- C18. Shift counts: for operands of the values `a` and `c` with the token `<<` or
`>>` between them, `ExpressionValue` completes and reports the error "bad left shift
count" or "bad right shift count" exactly when `c < 0` or `c > 64`; for
`0 <= c <= 63` the value is `a` shifted by `c` bits (to the left modulo 2^64, to the
right arithmetically, that is the floor of `a / 2^c`), and for every `c >= 64` it
is 0. -/
theorem shift_counts (fuel : Nat) (token : TokenSequence) (m : Int) (s p q : Nat)
    (a c : Int) (hm : m ≤ 10)
    (hL : IsOperand (fuel + 2) token s p a)
    (hR : IsOperand (fuel + 1) token (p + 1) q c) (hq : token.length ≤ q) :
    (TokenAt token p = ['<', '<'] →
      ∃ v, ExpressionValue (fuel + 2) token m s none =
          .done ⟨v, q, if c < 0 ∨ c > 64 then exprError "bad left shift count" else none⟩ ∧
        (0 ≤ c → c ≤ 63 → v = wrap64 (a * 2 ^ c.toNat)) ∧ (64 ≤ c → v = 0)) ∧
    (TokenAt token p = ['>', '>'] →
      ∃ v, ExpressionValue (fuel + 2) token m s none =
          .done ⟨v, q, if c < 0 ∨ c > 64 then exprError "bad right shift count" else none⟩ ∧
        (0 ≤ c → c ≤ 63 → v = Int.fdiv a (2 ^ c.toNat)) ∧ (64 ≤ c → v = 0)) := by
  have hmod : 0 ≤ c → c ≤ 63 → (c % 64).toNat = c.toNat := by
    intro h1 h2
    rw [Int.emod_eq_of_lt h1 (by omega)]
  constructor
  · intro hop
    have hp := lt_of_TokenAt_ne_nil token p (by rw [hop]; simp)
    have htext := BinaryOperatorText_symbol token p (by rw [hop]; decide)
    rw [hop] at htext
    refine ⟨if c ≥ 64 then 0 else wrap64 (a * 2 ^ (c % 64).toNat), ?_, ?_, ?_⟩
    · exact ExpressionValue_operands fuel token m s p q a c _ _ .LEFTSHIFT hm hL hp
        (by rw [htext]; rfl) (by decide) (by decide) (by rw [htext]; exact hR) hq rfl
    · intro h1 h2
      rw [if_neg (by omega), hmod h1 h2]
    · intro h
      rw [if_pos h]
  · intro hop
    have hp := lt_of_TokenAt_ne_nil token p (by rw [hop]; simp)
    have htext := BinaryOperatorText_symbol token p (by rw [hop]; decide)
    rw [hop] at htext
    refine ⟨if c ≥ 64 then 0 else a / 2 ^ (c % 64).toNat, ?_, ?_, ?_⟩
    · exact ExpressionValue_operands fuel token m s p q a c _ _ .RIGHTSHIFT hm hL hp
        (by rw [htext]; rfl) (by decide) (by decide) (by rw [htext]; exact hR) hq rfl
    · intro h1 h2
      rw [if_neg (by omega), hmod h1 h2, Int.fdiv_eq_ediv _ (by positivity)]
    · intro h
      rw [if_pos h]

/-- Witness of C18: `1 << 3` is 8, `1 << 65` is 0 with the error, `-7 >> 1` is -4. -/
theorem shift_counts_witness :
    ExpressionValue 2 ["1".toList, "<<".toList, "3".toList] 0 0 none = .done ⟨8, 3, none⟩ ∧
    ExpressionValue 2 ["1".toList, "<<".toList, "65".toList] 0 0 none =
      .done ⟨0, 3, exprError "bad left shift count"⟩ ∧
    ExpressionValue 2 ["-".toList, "7".toList, ">>".toList, "1".toList] 0 0 none =
      .done ⟨-4, 4, none⟩ := by
  obtain ⟨v1, h1, h1v, _⟩ := (shift_counts 0 ["1".toList, "<<".toList, "3".toList] 0 0 1 3 1 3
    (by decide) (by unfold IsOperand; decide) (by unfold IsOperand; decide) (by decide)).1 rfl
  obtain ⟨v2, h2, _, h2v⟩ := (shift_counts 0 ["1".toList, "<<".toList, "65".toList] 0 0 1 3 1 65
    (by decide) (by unfold IsOperand; decide) (by unfold IsOperand; decide) (by decide)).1 rfl
  obtain ⟨v3, h3, h3v, _⟩ := (shift_counts 0 ["-".toList, "7".toList, ">>".toList, "1".toList]
    0 0 2 4 (-7) 1 (by decide) (by unfold IsOperand; decide) (by unfold IsOperand; decide)
    (by decide)).2 rfl
  rw [h1v (by decide) (by decide)] at h1
  rw [h2v (by decide)] at h2
  rw [h3v (by decide) (by decide)] at h3
  exact ⟨h1.trans (by decide), h2.trans (by decide), h3.trans (by decide)⟩

/-! ## Relational and logical operators -/

theorem neg_boolToInt (x : Bool) : -boolToInt x = if x = true then -1 else 0 := by
  cases x <;> rfl

/-- Two operands with the operator text `text` of width `w` between them. -/
theorem ExpressionValue_operator_text (fuel : Nat) (token : TokenSequence) (m : Int)
    (s p q : Nat) (a b v : Int) (e : Option Message) (op : Operator) (text : List Char)
    (w : Nat) (htext : BinaryOperatorText token p = (text, w))
    (hop : opNameMap text = some op) (hm : m ≤ precedence op)
    (hbin : Operator.POWER.code ≤ op.code) (hsel : op ≠ .SELECT)
    (hL : IsOperand (fuel + 2) token s p a) (hp : p < token.length)
    (hR : IsOperand (fuel + 1) token (p + w) q b) (hq : token.length ≤ q)
    (happ : ApplyBinary op a b none = .done (v, e)) :
    ExpressionValue (fuel + 2) token m s none = .done ⟨v, q, e⟩ :=
  ExpressionValue_operands fuel token m s p q a b v e op hm hL hp (by rw [htext]; exact hop)
    hbin hsel (by rw [htext]; exact hR) hq happ

theorem symbol_operator (token : TokenSequence) (p : Nat) (text : List Char)
    (ht : TokenAt token p = text) (hdot : text ≠ ['.']) (hnil : text ≠ []) :
    BinaryOperatorText token p = (text, 1) ∧ p < token.length := by
  subst ht
  exact ⟨BinaryOperatorText_symbol token p hdot, lt_of_TokenAt_ne_nil token p hnil⟩

/-- The operators of the code behind the relational spellings of the specification. -/
theorem RelationAt_operator (token : TokenSequence) (p w : Nat) (rel : Int → Int → Bool)
    (h : RelationAt token p = some (rel, w)) :
    ∃ text op, BinaryOperatorText token p = (text, w) ∧ opNameMap text = some op ∧
      precedence op = 6 ∧ Operator.POWER.code ≤ op.code ∧ op ≠ .SELECT ∧
      p < token.length ∧
      ∀ a b, ApplyBinary op a b none = .done (if rel a b = true then -1 else 0, none) := by
  unfold RelationAt at h
  split at h
  · rename_i hd
    obtain ⟨h0, hp, h2⟩ := hd
    have htext := BinaryOperatorText_dotted token p h0 hp h2
    generalize ToLowerCaseLetters (TokenAt token (p + 1)) = name at h htext
    unfold RelationName at h
    split_ifs at h with n1 n2 n3 n4 n5 n6 <;>
      simp only [Option.map_some', Option.some.injEq, Prod.mk.injEq, Option.map_none'] at h
    · obtain ⟨rfl, rfl⟩ := h
      exact ⟨_, .LT, htext, by rw [n1]; rfl, rfl, by decide, by decide, by omega,
        fun a b => by simp [ApplyBinary, neg_boolToInt]⟩
    · obtain ⟨rfl, rfl⟩ := h
      exact ⟨_, .LE, htext, by rw [n2]; rfl, rfl, by decide, by decide, by omega,
        fun a b => by simp [ApplyBinary, neg_boolToInt]⟩
    · obtain ⟨rfl, rfl⟩ := h
      exact ⟨_, .EQ, htext, by rw [n3]; rfl, rfl, by decide, by decide, by omega,
        fun a b => by simp [ApplyBinary, neg_boolToInt]⟩
    · obtain ⟨rfl, rfl⟩ := h
      exact ⟨_, .NE, htext, by rw [n4]; rfl, rfl, by decide, by decide, by omega,
        fun a b => by simp [ApplyBinary, neg_boolToInt]⟩
    · obtain ⟨rfl, rfl⟩ := h
      exact ⟨_, .GE, htext, by rw [n5]; rfl, rfl, by decide, by decide, by omega,
        fun a b => by simp [ApplyBinary, neg_boolToInt]⟩
    · obtain ⟨rfl, rfl⟩ := h
      exact ⟨_, .GT, htext, by rw [n6]; rfl, rfl, by decide, by decide, by omega,
        fun a b => by simp [ApplyBinary, neg_boolToInt]⟩
    · cases h
  · generalize ht : TokenAt token p = t at h
    unfold RelationSymbol at h
    split_ifs at h with n1 n2 n3 n4 n5 n6 n7 <;>
      simp only [Option.map_some', Option.some.injEq, Prod.mk.injEq, Option.map_none'] at h
    · obtain ⟨rfl, rfl⟩ := h
      obtain ⟨htext, hp⟩ := symbol_operator token p t ht (by rw [n1]; decide)
        (by rw [n1]; decide)
      exact ⟨t, .LT, htext, by rw [n1]; rfl, rfl, by decide, by decide, hp,
        fun a b => by simp [ApplyBinary, neg_boolToInt]⟩
    · obtain ⟨rfl, rfl⟩ := h
      obtain ⟨htext, hp⟩ := symbol_operator token p t ht (by rw [n2]; decide)
        (by rw [n2]; decide)
      exact ⟨t, .LE, htext, by rw [n2]; rfl, rfl, by decide, by decide, hp,
        fun a b => by simp [ApplyBinary, neg_boolToInt]⟩
    · obtain ⟨rfl, rfl⟩ := h
      obtain ⟨htext, hp⟩ := symbol_operator token p t ht (by rw [n3]; decide)
        (by rw [n3]; decide)
      exact ⟨t, .EQ, htext, by rw [n3]; rfl, rfl, by decide, by decide, hp,
        fun a b => by simp [ApplyBinary, neg_boolToInt]⟩
    · obtain ⟨rfl, rfl⟩ := h
      obtain ⟨htext, hp⟩ := symbol_operator token p t ht (by rw [n4]; decide)
        (by rw [n4]; decide)
      exact ⟨t, .NE, htext, by rw [n4]; rfl, rfl, by decide, by decide, hp,
        fun a b => by simp [ApplyBinary, neg_boolToInt]⟩
    · obtain ⟨rfl, rfl⟩ := h
      obtain ⟨htext, hp⟩ := symbol_operator token p t ht (by rw [n5]; decide)
        (by rw [n5]; decide)
      exact ⟨t, .NE, htext, by rw [n5]; rfl, rfl, by decide, by decide, hp,
        fun a b => by simp [ApplyBinary, neg_boolToInt]⟩
    · obtain ⟨rfl, rfl⟩ := h
      obtain ⟨htext, hp⟩ := symbol_operator token p t ht (by rw [n6]; decide)
        (by rw [n6]; decide)
      exact ⟨t, .GE, htext, by rw [n6]; rfl, rfl, by decide, by decide, hp,
        fun a b => by simp [ApplyBinary, neg_boolToInt]⟩
    · obtain ⟨rfl, rfl⟩ := h
      obtain ⟨htext, hp⟩ := symbol_operator token p t ht (by rw [n7]; decide)
        (by rw [n7]; decide)
      exact ⟨t, .GT, htext, by rw [n7]; rfl, rfl, by decide, by decide, hp,
        fun a b => by simp [ApplyBinary, neg_boolToInt]⟩
    · cases h

/-- C19. Relational results: for operands of the values `a` and `b` with a relational
operator between them (`<`, `<=`, `==`, `!=`, `/=`, `>=`, `>`, or `.LT.`, `.LE.`,
`.EQ.`, `.NE.`, `.GE.`, `.GT.` in any letter case), `ExpressionValue` yields -1 when
the relation holds between `a` and `b` and 0 otherwise, without error. -/
theorem relational_results (fuel : Nat) (token : TokenSequence) (m : Int) (s p q w : Nat)
    (a b : Int) (rel : Int → Int → Bool) (hm : m ≤ 6)
    (hL : IsOperand (fuel + 2) token s p a) (hrel : RelationAt token p = some (rel, w))
    (hR : IsOperand (fuel + 1) token (p + w) q b) (hq : token.length ≤ q) :
    ExpressionValue (fuel + 2) token m s none =
      .done ⟨if rel a b = true then -1 else 0, q, none⟩ := by
  obtain ⟨text, op, htext, hop, hprec, hbin, hsel, hp, happ⟩ :=
    RelationAt_operator token p w rel hrel
  exact ExpressionValue_operator_text fuel token m s p q a b _ _ op text w htext hop
    (by rw [hprec]; exact hm) hbin hsel hL hp hR hq (happ a b)

/-- Witness of C19: `1 .Lt. 2` is -1, `3 <= 2` is 0, `-1 /= 5` is -1. -/
theorem relational_results_witness :
    ExpressionValue 2 ["1".toList, ".".toList, "Lt".toList, ".".toList, "2".toList] 0 0 none =
      .done ⟨-1, 5, none⟩ ∧
    ExpressionValue 2 ["3".toList, "<=".toList, "2".toList] 0 0 none = .done ⟨0, 3, none⟩ ∧
    ExpressionValue 2 ["-".toList, "1".toList, "/=".toList, "5".toList] 0 0 none =
      .done ⟨-1, 4, none⟩ :=
  ⟨(relational_results 0 ["1".toList, ".".toList, "Lt".toList, ".".toList, "2".toList] 0 0 1 5
      3 1 2 (fun a b => decide (a < b)) (by decide) (by unfold IsOperand; decide) rfl
      (by unfold IsOperand; decide) (by decide)).trans (by decide),
    (relational_results 0 ["3".toList, "<=".toList, "2".toList] 0 0 1 3 1
      3 2 (fun a b => decide (a ≤ b)) (by decide) (by unfold IsOperand; decide) rfl
      (by unfold IsOperand; decide) (by decide)).trans (by decide),
    (relational_results 0 ["-".toList, "1".toList, "/=".toList, "5".toList] 0 0 2 4 1
      (-1) 5 (fun a b => decide (a ≠ b)) (by decide) (by unfold IsOperand; decide) rfl
      (by unfold IsOperand; decide) (by decide)).trans (by decide)⟩

theorem precedence_logical (op : Operator)
    (h : op = .AND ∨ op = .OR ∨ op = .EQV ∨ op = .NEQV) :
    2 ≤ precedence op ∧ Operator.POWER.code ≤ op.code ∧ op ≠ .SELECT := by
  rcases h with rfl | rfl | rfl | rfl <;> decide

theorem ApplyBinary_logical (a b : Int) :
    ApplyBinary .AND a b none =
      .done (if (decide (a ≠ 0) && decide (b ≠ 0)) = true then 1 else 0, none) ∧
    ApplyBinary .OR a b none =
      .done (if (decide (a ≠ 0) || decide (b ≠ 0)) = true then 1 else 0, none) ∧
    ApplyBinary .EQV a b none =
      .done (if (decide (a ≠ 0) == decide (b ≠ 0)) = true then -1 else 0, none) ∧
    ApplyBinary .NEQV a b none =
      .done (if (decide (a ≠ 0) != decide (b ≠ 0)) = true then -1 else 0, none) := by
  by_cases ha : a = 0 <;> by_cases hb : b = 0 <;>
    simp [ApplyBinary, boolToInt, ha, hb]

/-- The operators of the code behind the logical spellings of the specification. -/
theorem LogicalAt_operator (token : TokenSequence) (p w : Nat) (f : Bool → Bool → Bool)
    (t : Int) (h : LogicalAt token p = some ((f, t), w)) :
    ∃ text op, BinaryOperatorText token p = (text, w) ∧ opNameMap text = some op ∧
      2 ≤ precedence op ∧ Operator.POWER.code ≤ op.code ∧ op ≠ .SELECT ∧
      p < token.length ∧
      ∀ a b, ApplyBinary op a b none =
        .done (if f (decide (a ≠ 0)) (decide (b ≠ 0)) = true then t else 0, none) := by
  unfold LogicalAt at h
  split at h
  · rename_i hd
    obtain ⟨h0, hp, h2⟩ := hd
    have htext := BinaryOperatorText_dotted token p h0 hp h2
    generalize ToLowerCaseLetters (TokenAt token (p + 1)) = name at h htext
    unfold LogicalName at h
    split_ifs at h with n1 n2 n3 n4 n5 <;>
      simp only [Option.map_some', Option.some.injEq, Prod.mk.injEq, Option.map_none'] at h
    · obtain ⟨⟨rfl, rfl⟩, rfl⟩ := h
      obtain ⟨h1, h2, h3⟩ := precedence_logical .AND (by simp)
      exact ⟨_, .AND, htext, by rw [n1]; rfl, h1, h2, h3, by omega,
        fun a b => (ApplyBinary_logical a b).1⟩
    · obtain ⟨⟨rfl, rfl⟩, rfl⟩ := h
      obtain ⟨h1, h2, h3⟩ := precedence_logical .OR (by simp)
      exact ⟨_, .OR, htext, by rw [n2]; rfl, h1, h2, h3, by omega,
        fun a b => (ApplyBinary_logical a b).2.1⟩
    · obtain ⟨⟨rfl, rfl⟩, rfl⟩ := h
      obtain ⟨h1, h2, h3⟩ := precedence_logical .EQV (by simp)
      exact ⟨_, .EQV, htext, by rw [n3]; rfl, h1, h2, h3, by omega,
        fun a b => (ApplyBinary_logical a b).2.2.1⟩
    · obtain ⟨⟨rfl, rfl⟩, rfl⟩ := h
      obtain ⟨h1, h2, h3⟩ := precedence_logical .NEQV (by simp)
      exact ⟨_, .NEQV, htext, by rw [n4]; rfl, h1, h2, h3, by omega,
        fun a b => (ApplyBinary_logical a b).2.2.2⟩
    · obtain ⟨⟨rfl, rfl⟩, rfl⟩ := h
      obtain ⟨h1, h2, h3⟩ := precedence_logical .NEQV (by simp)
      exact ⟨_, .NEQV, htext, by rw [n5]; rfl, h1, h2, h3, by omega,
        fun a b => (ApplyBinary_logical a b).2.2.2⟩
    · cases h
  · generalize ht : TokenAt token p = tok at h
    unfold LogicalSymbol at h
    split_ifs at h with n1 n2 <;>
      simp only [Option.map_some', Option.some.injEq, Prod.mk.injEq, Option.map_none'] at h
    · obtain ⟨⟨rfl, rfl⟩, rfl⟩ := h
      obtain ⟨htext, hp⟩ := symbol_operator token p tok ht (by rw [n1]; decide)
        (by rw [n1]; decide)
      obtain ⟨h1, h2, h3⟩ := precedence_logical .AND (by simp)
      exact ⟨tok, .AND, htext, by rw [n1]; rfl, h1, h2, h3, hp,
        fun a b => (ApplyBinary_logical a b).1⟩
    · obtain ⟨⟨rfl, rfl⟩, rfl⟩ := h
      obtain ⟨htext, hp⟩ := symbol_operator token p tok ht (by rw [n2]; decide)
        (by rw [n2]; decide)
      obtain ⟨h1, h2, h3⟩ := precedence_logical .OR (by simp)
      exact ⟨tok, .OR, htext, by rw [n2]; rfl, h1, h2, h3, hp,
        fun a b => (ApplyBinary_logical a b).2.1⟩
    · cases h

theorem ParsePrimary_bang (token : TokenSequence) (s : Nat) (h : TokenAt token s = ['!']) :
    ParsePrimary token s = .done (.ok (.NOTZERO, 0, s)) := by
  unfold ParsePrimary
  rw [h]
  rfl

theorem ParsePrimary_not (token : TokenSequence) (s : Nat) (h0 : TokenAt token s = ['.'])
    (hs : s + 2 < token.length)
    (h1 : ToLowerCaseLetters (TokenAt token (s + 1)) = "not".toList)
    (h2 : TokenAt token (s + 2) = ['.']) :
    ParsePrimary token s = .done (.ok (.NOT, 0, s + 2)) := by
  unfold ParsePrimary
  rw [h0]
  simp [h1, h2, hs, IsDecimalDigit, IsLegalIdentifierStart, IsLetter]

/-- C20 (as amended). Logical results, for all operand values and without error:
`.NOT.` yields -1 when its operand is zero and 0 otherwise, and `.EQV.`, `.NEQV.` and
`.XOR.` yield -1 when true and 0 when false; `!` yields 1 when its operand is zero
and 0 otherwise, and `&&`, `.AND.`, `||` and `.OR.` yield 1 when true and 0 when
false (the Fortran spellings in any letter case; an operand counts as true when it
is not zero). -/
theorem logical_results (fuel : Nat) (token : TokenSequence) (m : Int) (s p q w : Nat)
    (x a b t : Int) (f : Bool → Bool → Bool) (hq : token.length ≤ q) :
    (TokenAt token s = ['!'] → m ≤ 15 →
      ExpressionValue (fuel + 1) token 15 (s + 1) none = .done ⟨x, q, none⟩ →
      ExpressionValue (fuel + 2) token m s none =
        .done ⟨if x = 0 then 1 else 0, q, none⟩) ∧
    (TokenAt token s = ['.'] → s + 2 < token.length →
      ToLowerCaseLetters (TokenAt token (s + 1)) = "not".toList →
      TokenAt token (s + 2) = ['.'] → m ≤ 5 → IsOperand (fuel + 1) token (s + 3) q x →
      ExpressionValue (fuel + 2) token m s none =
        .done ⟨if x = 0 then -1 else 0, q, none⟩) ∧
    (LogicalAt token p = some ((f, t), w) → m ≤ 2 → IsOperand (fuel + 2) token s p a →
      IsOperand (fuel + 1) token (p + w) q b →
      ExpressionValue (fuel + 2) token m s none =
        .done ⟨if f (decide (a ≠ 0)) (decide (b ≠ 0)) = true then t else 0, q, none⟩) := by
  refine ⟨?_, ?_, ?_⟩
  · intro hbang hm hX
    have hs := lt_of_TokenAt_ne_nil token s (by rw [hbang]; simp)
    rw [ExpressionValue_unary (fuel + 1) token m s none .NOTZERO 0 s x q
      (boolToInt (x == 0)) hs (ParsePrimary_bang token s hbang) (by simpa using hm)
      (by decide) (by decide) hX rfl,
      BinaryLoop_end _ _ _ _ _ _ _ hq]
    by_cases hx : x = 0 <;> simp [boolToInt, hx]
  · intro h0 hs h1 h2 hm hX
    have hX6 := ExpressionValue_lastOperand fuel token 6 (s + 3) q x (by decide) hX hq
    rw [ExpressionValue_unary (fuel + 1) token m s none .NOT 0 (s + 2) x q
      (-boolToInt (x == 0)) (by omega) (ParsePrimary_not token s h0 hs h1 h2)
      (by simpa using hm) (by decide) (by decide) hX6 rfl,
      BinaryLoop_end _ _ _ _ _ _ _ hq]
    by_cases hx : x = 0 <;> simp [boolToInt, hx]
  · intro hlog hm hL hR
    obtain ⟨text, op, htext, hop, hprec, hbin, hsel, hp, happ⟩ :=
      LogicalAt_operator token p w f t hlog
    exact ExpressionValue_operator_text fuel token m s p q a b _ _ op text w htext hop
      (by omega) hbin hsel hL hp hR hq (happ a b)

/-- Witness of the amended C20: `.Not. 0` is -1, `!0` is 1, `2 && 3` is 1,
`1 .neqv. 0` is -1, `0 || 0` is 0. -/
theorem logical_results_witness :
    ExpressionValue 2 [".".toList, "Not".toList, ".".toList, "0".toList] 0 0 none =
      .done ⟨-1, 4, none⟩ ∧
    ExpressionValue 2 ["!".toList, "0".toList] 0 0 none = .done ⟨1, 2, none⟩ ∧
    ExpressionValue 2 ["2".toList, "&&".toList, "3".toList] 0 0 none = .done ⟨1, 3, none⟩ ∧
    ExpressionValue 2 ["1".toList, ".".toList, "neqv".toList, ".".toList, "0".toList] 0 0 none =
      .done ⟨-1, 5, none⟩ ∧
    ExpressionValue 2 ["0".toList, "||".toList, "0".toList] 0 0 none = .done ⟨0, 3, none⟩ :=
  ⟨((logical_results 0 [".".toList, "Not".toList, ".".toList, "0".toList] 0 0 0 4 0 0 0 0 0
      (fun x y => x && y) (by decide)).2.1 rfl (by decide) (by decide) rfl (by decide)
      (by unfold IsOperand; decide)).trans (by decide),
    ((logical_results 0 ["!".toList, "0".toList] 0 0 0 2 0 0 0 0 0
      (fun x y => x && y) (by decide)).1 rfl (by decide) (by decide)).trans (by decide),
    ((logical_results 0 ["2".toList, "&&".toList, "3".toList] 0 0 1 3 1 0 2 3 1
      (fun x y => x && y) (by decide)).2.2 rfl (by decide) (by unfold IsOperand; decide)
      (by unfold IsOperand; decide)).trans (by decide),
    ((logical_results 0 ["1".toList, ".".toList, "neqv".toList, ".".toList, "0".toList] 0 0 1 5
      3 0 1 0 (-1) (fun x y => x != y) (by decide)).2.2 rfl (by decide)
      (by unfold IsOperand; decide) (by unfold IsOperand; decide)).trans (by decide),
    ((logical_results 0 ["0".toList, "||".toList, "0".toList] 0 0 1 3 1 0 0 0 1
      (fun x y => x || y) (by decide)).2.2 rfl (by decide) (by unfold IsOperand; decide)
      (by unfold IsOperand; decide)).trans (by decide)⟩

/-- Counterexample to C20 as stated: `!0`, `1 && 1`, `1 .AND. 1` and `1 || 0` are
evaluated to 1, not to -1. -/
theorem logical_results_counterexample :
    ExpressionValue 2 ["!".toList, "0".toList] 0 0 none = .done ⟨1, 2, none⟩ ∧
    ExpressionValue 2 ["1".toList, "&&".toList, "1".toList] 0 0 none = .done ⟨1, 3, none⟩ ∧
    ExpressionValue 2 ["1".toList, ".".toList, "AND".toList, ".".toList, "1".toList] 0 0 none =
      .done ⟨1, 5, none⟩ ∧
    ExpressionValue 2 ["1".toList, "||".toList, "0".toList] 0 0 none = .done ⟨1, 3, none⟩ := by
  refine ⟨by decide, by decide, by decide, by decide⟩

/-! ## Directives on an empty stack, `#endif` with excess tokens, rejected `#define` -/

/-- C21, the behaviour of the code at the failing input: `#endif X` with a mark on
the stack says the portability warning and pops nothing, where `#endif` pops the
mark; after `#if 1`, a text line and `#endif X` the stack still holds the mark of
the group. -/
theorem endif_excess_tokens_no_pop :
    Directive 0 ["#".toList, "endif".toList, " ".toList, "X".toList] { ifStack := [.Yes] } {} =
      .done ({ ifStack := [.Yes] },
        { messages := [⟨.portability, "#endif: excess tokens at end of directive"⟩] }) ∧
    Directive 0 ["#".toList, "endif".toList] { ifStack := [.Yes] } {} =
      .done ({ ifStack := [] }, {}) ∧
    Prescan 2 3 {}
        { lines := [IfLine ["1".toList], ⟨false, ["a".toList]⟩,
            ⟨true, ["#".toList, "endif".toList, " ".toList, "X".toList]⟩] } =
      .done ({ ifStack := [.Yes] },
        { messages := [⟨.portability, "#endif: excess tokens at end of directive"⟩],
          active := [["a".toList]] }) := by
  refine ⟨by decide, by decide, by decide⟩

/-- C23. With an empty conditional stack, `#else`, `#elif c` and `#endif` each say an
error and return: the preprocessor (stack, definitions, counter) is as before and no
line of the input is consumed. -/
theorem mismatched_conditional_directives (fuel : Nat) (pp : Preprocessor) (ps : Prescanner)
    (c : TokenSequence) (hstack : pp.ifStack = []) (hc : IsCondition c = true) :
    Directive fuel ElseLine.tokens pp ps =
      .done (pp, ps.Say .error "#else: not nested within #if, #ifdef, or #ifndef") ∧
    Directive fuel (ElifLine c).tokens pp ps =
      .done (pp, ps.Say .error "#elif: not nested within #if, #ifdef, or #ifndef") ∧
    Directive fuel EndifLine.tokens pp ps =
      .done (pp, ps.Say .error "#endif: no #if, #ifdef, or #ifndef") := by
  refine ⟨?_, ?_, ?_⟩
  · have hdir : ElseLine.tokens = [['#'], "else".toList] := rfl
    rw [hdir]
    generalize hd : [['#'], "else".toList] = dir at *
    have hlen : dir.length = 2 := by rw [← hd]; rfl
    have t0 : TokenAt dir 0 = ['#'] := by rw [← hd]; rfl
    have t1 : TokenAt dir 1 = "else".toList := by rw [← hd]; rfl
    have s0 : SkipBlanks dir 0 = 0 := by rw [← hd]; rfl
    have s1 : SkipBlanks dir 1 = 1 := by rw [← hd]; rfl
    have s2 : SkipBlanks dir 2 = 2 := by rw [← hd]; rfl
    have hpop : (PopTrailingBlanks dir).length = 2 := by rw [← hd]; rfl
    have hleft : IsAnythingLeft dir 2 = false := by rw [← hd]; rfl
    unfold Directive
    simp only [s0, s1, s2, hlen, hpop, t0, t1, hstack, hleft]
    simp [IsDecimalDigit, dquote, ToLowerCaseLetters, ToLowerCaseLetter]
  · obtain ⟨s0, s1, s2, hpop, hpos⟩ := conditional_line_facts "elif".toList c (by decide) hc
    have hdir : (ElifLine c).tokens = ['#'] :: "elif".toList :: [' '] :: c := by simp [ElifLine]
    rw [hdir]
    generalize hd : ['#'] :: "elif".toList :: [' '] :: c = dir at *
    have hlen : dir.length = c.length + 3 := by rw [← hd]; simp
    have t0 : TokenAt dir 0 = ['#'] := by rw [← hd]; rfl
    have t1 : TokenAt dir 1 = "elif".toList := by rw [← hd]; rfl
    have a1 : ¬ (0 = c.length + 3) := by omega
    have a2 : ¬ (1 = c.length + 3) := by omega
    have a3 : ¬ (c.length + 3 ≤ 1) := by omega
    unfold Directive
    simp only [s0, s1, s2, hlen, hpop, t0, t1, hstack]
    simp [IsDecimalDigit, dquote, ToLowerCaseLetters, ToLowerCaseLetter, a1, a2, a3]
  · have hdir : EndifLine.tokens = [['#'], "endif".toList] := rfl
    rw [hdir]
    generalize hd : [['#'], "endif".toList] = dir at *
    have hlen : dir.length = 2 := by rw [← hd]; rfl
    have t0 : TokenAt dir 0 = ['#'] := by rw [← hd]; rfl
    have t1 : TokenAt dir 1 = "endif".toList := by rw [← hd]; rfl
    have s0 : SkipBlanks dir 0 = 0 := by rw [← hd]; rfl
    have s1 : SkipBlanks dir 1 = 1 := by rw [← hd]; rfl
    have s2 : SkipBlanks dir 2 = 2 := by rw [← hd]; rfl
    have hpop : (PopTrailingBlanks dir).length = 2 := by rw [← hd]; rfl
    have hleft : IsAnythingLeft dir 2 = false := by rw [← hd]; rfl
    unfold Directive
    simp only [s0, s1, s2, hlen, hpop, t0, t1, hstack, hleft]
    simp [IsDecimalDigit, dquote, ToLowerCaseLetters, ToLowerCaseLetter]

/-- Witness of C23: on a fresh preprocessor with one definition and two lines still to
come, `#else`, `#elif 1` and `#endif` each add one error and change nothing else. -/
theorem mismatched_conditional_directives_witness :
    Directive 0 ElseLine.tokens
        { definitions := [("N".toList, Definition.objectLike ["5".toList] 0 1)] }
        { lines := TextLines [["a".toList], ["b".toList]] } =
      .done ({ definitions := [("N".toList, Definition.objectLike ["5".toList] 0 1)] },
        { lines := TextLines [["a".toList], ["b".toList]],
          messages := [⟨.error, "#else: not nested within #if, #ifdef, or #ifndef"⟩] }) ∧
    Directive 0 (ElifLine ["1".toList]).tokens
        { definitions := [("N".toList, Definition.objectLike ["5".toList] 0 1)] }
        { lines := TextLines [["a".toList], ["b".toList]] } =
      .done ({ definitions := [("N".toList, Definition.objectLike ["5".toList] 0 1)] },
        { lines := TextLines [["a".toList], ["b".toList]],
          messages := [⟨.error, "#elif: not nested within #if, #ifdef, or #ifndef"⟩] }) ∧
    Directive 0 EndifLine.tokens
        { definitions := [("N".toList, Definition.objectLike ["5".toList] 0 1)] }
        { lines := TextLines [["a".toList], ["b".toList]] } =
      .done ({ definitions := [("N".toList, Definition.objectLike ["5".toList] 0 1)] },
        { lines := TextLines [["a".toList], ["b".toList]],
          messages := [⟨.error, "#endif: no #if, #ifdef, or #ifndef"⟩] }) :=
  mismatched_conditional_directives 0
    { definitions := [("N".toList, Definition.objectLike ["5".toList] 0 1)] }
    { lines := TextLines [["a".toList], ["b".toList]] } ["1".toList] rfl (by decide)

/-- C24, the behaviour of the code at the failing input: with `#define F 1` in the
store, each of the rejected directives `#define F(1) x` (invalid argument name),
`#define F(a` (malformed list) and `#define F(a,a) x` (names not distinct) says its
error and leaves the store without any definition of `F`; the directive `#define 1`,
rejected for its name, leaves the store as it was. -/
theorem rejected_define_erases_definition :
    Directive 0 ["#".toList, "define".toList, " ".toList, "F".toList, "(".toList, "1".toList,
        ")".toList, " ".toList, "x".toList]
        { definitions := [("F".toList, Definition.objectLike ["1".toList] 0 1)] } {} =
      .done ({ definitions := [] },
        { messages := [⟨.error, "#define: missing or invalid argument name"⟩] }) ∧
    Directive 0 ["#".toList, "define".toList, " ".toList, "F".toList, "(".toList, "a".toList]
        { definitions := [("F".toList, Definition.objectLike ["1".toList] 0 1)] } {} =
      .done ({ definitions := [] },
        { messages := [⟨.error, "#define: malformed argument list"⟩] }) ∧
    Directive 0 ["#".toList, "define".toList, " ".toList, "F".toList, "(".toList, "a".toList,
        ",".toList, "a".toList, ")".toList, " ".toList, "x".toList]
        { definitions := [("F".toList, Definition.objectLike ["1".toList] 0 1)] } {} =
      .done ({ definitions := [] },
        { messages := [⟨.error, "#define: argument names are not distinct"⟩] }) ∧
    Directive 0 ["#".toList, "define".toList, " ".toList, "1".toList]
        { definitions := [("F".toList, Definition.objectLike ["1".toList] 0 1)] } {} =
      .done ({ definitions := [("F".toList, Definition.objectLike ["1".toList] 0 1)] },
        { messages := [⟨.error, "#define: missing or invalid name"⟩] }) := by
  refine ⟨by decide, by decide, by decide, by decide⟩

/-! ## Calls with a wrong number of arguments -/

theorem Substitute_nil (body : TokenSequence) : Substitute [] [] body = body := by
  induction body with
  | nil => rfl
  | cons tok rest ih =>
    rw [Substitute_cons, ih]
    rfl

/-- C27. With `F` defined as a function-like macro without formals and `G` as one
with the single formal `x` (plain bodies: no `#`, no `##`, no token shaped like a
placeholder, no macro name), the invocation `F()` expands to the body of `F`, and
the invocation `G()` expands to the body of `G` with every `x` replaced by the empty
token sequence. -/
theorem empty_parentheses_call (fuel : Nat) (ps : Prescanner) (pp : Preprocessor)
    (F G x : Token) (body0 body1 : TokenSequence) (pflm : PartialFLM)
    (hF : IsLegalIdentifierStartToken F = true) (hG : IsLegalIdentifierStartToken G = true)
    (hx : IsLegalIdentifierStartToken x = true)
    (hfindF : pp.find F = some (SubstitutionDefinition [] body0))
    (hfindG : pp.find G = some (SubstitutionDefinition [x] body1))
    (hbody0 : ∀ tok ∈ body0, tok ≠ ['#'] ∧ IsTokenPasting tok = false ∧
      IsPlaceholderShaped tok = false ∧
        (IsLegalIdentifierStartToken tok = true → pp.find tok = none))
    (hbody1 : ∀ tok ∈ body1, tok ≠ ['#'] ∧ IsTokenPasting tok = false ∧
      (tok ≠ x → IsPlaceholderShaped tok = false ∧
        (IsLegalIdentifierStartToken tok = true → pp.find tok = none))) :
    MacroReplacement (fuel + 2) ps pp [F, ['('], [')']] pflm false =
      .done ⟨some body0, pflm, (pp.setDisabled F true).setDisabled F false⟩ ∧
    MacroReplacement (fuel + 2) ps pp [G, ['('], [')']] pflm false =
      .done ⟨some (Substitute [x] [[]] body1), pflm,
        (pp.setDisabled G true).setDisabled G false⟩ := by
  constructor
  · have h := MacroReplacement_substitution fuel ps pp F [] body0 [] pflm hF (by simp) (by simp)
      hfindF (fun tok ht => ⟨(hbody0 tok ht).1, (hbody0 tok ht).2.1, fun _ => (hbody0 tok ht).2.2⟩)
      rfl (by simp)
    rw [Substitute_nil] at h
    exact h
  · exact MacroReplacement_substitution fuel ps pp G [x] body1 [[]] pflm hG
      (by intro p hp; rw [List.mem_singleton.mp hp]; exact hx) (by simp)
      hfindG (fun tok ht => ⟨(hbody1 tok ht).1, (hbody1 tok ht).2.1,
        fun hn => (hbody1 tok ht).2.2 (by intro he; exact hn (by rw [he]; simp))⟩)
      rfl (by
        intro a ha
        rw [List.mem_singleton.mp ha]
        refine ⟨rfl, ?_, rfl⟩
        intro tok ht
        cases ht)

/-- Witness of C27: with `#define F() 7` and `#define G(x) [x]`, `F()` yields `7` and
`G()` yields `[`, `]`. -/
theorem empty_parentheses_call_witness :
    MacroReplacement 2 {}
        { definitions := [("F".toList, SubstitutionDefinition [] ["7".toList]),
            ("G".toList, SubstitutionDefinition ["x".toList]
              ["[".toList, "x".toList, "]".toList])] }
        ["F".toList, ['('], [')']] none false =
      .done ⟨some ["7".toList], none,
        { definitions := [("F".toList, SubstitutionDefinition [] ["7".toList]),
            ("G".toList, SubstitutionDefinition ["x".toList]
              ["[".toList, "x".toList, "]".toList])] }⟩ ∧
    MacroReplacement 2 {}
        { definitions := [("F".toList, SubstitutionDefinition [] ["7".toList]),
            ("G".toList, SubstitutionDefinition ["x".toList]
              ["[".toList, "x".toList, "]".toList])] }
        ["G".toList, ['('], [')']] none false =
      .done ⟨some ["[".toList, "]".toList], none,
        { definitions := [("F".toList, SubstitutionDefinition [] ["7".toList]),
            ("G".toList, SubstitutionDefinition ["x".toList]
              ["[".toList, "x".toList, "]".toList])] }⟩ :=
  empty_parentheses_call 0 {}
    { definitions := [("F".toList, SubstitutionDefinition [] ["7".toList]),
        ("G".toList, SubstitutionDefinition ["x".toList]
          ["[".toList, "x".toList, "]".toList])] }
    "F".toList "G".toList "x".toList ["7".toList] ["[".toList, "x".toList, "]".toList] none
    (by decide) (by decide) (by decide) rfl rfl (by decide) (by decide)

/-! ## Pre-expansion of the actual arguments and `__VA_OPT__` -/

theorem placeholder_not_parenthesis (token : Token) (h : IsPlaceholderShaped token = true) :
    OnlyNonBlank token ≠ '(' ∧ OnlyNonBlank token ≠ ')' := by
  unfold IsPlaceholderShaped at h
  simp only [Bool.and_eq_true, beq_iff_eq] at h
  have hmem : '~' ∈ token := List.mem_of_mem_head? (by rw [h.2]; rfl)
  rcases OnlyNonBlank_of_mem token '~' hmem (by decide) with h1 | h1 <;> rw [h1] <;> decide

/-- One iteration of the loop of `Definition::Apply`, outside of skipped text, at a
token that is neither a tracked parenthesis nor an active `__VA_OPT__`. -/
theorem ApplyLoop_token (d : Definition) (mr : ReplaceFn) (args : List TokenSequence)
    (pp : Preprocessor) (R : TokenSequence → Option TokenSequence) (inIf : Bool)
    (hsharp : ∀ tok ∈ d.replacement, tok ≠ ['#'])
    (hmr : inIf = false → ∀ a ∈ args, mr pp a none false = .done ⟨R a, none, pp⟩)
    (tok : Token) (more : List Token) (j m : Nat) (result : TokenSequence)
    (hplain : IsPlaceholderShaped tok = true ∨ (d.isVariadic = true ∧ tok = "__VA_ARGS__".toList) ∨
      ((m = 0 → d.isVariadic = true → tok ≠ "__VA_OPT__".toList) ∧
        (0 < m → OnlyNonBlank tok ≠ '(' ∧ OnlyNonBlank tok ≠ ')'))) :
    d.ApplyLoop mr args inIf (tok :: more) j ⟨result, false, m, pp⟩ =
      d.ApplyLoop mr args inIf more (j + 1)
        ⟨result ++ ExpandToken d args (fun a => (R a).getD a) inIf j tok, false, m, pp⟩ := by
  have hno : ∀ p, (TokenAt d.replacement p == ['#']) = false := by
    intro p
    rcases TokenAt_mem_or_nil d.replacement p with hm | hn
    · simpa using hsharp _ hm
    · rw [hn]; rfl
  rw [Definition.ApplyLoop.eq_def, ExpandToken]
  simp only []
  by_cases hshape : IsPlaceholderShaped tok = true
  · have hs2 : (tok.length == 2 && tok.head? == some '~') = true := hshape
    simp only [hs2, hshape, if_true, Bool.false_eq_true, if_false]
    by_cases hidx : d.GetArgumentIndex tok < args.length
    · have e4 : ¬ (d.GetArgumentIndex tok ≥ args.length) := by omega
      have hmem : args.getD (d.GetArgumentIndex tok) [] ∈ args := by
        rw [List.getD_eq_getElem _ _ hidx]
        exact List.getElem_mem _
      simp only [e4, hidx, if_true, if_false]
      have hnext : decide (SkipBlanks d.replacement (j + 1) < d.replacement.length) =
          !decide (SkipBlanks d.replacement (j + 1) ≥ d.replacement.length) := by
        by_cases h : SkipBlanks d.replacement (j + 1) < d.replacement.length
        · have : ¬ (SkipBlanks d.replacement (j + 1) ≥ d.replacement.length) := by omega
          simp [h, this]
        · have : SkipBlanks d.replacement (j + 1) ≥ d.replacement.length := by omega
          simp [h, this]
      unfold PastingAdjacent
      rw [hnext]
      generalize decide (SkipBlanks d.replacement (j + 1) ≥ d.replacement.length) = bn
      generalize IsTokenPasting (TokenAt d.replacement (SkipBlanks d.replacement (j + 1))) = bq
      cases hsb : SkipBlanksBackwards d.replacement j with
      | none =>
        simp only []
        cases inIf with
        | true =>
          simp only [Bool.not_true, Bool.false_and, Bool.false_eq_true, if_false, Bool.true_or,
            if_true]
        | false =>
          have hm := hmr rfl _ hmem
          cases bn <;> cases bq <;>
            simp only [Bool.not_false, Bool.not_true, Bool.true_and, Bool.and_true,
              Bool.and_false, Bool.and_self, Bool.or_true, Bool.or_false, Bool.or_self,
              Bool.true_or, Bool.false_or, Bool.false_eq_true, if_false, if_true, hm]
      | some p =>
        simp only [hno p, Bool.false_eq_true, if_false]
        cases inIf with
        | true =>
          simp only [Bool.not_true, Bool.false_and, Bool.false_eq_true, if_false, Bool.true_or,
            if_true]
        | false =>
          have hm := hmr rfl _ hmem
          by_cases hbp : IsTokenPasting (TokenAt d.replacement p) = true <;> cases bn <;>
              cases bq <;>
            simp only [hbp, Bool.not_false, Bool.not_true, Bool.true_and, Bool.and_true,
              Bool.and_false, Bool.and_self, Bool.or_true, Bool.or_false, Bool.or_self,
              Bool.true_or, Bool.false_or, Bool.false_and, Bool.false_eq_true, if_false,
              if_true, hm]
    · have e4 : d.GetArgumentIndex tok ≥ args.length := by omega
      simp only [e4, hidx, if_true, if_false, List.append_nil]
  · have hshape2 : IsPlaceholderShaped tok = false := by simpa using hshape
    have hs2 : (tok.length == 2 && tok.head? == some '~') = false := hshape2
    simp only [hs2, hshape2, Bool.false_eq_true, if_false]
    by_cases hva : d.isVariadic = true ∧ tok = "__VA_ARGS__".toList
    · have hl : tok.length = 11 := by rw [hva.2]; rfl
      simp [hva.1, hva.2]
    · have hva2 : (d.isVariadic && tok == "__VA_ARGS__".toList) = false := by
        rw [Bool.eq_false_iff]
        intro h
        simp only [Bool.and_eq_true, beq_iff_eq] at h
        exact hva h
      have hva3 : (tok.length == 11 && d.isVariadic && tok == "__VA_ARGS__".toList) = false := by
        rw [Bool.and_assoc, hva2, Bool.and_false]
      rcases hplain with h | h | ⟨h1, h2⟩
      · exact absurd h hshape
      · exact absurd h hva
      · have hopt : (tok.length == 10 && d.isVariadic && tok == "__VA_OPT__".toList &&
            decide (j + 2 < d.replacement.length) &&
            OnlyNonBlank (TokenAt d.replacement (j + 1)) == '(' && m == 0) = false := by
          by_cases hm0 : m = 0
          · by_cases hv : d.isVariadic = true
            · have hne : (tok == "__VA_OPT__".toList) = false := by
                simpa using h1 hm0 hv
              rw [Bool.and_assoc, Bool.and_assoc, Bool.and_assoc, hne]
              simp
            · simp [hv]
          · simp [hm0]
        have hp1 : (decide (m > 0) && OnlyNonBlank tok == '(') = false := by
          by_cases hm0 : 0 < m
          · simp [(h2 hm0).1]
          · simp [hm0]
        have hp2 : (decide (m > 0) && OnlyNonBlank tok == ')') = false := by
          by_cases hm0 : 0 < m
          · simp [(h2 hm0).2]
          · simp [hm0]
        simp only [hva2, hva3, hopt, hp1, hp2, Bool.false_eq_true, if_false]

/-- The loop of `Definition::Apply` over a run of tokens outside of `__VA_OPT__`. -/
theorem ApplyLoop_run (d : Definition) (mr : ReplaceFn) (args : List TokenSequence)
    (pp : Preprocessor) (R : TokenSequence → Option TokenSequence) (inIf : Bool)
    (hsharp : ∀ tok ∈ d.replacement, tok ≠ ['#'])
    (hmr : inIf = false → ∀ a ∈ args, mr pp a none false = .done ⟨R a, none, pp⟩)
    (run tail : List Token)
    (hrun : d.isVariadic = true → ∀ tok ∈ run, tok ≠ "__VA_OPT__".toList)
    (j : Nat) (result : TokenSequence) :
    d.ApplyLoop mr args inIf (run ++ tail) j ⟨result, false, 0, pp⟩ =
      d.ApplyLoop mr args inIf tail (j + run.length)
        ⟨result ++ SubstituteArguments d args (fun a => (R a).getD a) inIf run j, false, 0, pp⟩ := by
  induction run generalizing j result with
  | nil => simp [SubstituteArguments]
  | cons tok more ih =>
    rw [List.cons_append, ApplyLoop_token d mr args pp R inIf hsharp hmr tok _ j 0 result
      (Or.inr (Or.inr ⟨fun _ hv => hrun hv tok (List.mem_cons_self _ _),
        fun h => absurd h (by omega)⟩)),
      ih (fun hv t ht => hrun hv t (List.mem_cons_of_mem _ ht)), SubstituteArguments,
      List.append_assoc, List.length_cons]
    congr 1
    omega

/-- The loop of `Definition::Apply` over the content of `__VA_OPT__( ... )` when the
content is kept: the parentheses in it are counted. -/
theorem ApplyLoop_content (d : Definition) (mr : ReplaceFn) (args : List TokenSequence)
    (pp : Preprocessor) (R : TokenSequence → Option TokenSequence) (inIf : Bool)
    (hsharp : ∀ tok ∈ d.replacement, tok ≠ ['#'])
    (hmr : inIf = false → ∀ a ∈ args, mr pp a none false = .done ⟨R a, none, pp⟩)
    (content tail : List Token) (n n1 : Nat)
    (hdepth : ParenthesesDepth content n = some n1)
    (j : Nat) (result : TokenSequence) :
    d.ApplyLoop mr args inIf (content ++ tail) j ⟨result, false, n + 1, pp⟩ =
      d.ApplyLoop mr args inIf tail (j + content.length)
        ⟨result ++ SubstituteArguments d args (fun a => (R a).getD a) inIf content j, false,
          n1 + 1, pp⟩ := by
  induction content generalizing j result n with
  | nil =>
    simp only [ParenthesesDepth, Option.some.injEq] at hdepth
    subst hdepth
    simp [SubstituteArguments]
  | cons tok more ih =>
    rw [ParenthesesDepth] at hdepth
    have hlen : j + (tok :: more).length = j + 1 + more.length := by
      simp only [List.length_cons]; omega
    rw [List.cons_append, SubstituteArguments, hlen, ← List.append_assoc]
    by_cases h1 : OnlyNonBlank tok == '('
    · simp only [h1, if_true] at hdepth
      have hshape : IsPlaceholderShaped tok = false := by
        rw [Bool.eq_false_iff]
        intro h
        exact (placeholder_not_parenthesis tok h).1 (by simpa using h1)
      have hs2 : (tok.length == 2 && tok.head? == some '~') = false := hshape
      have hva : (tok == "__VA_ARGS__".toList) = false := by
        rw [Bool.eq_false_iff]
        intro h
        rw [beq_iff_eq.mp h] at h1
        exact absurd h1 (by decide)
      have hva1 : tok ≠ ['_', '_', 'V', 'A', '_', 'A', 'R', 'G', 'S', '_', '_'] := by
        simpa using hva
      rw [← ih (n + 1) hdepth (j + 1) _, Definition.ApplyLoop.eq_def, ExpandToken]
      simp [hs2, hshape, hva1, h1]
    · simp only [h1, Bool.false_eq_true, if_false] at hdepth
      by_cases h2 : OnlyNonBlank tok == ')'
      · simp only [h2, if_true] at hdepth
        by_cases h3 : n == 0
        · simp [h3] at hdepth
        · simp only [h3, Bool.false_eq_true, if_false] at hdepth
          have hn : n ≠ 0 := by simpa using h3
          have hshape : IsPlaceholderShaped tok = false := by
            rw [Bool.eq_false_iff]
            intro h
            exact (placeholder_not_parenthesis tok h).2 (by simpa using h2)
          have hs2 : (tok.length == 2 && tok.head? == some '~') = false := hshape
          have hva : (tok == "__VA_ARGS__".toList) = false := by
            rw [Bool.eq_false_iff]
            intro h
            rw [beq_iff_eq.mp h] at h2
            exact absurd h2 (by decide)
          have hih := ih (n - 1) hdepth (j + 1) (result ++ ExpandToken d args
            (fun a => (R a).getD a) inIf j tok)
          rw [show n - 1 + 1 = n by omega] at hih
          have hva1 : tok ≠ ['_', '_', 'V', 'A', '_', 'A', 'R', 'G', 'S', '_', '_'] := by
            simpa using hva
          rw [← hih, Definition.ApplyLoop.eq_def, ExpandToken]
          simp [hs2, hshape, hva1, h1, h2, hn]
      · simp only [h2, Bool.false_eq_true, if_false] at hdepth
        rw [ApplyLoop_token d mr args pp R inIf hsharp hmr tok _ j (n + 1) result
          (Or.inr (Or.inr ⟨fun h => absurd h (by omega),
            fun _ => ⟨by simpa using h1, by simpa using h2⟩⟩)),
          ih n hdepth (j + 1) _]

/-- The loop of `Definition::Apply` over the content of `__VA_OPT__( ... )` when the
content is skipped. -/
theorem ApplyLoop_skip (d : Definition) (mr : ReplaceFn) (args : List TokenSequence)
    (pp : Preprocessor) (inIf : Bool) (content tail : List Token) (n n1 : Nat)
    (hdepth : ParenthesesDepth content n = some n1)
    (j : Nat) (result : TokenSequence) :
    d.ApplyLoop mr args inIf (content ++ tail) j ⟨result, true, n + 1, pp⟩ =
      d.ApplyLoop mr args inIf tail (j + content.length) ⟨result, true, n1 + 1, pp⟩ := by
  induction content generalizing j n with
  | nil =>
    simp only [ParenthesesDepth, Option.some.injEq] at hdepth
    subst hdepth
    simp
  | cons tok more ih =>
    rw [ParenthesesDepth] at hdepth
    have hlen : j + (tok :: more).length = j + 1 + more.length := by
      simp only [List.length_cons]; omega
    rw [List.cons_append, hlen, Definition.ApplyLoop.eq_def]
    simp only [if_true]
    by_cases h1 : OnlyNonBlank tok == '('
    · simp only [h1, if_true] at hdepth ⊢
      exact ih (n + 1) hdepth (j + 1)
    · simp only [h1, Bool.false_eq_true, if_false] at hdepth ⊢
      by_cases h2 : OnlyNonBlank tok == ')'
      · simp only [h2, if_true] at hdepth ⊢
        by_cases h3 : n == 0
        · simp [h3] at hdepth
        · simp only [h3, Bool.false_eq_true, if_false] at hdepth
          have hn : n ≠ 0 := by simpa using h3
          have hih := ih (n - 1) hdepth (j + 1)
          rw [show n - 1 + 1 = n by omega] at hih
          rw [← hih]
          have : n + 1 - 1 = n := by omega
          have hpos : n > 0 := by omega
          simp [this, hpos]
      · simp only [h2, Bool.false_eq_true, if_false] at hdepth ⊢
        exact ih n hdepth (j + 1)

/-- C29. For a definition whose replacement text holds no `#` (and, when variadic,
no `__VA_OPT__`), and a replacement function `mr` that turns each actual argument
`a` into `R a` (none: no change): in ordinary mode `Definition::Apply` puts, in
place of each placeholder, its argument macro-replaced by `mr`, except at the
placeholders next to `##` (ignoring blanks), where the argument is put as written;
in expression mode every argument is put as written. For `#define F(x) #x` the
result is the stringified text of the argument as written, whatever `mr` does. -/
theorem argument_pre_expansion (d : Definition) (mr : ReplaceFn) (args : List TokenSequence)
    (pp : Preprocessor) (R : TokenSequence → Option TokenSequence) (x : Token)
    (arg : TokenSequence)
    (hsharp : ∀ tok ∈ d.replacement, tok ≠ ['#'])
    (hopt : d.isVariadic = true → ∀ tok ∈ d.replacement, tok ≠ "__VA_OPT__".toList)
    (hmr : ∀ a ∈ args, mr pp a none false = .done ⟨R a, none, pp⟩) :
    d.Apply mr args pp false =
      .done (TokenPasting
        (SubstituteArguments d args (fun a => (R a).getD a) false d.replacement 0), pp) ∧
    d.Apply mr args pp true =
      .done (TokenPasting (SubstituteArguments d args (fun a => a) true d.replacement 0), pp) ∧
    (StringifyDefinition x).Apply mr [arg] pp false =
      .done ([[dquote] ++ Escaped (ToString arg) ++ [dquote]], pp) := by
  refine ⟨?_, ?_, Apply_stringify x mr arg pp⟩
  · have h := ApplyLoop_run d mr args pp R false hsharp (fun _ => hmr) d.replacement [] hopt 0 []
    rw [List.append_nil] at h
    unfold Definition.Apply
    rw [h]
    rfl
  · have h := ApplyLoop_run d mr args pp (fun _ => none) true hsharp (fun h => by cases h)
      d.replacement [] hopt 0 []
    rw [List.append_nil] at h
    unfold Definition.Apply
    rw [h]
    rfl

/-- Witness of C29: with `#define N 5` and `F` defined with the formals `a`, `b` and
the body `a a##b`, the arguments `N` and `1` give `5 N1` in ordinary mode and `N N1`
in expression mode, and `#x` applied to `N` gives the string `"N"`; the call
`CAT(N,1)` after `#define CAT(a,b) a##b` yields `N1`. -/
theorem argument_pre_expansion_witness :
    (SubstitutionDefinition ["a".toList, "b".toList]
        ["a".toList, " ".toList, "a".toList, "##".toList, "b".toList]).Apply
        (MacroReplacement 2 {}) [["N".toList], ["1".toList]]
        { definitions := [("N".toList, Definition.objectLike ["5".toList] 0 1)] } false =
      .done (["5".toList, " ".toList, "N1".toList],
        { definitions := [("N".toList, Definition.objectLike ["5".toList] 0 1)] }) ∧
    (SubstitutionDefinition ["a".toList, "b".toList]
        ["a".toList, " ".toList, "a".toList, "##".toList, "b".toList]).Apply
        (MacroReplacement 2 {}) [["N".toList], ["1".toList]]
        { definitions := [("N".toList, Definition.objectLike ["5".toList] 0 1)] } true =
      .done (["N".toList, " ".toList, "N1".toList],
        { definitions := [("N".toList, Definition.objectLike ["5".toList] 0 1)] }) ∧
    (StringifyDefinition "x".toList).Apply (MacroReplacement 2 {}) [["N".toList]]
        { definitions := [("N".toList, Definition.objectLike ["5".toList] 0 1)] } false =
      .done ([[dquote, 'N', dquote]],
        { definitions := [("N".toList, Definition.objectLike ["5".toList] 0 1)] }) ∧
    MacroReplacement 3 {}
        { definitions := [("N".toList, Definition.objectLike ["5".toList] 0 1),
            ("CAT".toList, PasteDefinition "a".toList "b".toList)] }
        (CallTokens "CAT".toList [["N".toList], ["1".toList]]) none false =
      .done ⟨some ["N1".toList], none,
        { definitions := [("N".toList, Definition.objectLike ["5".toList] 0 1),
            ("CAT".toList, PasteDefinition "a".toList "b".toList)] }⟩ := by
  have h := argument_pre_expansion
    (SubstitutionDefinition ["a".toList, "b".toList]
      ["a".toList, " ".toList, "a".toList, "##".toList, "b".toList])
    (MacroReplacement 2 {}) [["N".toList], ["1".toList]]
    { definitions := [("N".toList, Definition.objectLike ["5".toList] 0 1)] }
    (fun a => if a = ["N".toList] then some ["5".toList] else none) "x".toList ["N".toList]
    (by decide) (by decide) (by decide)
  exact ⟨h.1.trans (by decide), h.2.1.trans (by decide), h.2.2.trans (by decide), by decide⟩

/-! ## `__VA_OPT__` -/

theorem ApplyLoop_close (d : Definition) (mr : ReplaceFn) (args : List TokenSequence)
    (pp : Preprocessor) (inIf : Bool) (post : List Token) (j : Nat) (result : TokenSequence)
    (skipping : Bool) :
    d.ApplyLoop mr args inIf ([')'] :: post) j ⟨result, skipping, 1, pp⟩ =
      d.ApplyLoop mr args inIf post (j + 1) ⟨result, false, 0, pp⟩ := by
  have c1 : (OnlyNonBlank [')'] == '(') = false := by decide
  have c2 : (OnlyNonBlank [')'] == ')') = true := by decide
  rw [Definition.ApplyLoop.eq_def]
  cases skipping with
  | true => simp [c1, c2]
  | false =>
    have e1 : (([')'] : Token).length == 2 && ([')'] : Token).head? == some '~') = false := by
      decide
    simp [c1, c2]

theorem ApplyLoop_open (d : Definition) (mr : ReplaceFn) (args : List TokenSequence)
    (pp : Preprocessor) (inIf : Bool) (paren : Token) (rest : List Token) (j : Nat)
    (result : TokenSequence)
    (hvar : d.isVariadic = true) (hj : j + 2 < d.replacement.length)
    (hparen : OnlyNonBlank (TokenAt d.replacement (j + 1)) = '(') :
    d.ApplyLoop mr args inIf ("__VA_OPT__".toList :: paren :: rest) j ⟨result, false, 0, pp⟩ =
      d.ApplyLoop mr args inIf rest (j + 2)
        ⟨result, args.length == d.argumentCount, 1, pp⟩ := by
  rw [Definition.ApplyLoop.eq_def]
  simp [hvar, hj, hparen]

/-- C28. For a variadic definition whose replacement text is `pre`, then
`__VA_OPT__`, `(`, `content`, `)`, then `post` (no `#` in it, no other `__VA_OPT__`
in `pre` and `post`, `content` balanced in parentheses), applied to at least as
many arguments as formals: the result is what `pre` stands for, then what `content`
stands for exactly when there are more arguments than formals (nothing otherwise),
then what `post` stands for; `__VA_OPT__` and its two parentheses leave nothing. -/
theorem va_opt_content (d : Definition) (mr : ReplaceFn) (args : List TokenSequence)
    (pp : Preprocessor) (R : TokenSequence → Option TokenSequence) (inIf : Bool)
    (pre content post : List Token)
    (hvar : d.isVariadic = true)
    (hrepl : d.replacement =
      pre ++ "__VA_OPT__".toList :: ['('] :: (content ++ [')'] :: post))
    (hsharp : ∀ tok ∈ d.replacement, tok ≠ ['#'])
    (hpre : ∀ tok ∈ pre, tok ≠ "__VA_OPT__".toList)
    (hpost : ∀ tok ∈ post, tok ≠ "__VA_OPT__".toList)
    (hbalanced : ParenthesesDepth content 0 = some 0)
    (hcount : d.argumentCount ≤ args.length)
    (hmr : inIf = false → ∀ a ∈ args, mr pp a none false = .done ⟨R a, none, pp⟩) :
    d.Apply mr args pp inIf =
      .done (TokenPasting
        (SubstituteArguments d args (fun a => (R a).getD a) inIf pre 0 ++
          (if d.argumentCount < args.length then
            SubstituteArguments d args (fun a => (R a).getD a) inIf content (pre.length + 2)
           else []) ++
          SubstituteArguments d args (fun a => (R a).getD a) inIf post
            (pre.length + 2 + content.length + 1)), pp) := by
  have hlen : d.replacement.length = pre.length + content.length + post.length + 3 := by
    rw [hrepl]
    simp only [List.length_append, List.length_cons]
    omega
  have hparen : OnlyNonBlank (TokenAt d.replacement (pre.length + 1)) = '(' := by
    rw [hrepl]
    unfold TokenAt
    rw [List.getD_eq_getElem?_getD, List.getElem?_append_right (by omega)]
    simp
    rfl
  have key : ∀ l, l = d.replacement →
      d.ApplyLoop mr args inIf l 0 ⟨[], false, 0, pp⟩ =
        .done ⟨SubstituteArguments d args (fun a => (R a).getD a) inIf pre 0 ++
          (if d.argumentCount < args.length then
            SubstituteArguments d args (fun a => (R a).getD a) inIf content (pre.length + 2)
           else []) ++
          SubstituteArguments d args (fun a => (R a).getD a) inIf post
            (pre.length + 2 + content.length + 1), false, 0, pp⟩ := by
    intro l hl
    rw [hl, hrepl, ApplyLoop_run d mr args pp R inIf hsharp hmr pre _ (fun _ => hpre) 0 [],
      Nat.zero_add, ApplyLoop_open d mr args pp inIf _ _ _ _ hvar (by omega) hparen,
      List.nil_append]
    have hend := ApplyLoop_run d mr args pp R inIf hsharp hmr post [] (fun _ => hpost)
    simp only [List.append_nil] at hend
    by_cases hmore : d.argumentCount < args.length
    · have hs : (args.length == d.argumentCount) = false := by
        rw [Bool.eq_false_iff]
        intro h
        have := beq_iff_eq.mp h
        omega
      rw [hs, ApplyLoop_content d mr args pp R inIf hsharp hmr content _ 0 0 hbalanced,
        ApplyLoop_close, hend, if_pos hmore]
      simp [Definition.ApplyLoop]
    · have hs : (args.length == d.argumentCount) = true := by
        rw [beq_iff_eq]
        omega
      rw [hs, ApplyLoop_skip d mr args pp inIf content _ 0 0 hbalanced,
        ApplyLoop_close, hend, if_neg hmore]
      simp [Definition.ApplyLoop]
  unfold Definition.Apply
  rw [key d.replacement rfl]

/-- Witness of C28: with `#define LOG(fmt,...) f(fmt __VA_OPT__(, (__VA_ARGS__)))`,
the arguments `x`, `1`, `2` give `f(x, (1,2))` and the single argument `x` gives
`f(x)`; the directive enters that definition. -/
theorem va_opt_content_witness :
    LogDefinition.Apply (MacroReplacement 1 {}) [["x".toList], ["1".toList], ["2".toList]] {}
        false =
      .done (["f".toList, "(".toList, "x".toList, ",".toList, " ".toList, "(".toList,
        "1".toList, ",".toList, "2".toList, ")".toList, ")".toList], {}) ∧
    LogDefinition.Apply (MacroReplacement 1 {}) [["x".toList]] {} false =
      .done (["f".toList, "(".toList, "x".toList, ")".toList], {}) ∧
    Directive 0 ["#".toList, "define".toList, " ".toList, "LOG".toList, "(".toList,
        "fmt".toList, ",".toList, "...".toList, ")".toList, " ".toList, "f".toList, "(".toList,
        "fmt".toList, "__VA_OPT__".toList, "(".toList, ",".toList, " ".toList, "(".toList,
        "__VA_ARGS__".toList, ")".toList, ")".toList, ")".toList] {} {} =
      .done ({ definitions := [("LOG".toList, LogDefinition)] }, {}) := by
  have hmr : ∀ a : TokenSequence,
      MacroReplacement 1 {} {} a none false = .done ⟨none, none, {}⟩ := fun _ => rfl
  have h1 := va_opt_content LogDefinition (MacroReplacement 1 {})
    [["x".toList], ["1".toList], ["2".toList]] {} (fun _ => none) false
    ["f".toList, "(".toList, argPlaceholder 0]
    [",".toList, " ".toList, "(".toList, "__VA_ARGS__".toList, ")".toList] [")".toList]
    rfl rfl (by decide) (by decide) (by decide) rfl (by decide) (fun _ a _ => hmr a)
  have h2 := va_opt_content LogDefinition (MacroReplacement 1 {})
    [["x".toList]] {} (fun _ => none) false
    ["f".toList, "(".toList, argPlaceholder 0]
    [",".toList, " ".toList, "(".toList, "__VA_ARGS__".toList, ")".toList] [")".toList]
    rfl rfl (by decide) (by decide) (by decide) rfl (by decide) (fun _ a _ => hmr a)
  exact ⟨h1.trans (by decide), h2.trans (by decide), by decide⟩

/-! ## A replacement that never ends -/

theorem RecursiveStore_rescan (fuel : Nat) (ps : Prescanner) (b : Bool) :
    MacroReplacement (fuel + 1) ps (RecursiveStore.setDisabled "A".toList true)
        ["F".toList, " ".toList, "A".toList] (some none) b =
      .done ⟨some ["F".toList, " ".toList, "A".toList], some (some 0),
        RecursiveStore.setDisabled "A".toList true⟩ := by
  cases b <;> rfl

/-- The main loop at the name `A` of the store `RecursiveStore` when tokens follow:
the replacement runs out of fuel as soon as the replacement of `F A` followed by
those tokens does. -/
theorem RecursiveStore_step (mr : ReplaceFn) (ps : Prescanner) (b : Bool)
    (input : TokenSequence) (j : Nat) (result : TokenSequence)
    (hA : TokenAt input j = "A".toList) (hj : j + 1 < input.length)
    (hdef : (if b = true then DefinedOperand input result j else none) = none)
    (h1 : mr (RecursiveStore.setDisabled "A".toList true) ["F".toList, " ".toList, "A".toList]
        (some none) b = .outOfFuel ∨
      (mr (RecursiveStore.setDisabled "A".toList true) ["F".toList, " ".toList, "A".toList]
          (some none) b =
        .done ⟨some ["F".toList, " ".toList, "A".toList], some (some 0),
          RecursiveStore.setDisabled "A".toList true⟩ ∧
       mr RecursiveStore (["F".toList, " ".toList, "A".toList] ++ input.drop (j + 1)) none b =
        .outOfFuel)) :
    MacroReplacementStep mr ps input b j result none RecursiveStore = .outOfFuel := by
  have f1 : IsBlank "A".toList = false := by decide
  have f2 : IsLegalIdentifierStartToken "A".toList = true := by decide
  have f3 : RecursiveStore.find "A".toList =
      some { replacement := ["F".toList, " ".toList, "A".toList] } := rfl
  have f4 : (RecursiveStore.setDisabled "A".toList true).setDisabled "A".toList false =
      RecursiveStore := by decide
  unfold MacroReplacementStep
  simp only [hA, f1, f2, f3, hdef]
  simp only [Bool.not_true, Bool.or_self, Bool.false_eq_true, if_false, Bool.not_false,
    Bool.false_and, List.isEmpty_nil, if_true]
  unfold ReplaceObjectLike ReplaceMacrosWith
  rcases h1 with h | ⟨h, h2⟩
  · simp only [h]
  · simp only [h, Option.getD_some, f4]
    have hp : TokenPasting ["F".toList, " ".toList, "A".toList] =
        ["F".toList, " ".toList, "A".toList] := by decide
    rw [hp]
    unfold CompleteFunctionLikeMacro ReplaceMacrosWith
    have hsuffix : SubSequence ["F".toList, " ".toList, "A".toList] 0
          (["F".toList, " ".toList, "A".toList].length - 0) ++
        SubSequence input (j + 1) (input.length - (j + 1)) =
        ["F".toList, " ".toList, "A".toList] ++ input.drop (j + 1) := by
      have e : List.take (input.length - (j + 1)) (List.drop (j + 1) input) =
          List.drop (j + 1) input := List.take_of_length_le (by simp)
      unfold SubSequence
      rw [e]
      rfl
    simp only [hj, if_true, hsuffix, h2]
    simp

/-- With `#define F(x) x` and `#define A F A`, the replacement of `F A z` has no
result, whatever the fuel: the rescanning of `A` reports the unfinished call of `F`,
`A` is enabled again, and the tokens `F A z` are replaced once more. -/
theorem RecursiveStore_suffix (ps : Prescanner) (b : Bool) (fuel : Nat) :
    MacroReplacement fuel ps RecursiveStore
        ["F".toList, " ".toList, "A".toList, " ".toList, "z".toList] none b = .outOfFuel := by
  induction fuel with
  | zero => rfl
  | succ f ih =>
    have hidx : List.findIdx? (MayBeReplaced RecursiveStore b)
        ["F".toList, " ".toList, "A".toList, " ".toList, "z".toList] = some 0 := by
      cases b <;> rfl
    have hs0 : MacroReplacementStep (MacroReplacement f ps) ps
        ["F".toList, " ".toList, "A".toList, " ".toList, "z".toList] b 0 [] none RecursiveStore =
        .done (.next 0 ["F".toList] none RecursiveStore) := by
      cases b <;> rfl
    have hs1 : MacroReplacementStep (MacroReplacement f ps) ps
        ["F".toList, " ".toList, "A".toList, " ".toList, "z".toList] b 1 ["F".toList] none
        RecursiveStore =
        .done (.next 1 ["F".toList, " ".toList] none RecursiveStore) := by
      cases b <;> rfl
    have hs2 : MacroReplacementStep (MacroReplacement f ps) ps
        ["F".toList, " ".toList, "A".toList, " ".toList, "z".toList] b 2
        ["F".toList, " ".toList] none RecursiveStore = .outOfFuel := by
      apply RecursiveStore_step (MacroReplacement f ps) ps b
        ["F".toList, " ".toList, "A".toList, " ".toList, "z".toList] 2
        ["F".toList, " ".toList] rfl (by decide) (by cases b <;> rfl)
      cases f with
      | zero => left; rfl
      | succ g => right; exact ⟨RecursiveStore_rescan g ps b, ih⟩
    rw [MacroReplacement]
    have hne : RecursiveStore.definitions.isEmpty = false := rfl
    simp only [hne, Bool.false_eq_true, if_false, hidx]
    have hsub : SubSequence ["F".toList, " ".toList, "A".toList, " ".toList, "z".toList] 0 0 =
        [] := rfl
    rw [hsub]
    simp only [List.length_cons, List.length_nil, Nat.sub_zero]
    rw [MacroReplacementLoop]
    simp only [List.length_cons, List.length_nil, hs0]
    rw [MacroReplacementLoop]
    simp only [List.length_cons, List.length_nil, hs1]
    rw [MacroReplacementLoop]
    simp only [List.length_cons, List.length_nil, hs2]
    simp

/-- C30, the behaviour of the code at the failing input: with `#define F(x) x` and
`#define A F A` in the store (entered by these two directives), the replacement of
the tokens `A z` has no result whatever the fuel, in either mode: every level of
re-entrancy starts one more replacement of `F A z`. -/
theorem replacement_without_end (ps : Prescanner) (b : Bool) (fuel : Nat) :
    Prescan 0 2 {}
        { lines := [⟨true, DefineTokens "F".toList ["x".toList] ["x".toList]⟩,
            ⟨true, ["#".toList, "define".toList, " ".toList, "A".toList, " ".toList,
              "F".toList, " ".toList, "A".toList]⟩] } =
      .done (RecursiveStore, {}) ∧
    MacroReplacement fuel ps RecursiveStore ["A".toList, " ".toList, "z".toList] none b =
      .outOfFuel := by
  refine ⟨by decide, ?_⟩
  cases fuel with
  | zero => rfl
  | succ f =>
    have hidx : List.findIdx? (MayBeReplaced RecursiveStore b)
        ["A".toList, " ".toList, "z".toList] = some 0 := by
      cases b <;> rfl
    have hs0 : MacroReplacementStep (MacroReplacement f ps) ps
        ["A".toList, " ".toList, "z".toList] b 0 [] none RecursiveStore = .outOfFuel := by
      apply RecursiveStore_step (MacroReplacement f ps) ps b
        ["A".toList, " ".toList, "z".toList] 0 [] rfl (by decide) (by cases b <;> rfl)
      cases f with
      | zero => left; rfl
      | succ g =>
        right
        exact ⟨RecursiveStore_rescan g ps b, RecursiveStore_suffix ps b (g + 1)⟩
    rw [MacroReplacement]
    have hne : RecursiveStore.definitions.isEmpty = false := rfl
    simp only [hne, Bool.false_eq_true, if_false, hidx]
    have hsub : SubSequence ["A".toList, " ".toList, "z".toList] 0 0 = [] := rfl
    rw [hsub]
    simp only [List.length_cons, List.length_nil, Nat.sub_zero]
    rw [MacroReplacementLoop]
    simp only [List.length_cons, List.length_nil, hs0]
    simp

/-! ## Macro replacement leaves the conditional stack alone -/

theorem setDisabled_ifStack (pp : Preprocessor) (t : Token) (b : Bool) :
    (pp.setDisabled t b).ifStack = pp.ifStack := rfl

theorem ReplaceMacrosWith_ifStack (mr : ReplaceFn)
    (hmr : ∀ pp input pflm b r, mr pp input pflm b = .done r → r.pp.ifStack = pp.ifStack)
    (pp : Preprocessor) (tokens : TokenSequence) (pflm : PartialFLM) (b : Bool)
    (out : TokenSequence) (q : PartialFLM) (pp1 : Preprocessor)
    (h : ReplaceMacrosWith mr pp tokens pflm b = .done (out, q, pp1)) :
    pp1.ifStack = pp.ifStack := by
  unfold ReplaceMacrosWith at h
  cases hr : mr pp tokens pflm b with
  | outOfFuel => rw [hr] at h; cases h
  | crash c => rw [hr] at h; cases h
  | done r =>
    rw [hr] at h
    simp only [Run.done.injEq, Prod.mk.injEq] at h
    rw [← h.2.2]
    exact hmr _ _ _ _ _ hr

theorem ApplyLoop_ifStack (d : Definition) (mr : ReplaceFn)
    (hmr : ∀ pp input pflm b r, mr pp input pflm b = .done r → r.pp.ifStack = pp.ifStack)
    (args : List TokenSequence) (b : Bool) :
    ∀ (n : Nat) (rest : List Token), rest.length ≤ n → ∀ (j : Nat) (st st1 : ApplyState),
      d.ApplyLoop mr args b rest j st = .done st1 → st1.pp.ifStack = st.pp.ifStack := by
  intro n
  induction n with
  | zero =>
    intro rest hn j st st1 h
    have : rest = [] := List.length_eq_zero.mp (by omega)
    subst this
    simp only [Definition.ApplyLoop, Run.done.injEq] at h
    rw [h]
  | succ n ih =>
    intro rest hn j st st1 h
    cases rest with
    | nil =>
      simp only [Definition.ApplyLoop, Run.done.injEq] at h
      rw [h]
    | cons token more =>
      have hm : more.length ≤ n := by simp at hn; omega
      rw [Definition.ApplyLoop.eq_def] at h
      simp only [] at h
      repeat' split at h
      all_goals first
        | (cases h <;> rfl)
        | exact ih more hm _ _ _ h
        | (have h0 := ih more hm _ _ _ h
           exact h0)
        | rfl
        | (have h1 := ih more hm _ _ _ h
           rw [h1]
           exact hmr _ _ _ _ _ (by assumption))
        | (rename_i t2 rest2
           have h2 := ih rest2 (by simp only [List.length_cons] at hm; omega) _ _ _ h
           exact h2)

theorem Apply_ifStack (d : Definition) (mr : ReplaceFn)
    (hmr : ∀ pp input pflm b r, mr pp input pflm b = .done r → r.pp.ifStack = pp.ifStack)
    (args : List TokenSequence) (pp pp1 : Preprocessor) (b : Bool) (out : TokenSequence)
    (h : d.Apply mr args pp b = .done (out, pp1)) : pp1.ifStack = pp.ifStack := by
  unfold Definition.Apply at h
  cases hr : d.ApplyLoop mr args b d.replacement 0 ⟨[], false, 0, pp⟩ with
  | outOfFuel => rw [hr] at h; cases h
  | crash c => rw [hr] at h; cases h
  | done st =>
    rw [hr] at h
    simp only [Run.done.injEq, Prod.mk.injEq] at h
    rw [← h.2]
    exact ApplyLoop_ifStack d mr hmr args b _ _ (le_refl _) _ _ _ hr

theorem CompleteFunctionLikeMacro_ifStack (mr : ReplaceFn)
    (hmr : ∀ pp input pflm b r, mr pp input pflm b = .done r → r.pp.ifStack = pp.ifStack)
    (input : TokenSequence) (b : Bool) (result : TokenSequence) (pflm : PartialFLM)
    (pp : Preprocessor) (after : Nat) (replacement : TokenSequence) (offset : Nat)
    (v : Bool) (out : TokenSequence) (q : PartialFLM) (pp1 : Preprocessor)
    (h : CompleteFunctionLikeMacro mr input b result pflm pp after replacement offset =
      .done (v, out, q, pp1)) : pp1.ifStack = pp.ifStack := by
  unfold CompleteFunctionLikeMacro at h
  by_cases h1 : after < input.length
  · simp only [h1, if_true] at h
    by_cases h2 : replacement.length < offset
    · simp only [h2, if_true] at h
      cases h
    · simp only [h2, if_false] at h
      cases hr : ReplaceMacrosWith mr pp
          (SubSequence replacement offset (replacement.length - offset) ++
            SubSequence input after (input.length - after)) pflm b with
      | outOfFuel => rw [hr] at h; cases h
      | crash c => rw [hr] at h; cases h
      | done r =>
        obtain ⟨further, pflm1, pp2⟩ := r
        rw [hr] at h
        simp only [Run.done.injEq, Prod.mk.injEq] at h
        rw [← h.2.2.2]
        exact ReplaceMacrosWith_ifStack mr hmr _ _ _ _ _ _ _ hr
  · simp only [h1, if_false, Run.done.injEq, Prod.mk.injEq] at h
    rw [← h.2.2.2]

theorem ReplaceObjectLike_ifStack (mr : ReplaceFn)
    (hmr : ∀ pp input pflm b r, mr pp input pflm b = .done r → r.pp.ifStack = pp.ifStack)
    (input : TokenSequence) (b : Bool) (token : Token) (d : Definition) (j : Nat)
    (result : TokenSequence) (pflm : PartialFLM) (pp : Preprocessor) (s : Step)
    (h : ReplaceObjectLike mr input b token d j result pflm pp = .done s) :
    s.KeepsStack pp := by
  unfold ReplaceObjectLike at h
  cases hr : ReplaceMacrosWith mr (pp.setDisabled token true) d.replacement (some none) b with
  | outOfFuel => rw [hr] at h; cases h
  | crash c => rw [hr] at h; cases h
  | done r =>
    obtain ⟨replaced0, partialFLM, pp1⟩ := r
    have h1 : pp1.ifStack = pp.ifStack := by
      have := ReplaceMacrosWith_ifStack mr hmr _ _ _ _ _ _ _ hr
      exact this
    rw [hr] at h
    simp only [] at h
    repeat' split at h
    all_goals first
      | (cases h; done)
      | (simp only [Run.done.injEq] at h
         subst h
         first
           | exact h1
           | (have h2 := CompleteFunctionLikeMacro_ifStack mr hmr _ _ _ _ _ _ _ _ _ _ _ _
                (by assumption)
              exact h2.trans h1))

theorem ReplaceFunctionLike_ifStack (mr : ReplaceFn)
    (hmr : ∀ pp input pflm b r, mr pp input pflm b = .done r → r.pp.ifStack = pp.ifStack)
    (input : TokenSequence) (b : Bool) (token : Token) (d : Definition) (j : Nat)
    (result : TokenSequence) (pflm : PartialFLM) (pp : Preprocessor) (s : Step)
    (h : ReplaceFunctionLike mr input b token d j result pflm pp = .done s) :
    s.KeepsStack pp := by
  unfold ReplaceFunctionLike at h
  simp only [] at h
  repeat' split at h
  all_goals first
    | (cases h; done)
    | (simp only [Run.done.injEq] at h
       subst h
       first
         | rfl
         | (have h0 := Apply_ifStack d mr hmr _ _ _ _ _ (by assumption)
            have h1 := ReplaceMacrosWith_ifStack mr hmr _ _ _ _ _ _ _ (by assumption)
            first
              | exact h1.trans h0
              | (have h2 := CompleteFunctionLikeMacro_ifStack mr hmr _ _ _ _ _ _ _ _ _ _ _ _
                   (by assumption)
                 exact (h2.trans h1).trans h0)))

theorem PredefinedReplacement_ifStack (ps : Prescanner) (pp : Preprocessor) (name : List Char) :
    (PredefinedReplacement ps pp name).2.ifStack = pp.ifStack := by
  unfold PredefinedReplacement
  repeat' split
  all_goals rfl

theorem MacroReplacementStep_ifStack (mr : ReplaceFn)
    (hmr : ∀ pp input pflm b r, mr pp input pflm b = .done r → r.pp.ifStack = pp.ifStack)
    (ps : Prescanner) (input : TokenSequence) (b : Bool) (j : Nat)
    (result : TokenSequence) (pflm : PartialFLM) (pp : Preprocessor) (s : Step)
    (h : MacroReplacementStep mr ps input b j result pflm pp = .done s) :
    s.KeepsStack pp := by
  unfold MacroReplacementStep at h
  simp only [] at h
  repeat' split at h
  all_goals first
    | (simp only [Run.done.injEq] at h; subst h; rfl)
    | exact ReplaceObjectLike_ifStack mr hmr _ _ _ _ _ _ _ _ _ h
    | exact ReplaceFunctionLike_ifStack mr hmr _ _ _ _ _ _ _ _ _ h
    | (simp only [Run.done.injEq] at h
       subst h
       exact PredefinedReplacement_ifStack _ _ _)

theorem MacroReplacementLoop_ifStack (mr : ReplaceFn)
    (hmr : ∀ pp input pflm b r, mr pp input pflm b = .done r → r.pp.ifStack = pp.ifStack)
    (ps : Prescanner) (input : TokenSequence) (b : Bool) :
    ∀ (n j : Nat) (result : TokenSequence) (pflm : PartialFLM) (pp : Preprocessor) (r : Replaced),
      MacroReplacementLoop mr ps input b n j result pflm pp = .done r →
      r.pp.ifStack = pp.ifStack := by
  intro n
  induction n with
  | zero =>
    intro j result pflm pp r h
    simp only [MacroReplacementLoop] at h
    split at h
    · cases h
    · cases h; rfl
  | succ n ih =>
    intro j result pflm pp r h
    rw [MacroReplacementLoop] at h
    split at h
    · cases hs : MacroReplacementStep mr ps input b j result pflm pp with
      | outOfFuel => rw [hs] at h; cases h
      | crash c => rw [hs] at h; cases h
      | done s =>
        have hk := MacroReplacementStep_ifStack mr hmr ps input b j result pflm pp s hs
        rw [hs] at h
        cases s with
        | next j1 result1 pflm1 pp1 =>
          simp only [] at h
          exact (ih _ _ _ _ _ h).trans hk
        | ret r1 =>
          simp only [Run.done.injEq] at h
          subst h
          exact hk
    · cases h; rfl

theorem MacroReplacement_ifStack (ps : Prescanner) (fuel : Nat) :
    ∀ (pp : Preprocessor) (input : TokenSequence) (pflm : PartialFLM) (b : Bool) (r : Replaced),
      MacroReplacement fuel ps pp input pflm b = .done r → r.pp.ifStack = pp.ifStack := by
  induction fuel with
  | zero => intro pp input pflm b r h; cases h
  | succ fuel ih =>
    intro pp input pflm b r h
    rw [MacroReplacement] at h
    split at h
    · cases h; rfl
    · split at h
      · cases h; rfl
      · exact MacroReplacementLoop_ifStack _ ih ps input b _ _ _ _ _ _ h

/-- The evaluation of a condition changes neither the conditional stack nor the
lines still to come or the active text. -/
theorem IsIfPredicateTrue_frame (fuel : Nat) (dir : TokenSequence) (first n : Nat)
    (pp pp1 : Preprocessor) (ps ps1 : Prescanner) (v : Bool)
    (h : IsIfPredicateTrue fuel dir first n pp ps = .done (v, pp1, ps1)) :
    pp1.ifStack = pp.ifStack ∧ ps1.lines = ps.lines ∧ ps1.active = ps.active := by
  unfold IsIfPredicateTrue ReplaceMacros at h
  simp only [] at h
  cases hr : ReplaceMacrosWith (MacroReplacement fuel ps) pp (SubSequence dir first n) none
      true with
  | outOfFuel => rw [hr] at h; cases h
  | crash c => rw [hr] at h; cases h
  | done r =>
    obtain ⟨replaced0, q, pp2⟩ := r
    have h1 : pp2.ifStack = pp.ifStack :=
      ReplaceMacrosWith_ifStack _ (MacroReplacement_ifStack ps fuel) _ _ _ _ _ _ _ hr
    rw [hr] at h
    simp only [] at h
    repeat' split at h
    all_goals first
      | (cases h; done)
      | (simp only [Run.done.injEq, Prod.mk.injEq] at h
         obtain ⟨_, h2, h3⟩ := h
         subst h2 h3
         exact ⟨h1, rfl, rfl⟩)

/-! ## Well-nested conditional blocks -/

theorem GetDirectiveName_if (c : TokenSequence) (hc : IsCondition c = true) :
    GetDirectiveName (IfLine c).tokens = ("if".toList, 3) := by
  obtain ⟨s0, s1, s2, _, hpos⟩ := conditional_line_facts "if".toList c (by decide) hc
  have hdir : (IfLine c).tokens = ['#'] :: "if".toList :: [' '] :: c := by simp [IfLine]
  rw [hdir]
  generalize hd : ['#'] :: "if".toList :: [' '] :: c = dir at *
  have hlen : dir.length = c.length + 3 := by rw [← hd]; simp
  have t0 : TokenAt dir 0 = ['#'] := by rw [← hd]; rfl
  have t1 : TokenAt dir 1 = "if".toList := by rw [← hd]; rfl
  have a1 : ¬ (0 = c.length + 3) := by omega
  have a2 : ¬ (1 = c.length + 3) := by omega
  unfold GetDirectiveName
  simp only [s0, s1, s2, hlen, t0, t1]
  simp [ToLowerCaseLetters, ToLowerCaseLetter, a1, a2]

/-- The positions in a directive line `# name N` with a name `N`. -/
theorem named_line_facts (name N : Token) (hname : IsBlank name = false)
    (hN : IsLegalIdentifierStartToken N = true) :
    SkipBlanks [['#'], name, [' '], N] 0 = 0 ∧
    SkipBlanks [['#'], name, [' '], N] 1 = 1 ∧
    SkipBlanks [['#'], name, [' '], N] 2 = 3 ∧
    SkipBlanks [['#'], name, [' '], N] 4 = 4 ∧
    (PopTrailingBlanks [['#'], name, [' '], N]).length = 4 ∧
    IsAnythingLeft [['#'], name, [' '], N] 4 = false := by
  have hNb := IsBlank_false_of_identifier hN
  generalize hd : [['#'], name, [' '], N] = dir
  have hlen : dir.length = 4 := by rw [← hd]; rfl
  have t0 : TokenAt dir 0 = ['#'] := by rw [← hd]; rfl
  have t1 : TokenAt dir 1 = name := by rw [← hd]; rfl
  have t2 : TokenAt dir 2 = [' '] := by rw [← hd]; rfl
  have t3 : TokenAt dir 3 = N := by rw [← hd]; rfl
  have s3 : SkipBlanks dir 3 = 3 := SkipBlanks_of_nonblank dir 3 (by omega) (by rw [t3]; exact hNb)
  refine ⟨SkipBlanks_of_nonblank dir 0 (by omega) (by rw [t0]; decide),
    SkipBlanks_of_nonblank dir 1 (by omega) (by rw [t1]; exact hname), ?_, ?_, ?_, ?_⟩
  · rw [SkipBlanks_of_blank dir 2 (by omega) (by rw [t2]; decide), s3]
  · rw [SkipBlanks_of_length_le dir 4 (by omega), hlen]
  · rw [PopTrailingBlanks_of_getLast dir N (by rw [← hd]; rfl) hNb, hlen]
  · rw [← hd]; rfl

theorem GetDirectiveName_named (name N : Token) (hname : IsBlank name = false)
    (hN : IsLegalIdentifierStartToken N = true) :
    (GetDirectiveName [['#'], name, [' '], N]).1 = ToLowerCaseLetters name := by
  obtain ⟨s0, s1, s2, _, _, _⟩ := named_line_facts name N hname hN
  generalize hd : [['#'], name, [' '], N] = dir at *
  have hlen : dir.length = 4 := by rw [← hd]; rfl
  have t0 : TokenAt dir 0 = ['#'] := by rw [← hd]; rfl
  have t1 : TokenAt dir 1 = name := by rw [← hd]; rfl
  unfold GetDirectiveName
  simp only [s0, s1, s2, hlen, t0, t1]
  simp

theorem Directive_ifdef (fuel : Nat) (N : Token) (pp : Preprocessor) (ps : Prescanner)
    (hN : IsLegalIdentifierStartToken N = true) :
    Directive fuel (IfdefLine N).tokens pp ps =
      if pp.IsNameDefined N = true then .done ({ pp with ifStack := .Yes :: pp.ifStack }, ps)
      else SkipDisabledConditionalCode fuel "ifdef".toList .Yes pp ps := by
  obtain ⟨s0, s1, s2, s4, hpop, hleft⟩ := named_line_facts "ifdef".toList N (by decide) hN
  have hNe : N.isEmpty = false := isEmpty_false_of_identifier hN
  have hdir : (IfdefLine N).tokens = [['#'], "ifdef".toList, [' '], N] := rfl
  rw [hdir]
  generalize hd : [['#'], "ifdef".toList, [' '], N] = dir at *
  have hlen : dir.length = 4 := by rw [← hd]; rfl
  have t0 : TokenAt dir 0 = ['#'] := by rw [← hd]; rfl
  have t1 : TokenAt dir 1 = "ifdef".toList := by rw [← hd]; rfl
  have t3 : TokenAt dir 3 = N := by rw [← hd]; rfl
  unfold Directive
  simp only [s0, s1, s2, hlen, hpop, t0, t1, t3, hleft]
  simp [IsDecimalDigit, dquote, ToLowerCaseLetters, ToLowerCaseLetter, hN, hNe]

theorem Directive_ifndef (fuel : Nat) (N : Token) (pp : Preprocessor) (ps : Prescanner)
    (hN : IsLegalIdentifierStartToken N = true) :
    Directive fuel (IfndefLine N).tokens pp ps =
      if pp.IsNameDefined N = false then .done ({ pp with ifStack := .Yes :: pp.ifStack }, ps)
      else SkipDisabledConditionalCode fuel "ifndef".toList .Yes pp ps := by
  obtain ⟨s0, s1, s2, s4, hpop, hleft⟩ := named_line_facts "ifndef".toList N (by decide) hN
  have hNe : N.isEmpty = false := isEmpty_false_of_identifier hN
  have hdir : (IfndefLine N).tokens = [['#'], "ifndef".toList, [' '], N] := rfl
  rw [hdir]
  generalize hd : [['#'], "ifndef".toList, [' '], N] = dir at *
  have hlen : dir.length = 4 := by rw [← hd]; rfl
  have t0 : TokenAt dir 0 = ['#'] := by rw [← hd]; rfl
  have t1 : TokenAt dir 1 = "ifndef".toList := by rw [← hd]; rfl
  have t3 : TokenAt dir 3 = N := by rw [← hd]; rfl
  unfold Directive
  simp only [s0, s1, s2, hlen, hpop, t0, t1, t3, hleft]
  simp [IsDecimalDigit, dquote, ToLowerCaseLetters, ToLowerCaseLetter, hN, hNe]

theorem IsOpener_facts {fuel : Nat} {o : Line} (h : IsOpener fuel o) :
    o.isDirective = true ∧
      ((GetDirectiveName o.tokens).1 == "ifdef".toList ||
        (GetDirectiveName o.tokens).1 == "ifndef".toList ||
        (GetDirectiveName o.tokens).1 == "if".toList) = true := by
  cases h with
  | ifLine c hc =>
    refine ⟨rfl, ?_⟩
    rw [GetDirectiveName_if c hc.1]
    rfl
  | ifdefLine N hN =>
    refine ⟨rfl, ?_⟩
    rw [show (IfdefLine N).tokens = [['#'], "ifdef".toList, [' '], N] from rfl,
      GetDirectiveName_named _ N (by decide) hN]
    rfl
  | ifndefLine N hN =>
    refine ⟨rfl, ?_⟩
    rw [show (IfndefLine N).tokens = [['#'], "ifndef".toList, [' '], N] from rfl,
      GetDirectiveName_named _ N (by decide) hN]
    rfl

theorem SkipDisabledLoop_line (fuel : Nat) (dn : List Char) (e : IsElseActive)
    (t : TokenSequence) (rest : List Line) (k : Nat) (pp : Preprocessor) (ps : Prescanner) :
    SkipDisabledLoop fuel dn e (⟨false, t⟩ :: rest) k pp ps =
      SkipDisabledLoop fuel dn e rest k pp ps := by
  rw [SkipDisabledLoop]
  simp

theorem SkipDisabledLoop_opener (fuel : Nat) (dn : List Char) (e : IsElseActive)
    (o : Line) (rest : List Line) (k : Nat) (pp : Preprocessor) (ps : Prescanner)
    (ho : IsOpener fuel o) :
    SkipDisabledLoop fuel dn e (o :: rest) k pp ps =
      SkipDisabledLoop fuel dn e rest (k + 1) pp ps := by
  obtain ⟨h1, h2⟩ := IsOpener_facts ho
  rw [SkipDisabledLoop]
  simp only [h1, h2, Bool.not_true, Bool.false_eq_true, if_false, if_true]

theorem SkipDisabledLoop_endif_nested (fuel : Nat) (dn : List Char) (e : IsElseActive)
    (rest : List Line) (k : Nat) (pp : Preprocessor) (ps : Prescanner) :
    SkipDisabledLoop fuel dn e (EndifLine :: rest) (k + 1) pp ps =
      SkipDisabledLoop fuel dn e rest k pp ps := by
  rw [SkipDisabledLoop]
  simp [GetDirectiveName_endif, show EndifLine.isDirective = true from rfl]

theorem SkipDisabledLoop_else_nested (fuel : Nat) (dn : List Char) (e : IsElseActive)
    (rest : List Line) (k : Nat) (pp : Preprocessor) (ps : Prescanner) :
    SkipDisabledLoop fuel dn e (ElseLine :: rest) (k + 1) pp ps =
      SkipDisabledLoop fuel dn e rest (k + 1) pp ps := by
  rw [SkipDisabledLoop]
  simp [GetDirectiveName_else, show ElseLine.isDirective = true from rfl]

theorem SkipDisabledLoop_elif_nested (fuel : Nat) (dn : List Char) (e : IsElseActive)
    (c : TokenSequence) (rest : List Line) (k : Nat) (pp : Preprocessor) (ps : Prescanner)
    (hc : IsCondition c = true) :
    SkipDisabledLoop fuel dn e (ElifLine c :: rest) (k + 1) pp ps =
      SkipDisabledLoop fuel dn e rest (k + 1) pp ps := by
  rw [SkipDisabledLoop]
  have h := GetDirectiveName_elif c hc
  simp [h, show (ElifLine c).isDirective = true from rfl]

/-- Skipped text: a run of text lines and well-nested blocks leaves the nesting
count as it is; the rest of a block takes the count one down or, at the level of the
group that is skipped without regard to `#else` and `#elif`, ends the skipping. -/
theorem Nested_skip {fuel : Nat} {tag : Bool} {l : List Line} (h : Nested fuel tag l) :
    (tag = false → ∀ (dn : List Char) (e : IsElseActive) (rest : List Line) (k : Nat)
      (pp : Preprocessor) (ps : Prescanner),
      SkipDisabledLoop fuel dn e (l ++ rest) k pp ps =
        SkipDisabledLoop fuel dn e rest k pp ps) ∧
    (tag = true → ∀ (dn : List Char) (rest : List Line) (pp : Preprocessor) (ps : Prescanner),
      (∀ (e : IsElseActive) (k : Nat),
        SkipDisabledLoop fuel dn e (l ++ rest) (k + 1) pp ps =
          SkipDisabledLoop fuel dn e rest k pp ps) ∧
      SkipDisabledLoop fuel dn .No (l ++ rest) 0 pp ps =
        .done (pp, { ps with lines := rest })) := by
  induction h with
  | nil =>
    refine ⟨fun _ dn e rest k pp ps => rfl, fun h => nomatch h⟩
  | text t ls _ ih =>
    refine ⟨fun _ dn e rest k pp ps => ?_, fun h => nomatch h⟩
    rw [List.cons_append, SkipDisabledLoop_line]
    exact ih.1 rfl dn e rest k pp ps
  | block o b tail ls ho _ _ _ ihb iht ihl =>
    refine ⟨fun _ dn e rest k pp ps => ?_, fun h => nomatch h⟩
    rw [List.cons_append, SkipDisabledLoop_opener fuel dn e o _ k pp ps ho, List.append_assoc,
      ihb.1 rfl, List.append_assoc, ((iht.2 rfl) dn _ pp ps).1 e k]
    exact ihl.1 rfl dn e rest k pp ps
  | endif =>
    refine ⟨(fun h => nomatch h), fun _ dn rest pp ps => ⟨fun e k => ?_, ?_⟩⟩
    · exact SkipDisabledLoop_endif_nested fuel dn e rest k pp ps
    · exact SkipDisabledLoop_endif fuel dn .No rest pp ps
  | elseLine b _ ihb =>
    refine ⟨(fun h => nomatch h), fun _ dn rest pp ps => ⟨fun e k => ?_, ?_⟩⟩
    · rw [List.cons_append, SkipDisabledLoop_else_nested, List.append_assoc, ihb.1 rfl]
      exact SkipDisabledLoop_endif_nested fuel dn e rest k pp ps
    · rw [List.cons_append, SkipDisabledLoop_no_else, List.append_assoc, ihb.1 rfl]
      exact SkipDisabledLoop_endif fuel dn .No rest pp ps
  | elifLine c b tail hc _ _ ihb iht =>
    refine ⟨(fun h => nomatch h), fun _ dn rest pp ps => ⟨fun e k => ?_, ?_⟩⟩
    · rw [List.cons_append, SkipDisabledLoop_elif_nested fuel dn e c _ k pp ps hc.1,
        List.append_assoc, ihb.1 rfl]
      exact ((iht.2 rfl) dn rest pp ps).1 e k
    · rw [List.cons_append, SkipDisabledLoop_no_elif fuel dn c _ pp ps hc.1,
        List.append_assoc, ihb.1 rfl]
      exact ((iht.2 rfl) dn rest pp ps).2

theorem Prescan_line (fuel n : Nat) (pp : Preprocessor) (ps : Prescanner) (t : TokenSequence)
    (rest : List Line) (hl : ps.lines = ⟨false, t⟩ :: rest) :
    Prescan fuel (n + 1) pp ps =
      Prescan fuel n pp { ps with lines := rest, active := ps.active ++ [t] } := by
  rw [Prescan]
  simp only [hl]
  simp

theorem Prescan_at_directive (fuel n : Nat) (pp : Preprocessor) (ps : Prescanner) (line : Line)
    (rest : List Line) (hl : ps.lines = line :: rest) (hd : line.isDirective = true) :
    Prescan fuel (n + 1) pp ps =
      PrescanAfter fuel n (Directive fuel line.tokens pp { ps with lines := rest }) := by
  rw [Prescan]
  simp only [hl, hd, if_true]
  unfold PrescanAfter
  split <;> simp_all

theorem Nested_tail_length {fuel : Nat} {tag : Bool} {l : List Line} (h : Nested fuel tag l) :
    tag = true → 1 ≤ l.length := by
  cases h <;> intro ht <;> first | (cases ht; done) | simp

/-- The outcome of the directive that opens a block: either a mark `Yes` is pushed,
or the skipping starts at the next line; the stack below and the lines are as
before. -/
theorem Directive_opener (fuel : Nat) (o : Line) (ho : IsOpener fuel o) (pp : Preprocessor)
    (ps : Prescanner) :
    ∃ pp1 ps1, pp1.ifStack = pp.ifStack ∧ ps1.lines = ps.lines ∧
      (Directive fuel o.tokens pp ps =
          .done ({ pp1 with ifStack := .Yes :: pp1.ifStack }, ps1) ∨
        ∃ dn, Directive fuel o.tokens pp ps =
          SkipDisabledLoop fuel dn .Yes ps1.lines 0 pp1 ps1) := by
  cases ho with
  | ifLine c hc =>
    obtain ⟨v, pp1, ps1, hv⟩ := hc.2 pp ps
    obtain ⟨h1, h2, _⟩ := IsIfPredicateTrue_frame fuel c 0 c.length pp pp1 ps ps1 v hv
    refine ⟨pp1, ps1, h1, h2, ?_⟩
    rw [Directive_if fuel c pp ps hc.1, hv]
    cases v with
    | true => left; rfl
    | false => right; exact ⟨"if".toList, rfl⟩
  | ifdefLine N hN =>
    refine ⟨pp, ps, rfl, rfl, ?_⟩
    rw [Directive_ifdef fuel N pp ps hN]
    by_cases hd : pp.IsNameDefined N = true
    · left; rw [if_pos hd]
    · right; rw [if_neg hd]; exact ⟨"ifdef".toList, rfl⟩
  | ifndefLine N hN =>
    refine ⟨pp, ps, rfl, rfl, ?_⟩
    rw [Directive_ifndef fuel N pp ps hN]
    by_cases hd : pp.IsNameDefined N = false
    · left; rw [if_pos hd]
    · right; rw [if_neg hd]; exact ⟨"ifndef".toList, rfl⟩

/-- The outcome of an `#elif` met while skipping with no branch taken yet: either a
mark `Yes` is pushed and the skipping ends, or it goes on. -/
theorem SkipDisabledLoop_elif_outcome (fuel : Nat) (dn : List Char) (c : TokenSequence)
    (rest : List Line) (pp : Preprocessor) (ps : Prescanner) (hc : Evaluates fuel c) :
    ∃ pp1 ps1, pp1.ifStack = pp.ifStack ∧ ps1.lines = rest ∧
      (SkipDisabledLoop fuel dn .Yes (ElifLine c :: rest) 0 pp ps =
          .done ({ pp1 with ifStack := .Yes :: pp1.ifStack }, ps1) ∨
        SkipDisabledLoop fuel dn .Yes (ElifLine c :: rest) 0 pp ps =
          SkipDisabledLoop fuel dn .Yes rest 0 pp1 ps1) := by
  obtain ⟨v, pp1, ps1, hv⟩ := hc.2 pp { ps with lines := rest }
  obtain ⟨h1, h2, _⟩ := IsIfPredicateTrue_frame fuel c 0 c.length pp pp1 _ ps1 v hv
  refine ⟨pp1, ps1, h1, h2, ?_⟩
  rw [SkipDisabledLoop_yes_elif fuel dn c rest pp ps hc.1, hv]
  cases v with
  | true => left; rfl
  | false => right; rfl

/-- Active text: the pull loop reads a run of text lines and well-nested blocks and
goes on at the line after it with the stack as it was; what follows a taken branch
is skipped up to the `#endif` and the mark of the block is popped; after a skipped
branch, the rest of the block is read with the same effect on the stack. -/
theorem Nested_active {fuel : Nat} {tag : Bool} {l : List Line} (h : Nested fuel tag l) :
    (tag = false → ∀ (pp : Preprocessor) (ps : Prescanner) (rest : List Line) (n : Nat),
      ps.lines = l ++ rest → l.length + rest.length ≤ n →
      ∃ pp1 ps1 n1, Prescan fuel n pp ps = Prescan fuel n1 pp1 ps1 ∧ ps1.lines = rest ∧
        rest.length ≤ n1 ∧ pp1.ifStack = pp.ifStack) ∧
    (tag = true →
      (∀ (pp : Preprocessor) (ps : Prescanner) (rest : List Line) (n : Nat)
        (s : List CanDeadElseAppear), ps.lines = l ++ rest → pp.ifStack = .Yes :: s →
        ∃ ps1, Prescan fuel (n + 1) pp ps = Prescan fuel n { pp with ifStack := s } ps1 ∧
          ps1.lines = rest) ∧
      (∀ (dn : List Char) (pp : Preprocessor) (ps : Prescanner) (rest : List Line) (n : Nat),
        l.length + rest.length ≤ n →
        ∃ pp1 ps1 n1,
          PrescanAfter fuel n (SkipDisabledLoop fuel dn .Yes (l ++ rest) 0 pp ps) =
            Prescan fuel n1 pp1 ps1 ∧
          ps1.lines = rest ∧ rest.length ≤ n1 ∧ pp1.ifStack = pp.ifStack)) := by
  induction h with
  | nil =>
    refine ⟨fun _ pp ps rest n hl hn => ?_, fun h => nomatch h⟩
    exact ⟨pp, ps, n, rfl, by simpa using hl, by simpa using hn, rfl⟩
  | text t ls _ ih =>
    refine ⟨fun _ pp ps rest n hl hn => ?_, fun h => nomatch h⟩
    obtain ⟨m, rfl⟩ : ∃ m, n = m + 1 := ⟨n - 1, by simp at hn; omega⟩
    rw [Prescan_line fuel m pp ps t (ls ++ rest) (by rw [hl]; rfl)]
    exact ih.1 rfl pp _ rest m rfl (by simp at hn; omega)
  | block o b tail ls ho hb ht _ ihb iht ihl =>
    refine ⟨fun _ pp ps rest n hl hn => ?_, fun h => nomatch h⟩
    have htl := Nested_tail_length ht rfl
    simp only [List.length_cons, List.length_append] at hn
    obtain ⟨m, rfl⟩ : ∃ m, n = m + 1 := ⟨n - 1, by omega⟩
    have hl1 : ps.lines = o :: (b ++ (tail ++ (ls ++ rest))) := by rw [hl]; simp
    rw [Prescan_at_directive fuel m pp ps o _ hl1 (IsOpener_facts ho).1]
    obtain ⟨pp1, ps1, hst, hlines, hout⟩ := Directive_opener fuel o ho pp
      { ps with lines := b ++ (tail ++ (ls ++ rest)) }
    rcases hout with hY | ⟨dn, hS⟩
    · rw [hY]
      obtain ⟨pp2, ps2, n2, e2, hl2, hn2, hs2⟩ := ihb.1 rfl
        { pp1 with ifStack := .Yes :: pp1.ifStack } ps1 (tail ++ (ls ++ rest)) m hlines
        (by simp only [List.length_append]; omega)
      simp only [List.length_append] at hn2
      obtain ⟨k, rfl⟩ : ∃ k, n2 = k + 1 := ⟨n2 - 1, by omega⟩
      obtain ⟨ps3, e3, hl3⟩ := (iht.2 rfl).1 pp2 ps2 (ls ++ rest) k pp.ifStack hl2
        (by rw [hs2, hst])
      obtain ⟨pp4, ps4, n4, e4, hl4, hn4, hs4⟩ := ihl.1 rfl { pp2 with ifStack := pp.ifStack }
        ps3 rest k hl3 (by omega)
      refine ⟨pp4, ps4, n4, ?_, hl4, hn4, hs4⟩
      show Prescan fuel m _ ps1 = _
      rw [e2, e3, e4]
    · rw [hS, hlines]
      simp only []
      rw [(Nested_skip hb).1 rfl]
      obtain ⟨pp2, ps2, n2, e2, hl2, hn2, hs2⟩ := (iht.2 rfl).2 dn pp1 ps1 (ls ++ rest) m
        (by simp only [List.length_append]; omega)
      simp only [List.length_append] at hn2
      obtain ⟨pp4, ps4, n4, e4, hl4, hn4, hs4⟩ := ihl.1 rfl pp2 ps2 rest n2 hl2 (by omega)
      exact ⟨pp4, ps4, n4, by rw [e2, e4], hl4, hn4, hs4.trans (hs2.trans hst)⟩
  | endif =>
    refine ⟨(fun h => nomatch h), fun _ => ⟨fun pp ps rest n s hl hs => ?_,
      fun dn pp ps rest n hn => ?_⟩⟩
    · refine ⟨{ ps with lines := rest }, ?_, rfl⟩
      rw [Prescan_at_directive fuel n pp ps EndifLine rest (by rw [hl]; rfl) rfl,
        Directive_endif fuel pp _ .Yes s hs]
      rfl
    · refine ⟨pp, { ps with lines := rest }, n, ?_, rfl, by simp at hn; omega, rfl⟩
      rw [show [EndifLine] ++ rest = EndifLine :: rest from rfl, SkipDisabledLoop_endif]
      rfl
  | elseLine b hb ihb =>
    refine ⟨(fun h => nomatch h), fun _ => ⟨fun pp ps rest n s hl hs => ?_,
      fun dn pp ps rest n hn => ?_⟩⟩
    · refine ⟨{ ps with lines := rest }, ?_, rfl⟩
      have hl1 : ps.lines = ElseLine :: (b ++ (EndifLine :: rest)) := by rw [hl]; simp
      rw [Prescan_at_directive fuel n pp ps ElseLine _ hl1 rfl,
        Directive_else_active fuel pp _ s hs]
      unfold SkipDisabledConditionalCode
      simp only []
      rw [(Nested_skip hb).1 rfl, SkipDisabledLoop_endif]
      rfl
    · simp only [List.length_cons, List.length_append, List.length_nil] at hn
      rw [show ElseLine :: (b ++ [EndifLine]) ++ rest = ElseLine :: (b ++ (EndifLine :: rest)) by
        simp, SkipDisabledLoop_yes_else]
      obtain ⟨pp2, ps2, n2, e2, hl2, hn2, hs2⟩ := ihb.1 rfl
        { pp with ifStack := .No :: pp.ifStack }
        { ps with lines := b ++ (EndifLine :: rest) } (EndifLine :: rest) n rfl
        (by simp only [List.length_cons]; omega)
      simp only [List.length_cons] at hn2
      obtain ⟨k, rfl⟩ : ∃ k, n2 = k + 1 := ⟨n2 - 1, by omega⟩
      refine ⟨{ pp2 with ifStack := pp.ifStack }, { ps2 with lines := rest }, k, ?_, rfl,
        by omega, rfl⟩
      show Prescan fuel n _ _ = _
      rw [e2, Prescan_at_directive fuel k pp2 ps2 EndifLine rest hl2 rfl,
        Directive_endif fuel pp2 _ .No pp.ifStack hs2]
      rfl
  | elifLine c b tail hc hb ht ihb iht =>
    have htl := Nested_tail_length ht rfl
    refine ⟨(fun h => nomatch h), fun _ => ⟨fun pp ps rest n s hl hs => ?_,
      fun dn pp ps rest n hn => ?_⟩⟩
    · refine ⟨{ ps with lines := rest }, ?_, rfl⟩
      have hl1 : ps.lines = ElifLine c :: (b ++ (tail ++ rest)) := by rw [hl]; simp
      rw [Prescan_at_directive fuel n pp ps (ElifLine c) _ hl1 rfl,
        Directive_elif_active fuel c pp _ s hc.1 hs]
      unfold SkipDisabledConditionalCode
      simp only []
      rw [(Nested_skip hb).1 rfl, ((Nested_skip ht).2 rfl _ _ _ _).2]
      rfl
    · simp only [List.length_cons, List.length_append] at hn
      rw [show ElifLine c :: (b ++ tail) ++ rest = ElifLine c :: (b ++ (tail ++ rest)) by simp]
      obtain ⟨pp1, ps1, hst, hlines, hout⟩ := SkipDisabledLoop_elif_outcome fuel dn c
        (b ++ (tail ++ rest)) pp ps hc
      rcases hout with hY | hS
      · rw [hY]
        obtain ⟨pp2, ps2, n2, e2, hl2, hn2, hs2⟩ := ihb.1 rfl
          { pp1 with ifStack := .Yes :: pp1.ifStack } ps1 (tail ++ rest) n hlines
          (by simp only [List.length_append]; omega)
        simp only [List.length_append] at hn2
        obtain ⟨k, rfl⟩ : ∃ k, n2 = k + 1 := ⟨n2 - 1, by omega⟩
        obtain ⟨ps3, e3, hl3⟩ := (iht.2 rfl).1 pp2 ps2 rest k pp.ifStack hl2 (by rw [hs2, hst])
        refine ⟨{ pp2 with ifStack := pp.ifStack }, ps3, k, ?_, hl3, by omega, rfl⟩
        show Prescan fuel n _ ps1 = _
        rw [e2, e3]
      · rw [hS, (Nested_skip hb).1 rfl]
        obtain ⟨pp2, ps2, n2, e2, hl2, hn2, hs2⟩ := (iht.2 rfl).2 dn pp1 ps1 rest n (by omega)
        exact ⟨pp2, ps2, n2, e2, hl2, hn2, hs2.trans hst⟩

theorem Directive_else_again (fuel : Nat) (pp : Preprocessor) (ps : Prescanner)
    (stack : List CanDeadElseAppear) (hstack : pp.ifStack = .No :: stack) :
    Directive fuel ElseLine.tokens pp ps =
      .done (pp, ps.Say .error "#else: already appeared within this #if, #ifdef, or #ifndef") := by
  have hdir : ElseLine.tokens = [['#'], "else".toList] := rfl
  rw [hdir]
  generalize hd : [['#'], "else".toList] = dir at *
  have hlen : dir.length = 2 := by rw [← hd]; rfl
  have t0 : TokenAt dir 0 = ['#'] := by rw [← hd]; rfl
  have t1 : TokenAt dir 1 = "else".toList := by rw [← hd]; rfl
  have s0 : SkipBlanks dir 0 = 0 := by rw [← hd]; rfl
  have s1 : SkipBlanks dir 1 = 1 := by rw [← hd]; rfl
  have s2 : SkipBlanks dir 2 = 2 := by rw [← hd]; rfl
  have hpop : (PopTrailingBlanks dir).length = 2 := by rw [← hd]; rfl
  have hleft : IsAnythingLeft dir 2 = false := by rw [← hd]; rfl
  unfold Directive
  simp only [s0, s1, s2, hlen, hpop, t0, t1, hstack, hleft]
  simp [IsDecimalDigit, dquote, ToLowerCaseLetters, ToLowerCaseLetter]

/-- A group `#if c` / text / `#else` / text / `#else` / text / `#endif` with a second
`#else`, read by the pull loop from the active state. When the
condition is zero, so that the `#else` branch is the one taken, the second `#else`
is given one error (`#else: already appeared within this #if, #ifdef, or #ifndef`),
the only message beyond those of the condition, and the text after it stays
active; when the condition is non-zero, so that the first branch is taken, the
second `#else` lies in skipped text and no message is given for it. In both cases
the preprocessor is as the condition left it. -/
theorem duplicate_else_text (fuel n : Nat) (pp pp1 : Preprocessor) (ps ps1 : Prescanner)
    (c : TokenSequence) (b0 b1 b2 after : List TokenSequence) (v : Bool)
    (hc : IsCondition c = true)
    (hv : IsIfPredicateTrue fuel c 0 c.length pp ps = .done (v, pp1, ps1))
    (hn : b0.length + b1.length + b2.length + after.length + 4 ≤ n) :
    Prescan fuel n pp
        { ps with lines := IfLine c :: (TextLines b0 ++ ElseLine :: (TextLines b1 ++
            ElseLine :: (TextLines b2 ++ EndifLine :: TextLines after))) } =
      if v = true then
        .done (pp1, { ps1 with lines := [], active := ps.active ++ b0 ++ after })
      else
        .done (pp1, { ps1 with
          lines := [], active := ps.active ++ b1 ++ b2 ++ after,
          messages := ps1.messages ++
            [⟨.error, "#else: already appeared within this #if, #ifdef, or #ifndef"⟩] }) := by
  obtain ⟨m, rfl⟩ : ∃ m, n = m + 1 := ⟨n - 1, by omega⟩
  have hsite := IsIfPredicateTrue_site fuel c 0 c.length pp pp1 ps ps1 v
    (TextLines b0 ++ ElseLine :: (TextLines b1 ++
      ElseLine :: (TextLines b2 ++ EndifLine :: TextLines after))) ps.active hv
  rw [Prescan_directive fuel m pp ps (IfLine c) _ ps.active rfl, Directive_if fuel c pp _ hc,
    hsite]
  cases v with
  | true =>
    simp only [if_true]
    have h1 := Prescan_text fuel { pp1 with ifStack := .Yes :: pp1.ifStack } ps1 b0
      (ElseLine :: (TextLines b1 ++ ElseLine :: (TextLines b2 ++ EndifLine :: TextLines after)))
      m ps.active (by omega)
    obtain ⟨k, hk⟩ : ∃ k, m - b0.length = k + 1 := ⟨m - b0.length - 1, by omega⟩
    rw [hk, Prescan_directive fuel k _ ps1 ElseLine _ _ rfl,
      Directive_else_active fuel _ _ pp1.ifStack rfl] at h1
    unfold SkipDisabledConditionalCode at h1
    simp only [] at h1
    rw [SkipDisabledLoop_text, SkipDisabledLoop_no_else, SkipDisabledLoop_text,
      SkipDisabledLoop_endif] at h1
    simp only [] at h1
    have h2 := Prescan_text_end fuel k pp1 ps1 after (ps.active ++ b0) (by omega)
    exact h1.trans h2
  | false =>
    simp only [Bool.false_eq_true, if_false]
    unfold SkipDisabledConditionalCode
    simp only []
    rw [SkipDisabledLoop_text, SkipDisabledLoop_yes_else]
    simp only []
    have h1 := Prescan_text fuel { pp1 with ifStack := .No :: pp1.ifStack } ps1 b1
      (ElseLine :: (TextLines b2 ++ EndifLine :: TextLines after)) m ps.active (by omega)
    obtain ⟨k, hk⟩ : ∃ k, m - b1.length = k + 1 := ⟨m - b1.length - 1, by omega⟩
    rw [hk, Prescan_directive fuel k _ ps1 ElseLine _ _ rfl,
      Directive_else_again fuel _ _ pp1.ifStack rfl] at h1
    simp only [] at h1
    have h2 := Prescan_text fuel { pp1 with ifStack := .No :: pp1.ifStack }
      (ps1.Say .error "#else: already appeared within this #if, #ifdef, or #ifndef") b2
      (EndifLine :: TextLines after) k (ps.active ++ b1) (by omega)
    obtain ⟨k2, hk2⟩ : ∃ k2, k - b2.length = k2 + 1 := ⟨k - b2.length - 1, by omega⟩
    rw [hk2, Prescan_directive fuel k2 _ _ EndifLine _ _ rfl,
      Directive_endif fuel _ _ .No pp1.ifStack rfl] at h2
    simp only [] at h2
    have h3 := Prescan_text_end fuel k2 pp1
      (ps1.Say .error "#else: already appeared within this #if, #ifdef, or #ifndef") after
      (ps.active ++ b1 ++ b2) (by omega)
    exact h1.trans (h2.trans h3)

/-! ## A second `#else` in general -/

theorem Opening.line_isDirective (o : Opening) : o.line.isDirective = true := by
  cases o <;> rfl

/-- The directive of an opening line, in terms of whether its condition holds. -/
theorem Directive_opening (fuel : Nat) (o : Opening) (ho : o.IsWellFormed = true) (pp : Preprocessor)
    (ps : Prescanner) (ls : List Line) (v : Bool) (pp1 : Preprocessor) (ps1 : Prescanner)
    (hv : o.holds fuel pp ps = .done (v, pp1, ps1)) :
    pp1.ifStack = pp.ifStack ∧
    Directive fuel o.line.tokens pp { ps with lines := ls } =
      if v = true then
        .done ({ pp1 with ifStack := .Yes :: pp1.ifStack }, { ps1 with lines := ls, active := ps.active })
      else
        SkipDisabledLoop fuel o.name .Yes ls 0 pp1 { ps1 with lines := ls, active := ps.active } := by
  cases o with
  | ifLine c =>
    have hsite := IsIfPredicateTrue_site fuel c 0 c.length pp pp1 ps ps1 v ls ps.active hv
    refine ⟨(IsIfPredicateTrue_frame fuel c 0 c.length pp pp1 ps ps1 v hv).1, ?_⟩
    show Directive fuel (IfLine c).tokens pp { ps with lines := ls, active := ps.active } = _
    rw [Directive_if fuel c pp _ ho, hsite]
    cases v <;> rfl
  | ifdefLine N =>
    simp only [Opening.holds, Run.done.injEq, Prod.mk.injEq] at hv
    obtain ⟨h1, h2, h3⟩ := hv
    subst h2 h3
    refine ⟨rfl, ?_⟩
    show Directive fuel (IfdefLine N).tokens pp _ = _
    rw [Directive_ifdef fuel N pp _ ho, h1]
    cases v <;> rfl
  | ifndefLine N =>
    simp only [Opening.holds, Run.done.injEq, Prod.mk.injEq] at hv
    obtain ⟨h1, h2, h3⟩ := hv
    subst h2 h3
    refine ⟨rfl, ?_⟩
    show Directive fuel (IfndefLine N).tokens pp _ = _
    rw [Directive_ifndef fuel N pp _ ho]
    cases hd : pp.IsNameDefined N <;> rw [hd] at h1 <;> subst h1 <;> rfl

theorem FirstElif_frame (fuel : Nat) :
    ∀ (elifs : List (TokenSequence × List Line)) (pp : Preprocessor) (ps : Prescanner)
      (r : Option (List Line × List (TokenSequence × List Line))) (pp2 : Preprocessor)
      (ps2 : Prescanner), FirstElif fuel elifs pp ps = .done (r, pp2, ps2) →
      pp2.ifStack = pp.ifStack := by
  intro elifs
  induction elifs with
  | nil =>
    intro pp ps r pp2 ps2 h
    simp only [FirstElif, Run.done.injEq, Prod.mk.injEq] at h
    rw [← h.2.1]
  | cons e es ih =>
    obtain ⟨c, body⟩ := e
    intro pp ps r pp2 ps2 h
    rw [FirstElif] at h
    cases hv : IsIfPredicateTrue fuel c 0 c.length pp ps with
    | done x =>
      obtain ⟨v, pp1, ps1⟩ := x
      have hf := (IsIfPredicateTrue_frame fuel c 0 c.length pp pp1 ps ps1 v hv).1
      rw [hv] at h
      cases v with
      | true =>
        simp only [Run.done.injEq, Prod.mk.injEq] at h
        rw [← h.2.1, hf]
      | false =>
        simp only at h
        rw [ih pp1 ps1 r pp2 ps2 h, hf]
    | crash e => rw [hv] at h; cases h
    | outOfFuel => rw [hv] at h; cases h

theorem FirstElif_mem (fuel : Nat) :
    ∀ (elifs : List (TokenSequence × List Line)) (pp : Preprocessor) (ps : Prescanner)
      (body : List Line) (later : List (TokenSequence × List Line)) (pp2 : Preprocessor)
      (ps2 : Prescanner), FirstElif fuel elifs pp ps = .done (some (body, later), pp2, ps2) →
      (∃ c, (c, body) ∈ elifs) ∧ ∀ e ∈ later, e ∈ elifs := by
  intro elifs
  induction elifs with
  | nil =>
    intro pp ps body later pp2 ps2 h
    simp [FirstElif] at h
  | cons e es ih =>
    obtain ⟨c, b⟩ := e
    intro pp ps body later pp2 ps2 h
    rw [FirstElif] at h
    cases hv : IsIfPredicateTrue fuel c 0 c.length pp ps with
    | done x =>
      obtain ⟨v, pp1, ps1⟩ := x
      rw [hv] at h
      cases v with
      | true =>
        simp only [Run.done.injEq, Prod.mk.injEq, Option.some.injEq] at h
        obtain ⟨⟨h1, h2⟩, -, -⟩ := h
        subst h1 h2
        exact ⟨⟨c, List.mem_cons_self _ _⟩, fun e he => List.mem_cons_of_mem _ he⟩
      | false =>
        simp only at h
        obtain ⟨⟨c1, hc1⟩, h2⟩ := ih pp1 ps1 body later pp2 ps2 h
        exact ⟨⟨c1, List.mem_cons_of_mem _ hc1⟩, fun e he => List.mem_cons_of_mem _ (h2 e he)⟩
    | crash e => rw [hv] at h; cases h
    | outOfFuel => rw [hv] at h; cases h

/-- Skipping after a false opening condition follows `FirstElif`: it stops at the
first `#elif` whose condition holds, or at `#else`. -/
theorem SkipDisabledLoop_FirstElif (fuel : Nat) (dn : List Char) (T : List Line)
    (act : List TokenSequence) :
    ∀ (elifs : List (TokenSequence × List Line)),
      (∀ e ∈ elifs, IsCondition e.1 = true ∧ Nested fuel false e.2) →
      ∀ (pp : Preprocessor) (ps : Prescanner) (l0 : List Line)
      (r : Option (List Line × List (TokenSequence × List Line))) (pp2 : Preprocessor)
      (ps2 : Prescanner), FirstElif fuel elifs pp ps = .done (r, pp2, ps2) →
      (r = none →
        SkipDisabledLoop fuel dn .Yes (ElifBlocks elifs ++ ElseLine :: T) 0 pp
            { ps with lines := l0, active := act } =
          .done ({ pp2 with ifStack := .No :: pp2.ifStack },
            { ps2 with lines := T, active := act })) ∧
      (∀ body later, r = some (body, later) →
        SkipDisabledLoop fuel dn .Yes (ElifBlocks elifs ++ ElseLine :: T) 0 pp
            { ps with lines := l0, active := act } =
          .done ({ pp2 with ifStack := .Yes :: pp2.ifStack },
            { ps2 with lines := body ++ (ElifBlocks later ++ ElseLine :: T), active := act })) := by
  intro elifs
  induction elifs with
  | nil =>
    intro _ pp ps l0 r pp2 ps2 h
    simp only [FirstElif, Run.done.injEq, Prod.mk.injEq] at h
    obtain ⟨h1, h2, h3⟩ := h
    subst h1 h2 h3
    refine ⟨fun _ => ?_, fun _ _ hr => by cases hr⟩
    show SkipDisabledLoop fuel dn .Yes (ElseLine :: T) 0 pp _ = _
    rw [SkipDisabledLoop_yes_else]
  | cons e es ih =>
    obtain ⟨c, b⟩ := e
    intro helifs pp ps l0 r pp2 ps2 h
    have hc := (helifs (c, b) (List.mem_cons_self _ _)).1
    have hb := (helifs (c, b) (List.mem_cons_self _ _)).2
    have hes : ∀ e ∈ es, IsCondition e.1 = true ∧ Nested fuel false e.2 :=
      fun e he => helifs e (List.mem_cons_of_mem _ he)
    rw [FirstElif] at h
    have hL : ElifBlocks ((c, b) :: es) ++ ElseLine :: T =
        ElifLine c :: (b ++ (ElifBlocks es ++ ElseLine :: T)) := by
      simp [ElifBlocks]
    rw [hL, SkipDisabledLoop_yes_elif fuel dn c _ pp _ hc]
    cases hv : IsIfPredicateTrue fuel c 0 c.length pp ps with
    | done x =>
      obtain ⟨v, pp1, ps1⟩ := x
      have hsite := IsIfPredicateTrue_site fuel c 0 c.length pp pp1 ps ps1 v
        (b ++ (ElifBlocks es ++ ElseLine :: T)) act hv
      rw [hv] at h
      have hsite2 : IsIfPredicateTrue fuel c 0 c.length pp
          (Prescanner.mk (b ++ (ElifBlocks es ++ ElseLine :: T))
            (Prescanner.mk l0 ps.messages ps.path ps.lineNumber ps.timestamp
              ps.shouldWarnPortability act).messages ps.path ps.lineNumber ps.timestamp
            ps.shouldWarnPortability act) =
          .done (v, pp1, { ps1 with
            lines := b ++ (ElifBlocks es ++ ElseLine :: T), active := act }) := hsite
      erw [hsite2]
      cases v with
      | true =>
        simp only [Run.done.injEq, Prod.mk.injEq] at h
        obtain ⟨h1, h2, h3⟩ := h
        subst h1 h2 h3
        refine ⟨fun hr => (by cases hr), fun body later hr => ?_⟩
        simp only [Option.some.injEq, Prod.mk.injEq] at hr
        obtain ⟨h1, h2⟩ := hr
        subst h1 h2
        rfl
      | false =>
        simp only at h
        have hskip := (Nested_skip hb).1 rfl dn .Yes (ElifBlocks es ++ ElseLine :: T) 0 pp1
          { ps1 with lines := b ++ (ElifBlocks es ++ ElseLine :: T), active := act }
        simp only
        rw [hskip]
        exact ih hes pp1 ps1 _ r pp2 ps2 h
    | crash e => rw [hv] at h; cases h
    | outOfFuel => rw [hv] at h; cases h

/-- Skipping after a branch was taken ignores every later `#elif` and `#else` and
ends after `#endif`. -/
theorem SkipDisabledLoop_Branches (fuel : Nat) (dn : List Char) (rest : List Line) :
    ∀ (bs : List (Option TokenSequence × List Line)),
      (∀ e ∈ bs, (∀ c, e.1 = some c → IsCondition c = true) ∧ Nested fuel false e.2) →
      ∀ (pp : Preprocessor) (ps : Prescanner),
      SkipDisabledLoop fuel dn .No (Branches bs ++ EndifLine :: rest) 0 pp ps =
        .done (pp, { ps with lines := rest }) := by
  intro bs
  induction bs with
  | nil =>
    intro _ pp ps
    show SkipDisabledLoop fuel dn .No (EndifLine :: rest) 0 pp ps = _
    rw [SkipDisabledLoop_endif]
  | cons e es ih =>
    obtain ⟨h, b⟩ := e
    intro hbs pp ps
    have hb := (hbs (h, b) (List.mem_cons_self _ _)).2
    have hes : ∀ e ∈ es, (∀ c, e.1 = some c → IsCondition c = true) ∧ Nested fuel false e.2 :=
      fun e he => hbs e (List.mem_cons_of_mem _ he)
    have hL : Branches ((h, b) :: es) ++ EndifLine :: rest =
        BranchLine h :: (b ++ (Branches es ++ EndifLine :: rest)) := by
      simp [Branches]
    rw [hL]
    cases h with
    | none =>
      show SkipDisabledLoop fuel dn .No (ElseLine :: _) 0 pp ps = _
      rw [SkipDisabledLoop_no_else, (Nested_skip hb).1 rfl]
      exact ih hes pp ps
    | some c =>
      have hc := (hbs (some c, b) (List.mem_cons_self _ _)).1 c rfl
      show SkipDisabledLoop fuel dn .No (ElifLine c :: _) 0 pp ps = _
      rw [SkipDisabledLoop_no_elif fuel dn c _ pp ps hc, (Nested_skip hb).1 rfl]
      exact ih hes pp ps

/-- With a taken branch on top of the stack, the directive that starts the next
branch skips the remainder of the group without a message. -/
theorem Prescan_Branches (fuel n : Nat) (pp : Preprocessor) (ps : Prescanner)
    (h : Option TokenSequence) (b : List Line) (bs : List (Option TokenSequence × List Line))
    (rest : List Line) (stack : List CanDeadElseAppear)
    (hbs : ∀ e ∈ (h, b) :: bs, (∀ c, e.1 = some c → IsCondition c = true) ∧ Nested fuel false e.2)
    (hl : ps.lines = Branches ((h, b) :: bs) ++ EndifLine :: rest)
    (hstack : pp.ifStack = .Yes :: stack) :
    Prescan fuel (n + 1) pp ps =
      Prescan fuel n { pp with ifStack := stack } { ps with lines := rest } := by
  have hb := (hbs (h, b) (List.mem_cons_self _ _)).2
  have hes : ∀ e ∈ bs, (∀ c, e.1 = some c → IsCondition c = true) ∧ Nested fuel false e.2 :=
    fun e he => hbs e (List.mem_cons_of_mem _ he)
  have hL : Branches ((h, b) :: bs) ++ EndifLine :: rest =
      BranchLine h :: (b ++ (Branches bs ++ EndifLine :: rest)) := by
    simp [Branches]
  rw [hL] at hl
  have hd : (BranchLine h).isDirective = true := by cases h <;> rfl
  rw [Prescan_at_directive fuel n pp ps _ _ hl hd]
  cases h with
  | none =>
    show PrescanAfter fuel n (Directive fuel ElseLine.tokens pp _) = _
    rw [Directive_else_active fuel pp _ stack hstack]
    show PrescanAfter fuel n (SkipDisabledLoop fuel _ .No (b ++ (Branches bs ++ EndifLine :: rest)) 0 _ _) = _
    rw [(Nested_skip hb).1 rfl, SkipDisabledLoop_Branches fuel _ rest bs hes]
    rfl
  | some c =>
    have hc := (hbs (some c, b) (List.mem_cons_self _ _)).1 c rfl
    show PrescanAfter fuel n (Directive fuel (ElifLine c).tokens pp _) = _
    rw [Directive_elif_active fuel c pp _ stack hc hstack]
    show PrescanAfter fuel n (SkipDisabledLoop fuel _ .No (b ++ (Branches bs ++ EndifLine :: rest)) 0 _ _) = _
    rw [(Nested_skip hb).1 rfl, SkipDisabledLoop_Branches fuel _ rest bs hes]
    rfl

theorem FirstElif_length (fuel : Nat) :
    ∀ (elifs : List (TokenSequence × List Line)) (pp : Preprocessor) (ps : Prescanner)
      (body : List Line) (later : List (TokenSequence × List Line)) (pp2 : Preprocessor)
      (ps2 : Prescanner), FirstElif fuel elifs pp ps = .done (some (body, later), pp2, ps2) →
      body.length + (ElifBlocks later).length + 1 ≤ (ElifBlocks elifs).length := by
  intro elifs
  induction elifs with
  | nil =>
    intro pp ps body later pp2 ps2 h
    simp [FirstElif] at h
  | cons e es ih =>
    obtain ⟨c, b⟩ := e
    intro pp ps body later pp2 ps2 h
    rw [FirstElif] at h
    cases hv : IsIfPredicateTrue fuel c 0 c.length pp ps with
    | done x =>
      obtain ⟨v, pp1, ps1⟩ := x
      rw [hv] at h
      cases v with
      | true =>
        simp only [Run.done.injEq, Prod.mk.injEq, Option.some.injEq] at h
        obtain ⟨⟨h1, h2⟩, -, -⟩ := h
        subst h1 h2
        simp [ElifBlocks]
      | false =>
        simp only at h
        have := ih pp1 ps1 body later pp2 ps2 h
        simp [ElifBlocks]
        omega
    | crash e => rw [hv] at h; cases h
    | outOfFuel => rw [hv] at h; cases h

theorem Branches_append (xs ys : List (Option TokenSequence × List Line)) :
    Branches (xs ++ ys) = Branches xs ++ Branches ys := by
  induction xs with
  | nil => rfl
  | cons x xs ih =>
    obtain ⟨h, b⟩ := x
    simp [Branches, ih]

theorem Branches_elifs (elifs : List (TokenSequence × List Line)) :
    Branches (elifs.map (fun e => (some e.1, e.2))) = ElifBlocks elifs := by
  induction elifs with
  | nil => rfl
  | cons x xs ih =>
    obtain ⟨c, b⟩ := x
    simp [Branches, ElifBlocks, BranchLine, ih]

/-- With a taken branch on top of the stack, the next `#elif` or `#else` of a group
in which `#else` occurs twice skips to the end of the group without a message. -/
theorem Prescan_closing (fuel n : Nat) (pp : Preprocessor) (ps : Prescanner)
    (later : List (TokenSequence × List Line)) (b1 b2 : List Line)
    (more : List (Option TokenSequence × List Line)) (rest : List Line)
    (stack : List CanDeadElseAppear)
    (hlater : ∀ e ∈ later, IsCondition e.1 = true ∧ Nested fuel false e.2)
    (hb1 : Nested fuel false b1) (hb2 : Nested fuel false b2)
    (hmore : ∀ e ∈ more, (∀ c, e.1 = some c → IsCondition c = true) ∧ Nested fuel false e.2)
    (hl : ps.lines = ElifBlocks later ++ ElseLine ::
      (b1 ++ ElseLine :: (b2 ++ (Branches more ++ EndifLine :: rest))))
    (hstack : pp.ifStack = .Yes :: stack) :
    Prescan fuel (n + 1) pp ps =
      Prescan fuel n { pp with ifStack := stack } { ps with lines := rest } := by
  have hall : ∀ e ∈ later.map (fun e => (some e.1, e.2)) ++ (none, b1) :: (none, b2) :: more,
      (∀ c, e.1 = some c → IsCondition c = true) ∧ Nested fuel false e.2 := by
    intro e he
    rcases List.mem_append.1 he with he | he
    · obtain ⟨x, hx, rfl⟩ := List.mem_map.1 he
      refine ⟨fun c hc => ?_, (hlater x hx).2⟩
      simp only [Option.some.injEq] at hc
      rw [← hc]
      exact (hlater x hx).1
    · rcases List.mem_cons.1 he with he | he
      · subst he
        exact ⟨fun c hc => (by cases hc), hb1⟩
      · rcases List.mem_cons.1 he with he | he
        · subst he
          exact ⟨fun c hc => (by cases hc), hb2⟩
        · exact hmore e he
  have hL : ElifBlocks later ++ ElseLine ::
      (b1 ++ ElseLine :: (b2 ++ (Branches more ++ EndifLine :: rest))) =
      Branches (later.map (fun e => (some e.1, e.2)) ++ (none, b1) :: (none, b2) :: more) ++
        EndifLine :: rest := by
    rw [Branches_append, Branches_elifs]
    simp [Branches, BranchLine]
  rw [hL] at hl
  cases later with
  | nil => exact Prescan_Branches fuel n pp ps none b1 ((none, b2) :: more) rest stack hall hl hstack
  | cons x xs =>
    exact Prescan_Branches fuel n pp ps (some x.1) x.2 _ rest stack hall hl hstack

/-- The pull loop at the opening line of a group. -/
theorem Prescan_opening (fuel n : Nat) (o : Opening) (ho : o.IsWellFormed = true) (pp : Preprocessor)
    (ps : Prescanner) (ls : List Line) (v : Bool) (pp1 : Preprocessor) (ps1 : Prescanner)
    (hv : o.holds fuel pp ps = .done (v, pp1, ps1)) :
    pp1.ifStack = pp.ifStack ∧
    Prescan fuel (n + 1) pp { ps with lines := o.line :: ls } =
      if v = true then
        Prescan fuel n { pp1 with ifStack := .Yes :: pp1.ifStack }
          { ps1 with lines := ls, active := ps.active }
      else
        PrescanAfter fuel n
          (SkipDisabledLoop fuel o.name .Yes ls 0 pp1 { ps1 with lines := ls, active := ps.active }) := by
  have hD := Directive_opening fuel o ho pp ps ls v pp1 ps1 hv
  refine ⟨hD.1, ?_⟩
  refine (Prescan_at_directive fuel n pp { ps with lines := o.line :: ls } o.line ls rfl
    (Opening.line_isDirective o)).trans ?_
  show PrescanAfter fuel n (Directive fuel o.line.tokens pp { ps with lines := ls }) = _
  rw [hD.2]
  cases v <;> rfl

/-- The `#else` branch of a group is taken; a second `#else` follows it. -/
theorem second_else_reported (fuel : Nat) (o : Opening) (b0 : List Line)
    (elifs : List (TokenSequence × List Line)) (b1 : List Line)
    (ho : o.IsWellFormed = true) (hb0 : Nested fuel false b0)
    (helifs : ∀ e ∈ elifs, IsCondition e.1 = true ∧ Nested fuel false e.2)
    (hb1 : Nested fuel false b1)
    (tail : List Line) (n : Nat) (pp pp1 pp2 : Preprocessor) (ps ps1 ps2 : Prescanner)
    (hv : o.holds fuel pp ps = .done (false, pp1, ps1))
    (hf : FirstElif fuel elifs pp1 ps1 = .done (none, pp2, ps2))
    (hn : (GroupWithTwoElse o b0 elifs b1 tail).length ≤ n) :
    ∃ ppa psa na,
      Prescan fuel n pp { ps with lines := GroupWithTwoElse o b0 elifs b1 tail } =
        Prescan fuel (na + 1) ppa psa ∧
      psa.lines = ElseLine :: tail ∧ tail.length ≤ na ∧ ppa.ifStack = .No :: pp.ifStack ∧
      Prescan fuel (na + 1) ppa psa =
        Prescan fuel na ppa ({ psa with lines := tail }.Say .error
          "#else: already appeared within this #if, #ifdef, or #ifndef") ∧
      ∀ (b2 rest : List Line), tail = b2 ++ EndifLine :: rest → Nested fuel false b2 →
        ∃ ppb psb nb,
          Prescan fuel na ppa ({ psa with lines := tail }.Say .error
            "#else: already appeared within this #if, #ifdef, or #ifndef") =
            Prescan fuel nb ppb psb ∧
          psb.lines = rest ∧ rest.length ≤ nb ∧ ppb.ifStack = pp.ifStack := by
  have hlen : (GroupWithTwoElse o b0 elifs b1 tail).length =
      b0.length + (ElifBlocks elifs).length + b1.length + tail.length + 3 := by
    simp [GroupWithTwoElse]
    omega
  obtain ⟨m, rfl⟩ : ∃ m, n = m + 1 := ⟨n - 1, by omega⟩
  have hO := Prescan_opening fuel m o ho pp ps
    (b0 ++ (ElifBlocks elifs ++ ElseLine :: (b1 ++ ElseLine :: tail))) false pp1 ps1 hv
  have hS := (SkipDisabledLoop_FirstElif fuel o.name (b1 ++ ElseLine :: tail) ps.active elifs
    helifs pp1 ps1 (b0 ++ (ElifBlocks elifs ++ ElseLine :: (b1 ++ ElseLine :: tail)))
    none pp2 ps2 hf).1 rfl
  have h1 : Prescan fuel (m + 1) pp { ps with lines := GroupWithTwoElse o b0 elifs b1 tail } =
      Prescan fuel m { pp2 with ifStack := .No :: pp2.ifStack }
        { ps2 with lines := b1 ++ ElseLine :: tail, active := ps.active } := by
    refine hO.2.trans ?_
    simp only [Bool.false_eq_true, if_false]
    rw [(Nested_skip hb0).1 rfl, hS]
    rfl
  obtain ⟨ppa, psa, na1, h2, hla, hna, hsa⟩ := (Nested_active hb1).1 rfl
    { pp2 with ifStack := .No :: pp2.ifStack }
    { ps2 with lines := b1 ++ ElseLine :: tail, active := ps.active } (ElseLine :: tail) m rfl
    (by simp only [List.length_cons]; omega)
  simp only [List.length_cons] at hna
  obtain ⟨na, rfl⟩ : ∃ na, na1 = na + 1 := ⟨na1 - 1, by omega⟩
  have hstack : ppa.ifStack = .No :: pp.ifStack := by
    rw [hsa]
    show CanDeadElseAppear.No :: pp2.ifStack = _
    rw [FirstElif_frame fuel elifs pp1 ps1 none pp2 ps2 hf, hO.1]
  have h3 : Prescan fuel (na + 1) ppa psa =
      Prescan fuel na ppa ({ psa with lines := tail }.Say .error
        "#else: already appeared within this #if, #ifdef, or #ifndef") := by
    rw [Prescan_at_directive fuel na ppa psa ElseLine tail hla rfl,
      Directive_else_again fuel ppa _ pp.ifStack hstack]
    rfl
  refine ⟨ppa, psa, na, h1.trans h2, hla, by omega, hstack, h3, ?_⟩
  intro b2 rest ht hb2
  obtain ⟨pp3, ps3, n3, h4, hl3, hn3, hs3⟩ := (Nested_active hb2).1 rfl ppa
    ({ psa with lines := tail }.Say .error
      "#else: already appeared within this #if, #ifdef, or #ifndef") (EndifLine :: rest) na ht
    (by rw [ht, List.length_append] at hna; omega)
  simp only [List.length_cons] at hn3
  obtain ⟨nb, rfl⟩ : ∃ nb, n3 = nb + 1 := ⟨n3 - 1, by omega⟩
  refine ⟨{ pp3 with ifStack := pp.ifStack }, { ps3 with lines := rest }, nb, ?_, rfl,
    by omega, rfl⟩
  rw [h4, Prescan_at_directive fuel nb pp3 ps3 EndifLine rest hl3 rfl,
    Directive_endif fuel pp3 _ .No pp.ifStack (hs3.trans hstack)]
  rfl

/-- The first branch of a group is taken; `#else` occurs twice later in the group. -/
theorem second_else_skipped_first (fuel : Nat) (o : Opening) (b0 : List Line)
    (elifs : List (TokenSequence × List Line)) (b1 : List Line)
    (ho : o.IsWellFormed = true) (hb0 : Nested fuel false b0)
    (helifs : ∀ e ∈ elifs, IsCondition e.1 = true ∧ Nested fuel false e.2)
    (hb1 : Nested fuel false b1)
    (b2 : List Line) (more : List (Option TokenSequence × List Line)) (rest : List Line)
    (n : Nat) (pp pp1 : Preprocessor) (ps ps1 : Prescanner)
    (hb2 : Nested fuel false b2)
    (hmore : ∀ e ∈ more, (∀ c, e.1 = some c → IsCondition c = true) ∧ Nested fuel false e.2)
    (hv : o.holds fuel pp ps = .done (true, pp1, ps1))
    (hn : (GroupWithTwoElse o b0 elifs b1
      (b2 ++ (Branches more ++ EndifLine :: rest))).length ≤ n) :
    ∃ ppa psa na,
      Prescan fuel n pp
          { ps with
            lines := GroupWithTwoElse o b0 elifs b1
              (b2 ++ (Branches more ++ EndifLine :: rest)) } =
        Prescan fuel (na + 1) ppa psa ∧
      psa.lines = ElifBlocks elifs ++ ElseLine ::
        (b1 ++ ElseLine :: (b2 ++ (Branches more ++ EndifLine :: rest))) ∧
      rest.length ≤ na ∧ ppa.ifStack = .Yes :: pp.ifStack ∧
      Prescan fuel (na + 1) ppa psa =
        Prescan fuel na { ppa with ifStack := pp.ifStack } { psa with lines := rest } := by
  have hlen : (GroupWithTwoElse o b0 elifs b1
      (b2 ++ (Branches more ++ EndifLine :: rest))).length =
      b0.length + (ElifBlocks elifs).length + b1.length + b2.length + (Branches more).length +
        rest.length + 4 := by
    simp [GroupWithTwoElse]
    omega
  obtain ⟨m, rfl⟩ : ∃ m, n = m + 1 := ⟨n - 1, by omega⟩
  have hO := Prescan_opening fuel m o ho pp ps
    (b0 ++ (ElifBlocks elifs ++ ElseLine ::
      (b1 ++ ElseLine :: (b2 ++ (Branches more ++ EndifLine :: rest))))) true pp1 ps1 hv
  have h1 := hO.2
  simp only [if_true] at h1
  obtain ⟨ppa, psa, na1, h2, hla, hna, hsa⟩ := (Nested_active hb0).1 rfl
    { pp1 with ifStack := .Yes :: pp1.ifStack }
    { ps1 with lines := b0 ++ (ElifBlocks elifs ++ ElseLine ::
        (b1 ++ ElseLine :: (b2 ++ (Branches more ++ EndifLine :: rest)))), active := ps.active }
    (ElifBlocks elifs ++ ElseLine ::
      (b1 ++ ElseLine :: (b2 ++ (Branches more ++ EndifLine :: rest)))) m rfl
    (by simp; omega)
  simp at hna
  obtain ⟨na, rfl⟩ : ∃ na, na1 = na + 1 := ⟨na1 - 1, by omega⟩
  have hstack : ppa.ifStack = .Yes :: pp.ifStack := by
    rw [hsa]
    show CanDeadElseAppear.Yes :: pp1.ifStack = _
    rw [hO.1]
  exact ⟨ppa, psa, na, h1.trans h2, hla, by omega, hstack,
    Prescan_closing fuel na ppa psa elifs b1 b2 more rest pp.ifStack helifs hb1 hb2 hmore hla
      hstack⟩

/-- An `#elif` branch of a group is taken; `#else` occurs twice later in the group. -/
theorem second_else_skipped_elif (fuel : Nat) (o : Opening) (b0 : List Line)
    (elifs : List (TokenSequence × List Line)) (b1 : List Line)
    (ho : o.IsWellFormed = true) (hb0 : Nested fuel false b0)
    (helifs : ∀ e ∈ elifs, IsCondition e.1 = true ∧ Nested fuel false e.2)
    (hb1 : Nested fuel false b1)
    (b2 : List Line) (more : List (Option TokenSequence × List Line)) (rest : List Line)
    (n : Nat) (pp pp1 pp2 : Preprocessor) (ps ps1 ps2 : Prescanner)
    (body : List Line) (later : List (TokenSequence × List Line))
    (hb2 : Nested fuel false b2)
    (hmore : ∀ e ∈ more, (∀ c, e.1 = some c → IsCondition c = true) ∧ Nested fuel false e.2)
    (hv : o.holds fuel pp ps = .done (false, pp1, ps1))
    (hf : FirstElif fuel elifs pp1 ps1 = .done (some (body, later), pp2, ps2))
    (hn : (GroupWithTwoElse o b0 elifs b1
      (b2 ++ (Branches more ++ EndifLine :: rest))).length ≤ n) :
    ∃ ppa psa na,
      Prescan fuel n pp
          { ps with
            lines := GroupWithTwoElse o b0 elifs b1
              (b2 ++ (Branches more ++ EndifLine :: rest)) } =
        Prescan fuel (na + 1) ppa psa ∧
      psa.lines = ElifBlocks later ++ ElseLine ::
        (b1 ++ ElseLine :: (b2 ++ (Branches more ++ EndifLine :: rest))) ∧
      rest.length ≤ na ∧ ppa.ifStack = .Yes :: pp.ifStack ∧
      Prescan fuel (na + 1) ppa psa =
        Prescan fuel na { ppa with ifStack := pp.ifStack } { psa with lines := rest } := by
  have hlen : (GroupWithTwoElse o b0 elifs b1
      (b2 ++ (Branches more ++ EndifLine :: rest))).length =
      b0.length + (ElifBlocks elifs).length + b1.length + b2.length + (Branches more).length +
        rest.length + 4 := by
    simp [GroupWithTwoElse]
    omega
  have hfl := FirstElif_length fuel elifs pp1 ps1 body later pp2 ps2 hf
  obtain ⟨⟨c, hcb⟩, hlat⟩ := FirstElif_mem fuel elifs pp1 ps1 body later pp2 ps2 hf
  have hbody : Nested fuel false body := (helifs (c, body) hcb).2
  have hlater : ∀ e ∈ later, IsCondition e.1 = true ∧ Nested fuel false e.2 :=
    fun e he => helifs e (hlat e he)
  obtain ⟨m, rfl⟩ : ∃ m, n = m + 1 := ⟨n - 1, by omega⟩
  have hO := Prescan_opening fuel m o ho pp ps
    (b0 ++ (ElifBlocks elifs ++ ElseLine ::
      (b1 ++ ElseLine :: (b2 ++ (Branches more ++ EndifLine :: rest))))) false pp1 ps1 hv
  have hS := (SkipDisabledLoop_FirstElif fuel o.name
    (b1 ++ ElseLine :: (b2 ++ (Branches more ++ EndifLine :: rest))) ps.active elifs
    helifs pp1 ps1 (b0 ++ (ElifBlocks elifs ++ ElseLine ::
      (b1 ++ ElseLine :: (b2 ++ (Branches more ++ EndifLine :: rest)))))
    (some (body, later)) pp2 ps2 hf).2 body later rfl
  have h1 : Prescan fuel (m + 1) pp
        { ps with
          lines := GroupWithTwoElse o b0 elifs b1
            (b2 ++ (Branches more ++ EndifLine :: rest)) } =
      Prescan fuel m { pp2 with ifStack := .Yes :: pp2.ifStack }
        { ps2 with
          lines := body ++ (ElifBlocks later ++ ElseLine ::
            (b1 ++ ElseLine :: (b2 ++ (Branches more ++ EndifLine :: rest)))),
          active := ps.active } := by
    refine hO.2.trans ?_
    simp only [Bool.false_eq_true, if_false]
    rw [(Nested_skip hb0).1 rfl, hS]
    rfl
  obtain ⟨ppa, psa, na1, h2, hla, hna, hsa⟩ := (Nested_active hbody).1 rfl
    { pp2 with ifStack := .Yes :: pp2.ifStack }
    { ps2 with
      lines := body ++ (ElifBlocks later ++ ElseLine ::
        (b1 ++ ElseLine :: (b2 ++ (Branches more ++ EndifLine :: rest)))),
      active := ps.active }
    (ElifBlocks later ++ ElseLine ::
      (b1 ++ ElseLine :: (b2 ++ (Branches more ++ EndifLine :: rest)))) m rfl
    (by simp; omega)
  simp at hna
  obtain ⟨na, rfl⟩ : ∃ na, na1 = na + 1 := ⟨na1 - 1, by omega⟩
  have hstack : ppa.ifStack = .Yes :: pp.ifStack := by
    rw [hsa]
    show CanDeadElseAppear.Yes :: pp2.ifStack = _
    rw [FirstElif_frame fuel elifs pp1 ps1 _ pp2 ps2 hf, hO.1]
  exact ⟨ppa, psa, na, h1.trans h2, hla, by omega, hstack,
    Prescan_closing fuel na ppa psa later b1 b2 more rest pp.ifStack hlater hb1 hb2 hmore hla
      hstack⟩

/-- C22 (as amended). Duplicate `#else`. A group opens with `#if c`, `#ifdef N` or
`#ifndef N`; its first branch `b0`, any number of `#elif` branches `elifs`, and the
branch `b1` of its `#else` are made of text lines and well-nested blocks; a second
`#else` follows `b1` at the level of the group. The pull loop reads the group from the
active state, with steps for every line.

* The `#else` branch is taken (the opening condition and every `#elif` condition is
  false): whatever follows the second `#else`, the run reaches it with the mark `No` on
  top of the stack, the directive appends exactly the one error `#else: already appeared
  within this #if, #ifdef, or #ifndef` and changes nothing else, and the run goes on
  with the lines after it in the active state, the mark still on the stack; when these
  are a branch `b2` and `#endif`, the group ends there with the stack as before it.
* The first branch is taken, or the branch of an `#elif` (the first one whose condition
  holds): the run reaches the `#elif` or `#else` that ends the taken branch, and this
  one step skips everything up to the `#endif` of the group, the second `#else`
  included, whatever `#else` and `#elif` branches follow it: the messages are unchanged
  (no error for the second `#else`), nothing of the skipped lines becomes active, and
  the stack is as before the group.
* For the group `#if c` / text / `#else` / text / `#else` / text / `#endif` followed
  by text the whole run is given: with a false condition it ends with the messages of
  the condition and exactly the one error, the lines of both `#else` parts and the
  lines after the group active; with a true condition only the first branch and the
  lines after the group are active and no message is added. -/
theorem duplicate_else (fuel : Nat) (o : Opening) (b0 : List Line)
    (elifs : List (TokenSequence × List Line)) (b1 : List Line)
    (ho : o.IsWellFormed = true) (hb0 : Nested fuel false b0)
    (helifs : ∀ e ∈ elifs, IsCondition e.1 = true ∧ Nested fuel false e.2)
    (hb1 : Nested fuel false b1) :
    (∀ (tail : List Line) (n : Nat) (pp pp1 pp2 : Preprocessor) (ps ps1 ps2 : Prescanner),
      o.holds fuel pp ps = .done (false, pp1, ps1) →
      FirstElif fuel elifs pp1 ps1 = .done (none, pp2, ps2) →
      (GroupWithTwoElse o b0 elifs b1 tail).length ≤ n →
      ∃ ppa psa na,
        Prescan fuel n pp { ps with lines := GroupWithTwoElse o b0 elifs b1 tail } =
          Prescan fuel (na + 1) ppa psa ∧
        psa.lines = ElseLine :: tail ∧ tail.length ≤ na ∧ ppa.ifStack = .No :: pp.ifStack ∧
        Prescan fuel (na + 1) ppa psa =
          Prescan fuel na ppa ({ psa with lines := tail }.Say .error
            "#else: already appeared within this #if, #ifdef, or #ifndef") ∧
        ∀ (b2 rest : List Line), tail = b2 ++ EndifLine :: rest → Nested fuel false b2 →
          ∃ ppb psb nb,
            Prescan fuel na ppa ({ psa with lines := tail }.Say .error
              "#else: already appeared within this #if, #ifdef, or #ifndef") =
              Prescan fuel nb ppb psb ∧
            psb.lines = rest ∧ rest.length ≤ nb ∧ ppb.ifStack = pp.ifStack) ∧
    (∀ (b2 : List Line) (more : List (Option TokenSequence × List Line)) (rest : List Line)
      (n : Nat) (pp pp1 : Preprocessor) (ps ps1 : Prescanner),
      Nested fuel false b2 →
      (∀ e ∈ more, (∀ c, e.1 = some c → IsCondition c = true) ∧ Nested fuel false e.2) →
      o.holds fuel pp ps = .done (true, pp1, ps1) →
      (GroupWithTwoElse o b0 elifs b1
        (b2 ++ (Branches more ++ EndifLine :: rest))).length ≤ n →
      ∃ ppa psa na,
        Prescan fuel n pp
            { ps with
              lines := GroupWithTwoElse o b0 elifs b1
                (b2 ++ (Branches more ++ EndifLine :: rest)) } =
          Prescan fuel (na + 1) ppa psa ∧
        psa.lines = ElifBlocks elifs ++ ElseLine ::
          (b1 ++ ElseLine :: (b2 ++ (Branches more ++ EndifLine :: rest))) ∧
        rest.length ≤ na ∧ ppa.ifStack = .Yes :: pp.ifStack ∧
        Prescan fuel (na + 1) ppa psa =
          Prescan fuel na { ppa with ifStack := pp.ifStack } { psa with lines := rest }) ∧
    (∀ (b2 : List Line) (more : List (Option TokenSequence × List Line)) (rest : List Line)
      (n : Nat) (pp pp1 pp2 : Preprocessor) (ps ps1 ps2 : Prescanner)
      (body : List Line) (later : List (TokenSequence × List Line)),
      Nested fuel false b2 →
      (∀ e ∈ more, (∀ c, e.1 = some c → IsCondition c = true) ∧ Nested fuel false e.2) →
      o.holds fuel pp ps = .done (false, pp1, ps1) →
      FirstElif fuel elifs pp1 ps1 = .done (some (body, later), pp2, ps2) →
      (GroupWithTwoElse o b0 elifs b1
        (b2 ++ (Branches more ++ EndifLine :: rest))).length ≤ n →
      ∃ ppa psa na,
        Prescan fuel n pp
            { ps with
              lines := GroupWithTwoElse o b0 elifs b1
                (b2 ++ (Branches more ++ EndifLine :: rest)) } =
          Prescan fuel (na + 1) ppa psa ∧
        psa.lines = ElifBlocks later ++ ElseLine ::
          (b1 ++ ElseLine :: (b2 ++ (Branches more ++ EndifLine :: rest))) ∧
        rest.length ≤ na ∧ ppa.ifStack = .Yes :: pp.ifStack ∧
        Prescan fuel (na + 1) ppa psa =
          Prescan fuel na { ppa with ifStack := pp.ifStack } { psa with lines := rest }) ∧
    (∀ (n : Nat) (pp pp1 : Preprocessor) (ps ps1 : Prescanner) (c : TokenSequence)
      (t0 t1 t2 after : List TokenSequence) (v : Bool),
      IsCondition c = true →
      IsIfPredicateTrue fuel c 0 c.length pp ps = .done (v, pp1, ps1) →
      t0.length + t1.length + t2.length + after.length + 4 ≤ n →
      Prescan fuel n pp
          { ps with
            lines := IfLine c :: (TextLines t0 ++ ElseLine :: (TextLines t1 ++ ElseLine ::
              (TextLines t2 ++ EndifLine :: TextLines after))) } =
        if v = true then
          .done (pp1, { ps1 with lines := [], active := ps.active ++ t0 ++ after })
        else
          .done (pp1,
            { ps1 with
              lines := []
              active := ps.active ++ t1 ++ t2 ++ after
              messages := ps1.messages ++
                [⟨.error, "#else: already appeared within this #if, #ifdef, or #ifndef"⟩] })) :=
  ⟨fun tail n pp pp1 pp2 ps ps1 ps2 hv hf hn =>
      second_else_reported fuel o b0 elifs b1 ho hb0 helifs hb1 tail n pp pp1 pp2 ps ps1 ps2
        hv hf hn,
    fun b2 more rest n pp pp1 ps ps1 hb2 hmore hv hn =>
      second_else_skipped_first fuel o b0 elifs b1 ho hb0 helifs hb1 b2 more rest n pp pp1
        ps ps1 hb2 hmore hv hn,
    fun b2 more rest n pp pp1 pp2 ps ps1 ps2 body later hb2 hmore hv hf hn =>
      second_else_skipped_elif fuel o b0 elifs b1 ho hb0 helifs hb1 b2 more rest n pp pp1 pp2
        ps ps1 ps2 body later hb2 hmore hv hf hn,
    fun n pp pp1 ps ps1 c t0 t1 t2 after v hc hv hn =>
      duplicate_else_text fuel n pp pp1 ps ps1 c t0 t1 t2 after v hc hv hn⟩

/-- Witness of the amended C22. In `#ifdef X` / a / `#elif 0` / `#ifdef Y` / y /
`#endif` / `#else` / b / `#else` / c / `#endif` / d with nothing defined the `#else`
branch is taken: the second `#else` is reached with `No` on top of the stack and is
given the error once, and the group ends at `#endif`. In `#ifndef X` / a / `#elif 0` /
w / `#elif 1` / x / `#else` / b / `#else` / c / `#elif 1` / e / `#endif` / d the first
branch is taken, and the `#elif 0` that ends it skips to the end of the group
without a message. In `#if 0` / a / `#else` / b / `#else` / c / `#endif` / d the run
ends with the one error and b, c and d active. -/
theorem duplicate_else_witness :
    (∃ ppa psa na,
      Prescan 2 12 {}
          { lines := GroupWithTwoElse (.ifdefLine "X".toList) [⟨false, ["a".toList]⟩]
              [(["0".toList], [IfdefLine "Y".toList, ⟨false, ["y".toList]⟩, EndifLine])]
              [⟨false, ["b".toList]⟩] [⟨false, ["c".toList]⟩, EndifLine, ⟨false, ["d".toList]⟩] } =
        Prescan 2 (na + 1) ppa psa ∧
      psa.lines = [ElseLine, ⟨false, ["c".toList]⟩, EndifLine, ⟨false, ["d".toList]⟩] ∧
      3 ≤ na ∧ ppa.ifStack = [.No] ∧
      Prescan 2 (na + 1) ppa psa =
        Prescan 2 na ppa
          ({ psa with lines := [⟨false, ["c".toList]⟩, EndifLine, ⟨false, ["d".toList]⟩] }.Say
            .error "#else: already appeared within this #if, #ifdef, or #ifndef") ∧
      ∃ ppb psb nb,
        Prescan 2 na ppa
          ({ psa with lines := [⟨false, ["c".toList]⟩, EndifLine, ⟨false, ["d".toList]⟩] }.Say
            .error "#else: already appeared within this #if, #ifdef, or #ifndef") =
          Prescan 2 nb ppb psb ∧
        psb.lines = [⟨false, ["d".toList]⟩] ∧ 1 ≤ nb ∧ ppb.ifStack = []) ∧
    (∃ ppa psa na,
      Prescan 2 14 {}
          { lines := GroupWithTwoElse (.ifndefLine "X".toList) [⟨false, ["a".toList]⟩]
              [(["0".toList], [⟨false, ["w".toList]⟩]), (["1".toList], [⟨false, ["x".toList]⟩])]
              [⟨false, ["b".toList]⟩]
              ([⟨false, ["c".toList]⟩] ++ (Branches [(some ["1".toList], [⟨false, ["e".toList]⟩])] ++
                EndifLine :: [⟨false, ["d".toList]⟩])) } =
        Prescan 2 (na + 1) ppa psa ∧
      psa.lines = ElifBlocks
          [(["0".toList], [⟨false, ["w".toList]⟩]), (["1".toList], [⟨false, ["x".toList]⟩])] ++
        ElseLine :: ([⟨false, ["b".toList]⟩] ++ ElseLine :: ([⟨false, ["c".toList]⟩] ++
          (Branches [(some ["1".toList], [⟨false, ["e".toList]⟩])] ++
            EndifLine :: [⟨false, ["d".toList]⟩]))) ∧
      1 ≤ na ∧ ppa.ifStack = [.Yes] ∧
      Prescan 2 (na + 1) ppa psa =
        Prescan 2 na { ppa with ifStack := [] } { psa with lines := [⟨false, ["d".toList]⟩] }) ∧
    Prescan 2 8 {}
        { lines := IfLine ["0".toList] :: (TextLines [["a".toList]] ++ ElseLine ::
            (TextLines [["b".toList]] ++ ElseLine :: (TextLines [["c".toList]] ++
              EndifLine :: TextLines [["d".toList]]))) } =
      .done ({},
        { messages :=
            [⟨.error, "#else: already appeared within this #if, #ifdef, or #ifndef"⟩],
          active := [["b".toList], ["c".toList], ["d".toList]] }) := by
  refine ⟨?_, ?_, ?_⟩
  · obtain ⟨ppa, psa, na, h1, h2, h3, h4, h5, h6⟩ :=
      (duplicate_else 2 (.ifdefLine "X".toList) [⟨false, ["a".toList]⟩]
        [(["0".toList], [IfdefLine "Y".toList, ⟨false, ["y".toList]⟩, EndifLine])]
        [⟨false, ["b".toList]⟩] (by decide) (Nested.text _ _ Nested.nil)
        (fun e he => by
          rw [List.mem_singleton] at he
          subst he
          exact ⟨by decide, Nested.block (IfdefLine "Y".toList) [⟨false, ["y".toList]⟩]
            [EndifLine] [] (IsOpener.ifdefLine _ (by decide)) (Nested.text _ _ Nested.nil)
            Nested.endif Nested.nil⟩)
        (Nested.text _ _ Nested.nil)).1
        [⟨false, ["c".toList]⟩, EndifLine, ⟨false, ["d".toList]⟩] 12 {} {} {} {} {} {}
        (by decide) rfl (by decide)
    exact ⟨ppa, psa, na, h1, h2, h3, h4, h5,
      h6 [⟨false, ["c".toList]⟩] [⟨false, ["d".toList]⟩] rfl (Nested.text _ _ Nested.nil)⟩
  · exact (duplicate_else 2 (.ifndefLine "X".toList) [⟨false, ["a".toList]⟩]
      [(["0".toList], [⟨false, ["w".toList]⟩]), (["1".toList], [⟨false, ["x".toList]⟩])]
      [⟨false, ["b".toList]⟩] (by decide) (Nested.text _ _ Nested.nil)
      (fun e he => by
        rcases List.mem_cons.1 he with he | he
        · subst he
          exact ⟨by decide, Nested.text _ _ Nested.nil⟩
        · rw [List.mem_singleton] at he
          subst he
          exact ⟨by decide, Nested.text _ _ Nested.nil⟩)
      (Nested.text _ _ Nested.nil)).2.1
      [⟨false, ["c".toList]⟩] [(some ["1".toList], [⟨false, ["e".toList]⟩])]
      [⟨false, ["d".toList]⟩] 14 {} {} {} {} (Nested.text _ _ Nested.nil)
      (fun e he => by
        rw [List.mem_singleton] at he
        subst he
        exact ⟨fun c hc => by
          simp only [Option.some.injEq] at hc
          subst hc
          decide, Nested.text _ _ Nested.nil⟩)
      (by decide) (by decide)
  · exact ((duplicate_else 2 (.ifLine ["0".toList]) [] [] [] (by decide) Nested.nil
      (fun e he => by cases he) Nested.nil).2.2.2 8 {} {} {} {} ["0".toList] [["a".toList]]
      [["b".toList]] [["c".toList]] [["d".toList]] false (by decide) (by decide)
      (by decide)).trans (by decide)

/-- Counterexample to C22 as stated: in `#if 1` / a / `#else` / b / `#else` / c /
`#endif` / d, where the first branch is taken, the run ends without any message: no
error is reported for the second `#else`. -/
theorem duplicate_else_counterexample :
    Prescan 2 8 {}
        { lines := [IfLine ["1".toList], ⟨false, ["a".toList]⟩, ElseLine,
            ⟨false, ["b".toList]⟩, ElseLine, ⟨false, ["c".toList]⟩, EndifLine,
            ⟨false, ["d".toList]⟩] } =
      .done ({}, { messages := [], active := [["a".toList], ["d".toList]] }) := by
  decide

/-! ## Inputs on which the evaluator and `#define` do not return -/

/-- C31, the behaviour of the code at the failing inputs: whatever the fuel, a binary
operator token where an operand is expected (`* 3`, `, 1`, `1 + / 2`) is taken for a
unary operator, its operand is evaluated, and the `switch` on unary operators reaches
`CRASH_NO_CASE`; a literal beyond 2^63 - 1 makes `std::stoll` raise
`std::out_of_range`; `IsIfPredicateTrue` and `Directive` on `#if * 3` end the same
way. A literal with trailing junk (`12abc`) does yield the error and the value 0. -/
theorem operator_as_operand_aborts (fuel : Nat) :
    ExpressionValue (fuel + 2) ["*".toList, "3".toList] 0 0 none = .crash .crashNoCase ∧
    ExpressionValue (fuel + 2) [",".toList, "1".toList] 0 0 none = .crash .crashNoCase ∧
    ExpressionValue (fuel + 3) ["1".toList, "+".toList, "/".toList, "2".toList] 0 0 none =
      .crash .crashNoCase ∧
    ExpressionValue (fuel + 1) ["9223372036854775808".toList] 0 0 none = .crash .outOfRange ∧
    IsIfPredicateTrue (fuel + 2)
        ["#".toList, "if".toList, " ".toList, "*".toList, " ".toList, "3".toList] 3 3 {} {} =
      .crash .crashNoCase ∧
    Directive (fuel + 2)
        ["#".toList, "if".toList, " ".toList, "*".toList, " ".toList, "3".toList] {} {} =
      .crash .crashNoCase ∧
    ExpressionValue (fuel + 1) ["12abc".toList] 0 0 none =
      .done ⟨0, 0, exprError "Uninterpretable numeric constant"⟩ := by
  refine ⟨rfl, rfl, rfl, rfl, rfl, rfl, rfl⟩

/-- C37, the behaviour of the code at the failing input: on `#define F(`, with or
without a trailing blank, the `#define` case skips the blanks after the parenthesis,
which takes it to the end of the directive, and reads the token at that index
(`dir.TokenAt(j).OnlyNonBlank() != ')'` with `j` equal to the number of tokens): a
read beyond the end, whatever the fuel, the store and the prescanner, and no error
is reported. A list that ends after a name or after a comma is reported as
"#define: malformed argument list". -/
theorem define_unclosed_reads_past_end (fuel : Nat) (pp : Preprocessor) (ps : Prescanner) :
    Directive fuel ["#".toList, "define".toList, " ".toList, "F".toList, "(".toList] pp ps =
      .crash .outOfRange ∧
    Directive fuel ["#".toList, "define".toList, " ".toList, "F".toList, "(".toList,
        " ".toList] pp ps = .crash .outOfRange ∧
    Directive fuel ["#".toList, "define".toList, " ".toList, "F".toList, "(".toList,
        "a".toList] pp ps =
      .done (pp.erase "F".toList, ps.Say .error "#define: malformed argument list") ∧
    Directive fuel ["#".toList, "define".toList, " ".toList, "F".toList, "(".toList,
        "a".toList, ",".toList] pp ps =
      .done (pp.erase "F".toList, ps.Say .error "#define: malformed argument list") := by
  refine ⟨rfl, rfl, rfl, rfl⟩

/-! ## A function-like name without its parenthesis -/

/-- C32, the behaviour of the code at the failing input: with `#define N 5` and
`#define F(x) x` in the store and a non-null out-parameter, the replacement of
`F + N` stops at `F`, although the token `+` follows it: the offset 0 is reported and
the rest of the input is returned as it is, `N` included; in `N F x N` the offset is
2, the index of `F` in the result, and the last `N` is not replaced. With the null
out-parameter the name is copied and the replacement goes on (`F + 5`). -/
theorem partial_offset_before_other_token (fuel : Nat) (ps : Prescanner) :
    MacroReplacement (fuel + 1) ps RescanStore
        ["F".toList, " ".toList, "+".toList, " ".toList, "N".toList] (some none) false =
      .done ⟨some ["F".toList, " ".toList, "+".toList, " ".toList, "N".toList],
        some (some 0), RescanStore⟩ ∧
    MacroReplacement (fuel + 2) ps RescanStore
        ["N".toList, " ".toList, "F".toList, " ".toList, "x".toList, " ".toList, "N".toList]
        (some none) false =
      .done ⟨some ["5".toList, " ".toList, "F".toList, " ".toList, "x".toList, " ".toList,
        "N".toList], some (some 2), RescanStore⟩ ∧
    MacroReplacement (fuel + 2) ps RescanStore
        ["F".toList, " ".toList, "+".toList, " ".toList, "N".toList] none false =
      .done ⟨some ["F".toList, " ".toList, "+".toList, " ".toList, "5".toList], none,
        RescanStore⟩ := by
  refine ⟨rfl, rfl, rfl⟩

/-- C33, the behaviour of the code at the failing input: the directives
`#define N 5`, `#define F(x) x` and `#define G F + N` build the store, and the
top-level replacement of the one-token input `G` yields `F + N`, not `F + 5`: the
rescan of the body stops at `F` with a partial call, and with no input left after `G`
the rest of the body is appended without being replaced. When a token follows `G`,
the body is rescanned with it and `N` is replaced (`F + 5;`). -/
theorem object_body_rescan_stops (fuel : Nat) (ps : Prescanner) :
    Prescan 0 3 {}
        { lines := [⟨true, ["#".toList, "define".toList, " ".toList, "N".toList, " ".toList,
              "5".toList]⟩,
            ⟨true, DefineTokens "F".toList ["x".toList] ["x".toList]⟩,
            ⟨true, ["#".toList, "define".toList, " ".toList, "G".toList, " ".toList,
              "F".toList, " ".toList, "+".toList, " ".toList, "N".toList]⟩] } =
      .done (RescanStore, {}) ∧
    MacroReplacement (fuel + 2) ps RescanStore ["G".toList] none false =
      .done ⟨some ["F".toList, " ".toList, "+".toList, " ".toList, "N".toList], none,
        RescanStore⟩ ∧
    MacroReplacement (fuel + 4) ps RescanStore ["G".toList, ";".toList] none false =
      .done ⟨some ["F".toList, " ".toList, "+".toList, " ".toList, "5".toList, ";".toList],
        none, RescanStore⟩ := by
  refine ⟨by decide, rfl, rfl⟩

/-! ## Grouping of binary operators -/

theorem opNameMap_ne_dot (s : Token) (op : Operator) (h : opNameMap s = some op) : s ≠ ['.'] := by
  rintro rfl
  have h0 : opNameMap ['.'] = none := by decide
  rw [h0] at h
  cases h

/-- Three literals and two binary operators, the second of which binds at least as
tightly as the right operand of the first demands: the second operator is applied
first. -/
theorem ExpressionValue_group_right (ta tb tc s1 s2 : Token) (a b c : Int) (op1 op2 : Operator)
    (fuel : Nat) (ha : IsLiteral ta a) (hb : IsLiteral tb b) (hc : IsLiteral tc c)
    (h1 : opNameMap s1 = some op1) (h2 : opNameMap s2 = some op2)
    (hbin1 : Operator.POWER.code ≤ op1.code) (hbin2 : Operator.POWER.code ≤ op2.code)
    (hsel1 : op1 ≠ .SELECT) (hsel2 : op2 ≠ .SELECT)
    (hp : operandPrecedence op1 ≤ precedence op2)
    (v2 v : Int) (e : Option Message)
    (happ2 : ApplyBinary op2 b c none = .done (v2, none))
    (happ1 : ApplyBinary op1 a v2 none = .done (v, e)) :
    ExpressionValue (fuel + 3) [ta, s1, tb, s2, tc] 0 0 none = .done ⟨v, 5, e⟩ := by
  have d1 := opNameMap_ne_dot s1 op1 h1
  have d2 := opNameMap_ne_dot s2 op2 h2
  generalize htk : [ta, s1, tb, s2, tc] = tk
  have hlen : tk.length = 5 := by rw [← htk]; rfl
  have t0 : TokenAt tk 0 = ta := by rw [← htk]; rfl
  have t1 : TokenAt tk 1 = s1 := by rw [← htk]; rfl
  have t2 : TokenAt tk 2 = tb := by rw [← htk]; rfl
  have t3 : TokenAt tk 3 = s2 := by rw [← htk]; rfl
  have t4 : TokenAt tk 4 = tc := by rw [← htk]; rfl
  have o1 : BinaryOperatorText tk 1 = (s1, 1) := by
    rw [BinaryOperatorText_symbol tk 1 (by rw [t1]; exact d1), t1]
  have o3 : BinaryOperatorText tk 3 = (s2, 1) := by
    rw [BinaryOperatorText_symbol tk 3 (by rw [t3]; exact d2), t3]
  have q1 : operandPrecedence op1 ≤ 14 := by
    cases op1 <;> first | (simp [Operator.code] at hbin1; done) | decide
  have q2 : operandPrecedence op2 ≤ 14 := by
    cases op2 <;> first | (simp [Operator.code] at hbin2; done) | decide
  have p1 : 0 ≤ precedence op1 := by cases op1 <;> decide
  have e3 : ExpressionValue (fuel + 1) tk (operandPrecedence op2) 4 none = .done ⟨c, 5, none⟩ :=
    ExpressionValue_lastLiteral fuel tk _ 4 none c (by omega) (by omega) (t4 ▸ hc)
  have e2 : ExpressionValue (fuel + 2) tk (operandPrecedence op1) 2 none =
      .done ⟨v2, 5, none⟩ := by
    rw [ExpressionValue_literal (fuel + 1) tk _ 2 none b (by omega) (by omega) (t2 ▸ hb)]
    rw [BinaryLoop_binary _ tk _ _ b 3 none op2 c 5 v2 none (by omega) (by omega)
      (by rw [o3]; exact h2) hbin2 hp hsel2 (by rw [o3]; exact e3) happ2]
    exact BinaryLoop_end _ _ _ _ _ _ _ (by simp [hlen])
  rw [ExpressionValue_literal (fuel + 2) tk 0 0 none a (by omega) (by decide) (t0 ▸ ha)]
  rw [BinaryLoop_binary _ tk 0 _ a 1 none op1 v2 5 v e (by omega) (by omega)
    (by rw [o1]; exact h1) hbin1 p1 hsel1 (by rw [o1]; exact e2) happ1]
  exact BinaryLoop_end _ _ _ _ _ _ _ (by simp [hlen])

/-- Three literals and two binary operators, the second of which binds less tightly
than the right operand of the first demands: the first operator is applied first. -/
theorem ExpressionValue_group_left (ta tb tc s1 s2 : Token) (a b c : Int) (op1 op2 : Operator)
    (fuel : Nat) (ha : IsLiteral ta a) (hb : IsLiteral tb b) (hc : IsLiteral tc c)
    (h1 : opNameMap s1 = some op1) (h2 : opNameMap s2 = some op2)
    (hbin1 : Operator.POWER.code ≤ op1.code) (hbin2 : Operator.POWER.code ≤ op2.code)
    (hsel1 : op1 ≠ .SELECT) (hsel2 : op2 ≠ .SELECT)
    (hp : precedence op2 < operandPrecedence op1)
    (v1 v : Int) (e : Option Message)
    (happ1 : ApplyBinary op1 a b none = .done (v1, none))
    (happ2 : ApplyBinary op2 v1 c none = .done (v, e)) :
    ExpressionValue (fuel + 3) [ta, s1, tb, s2, tc] 0 0 none = .done ⟨v, 5, e⟩ := by
  have d1 := opNameMap_ne_dot s1 op1 h1
  have d2 := opNameMap_ne_dot s2 op2 h2
  generalize htk : [ta, s1, tb, s2, tc] = tk
  have hlen : tk.length = 5 := by rw [← htk]; rfl
  have t0 : TokenAt tk 0 = ta := by rw [← htk]; rfl
  have t1 : TokenAt tk 1 = s1 := by rw [← htk]; rfl
  have t2 : TokenAt tk 2 = tb := by rw [← htk]; rfl
  have t3 : TokenAt tk 3 = s2 := by rw [← htk]; rfl
  have t4 : TokenAt tk 4 = tc := by rw [← htk]; rfl
  have o1 : BinaryOperatorText tk 1 = (s1, 1) := by
    rw [BinaryOperatorText_symbol tk 1 (by rw [t1]; exact d1), t1]
  have o3 : BinaryOperatorText tk 3 = (s2, 1) := by
    rw [BinaryOperatorText_symbol tk 3 (by rw [t3]; exact d2), t3]
  have q1 : operandPrecedence op1 ≤ 14 := by
    cases op1 <;> first | (simp [Operator.code] at hbin1; done) | decide
  have q2 : operandPrecedence op2 ≤ 14 := by
    cases op2 <;> first | (simp [Operator.code] at hbin2; done) | decide
  have p1 : 0 ≤ precedence op1 := by cases op1 <;> decide
  have p2 : 0 ≤ precedence op2 := by cases op2 <;> decide
  have e3 : ExpressionValue (fuel + 2) tk (operandPrecedence op2) 4 none = .done ⟨c, 5, none⟩ :=
    ExpressionValue_lastLiteral (fuel + 1) tk _ 4 none c (by omega) (by omega) (t4 ▸ hc)
  have e2 : ExpressionValue (fuel + 2) tk (operandPrecedence op1) 2 none =
      .done ⟨b, 3, none⟩ := by
    rw [ExpressionValue_literal (fuel + 1) tk _ 2 none b (by omega) (by omega) (t2 ▸ hb)]
    exact BinaryLoop_stop _ tk _ _ b 3 none op2 (by omega) (by rw [o3]; exact h2) hp
  rw [ExpressionValue_literal (fuel + 2) tk 0 0 none a (by omega) (by decide) (t0 ▸ ha)]
  rw [BinaryLoop_binary _ tk 0 _ a 1 none op1 b 3 v1 none (by omega) (by omega)
    (by rw [o1]; exact h1) hbin1 p1 hsel1 (by rw [o1]; exact e2) happ1]
  rw [BinaryLoop_binary _ tk 0 _ v1 3 none op2 c 5 v e (by omega) (by omega)
    (by rw [o3]; exact h2) hbin2 p2 hsel2 (by rw [o3]; exact e3) happ2]
  exact BinaryLoop_end _ _ _ _ _ _ _ (by simp [hlen])

theorem ApplyBinary_subtract_int64 (a b : Int) (ha : IsInt64 a) (hb : IsInt64 b)
    (hr : IsInt64 (a - b)) :
    ApplyBinary .SUBTRACT a b none =
      .done (a - b, if ¬ (a < 0 ↔ b < 0) then exprError "overflow in subtraction" else none) := by
  have h := subtract_overflow_test a b ha hb
  have hw : wrap64 (a - b) = a - b := wrap64_of_range hr.1 hr.2
  unfold ApplyBinary
  simp only []
  by_cases hc : (a < 0 ↔ b < 0)
  · have hn : ¬ ((decide (a < 0) != decide (b < 0) &&
        decide (a < 0) == decide (wrap64 (a - b) < 0)) = true) := fun hx => (h.mp hx).1 hc
    rw [if_neg hn, if_neg (not_not.mpr hc), hw]
  · have hy : (decide (a < 0) != decide (b < 0) &&
        decide (a < 0) == decide (wrap64 (a - b) < 0)) = true := h.mpr ⟨hc, hr.1, hr.2⟩
    rw [if_pos hy, if_pos hc, hw]

/-- C38. Grouping of binary operators of equal precedence, for three integer literals
`a`, `b`, `c` and two operator tokens between them. Two operators of the additive
group (`+`, `-`) or two of the multiplicative group (`*`, `/`, `%`) group to the
right: the second is applied to `b` and `c` first, and the first to `a` and that
result. So `a - b - c` evaluates to `a - (b - c)` and `a - b + c` to `a - (b + c)`
(when that value fits 64 bits; for `b < c` the `SUBTRACT` case adds its error to the
value, as it does for every difference of a non-negative and a negative operand).
Two shift operators (`<<`, `>>`) group to the left: the first is applied to `a` and
`b`, and the second to that result and `c`. -/
theorem equal_precedence_grouping (ta tb tc : Token) (a b c : Int) (fuel : Nat)
    (ha : IsLiteral ta a) (hb : IsLiteral tb b) (hc : IsLiteral tc c) :
    (∀ (s1 s2 : Token) (op1 op2 : Operator) (v2 v : Int) (e : Option Message),
      opNameMap s1 = some op1 → opNameMap s2 = some op2 →
      ((op1 ∈ [Operator.ADD, .SUBTRACT] ∧ op2 ∈ [Operator.ADD, .SUBTRACT]) ∨
        (op1 ∈ [Operator.TIMES, .DIVIDE, .MODULUS] ∧
          op2 ∈ [Operator.TIMES, .DIVIDE, .MODULUS])) →
      ApplyBinary op2 b c none = .done (v2, none) →
      ApplyBinary op1 a v2 none = .done (v, e) →
      ExpressionValue (fuel + 3) [ta, s1, tb, s2, tc] 0 0 none = .done ⟨v, 5, e⟩) ∧
    (a - (b - c) ≤ int64Max →
      ExpressionValue (fuel + 3) [ta, "-".toList, tb, "-".toList, tc] 0 0 none =
        .done ⟨a - (b - c), 5,
          if b < c then exprError "overflow in subtraction" else none⟩) ∧
    (b + c ≤ int64Max →
      ExpressionValue (fuel + 3) [ta, "-".toList, tb, "+".toList, tc] 0 0 none =
        .done ⟨a - (b + c), 5, none⟩) ∧
    (∀ (s1 s2 : Token) (op1 op2 : Operator) (v1 v : Int) (e : Option Message),
      opNameMap s1 = some op1 → opNameMap s2 = some op2 →
      op1 ∈ [Operator.LEFTSHIFT, .RIGHTSHIFT] → op2 ∈ [Operator.LEFTSHIFT, .RIGHTSHIFT] →
      ApplyBinary op1 a b none = .done (v1, none) →
      ApplyBinary op2 v1 c none = .done (v, e) →
      ExpressionValue (fuel + 3) [ta, s1, tb, s2, tc] 0 0 none = .done ⟨v, 5, e⟩) := by
  have ra := ha.range
  have rb := hb.range
  have rc := hc.range
  have hright : ∀ (s1 s2 : Token) (op1 op2 : Operator) (v2 v : Int) (e : Option Message),
      opNameMap s1 = some op1 → opNameMap s2 = some op2 →
      ((op1 ∈ [Operator.ADD, .SUBTRACT] ∧ op2 ∈ [Operator.ADD, .SUBTRACT]) ∨
        (op1 ∈ [Operator.TIMES, .DIVIDE, .MODULUS] ∧
          op2 ∈ [Operator.TIMES, .DIVIDE, .MODULUS])) →
      ApplyBinary op2 b c none = .done (v2, none) →
      ApplyBinary op1 a v2 none = .done (v, e) →
      ExpressionValue (fuel + 3) [ta, s1, tb, s2, tc] 0 0 none = .done ⟨v, 5, e⟩ := by
    intro s1 s2 op1 op2 v2 v e h1 h2 hg happ2 happ1
    have hfacts : Operator.POWER.code ≤ op1.code ∧ Operator.POWER.code ≤ op2.code ∧
        op1 ≠ .SELECT ∧ op2 ≠ .SELECT ∧ operandPrecedence op1 ≤ precedence op2 := by
      simp only [List.mem_cons, List.mem_singleton, List.not_mem_nil, or_false] at hg
      rcases hg with ⟨g1, g2⟩ | ⟨g1, g2⟩
      · rcases g1 with rfl | rfl <;> rcases g2 with rfl | rfl <;> decide
      · rcases g1 with rfl | rfl | rfl <;> rcases g2 with rfl | rfl | rfl <;> decide
    obtain ⟨f1, f2, f3, f4, f5⟩ := hfacts
    exact ExpressionValue_group_right ta tb tc s1 s2 a b c op1 op2 fuel ha hb hc h1 h2 f1 f2 f3
      f4 f5 v2 v e happ2 happ1
  have ia : IsInt64 a := ⟨by unfold int64Min; omega, ra.2⟩
  have ib : IsInt64 b := ⟨by unfold int64Min; omega, rb.2⟩
  have ic : IsInt64 c := ⟨by unfold int64Min; omega, rc.2⟩
  refine ⟨hright, ?_, ?_, ?_⟩
  · intro hr
    have ibc : IsInt64 (b - c) := by
      unfold IsInt64 int64Min int64Max at *
      omega
    have iabc : IsInt64 (a - (b - c)) := by
      unfold IsInt64 int64Min int64Max at *
      omega
    have e2 := ApplyBinary_subtract_int64 b c ib ic ibc
    rw [if_neg (by omega)] at e2
    have e1 := ApplyBinary_subtract_int64 a (b - c) ia ibc iabc
    have hcond : (¬ (a < 0 ↔ b - c < 0)) ↔ b < c := by
      constructor
      · intro h
        by_contra hn
        exact h ⟨fun h1 => by omega, fun h2 => by omega⟩
      · intro h hiff
        have := hiff.mpr (by omega)
        omega
    have e1b : ApplyBinary .SUBTRACT a (b - c) none =
        .done (a - (b - c), if b < c then exprError "overflow in subtraction" else none) := by
      rw [e1]
      by_cases hbc : b < c
      · rw [if_pos (hcond.mpr hbc), if_pos hbc]
      · rw [if_neg (fun h => hbc (hcond.mp h)), if_neg hbc]
    exact hright "-".toList "-".toList .SUBTRACT .SUBTRACT (b - c) _ _ rfl rfl
      (Or.inl ⟨by decide, by decide⟩) e2 e1b
  · intro hr
    have e2 : ApplyBinary .ADD b c none = .done (b + c, none) :=
      ApplyBinary_add none ib ic ⟨by unfold int64Min; omega, hr⟩
    have ibc : IsInt64 (b + c) := ⟨by unfold int64Min; omega, hr⟩
    have iabc : IsInt64 (a - (b + c)) := by
      unfold IsInt64 int64Min int64Max at *
      omega
    have e1 := ApplyBinary_subtract_int64 a (b + c) ia ibc iabc
    rw [if_neg (by
      intro h
      exact h ⟨fun h1 => by omega, fun h2 => by omega⟩)] at e1
    exact hright "-".toList "+".toList .SUBTRACT .ADD (b + c) _ _ rfl rfl
      (Or.inl ⟨by decide, by decide⟩) e2 e1
  · intro s1 s2 op1 op2 v1 v e h1 h2 g1 g2 happ1 happ2
    have hfacts : Operator.POWER.code ≤ op1.code ∧ Operator.POWER.code ≤ op2.code ∧
        op1 ≠ .SELECT ∧ op2 ≠ .SELECT ∧ precedence op2 < operandPrecedence op1 := by
      simp only [List.mem_cons, List.mem_singleton, List.not_mem_nil, or_false] at g1 g2
      rcases g1 with rfl | rfl <;> rcases g2 with rfl | rfl <;> decide
    obtain ⟨f1, f2, f3, f4, f5⟩ := hfacts
    exact ExpressionValue_group_left ta tb tc s1 s2 a b c op1 op2 fuel ha hb hc h1 h2 f1 f2 f3
      f4 f5 v1 v e happ1 happ2

/-- Witness of C38: `10 - 5 - 2` evaluates to 7 and `10 - 5 + 2` to 3, `100 / 10 / 5`
to 50, and `1 << 2 << 3` to 32. -/
theorem equal_precedence_grouping_witness :
    ExpressionValue 3 ["10".toList, "-".toList, "5".toList, "-".toList, "2".toList] 0 0 none =
      .done ⟨7, 5, none⟩ ∧
    ExpressionValue 3 ["10".toList, "-".toList, "5".toList, "+".toList, "2".toList] 0 0 none =
      .done ⟨3, 5, none⟩ ∧
    ExpressionValue 3 ["100".toList, "/".toList, "10".toList, "/".toList, "5".toList] 0 0 none =
      .done ⟨50, 5, none⟩ ∧
    ExpressionValue 3 ["1".toList, "<<".toList, "2".toList, "<<".toList, "3".toList] 0 0 none =
      .done ⟨32, 5, none⟩ := by
  have h1 := equal_precedence_grouping "10".toList "5".toList "2".toList 10 5 2 0
    (by constructor <;> decide) (by constructor <;> decide) (by constructor <;> decide)
  have h2 := equal_precedence_grouping "100".toList "10".toList "5".toList 100 10 5 0
    (by constructor <;> decide) (by constructor <;> decide) (by constructor <;> decide)
  have h3 := equal_precedence_grouping "1".toList "2".toList "3".toList 1 2 3 0
    (by constructor <;> decide) (by constructor <;> decide) (by constructor <;> decide)
  exact ⟨(h1.2.1 (by decide)).trans (by decide), (h1.2.2.1 (by decide)).trans (by decide),
    h2.1 "/".toList "/".toList .DIVIDE .DIVIDE 2 50 none rfl rfl
      (Or.inr ⟨by decide, by decide⟩) (by decide) (by decide),
    h3.2.2.2 "<<".toList "<<".toList .LEFTSHIFT .LEFTSHIFT 4 32 none rfl rfl (by decide)
      (by decide) (by decide) (by decide)⟩

/-! ## Exponentiation -/

/-- The powers of a non-zero base below a representable power are representable. -/
theorem pow_int64_of_le (b : Int) (hb0 : b ≠ 0) (j N : Nat) (hj : j ≤ N)
    (hN : IsInt64 (b ^ N)) : IsInt64 (b ^ j) := by
  have h1 : 1 ≤ |b| := Int.one_le_abs hb0
  have hle : |b| ^ j ≤ |b| ^ N := pow_le_pow_right₀ h1 hj
  rw [← abs_pow, ← abs_pow] at hle
  have hNabs : |b ^ N| ≤ 2 ^ 63 := by
    unfold IsInt64 int64Min int64Max at hN
    rw [abs_le]
    constructor <;> omega
  by_cases hlt : |b ^ j| < 2 ^ 63
  · unfold IsInt64 int64Min int64Max
    rw [abs_lt] at hlt
    constructor <;> omega
  · have heq : |b ^ j| = |b ^ N| := by omega
    rw [abs_pow, abs_pow] at heq
    by_cases hone : |b| = 1
    · exfalso
      apply hlt
      rw [abs_pow, hone, one_pow]
      norm_num
    · have h2 : 1 < |b| := lt_of_le_of_ne h1 (Ne.symm hone)
      have hinj := pow_right_injective₀ (by omega : 0 < |b|) hone heq
      rw [hinj]
      exact hN

theorem PowerLoop_exact (b : Int) (hb0 : b ≠ 0) (error : Option Message) :
    ∀ (n k : Nat), IsInt64 (b ^ (k + n)) →
      PowerLoop n (b ^ k) b error = .done (b ^ (k + n), error) := by
  intro n
  induction n with
  | zero => intro k _; rfl
  | succ n ih =>
    intro k hN
    have hk1 : IsInt64 (b ^ (k + 1)) := pow_int64_of_le b hb0 (k + 1) (k + (n + 1)) (by omega) hN
    have hw : wrap64 (b ^ k * b) = b ^ (k + 1) := by
      rw [← pow_succ]
      exact wrap64_of_range hk1.1 hk1.2
    have hd : div64 (b ^ (k + 1)) b = .done (b ^ k) := by
      unfold div64
      rw [if_neg]
      · rw [pow_succ, Int.mul_tdiv_cancel _ hb0]
      · rintro (h | ⟨h1, h2⟩)
        · exact hb0 h
        · subst h2
          rcases neg_one_pow_eq_or ℤ (k + 1) with h3 | h3 <;> rw [h3] at h1 <;>
            revert h1 <;> decide
    rw [PowerLoop, hw, hd]
    simp only [bne_self_eq_false, Bool.false_eq_true, if_false]
    have h2 := ih (k + 1) (by rw [show k + 1 + n = k + (n + 1) by omega]; exact hN)
    rw [h2, show k + 1 + n = k + (n + 1) by omega]

/-- The `POWER` case on a non-zero base and an exponent that is not negative, when the
power fits 64 bits: the power, without error. -/
theorem ApplyBinary_power_exact (b e : Int) (hb0 : b ≠ 0) (he : 0 ≤ e)
    (hr : IsInt64 (b ^ e.toNat)) :
    ApplyBinary .POWER b e none = .done (b ^ e.toNat, none) := by
  unfold ApplyBinary
  simp only [hb0, if_false]
  by_cases h1 : b ≠ 1 ∧ e ≠ 1
  · rw [if_pos h1]
    by_cases h2 : e ≤ 0
    · have : e = 0 := by omega
      subst this
      simp [boolToInt]
    · rw [if_neg h2]
      have := PowerLoop_exact b hb0 none e.toNat 0 (by rw [Nat.zero_add]; exact hr)
      rw [pow_zero, Nat.zero_add] at this
      exact this
  · rw [if_neg h1]
    by_cases hb1 : b = 1
    · subst hb1
      rw [one_pow]
    · have : e = 1 := by
        by_contra hne
        exact h1 ⟨hb1, hne⟩
      subst this
      simp

/-- The `POWER` case on the base 0. -/
theorem ApplyBinary_power_zero (e : Int) :
    ApplyBinary .POWER 0 e none =
      .done (0, if e < 0 then exprError "0 ** negative power" else none) := by
  unfold ApplyBinary
  simp

/-- C39. Exponentiation: for operands of the 64-bit values `b` and `e` with the token
`**` between them, when `b` is not 0, `e` is not negative and the power `b ^ e` fits
64 bits, `ExpressionValue` completes with the value `b ^ e` and no error; when `b` is
0 it completes with the value 0 for every exponent (`0 ** 0` included), and the error
"0 ** negative power" is reported exactly when `e < 0`. -/
theorem exponentiation_exact (fuel : Nat) (token : TokenSequence) (m : Int)
    (s p q : Nat) (b e : Int) (hm : m ≤ 13)
    (hL : IsOperand (fuel + 2) token s p b) (hop : TokenAt token p = ['*', '*'])
    (hR : IsOperand (fuel + 1) token (p + 1) q e) (hq : token.length ≤ q) :
    (b ≠ 0 → 0 ≤ e → IsInt64 (b ^ e.toNat) →
      ExpressionValue (fuel + 2) token m s none = .done ⟨b ^ e.toNat, q, none⟩) ∧
    (b = 0 →
      ExpressionValue (fuel + 2) token m s none =
        .done ⟨0, q, if e < 0 then exprError "0 ** negative power" else none⟩) := by
  have hp := lt_of_TokenAt_ne_nil token p (by rw [hop]; simp)
  have htext := BinaryOperatorText_symbol token p (by rw [hop]; decide)
  rw [hop] at htext
  constructor
  · intro hb0 he hr
    exact ExpressionValue_operands fuel token m s p q b e _ _ .POWER hm hL hp
      (by rw [htext]; rfl) (by decide) (by decide) (by rw [htext]; exact hR) hq
      (ApplyBinary_power_exact b e hb0 he hr)
  · intro hb0
    subst hb0
    exact ExpressionValue_operands fuel token m s p q 0 e _ _ .POWER hm hL hp
      (by rw [htext]; rfl) (by decide) (by decide) (by rw [htext]; exact hR) hq
      (ApplyBinary_power_zero e)

/-- Witness of C39: `(-2) ** 63` is -2^63 without error, `0 ** 0` is 0 without error,
and `0 ** -1` is 0 with the error. -/
theorem exponentiation_exact_witness :
    ExpressionValue 3 ["(".toList, "-".toList, "2".toList, ")".toList, "**".toList,
        "63".toList] 0 0 none = .done ⟨-9223372036854775808, 6, none⟩ ∧
    ExpressionValue 2 ["0".toList, "**".toList, "0".toList] 0 0 none = .done ⟨0, 3, none⟩ ∧
    ExpressionValue 3 ["0".toList, "**".toList, "-".toList, "1".toList] 0 0 none =
      .done ⟨0, 4, exprError "0 ** negative power"⟩ :=
  ⟨((exponentiation_exact 1 ["(".toList, "-".toList, "2".toList, ")".toList, "**".toList,
        "63".toList] 0 0 4 6 (-2) 63 (by decide) (by unfold IsOperand; decide) rfl
        (by unfold IsOperand; decide) (by decide)).1 (by decide) (by decide)
        (by unfold IsInt64; decide)).trans (by decide),
    ((exponentiation_exact 0 ["0".toList, "**".toList, "0".toList] 0 0 1 3 0 0 (by decide)
        (by unfold IsOperand; decide) rfl (by unfold IsOperand; decide) (by decide)).2
        rfl).trans (by decide),
    ((exponentiation_exact 1 ["0".toList, "**".toList, "-".toList, "1".toList] 0 0 1 4 0 (-1)
        (by decide) (by unfold IsOperand; decide) rfl (by unfold IsOperand; decide)
        (by decide)).2 rfl).trans (by decide)⟩

/-! ## Skipping in general -/

theorem Line.directiveName_text (l : Line) (h : l.isDirective = false) :
    l.directiveName = [] := by
  simp [Line.directiveName, h]

theorem Line.directiveName_directive (l : Line) (h : l.isDirective = true) :
    l.directiveName = (GetDirectiveName l.tokens).1 := by
  simp [Line.directiveName, h]

theorem Line.isDirective_of_name (l : Line) (h : l.directiveName ≠ []) :
    l.isDirective = true := by
  cases hd : l.isDirective with
  | true => rfl
  | false => exact absurd (Line.directiveName_text l hd) h

/-- One step of the skipping loop in terms of the name of the directive on the
line. -/
theorem SkipDisabledLoop_cons (fuel : Nat) (dn : List Char) (e : IsElseActive)
    (l : Line) (rest : List Line) (k : Nat) (pp : Preprocessor) (ps : Prescanner) :
    SkipDisabledLoop fuel dn e (l :: rest) k pp ps =
      if l.opensGroup then SkipDisabledLoop fuel dn e rest (k + 1) pp ps
      else if l.directiveName == "endif".toList then
        if k == 0 then .done (pp, { ps with lines := rest })
        else SkipDisabledLoop fuel dn e rest (k - 1) pp ps
      else if e == .Yes && k == 0 then
        if l.directiveName == "else".toList then
          .done ({ pp with ifStack := .No :: pp.ifStack }, { ps with lines := rest })
        else if l.directiveName == "elif".toList then
          match IsIfPredicateTrue fuel l.tokens (GetDirectiveName l.tokens).2
              (l.tokens.length - (GetDirectiveName l.tokens).2) pp { ps with lines := rest } with
          | .done (true, pp1, ps1) => .done ({ pp1 with ifStack := .Yes :: pp1.ifStack }, ps1)
          | .done (false, pp1, ps1) => SkipDisabledLoop fuel dn e rest k pp1 ps1
          | .crash c => .crash c
          | .outOfFuel => .outOfFuel
        else SkipDisabledLoop fuel dn e rest k pp ps
      else SkipDisabledLoop fuel dn e rest k pp ps := by
  rw [SkipDisabledLoop]
  cases hd : l.isDirective with
  | false =>
    have hn := Line.directiveName_text l hd
    simp only [Line.opensGroup, hn]
    simp
  | true =>
    have hn := Line.directiveName_directive l hd
    simp only [Line.opensGroup, hn, Bool.not_true, Bool.false_eq_true, if_false]

/-- The skipping passes over lines that hold no directive able to end it: the nesting
count becomes the depth after these lines, and neither the preprocessor nor the
messages change. -/
theorem SkipDisabledLoop_segment (fuel : Nat) (dn : List Char) (e : IsElseActive) :
    ∀ (skipped rest : List Line) (k d : Nat) (pp : Preprocessor) (ps : Prescanner),
      SkippedDepth (e == .Yes) skipped k = some d →
      SkipDisabledLoop fuel dn e (skipped ++ rest) k pp ps =
        SkipDisabledLoop fuel dn e rest d pp ps := by
  intro skipped
  induction skipped with
  | nil =>
    intro rest k d pp ps h
    simp only [SkippedDepth, Option.some.injEq] at h
    subst h
    rfl
  | cons l more ih =>
    intro rest k d pp ps h
    rw [List.cons_append, SkipDisabledLoop_cons]
    rw [SkippedDepth] at h
    by_cases h1 : l.opensGroup = true
    · rw [if_pos h1] at h ⊢
      exact ih rest _ d pp ps h
    · rw [if_neg h1] at h ⊢
      by_cases h2 : (l.directiveName == "endif".toList) = true
      · rw [if_pos h2] at h ⊢
        by_cases h3 : k = 0
        · rw [if_pos h3] at h
          cases h
        · rw [if_neg h3] at h
          rw [if_neg (by simpa using h3)]
          exact ih rest _ d pp ps h
      · rw [if_neg h2] at h ⊢
        by_cases h4 : (e == IsElseActive.Yes && k == 0) = true
        · rw [if_pos h4]
          by_cases h5 : (l.directiveName == "else".toList ||
              l.directiveName == "elif".toList) = true
          · rw [if_pos (by rw [h4, h5]; rfl)] at h
            cases h
          · rw [if_neg (by rw [h4]; simpa using h5)] at h
            simp only [Bool.or_eq_true, not_or] at h5
            rw [if_neg h5.1, if_neg h5.2]
            exact ih rest _ d pp ps h
        · rw [if_neg h4]
          rw [if_neg (by
            intro hx
            apply h4
            simp only [Bool.and_eq_true] at hx ⊢
            exact hx.1)] at h
          exact ih rest _ d pp ps h

theorem SkipDisabledLoop_input_ends (fuel : Nat) (dn : List Char) (e : IsElseActive)
    (skipped : List Line) (k d : Nat) (pp : Preprocessor) (ps : Prescanner)
    (h : SkippedDepth (e == .Yes) skipped k = some d) :
    SkipDisabledLoop fuel dn e skipped k pp ps =
      .done (pp, { ps with lines := [] }.Say .error
        ("#" ++ String.mk dn ++ ": missing #endif")) := by
  have h1 := SkipDisabledLoop_segment fuel dn e skipped [] k d pp ps h
  rw [List.append_nil] at h1
  rw [h1, SkipDisabledLoop]

theorem SkipDisabledLoop_stop_endif (fuel : Nat) (dn : List Char) (e : IsElseActive)
    (stop : Line) (rest : List Line) (pp : Preprocessor) (ps : Prescanner)
    (h : stop.directiveName = "endif".toList) :
    SkipDisabledLoop fuel dn e (stop :: rest) 0 pp ps = .done (pp, { ps with lines := rest }) := by
  rw [SkipDisabledLoop_cons]
  simp [Line.opensGroup, h]

theorem SkipDisabledLoop_stop_else (fuel : Nat) (dn : List Char)
    (stop : Line) (rest : List Line) (pp : Preprocessor) (ps : Prescanner)
    (h : stop.directiveName = "else".toList) :
    SkipDisabledLoop fuel dn .Yes (stop :: rest) 0 pp ps =
      .done ({ pp with ifStack := .No :: pp.ifStack }, { ps with lines := rest }) := by
  rw [SkipDisabledLoop_cons]
  simp [Line.opensGroup, h]

theorem SkipDisabledLoop_stop_elif (fuel : Nat) (dn : List Char)
    (stop : Line) (rest : List Line) (pp : Preprocessor) (ps : Prescanner)
    (h : stop.directiveName = "elif".toList) :
    SkipDisabledLoop fuel dn .Yes (stop :: rest) 0 pp ps =
      match IsIfPredicateTrue fuel stop.tokens (GetDirectiveName stop.tokens).2
          (stop.tokens.length - (GetDirectiveName stop.tokens).2) pp
          { ps with lines := rest } with
      | .done (true, pp1, ps1) => .done ({ pp1 with ifStack := .Yes :: pp1.ifStack }, ps1)
      | .done (false, pp1, ps1) => SkipDisabledLoop fuel dn .Yes rest 0 pp1 ps1
      | .crash c => .crash c
      | .outOfFuel => .outOfFuel := by
  rw [SkipDisabledLoop_cons]
  have h1 : stop.opensGroup = false := by simp [Line.opensGroup, h]
  have h2 : (stop.directiveName == "endif".toList) = false := by simp [h]
  have h3 : (stop.directiveName == "else".toList) = false := by simp [h]
  have h4 : (stop.directiveName == "elif".toList) = true := by simp [h]
  simp only [h1, h2, h3, h4, Bool.false_eq_true, if_false, if_true, beq_self_eq_true,
    Bool.and_self]

theorem Line.directiveName_elif (c : TokenSequence) (hc : IsCondition c = true) :
    (ElifLine c).directiveName = "elif".toList := by
  rw [Line.directiveName_directive _ rfl, GetDirectiveName_elif c hc]

/-- C34. Short-circuit of `#elif`. When `#elif c` is reached in the active state
(`Yes` on top of the conditional stack: an earlier branch of the group was taken), or
is met at depth 0 while the rest of a group is skipped with no regard to `#else` and
`#elif`, and the lines after it (whatever they are: text, directives, nested groups,
further `#elif` and `#else` lines of the group) reach the `#endif` of the group at
depth 0, then everything up to and including that `#endif` is skipped, and the
preprocessor (definitions and counter) and the messages are what they were, with the
mark of the group popped in the first case. This holds for every condition `c` and
every amount of fuel, also for no fuel at all, with which `IsIfPredicateTrue` does
not return: the condition is not evaluated. -/
theorem elif_short_circuit (fuel : Nat) (c : TokenSequence) (skipped : List Line) (stop : Line)
    (rest : List Line) (pp : Preprocessor) (ps : Prescanner) (stack : List CanDeadElseAppear)
    (hc : IsCondition c = true)
    (hskip : SkippedDepth false skipped 0 = some 0)
    (hstop : stop.directiveName = "endif".toList) :
    (pp.ifStack = .Yes :: stack →
      Directive fuel (ElifLine c).tokens pp { ps with lines := skipped ++ stop :: rest } =
        .done ({ pp with ifStack := stack }, { ps with lines := rest })) ∧
    (∀ dn : List Char,
      SkipDisabledConditionalCode fuel dn .No pp
          { ps with lines := ElifLine c :: (skipped ++ stop :: rest) } =
        .done (pp, { ps with lines := rest })) := by
  constructor
  · intro hstack
    rw [Directive_elif_active fuel c pp _ stack hc hstack]
    unfold SkipDisabledConditionalCode
    simp only []
    rw [SkipDisabledLoop_segment fuel "elif".toList .No skipped (stop :: rest) 0 0 _ _ hskip,
      SkipDisabledLoop_stop_endif fuel _ _ stop rest _ _ hstop]
  · intro dn
    unfold SkipDisabledConditionalCode
    simp only []
    have h1 : SkippedDepth ((IsElseActive.No == IsElseActive.Yes)) (ElifLine c :: skipped) 0 =
        some 0 := by
      rw [SkippedDepth]
      have hn := Line.directiveName_elif c hc
      simp only [Line.opensGroup, hn]
      exact hskip
    have h2 := SkipDisabledLoop_segment fuel dn .No (ElifLine c :: skipped) (stop :: rest) 0 0
      pp { ps with lines := ElifLine c :: (skipped ++ stop :: rest) } h1
    rw [List.cons_append] at h2
    rw [h2, SkipDisabledLoop_stop_endif fuel _ _ stop rest _ _ hstop]

/-- Witness of C34: with `__COUNTER__` defined and the counter at 7, `#elif
__COUNTER__ / 0` reached in the active state, followed by a text line, a nested group
with its own `#elif`, an `#else` branch with a `#define`, and `#endif`, is passed with
no fuel at all: the group is closed, the counter is still 7 and nothing is said;
`IsIfPredicateTrue` on that condition does not return without fuel. -/
theorem elif_short_circuit_witness :
    Directive 0 (ElifLine ["__COUNTER__".toList, "/".toList, "0".toList]).tokens
        { definitions := [("__COUNTER__".toList, Definition.predefined "__COUNTER__".toList)],
          ifStack := [.Yes], counterVal := 7 }
        { lines := [⟨false, ["x".toList]⟩, IfLine ["1".toList], ElifLine ["2".toList],
            EndifLine, ElseLine,
            ⟨true, ["#".toList, "define".toList, " ".toList, "A".toList]⟩,
            EndifLine, ⟨false, ["y".toList]⟩] } =
      .done ({ definitions :=
                [("__COUNTER__".toList, Definition.predefined "__COUNTER__".toList)],
               ifStack := [], counterVal := 7 },
             { lines := [⟨false, ["y".toList]⟩] }) ∧
    IsIfPredicateTrue 0 ["__COUNTER__".toList, "/".toList, "0".toList] 0 3
        { definitions := [("__COUNTER__".toList, Definition.predefined "__COUNTER__".toList)],
          ifStack := [.Yes], counterVal := 7 } {} = .outOfFuel :=
  ⟨(elif_short_circuit 0 ["__COUNTER__".toList, "/".toList, "0".toList]
      [⟨false, ["x".toList]⟩, IfLine ["1".toList], ElifLine ["2".toList],
        EndifLine, ElseLine, ⟨true, ["#".toList, "define".toList, " ".toList, "A".toList]⟩]
      EndifLine [⟨false, ["y".toList]⟩]
      { definitions := [("__COUNTER__".toList, Definition.predefined "__COUNTER__".toList)],
        ifStack := [.Yes], counterVal := 7 } {} [] (by decide) (by decide) (by decide)).1 rfl,
    rfl⟩

/-- C35. Where `SkipDisabledConditionalCode` ends. Let `skipped` be lines none of
which, at depth 0, is an `#endif` or (when an else may still become active) an
`#else` or an `#elif`, the depth being the number of `#if`, `#ifdef` and `#ifndef`
lines minus the number of `#endif` lines, and let `d` be the depth after them. The
skipping passes over these lines whatever they hold (directives at depth > 0,
`#elif` lines with any condition, `#define` and `#undef` lines) with any fuel, and
leaves the preprocessor and the messages as they were. If the input ends there, the
one error "#...: missing #endif" is said. If the depth is 0 and the next line is an
`#endif`, the skipping ends after it; if an else may become active and the next line
is an `#else`, it ends after it with the mark `No` pushed; if it is an `#elif`, its
condition is evaluated: when true the skipping ends after it with the mark `Yes`
pushed, when false the skipping goes on. With no else to honour, `#else` and `#elif`
lines at depth 0 are passed over. -/
theorem skip_ends_at_depth_zero (fuel : Nat) (dn : List Char) (e : IsElseActive)
    (skipped : List Line) (d : Nat) (pp : Preprocessor) (ps : Prescanner)
    (hskip : SkippedDepth (e == .Yes) skipped 0 = some d) :
    SkipDisabledConditionalCode fuel dn e pp { ps with lines := skipped } =
      .done (pp, { ps with lines := [] }.Say .error
        ("#" ++ String.mk dn ++ ": missing #endif")) ∧
    (∀ (stop : Line) (rest : List Line),
      SkipDisabledConditionalCode fuel dn e pp { ps with lines := skipped ++ stop :: rest } =
        SkipDisabledLoop fuel dn e (stop :: rest) d pp
          { ps with lines := skipped ++ stop :: rest }) ∧
    (∀ (stop : Line) (rest : List Line), d = 0 → stop.directiveName = "endif".toList →
      SkipDisabledConditionalCode fuel dn e pp { ps with lines := skipped ++ stop :: rest } =
        .done (pp, { ps with lines := rest })) ∧
    (∀ (stop : Line) (rest : List Line), d = 0 → e = .Yes →
      stop.directiveName = "else".toList →
      SkipDisabledConditionalCode fuel dn e pp { ps with lines := skipped ++ stop :: rest } =
        .done ({ pp with ifStack := .No :: pp.ifStack }, { ps with lines := rest })) ∧
    (∀ (stop : Line) (rest : List Line), d = 0 → e = .Yes →
      stop.directiveName = "elif".toList →
      SkipDisabledConditionalCode fuel dn e pp { ps with lines := skipped ++ stop :: rest } =
        match IsIfPredicateTrue fuel stop.tokens (GetDirectiveName stop.tokens).2
            (stop.tokens.length - (GetDirectiveName stop.tokens).2) pp
            { ps with lines := rest } with
        | .done (true, pp1, ps1) => .done ({ pp1 with ifStack := .Yes :: pp1.ifStack }, ps1)
        | .done (false, pp1, ps1) => SkipDisabledLoop fuel dn .Yes rest 0 pp1 ps1
        | .crash c => .crash c
        | .outOfFuel => .outOfFuel) ∧
    (∀ (stop : Line) (rest : List Line), (0 < d ∨ e = .No) →
      stop.directiveName = "else".toList ∨ stop.directiveName = "elif".toList ∨
        stop.directiveName = "define".toList ∨ stop.directiveName = "undef".toList →
      SkipDisabledConditionalCode fuel dn e pp { ps with lines := skipped ++ stop :: rest } =
        SkipDisabledLoop fuel dn e rest d pp { ps with lines := skipped ++ stop :: rest }) := by
  have hseg : ∀ (stop : Line) (rest : List Line),
      SkipDisabledConditionalCode fuel dn e pp { ps with lines := skipped ++ stop :: rest } =
        SkipDisabledLoop fuel dn e (stop :: rest) d pp
          { ps with lines := skipped ++ stop :: rest } := by
    intro stop rest
    unfold SkipDisabledConditionalCode
    exact SkipDisabledLoop_segment fuel dn e skipped (stop :: rest) 0 d pp _ hskip
  refine ⟨?_, hseg, ?_, ?_, ?_, ?_⟩
  · unfold SkipDisabledConditionalCode
    exact SkipDisabledLoop_input_ends fuel dn e skipped 0 d pp _ hskip
  · intro stop rest hd hstop
    subst hd
    rw [hseg, SkipDisabledLoop_stop_endif fuel dn e stop rest _ _ hstop]
  · intro stop rest hd he hstop
    subst hd he
    rw [hseg, SkipDisabledLoop_stop_else fuel dn stop rest _ _ hstop]
  · intro stop rest hd he hstop
    subst hd he
    rw [hseg, SkipDisabledLoop_stop_elif fuel dn stop rest _ _ hstop]
  · intro stop rest hde hstop
    rw [hseg, SkipDisabledLoop_cons]
    have h1 : stop.opensGroup = false := by
      rcases hstop with h | h | h | h <;> simp [Line.opensGroup, h]
    have h2 : (stop.directiveName == "endif".toList) = false := by
      rcases hstop with h | h | h | h <;> simp [h]
    have h3 : (e == IsElseActive.Yes && d == 0) = false := by
      rcases hde with h | h
      · have : (d == 0) = false := by simpa using (by omega : d ≠ 0)
        rw [this, Bool.and_false]
      · subst h
        rfl
    simp only [h1, h2, h3, Bool.false_eq_true, if_false]

/-- Witness of C35: after a false `#if`, a text line, `#define A 1`, a nested
`#ifdef B` group with `#elif 1 / 0`, `#else`, `#undef A` and its `#endif` are passed
over; the skipping ends at the `#endif` that follows, or at `#else` (mark `No`), or at
`#elif 1` (mark `Yes`), the definition of `A` being kept; when the input ends there,
the error is said once. -/
theorem skip_ends_at_depth_zero_witness :
    SkipDisabledConditionalCode 2 "if".toList .Yes
        { definitions := [("A".toList, { replacement := ["0".toList] })] }
        { lines := [⟨false, ["x".toList]⟩,
            ⟨true, ["#".toList, "define".toList, " ".toList, "A".toList, " ".toList,
              "1".toList]⟩,
            IfdefLine "B".toList, ElifLine ["1".toList, "/".toList, "0".toList], ElseLine,
            ⟨true, ["#".toList, "undef".toList, " ".toList, "A".toList]⟩, EndifLine,
            EndifLine, ⟨false, ["y".toList]⟩] } =
      .done ({ definitions := [("A".toList, { replacement := ["0".toList] })] },
        { lines := [⟨false, ["y".toList]⟩] }) ∧
    SkipDisabledConditionalCode 2 "if".toList .Yes
        { definitions := [("A".toList, { replacement := ["0".toList] })] }
        { lines := [⟨false, ["x".toList]⟩,
            ⟨true, ["#".toList, "define".toList, " ".toList, "A".toList, " ".toList,
              "1".toList]⟩,
            IfdefLine "B".toList, ElifLine ["1".toList, "/".toList, "0".toList], ElseLine,
            ⟨true, ["#".toList, "undef".toList, " ".toList, "A".toList]⟩, EndifLine,
            ElseLine, ⟨false, ["y".toList]⟩] } =
      .done ({ definitions := [("A".toList, { replacement := ["0".toList] })],
               ifStack := [.No] },
        { lines := [⟨false, ["y".toList]⟩] }) ∧
    SkipDisabledConditionalCode 2 "if".toList .Yes
        { definitions := [("A".toList, { replacement := ["0".toList] })] }
        { lines := [⟨false, ["x".toList]⟩,
            ⟨true, ["#".toList, "define".toList, " ".toList, "A".toList, " ".toList,
              "1".toList]⟩,
            IfdefLine "B".toList, ElifLine ["1".toList, "/".toList, "0".toList], ElseLine,
            ⟨true, ["#".toList, "undef".toList, " ".toList, "A".toList]⟩, EndifLine,
            ElifLine ["1".toList], ⟨false, ["y".toList]⟩] } =
      .done ({ definitions := [("A".toList, { replacement := ["0".toList] })],
               ifStack := [.Yes] },
        { lines := [⟨false, ["y".toList]⟩] }) ∧
    SkipDisabledConditionalCode 2 "if".toList .Yes
        { definitions := [("A".toList, { replacement := ["0".toList] })] }
        { lines := [⟨false, ["x".toList]⟩,
            ⟨true, ["#".toList, "define".toList, " ".toList, "A".toList, " ".toList,
              "1".toList]⟩,
            IfdefLine "B".toList, ElifLine ["1".toList, "/".toList, "0".toList], ElseLine,
            ⟨true, ["#".toList, "undef".toList, " ".toList, "A".toList]⟩, EndifLine] } =
      .done ({ definitions := [("A".toList, { replacement := ["0".toList] })] },
        { messages := [⟨.error, "#if: missing #endif"⟩] }) := by
  have h := skip_ends_at_depth_zero 2 "if".toList .Yes
    [⟨false, ["x".toList]⟩,
      ⟨true, ["#".toList, "define".toList, " ".toList, "A".toList, " ".toList, "1".toList]⟩,
      IfdefLine "B".toList, ElifLine ["1".toList, "/".toList, "0".toList], ElseLine,
      ⟨true, ["#".toList, "undef".toList, " ".toList, "A".toList]⟩, EndifLine] 0
    { definitions := [("A".toList, { replacement := ["0".toList] })] } {} (by decide)
  exact ⟨h.2.2.1 EndifLine [⟨false, ["y".toList]⟩] rfl (by decide),
    h.2.2.2.1 ElseLine [⟨false, ["y".toList]⟩] rfl rfl (by decide),
    (h.2.2.2.2.1 (ElifLine ["1".toList]) [⟨false, ["y".toList]⟩] rfl rfl (by decide)).trans
      (by decide),
    h.1.trans (by decide)⟩

/-! ## Macro replacement restores the disabled flags -/

theorem SameDefinitions.refl (pp : Preprocessor) : SameDefinitions pp pp := fun _ => rfl

theorem SameDefinitions.trans {a b c : Preprocessor} (h1 : SameDefinitions a b)
    (h2 : SameDefinitions b c) : SameDefinitions a c := by
  intro hk
  have e1 := h1 hk
  have hk2 : b.KeysDistinct := by
    unfold Preprocessor.KeysDistinct at hk ⊢
    rw [e1]
    exact hk
  rw [h2 hk2, e1]

theorem SameDefinitions.counter (pp : Preprocessor) (n : Nat) :
    SameDefinitions pp { pp with counterVal := n } := fun _ => rfl

theorem setDisabled_keys (l : List (Token × Definition)) (t : Token) (b : Bool) :
    (l.map (fun p => if p.1 == t then (p.1, p.2.set_isDisabled b) else p)).map Prod.fst =
      l.map Prod.fst := by
  induction l with
  | nil => rfl
  | cons p rest ih =>
    simp only [List.map_cons, ih]
    congr 1
    split <;> rfl

theorem setDisabled_absent (l : List (Token × Definition)) (t : Token) (b : Bool)
    (h : t ∉ l.map Prod.fst) :
    l.map (fun p => if p.1 == t then (p.1, p.2.set_isDisabled b) else p) = l := by
  induction l with
  | nil => rfl
  | cons p rest ih =>
    simp only [List.map_cons, List.mem_cons, not_or] at h
    have hne : (p.1 == t) = false := by
      simp only [beq_eq_false_iff_ne, ne_eq]
      exact fun hx => h.1 hx.symm
    simp only [List.map_cons, hne, Bool.false_eq_true, if_false, ih h.2]

/-- Disabling and enabling the entry of a definition that was enabled gives back the
map. -/
theorem setDisabled_restore_list (l : List (Token × Definition)) (t : Token) (d : Definition)
    (hk : (l.map Prod.fst).Nodup) (hf : l.lookup t = some d) (hd : d.isDisabled = false) :
    (l.map (fun p => if p.1 == t then (p.1, p.2.set_isDisabled true) else p)).map
      (fun p => if p.1 == t then (p.1, p.2.set_isDisabled false) else p) = l := by
  induction l with
  | nil => rfl
  | cons p rest ih =>
    obtain ⟨k, v⟩ := p
    simp only [List.map_cons, List.nodup_cons] at hk
    by_cases hkt : k = t
    · subst hkt
      have hv : v = d := by
        simpa [List.lookup] using hf
      subst hv
      have e1 := setDisabled_absent rest k true hk.1
      have e2 := setDisabled_absent rest k false hk.1
      simp only [List.map_cons, beq_self_eq_true, if_true, e1, e2]
      congr 1
      cases v
      simp only [Definition.set_isDisabled] at hd ⊢
      simp only [hd]
    · have hne : (k == t) = false := by simpa using hkt
      have hne2 : (t == k) = false := by simpa using fun h : t = k => hkt h.symm
      have hf2 : rest.lookup t = some d := by
        simpa [List.lookup, hne2] using hf
      simp only [List.map_cons, hne, Bool.false_eq_true, if_false, ih hk.2 hf2]

/-- The calls `set_isDisabled(true)` and `set_isDisabled(false)` around a replacement
that keeps the definitions give back the definitions, for a definition found
enabled. -/
theorem SameDefinitions.restore (pp pp0 pp1 : Preprocessor) (t : Token) (d : Definition)
    (hf : pp.find t = some d) (hd : d.isDisabled = false)
    (h0 : SameDefinitions pp pp0)
    (h1 : SameDefinitions (pp0.setDisabled t true) pp1) :
    SameDefinitions pp (pp1.setDisabled t false) := by
  intro hk
  have e0 := h0 hk
  have hk1 : (pp0.setDisabled t true).KeysDistinct := by
    unfold Preprocessor.KeysDistinct Preprocessor.setDisabled at *
    simp only []
    rw [setDisabled_keys, e0]
    exact hk
  have e1 := h1 hk1
  unfold Preprocessor.setDisabled at e1 ⊢
  simp only [] at e1 ⊢
  rw [e1, e0]
  exact setDisabled_restore_list pp.definitions t d hk hf hd

theorem ReplaceMacrosWith_definitions (mr : ReplaceFn)
    (hmr : ∀ pp input pflm b r, mr pp input pflm b = .done r → SameDefinitions pp r.pp)
    (pp : Preprocessor) (tokens : TokenSequence) (pflm : PartialFLM) (b : Bool)
    (out : TokenSequence) (q : PartialFLM) (pp1 : Preprocessor)
    (h : ReplaceMacrosWith mr pp tokens pflm b = .done (out, q, pp1)) :
    SameDefinitions pp pp1 := by
  unfold ReplaceMacrosWith at h
  cases hr : mr pp tokens pflm b with
  | outOfFuel => rw [hr] at h; cases h
  | crash c => rw [hr] at h; cases h
  | done r =>
    rw [hr] at h
    simp only [Run.done.injEq, Prod.mk.injEq] at h
    rw [← h.2.2]
    exact hmr _ _ _ _ _ hr

theorem ApplyLoop_definitions (d : Definition) (mr : ReplaceFn)
    (hmr : ∀ pp input pflm b r, mr pp input pflm b = .done r → SameDefinitions pp r.pp)
    (args : List TokenSequence) (b : Bool) :
    ∀ (n : Nat) (rest : List Token), rest.length ≤ n → ∀ (j : Nat) (st st1 : ApplyState),
      d.ApplyLoop mr args b rest j st = .done st1 → SameDefinitions st.pp st1.pp := by
  intro n
  induction n with
  | zero =>
    intro rest hn j st st1 h
    have : rest = [] := List.length_eq_zero.mp (by omega)
    subst this
    simp only [Definition.ApplyLoop, Run.done.injEq] at h
    rw [h]
    exact SameDefinitions.refl _
  | succ n ih =>
    intro rest hn j st st1 h
    cases rest with
    | nil =>
      simp only [Definition.ApplyLoop, Run.done.injEq] at h
      rw [h]
      exact SameDefinitions.refl _
    | cons token more =>
      have hm : more.length ≤ n := by simp at hn; omega
      rw [Definition.ApplyLoop.eq_def] at h
      simp only [] at h
      repeat' split at h
      all_goals first
        | (cases h; done)
        | (cases h; exact SameDefinitions.refl _)
        | exact ih more hm _ _ _ h
        | (have h0 := ih more hm _ _ _ h
           exact h0)
        | (have h1 := ih more hm _ _ _ h
           exact SameDefinitions.trans (hmr _ _ _ _ _ (by assumption)) h1)
        | (rename_i t2 rest2
           have h2 := ih rest2 (by simp only [List.length_cons] at hm; omega) _ _ _ h
           exact h2)

theorem Apply_definitions (d : Definition) (mr : ReplaceFn)
    (hmr : ∀ pp input pflm b r, mr pp input pflm b = .done r → SameDefinitions pp r.pp)
    (args : List TokenSequence) (pp pp1 : Preprocessor) (b : Bool) (out : TokenSequence)
    (h : d.Apply mr args pp b = .done (out, pp1)) : SameDefinitions pp pp1 := by
  unfold Definition.Apply at h
  cases hr : d.ApplyLoop mr args b d.replacement 0 ⟨[], false, 0, pp⟩ with
  | outOfFuel => rw [hr] at h; cases h
  | crash c => rw [hr] at h; cases h
  | done st =>
    rw [hr] at h
    simp only [Run.done.injEq, Prod.mk.injEq] at h
    rw [← h.2]
    exact ApplyLoop_definitions d mr hmr args b _ _ (le_refl _) _ _ _ hr

theorem CompleteFunctionLikeMacro_definitions (mr : ReplaceFn)
    (hmr : ∀ pp input pflm b r, mr pp input pflm b = .done r → SameDefinitions pp r.pp)
    (input : TokenSequence) (b : Bool) (result : TokenSequence) (pflm : PartialFLM)
    (pp : Preprocessor) (after : Nat) (replacement : TokenSequence) (offset : Nat)
    (v : Bool) (out : TokenSequence) (q : PartialFLM) (pp1 : Preprocessor)
    (h : CompleteFunctionLikeMacro mr input b result pflm pp after replacement offset =
      .done (v, out, q, pp1)) : SameDefinitions pp pp1 := by
  unfold CompleteFunctionLikeMacro at h
  by_cases h1 : after < input.length
  · simp only [h1, if_true] at h
    by_cases h2 : replacement.length < offset
    · simp only [h2, if_true] at h
      cases h
    · simp only [h2, if_false] at h
      cases hr : ReplaceMacrosWith mr pp
          (SubSequence replacement offset (replacement.length - offset) ++
            SubSequence input after (input.length - after)) pflm b with
      | outOfFuel => rw [hr] at h; cases h
      | crash c => rw [hr] at h; cases h
      | done r =>
        obtain ⟨further, pflm1, pp2⟩ := r
        rw [hr] at h
        simp only [Run.done.injEq, Prod.mk.injEq] at h
        rw [← h.2.2.2]
        exact ReplaceMacrosWith_definitions mr hmr _ _ _ _ _ _ _ hr
  · simp only [h1, if_false, Run.done.injEq, Prod.mk.injEq] at h
    rw [← h.2.2.2]
    exact SameDefinitions.refl _

theorem ReplaceObjectLike_definitions (mr : ReplaceFn)
    (hmr : ∀ pp input pflm b r, mr pp input pflm b = .done r → SameDefinitions pp r.pp)
    (input : TokenSequence) (b : Bool) (token : Token) (d : Definition) (j : Nat)
    (result : TokenSequence) (pflm : PartialFLM) (pp : Preprocessor) (s : Step)
    (hf : pp.find token = some d) (hd0 : ¬ d.isDisabled = true)
    (h : ReplaceObjectLike mr input b token d j result pflm pp = .done s) :
    s.KeepsDefinitions pp := by
  have hd : d.isDisabled = false := Bool.eq_false_iff.mpr hd0
  unfold ReplaceObjectLike at h
  cases hr : ReplaceMacrosWith mr (pp.setDisabled token true) d.replacement (some none) b with
  | outOfFuel => rw [hr] at h; cases h
  | crash c => rw [hr] at h; cases h
  | done r =>
    obtain ⟨replaced0, partialFLM, pp1⟩ := r
    have h1 : SameDefinitions pp (pp1.setDisabled token false) :=
      SameDefinitions.restore pp pp pp1 token d hf hd (SameDefinitions.refl _)
        (ReplaceMacrosWith_definitions mr hmr _ _ _ _ _ _ _ hr)
    rw [hr] at h
    simp only [] at h
    repeat' split at h
    all_goals first
      | (cases h; done)
      | (simp only [Run.done.injEq] at h
         subst h
         first
           | exact h1
           | (have h2 := CompleteFunctionLikeMacro_definitions mr hmr _ _ _ _ _ _ _ _ _ _ _ _
                (by assumption)
              exact SameDefinitions.trans h1 h2))

theorem ReplaceFunctionLike_definitions (mr : ReplaceFn)
    (hmr : ∀ pp input pflm b r, mr pp input pflm b = .done r → SameDefinitions pp r.pp)
    (input : TokenSequence) (b : Bool) (token : Token) (d : Definition) (j : Nat)
    (result : TokenSequence) (pflm : PartialFLM) (pp : Preprocessor) (s : Step)
    (hf : pp.find token = some d) (hd0 : ¬ d.isDisabled = true)
    (h : ReplaceFunctionLike mr input b token d j result pflm pp = .done s) :
    s.KeepsDefinitions pp := by
  have hd : d.isDisabled = false := Bool.eq_false_iff.mpr hd0
  unfold ReplaceFunctionLike at h
  simp only [] at h
  repeat' split at h
  all_goals first
    | (cases h; done)
    | (simp only [Run.done.injEq] at h
       subst h
       first
         | exact SameDefinitions.refl _
         | (have h0 := Apply_definitions d mr hmr _ _ _ _ _ (by assumption)
            have h1 := SameDefinitions.restore pp _ _ token d hf hd h0
              (ReplaceMacrosWith_definitions mr hmr _ _ _ _ _ _ _ (by assumption))
            first
              | exact h1
              | (have h2 := CompleteFunctionLikeMacro_definitions mr hmr _ _ _ _ _ _ _ _ _ _ _ _
                   (by assumption)
                 exact SameDefinitions.trans h1 h2)))

theorem PredefinedReplacement_definitions (ps : Prescanner) (pp : Preprocessor)
    (name : List Char) : SameDefinitions pp (PredefinedReplacement ps pp name).2 := by
  unfold PredefinedReplacement
  repeat' split
  all_goals exact SameDefinitions.refl _

theorem MacroReplacementStep_definitions (mr : ReplaceFn)
    (hmr : ∀ pp input pflm b r, mr pp input pflm b = .done r → SameDefinitions pp r.pp)
    (ps : Prescanner) (input : TokenSequence) (b : Bool) (j : Nat)
    (result : TokenSequence) (pflm : PartialFLM) (pp : Preprocessor) (s : Step)
    (h : MacroReplacementStep mr ps input b j result pflm pp = .done s) :
    s.KeepsDefinitions pp := by
  unfold MacroReplacementStep at h
  simp only [] at h
  repeat' split at h
  all_goals first
    | (simp only [Run.done.injEq] at h; subst h; exact SameDefinitions.refl _)
    | exact ReplaceObjectLike_definitions mr hmr _ _ _ _ _ _ _ _ _ (by assumption)
        (by assumption) h
    | exact ReplaceFunctionLike_definitions mr hmr _ _ _ _ _ _ _ _ _ (by assumption)
        (by assumption) h
    | (simp only [Run.done.injEq] at h
       subst h
       exact PredefinedReplacement_definitions _ _ _)



theorem MacroReplacementLoop_definitions (mr : ReplaceFn)
    (hmr : ∀ pp input pflm b r, mr pp input pflm b = .done r → SameDefinitions pp r.pp)
    (ps : Prescanner) (input : TokenSequence) (b : Bool) :
    ∀ (n j : Nat) (result : TokenSequence) (pflm : PartialFLM) (pp : Preprocessor) (r : Replaced),
      MacroReplacementLoop mr ps input b n j result pflm pp = .done r →
      SameDefinitions pp r.pp := by
  intro n
  induction n with
  | zero =>
    intro j result pflm pp r h
    simp only [MacroReplacementLoop] at h
    split at h
    · cases h
    · cases h; exact SameDefinitions.refl _
  | succ n ih =>
    intro j result pflm pp r h
    rw [MacroReplacementLoop] at h
    split at h
    · cases hs : MacroReplacementStep mr ps input b j result pflm pp with
      | outOfFuel => rw [hs] at h; cases h
      | crash c => rw [hs] at h; cases h
      | done s =>
        have hk := MacroReplacementStep_definitions mr hmr ps input b j result pflm pp s hs
        rw [hs] at h
        cases s with
        | next j1 result1 pflm1 pp1 =>
          simp only [] at h
          exact SameDefinitions.trans hk (ih _ _ _ _ _ h)
        | ret r1 =>
          simp only [Run.done.injEq] at h
          subst h
          exact hk
    · cases h; exact SameDefinitions.refl _

theorem MacroReplacement_definitions (ps : Prescanner) (fuel : Nat) :
    ∀ (pp : Preprocessor) (input : TokenSequence) (pflm : PartialFLM) (b : Bool) (r : Replaced),
      MacroReplacement fuel ps pp input pflm b = .done r → SameDefinitions pp r.pp := by
  induction fuel with
  | zero => intro pp input pflm b r h; cases h
  | succ fuel ih =>
    intro pp input pflm b r h
    rw [MacroReplacement] at h
    split at h
    · cases h; exact SameDefinitions.refl _
    · split at h
      · cases h; exact SameDefinitions.refl _
      · exact MacroReplacementLoop_definitions _ ih ps input b _ _ _ _ _ _ h

/-- C36. The `disabled` flag is not persisted. For a store that is a map (distinct
keys), every call of `MacroReplacement`, of `ReplaceMacros` and of
`Definition::Apply` that returns leaves the definitions of the store exactly as they
were at entry, the disabled flag of each included, whatever the input, the
out-parameter, the mode and the path by which it returns; so the flag of every name
is what it was, and a store without a disabled definition is left without one. -/
theorem disabled_flag_restored (fuel : Nat) (ps : Prescanner) (pp : Preprocessor) (b : Bool)
    (hkeys : pp.KeysDistinct) :
    (∀ (input : TokenSequence) (pflm : PartialFLM) (r : Replaced),
      MacroReplacement fuel ps pp input pflm b = .done r →
      r.pp.definitions = pp.definitions ∧
      (∀ name : Token, (r.pp.find name).map Definition.isDisabled =
        (pp.find name).map Definition.isDisabled) ∧
      ((∀ p ∈ pp.definitions, p.2.isDisabled = false) →
        ∀ p ∈ r.pp.definitions, p.2.isDisabled = false)) ∧
    (∀ (tokens : TokenSequence) (pflm : PartialFLM) (out : TokenSequence) (q : PartialFLM)
        (pp1 : Preprocessor),
      ReplaceMacros fuel ps pp tokens pflm b = .done (out, q, pp1) →
      pp1.definitions = pp.definitions) ∧
    (∀ (d : Definition) (args : List TokenSequence) (out : TokenSequence)
        (pp1 : Preprocessor),
      d.Apply (MacroReplacement fuel ps) args pp b = .done (out, pp1) →
      pp1.definitions = pp.definitions) := by
  refine ⟨?_, ?_, ?_⟩
  · intro input pflm r h
    have e := MacroReplacement_definitions ps fuel pp input pflm b r h hkeys
    refine ⟨e, ?_, ?_⟩
    · intro name
      unfold Preprocessor.find
      rw [e]
    · intro hall
      rw [e]
      exact hall
  · intro tokens pflm out q pp1 h
    exact ReplaceMacrosWith_definitions _ (MacroReplacement_definitions ps fuel) _ _ _ _ _ _ _ h
      hkeys
  · intro d args out pp1 h
    exact Apply_definitions d _ (MacroReplacement_definitions ps fuel) _ _ _ _ _ h hkeys

/-- Witness of C36: in the store of `#define N 5`, `#define F(x) x` and
`#define G F + N`, the replacement of `G;` expands `G` and `N` (each disabled while
its body is rescanned) and returns `F + 5;`; the definitions are those of the store,
none of them disabled. -/
theorem disabled_flag_restored_witness :
    RescanStore.KeysDistinct ∧
    MacroReplacement 4 {} RescanStore ["G".toList, ";".toList] none false =
      .done ⟨some ["F".toList, " ".toList, "+".toList, " ".toList, "5".toList, ";".toList],
        none, RescanStore⟩ ∧
    (∀ p ∈ RescanStore.definitions, p.2.isDisabled = false) ∧
    (∀ p ∈ (⟨some ["F".toList, " ".toList, "+".toList, " ".toList, "5".toList, ";".toList],
        none, RescanStore⟩ : Replaced).pp.definitions, p.2.isDisabled = false) :=
  ⟨by unfold Preprocessor.KeysDistinct; decide, by decide, by decide,
    ((disabled_flag_restored 4 {} RescanStore false
      (by unfold Preprocessor.KeysDistinct; decide)).1 ["G".toList, ";".toList] none _
      (by decide)).2.2 (by decide)⟩

/-! ## Printing and reading back -/

/-- C40, the behaviour of the code at the failing input: the directive
`#define F(...) x` creates a variadic definition with no formal name; `PrintMacros`
writes it as `#define F(, ...) x`, the text `, ...` being added after the formals also
when there is none; and the directive with that text (the tokens `#`, `define`, ` `,
`F`, `(`, `,`, ` `, `...`, `)`, ` `, `x`) is rejected with "#define: missing or invalid
argument name" and leaves no definition of `F`. With a named formal
(`#define G(a, ...) a __VA_ARGS__`) the printed line is the line of the directive. -/
theorem print_variadic_without_formals (fuel : Nat) :
    Directive fuel ["#".toList, "define".toList, " ".toList, "F".toList, "(".toList,
        "...".toList, ")".toList, " ".toList, "x".toList] {} {} =
      .done ({ definitions := [("F".toList,
        { isFunctionLike := true, isVariadic := true, replacement := ["x".toList] })] }, {}) ∧
    Preprocessor.PrintMacros { definitions := [("F".toList,
        { isFunctionLike := true, isVariadic := true, replacement := ["x".toList] })] } =
      .done "#define F(, ...) x\n".toList ∧
    ToString ["#".toList, "define".toList, " ".toList, "F".toList, "(".toList, ",".toList,
        " ".toList, "...".toList, ")".toList, " ".toList, "x".toList] =
      "#define F(, ...) x".toList ∧
    Directive fuel ["#".toList, "define".toList, " ".toList, "F".toList, "(".toList,
        ",".toList, " ".toList, "...".toList, ")".toList, " ".toList, "x".toList] {} {} =
      .done ({}, { messages := [⟨.error, "#define: missing or invalid argument name"⟩] }) ∧
    Directive fuel ["#".toList, "define".toList, " ".toList, "G".toList, "(".toList,
        "a".toList, ",".toList, " ".toList, "...".toList, ")".toList, " ".toList, "a".toList,
        " ".toList, "__VA_ARGS__".toList] {} {} =
      .done ({ definitions := [("G".toList,
        { isFunctionLike := true, isVariadic := true, argNames := ["a".toList],
          replacement := [argPlaceholder 0, " ".toList, "__VA_ARGS__".toList] })] }, {}) ∧
    Preprocessor.PrintMacros { definitions := [("G".toList,
        { isFunctionLike := true, isVariadic := true, argNames := ["a".toList],
          replacement := [argPlaceholder 0, " ".toList, "__VA_ARGS__".toList] })] } =
      .done "#define G(a, ...) a __VA_ARGS__\n".toList := by
  refine ⟨rfl, by decide, by decide, rfl, rfl, by decide⟩

end Fortran.parser
